import Mathlib

/-!
# rtklib_rtkcmn: bit-level codec, time system and Kalman filter

A shallow embedding of the bit-field primitives, the navigation-word parity
decoder, the time conversions and the Kalman update of
`src/algorithms/libs/rtklib/rtklib_rtkcmn.cc`.

Conventions of the embedding

* `unsigned char *buff` is a `List Nat` of bytes; a read is `List.getD _ _ 0`, a
  write is `List.set`.  The C code is only defined when every byte it touches lies
  inside the array, so the theorems about a field carry the bound
  `pos + len ≤ 8 * buff.length`.
* `unsigned int` is a `Nat` reduced with `u32`; `int` is an `Int`, wrapped with
  `int32` where an `int` operation can leave the 32-bit range; `time_t` is the
  64-bit signed type, an `Int`.
* `double` is `ℚ`: the arithmetic is exact, rounding is not modelled.
* a `double *` matrix is a column-major `List ℚ`, entry `(i, j)` of an `n`-row matrix at
  index `i + j * n`; the external BLAS and LAPACK routines are modelled in exact arithmetic.
-/

namespace Rtklib

/-! ## Machine integers -/

/-- Reduction of a natural number to an `unsigned int` (32 bits). -/
def u32 (n : Nat) : Nat := n % 2 ^ 32

/-- Two's-complement wrap of an integer to an `int` (32 bits). -/
def int32 (x : Int) : Int := (x + 2 ^ 31) % 2 ^ 32 - 2 ^ 31

/-- The conversion `static_cast<int>(u)` of an `unsigned int`. -/
def toInt32 (n : Nat) : Int := int32 (n : Int)

/-- The conversion `static_cast<unsigned int>(i)` of an `int`: its bit pattern. -/
def toU32 (i : Int) : Nat := (i % 2 ^ 32).toNat

/-! ## Bit fields (`getbitu`, `getbits`, `setbitu`, `setbits`) -/

/-- The expression `(buff[i / 8] >> (7 - i % 8)) & 1u` of `getbitu`. -/
def bitAt (buff : List Nat) (i : Nat) : Nat :=
  (buff.getD (i / 8) 0 >>> (7 - i % 8)) &&& 1

/-- The loop of `getbitu`: `n` iterations left, starting at bit index `i`,
`bits = (bits << 1) + bit` in `unsigned int` arithmetic. -/
def getbituLoop (buff : List Nat) : Nat → Nat → Nat → Nat
  | _, 0, bits => bits
  | i, n + 1, bits => getbituLoop buff (i + 1) n (u32 (u32 (bits <<< 1) + bitAt buff i))

/-- Embedding of `getbitu(buff, pos, len)`: the loop `for (i = pos; i < pos + len; i++)`
runs `len` times, and not at all when `len <= 0`. -/
def getbitu (buff : List Nat) (pos : Nat) (len : Int) : Nat :=
  getbituLoop buff pos len.toNat 0

/-- Embedding of `getbits(buff, pos, len)`. -/
def getbits (buff : List Nat) (pos : Nat) (len : Int) : Int :=
  let bits := getbitu buff pos len
  if len ≤ 0 ∨ 32 ≤ len ∨ bits &&& u32 (1 <<< (len - 1).toNat) = 0 then
    toInt32 bits
  else
    toInt32 (bits ||| u32 ((2 ^ 32 - 1) <<< len.toNat))

/-- One store of `setbitu`: `buff[i / 8] |= 1u << (7 - i % 8)` when the data bit is
set, `buff[i / 8] &= ~(1u << (7 - i % 8))` otherwise; the result is narrowed to
`unsigned char`. -/
def setBitStep (buff : List Nat) (i : Nat) (v : Bool) : List Nat :=
  let b := buff.getD (i / 8) 0
  if v then buff.set (i / 8) ((b ||| (1 <<< (7 - i % 8))) % 256)
  else buff.set (i / 8) ((b &&& ((2 ^ 32 - 1) ^^^ (1 <<< (7 - i % 8)))) % 256)

/-- The loop of `setbitu`: `n` iterations left, bit index `i`, current `mask`. -/
def setbituLoop (data : Nat) : List Nat → Nat → Nat → Nat → List Nat
  | buff, _, 0, _ => buff
  | buff, i, n + 1, mask =>
    setbituLoop data (setBitStep buff i (decide (data &&& mask ≠ 0))) (i + 1) n (mask >>> 1)

/-- Embedding of `setbitu(buff, pos, len, data)`; returns the buffer after the call. -/
def setbitu (buff : List Nat) (pos : Nat) (len : Int) (data : Nat) : List Nat :=
  if len ≤ 0 ∨ 32 < len then buff
  else setbituLoop data buff pos len.toNat (u32 (1 <<< (len - 1).toNat))

/-- The sign-bit adjustment at the head of `setbits`: `data |= 1 << (len - 1)` when
`data < 0`, `data &= ~(1 << (len - 1))` otherwise, on the 32-bit pattern of `data`. -/
def signWord (len : Int) (data : Int) : Nat :=
  let m := u32 (1 <<< (len - 1).toNat)
  if data < 0 then toU32 data ||| m else toU32 data &&& ((2 ^ 32 - 1) ^^^ m)

/-- Embedding of `setbits(buff, pos, len, data)`: the adjusted word is handed to
`setbitu` as `static_cast<unsigned int>(data)`. -/
def setbits (buff : List Nat) (pos : Nat) (len : Int) (data : Int) : List Nat :=
  setbitu buff pos len (signWord len data)

/-- Big-endian value of the `n` bits that start at bit index `i`: the first bit is
the most significant one. -/
def fieldValue (buff : List Nat) : Nat → Nat → Nat
  | _, 0 => 0
  | i, n + 1 => bitAt buff i * 2 ^ n + fieldValue buff (i + 1) n

/-- Bit `i` of a buffer as the specification words it: bit `7 - i mod 8` of byte
`floor (i / 8)`. -/
def specBit (buff : List Nat) (i : Nat) : Nat :=
  buff.getD (i / 8) 0 / 2 ^ (7 - i % 8) % 2

/-! ## Navigation-word parity (`decode_word`) -/

/-- The table `hamming[]` of `decode_word`. -/
def hamming : List Nat :=
  [0xBB1F3480, 0x5D8F9A40, 0xAEC7CD00, 0x5763E680, 0x6BB1F340, 0x8B7A89C0]

/-- The inner loop `for (w = ...; w; w >>= 1) parity ^= w & 1` of `decode_word`.  The
loop halves `w` until it is zero; `fuel` bounds the number of iterations, and 32 is
enough for an `unsigned int` (`parityLoop_eq`). -/
def parityLoop : Nat → Nat → Nat → Nat
  | 0, _, parity => parity
  | fuel + 1, w, parity =>
    if w ≠ 0 then parityLoop fuel (w >>> 1) (parity ^^^ (w &&& 1)) else parity

/-- The inversion at the head of `decode_word`:
`if (word & 0x40000000) word ^= 0x3FFFFFC0`. -/
def invertWord (word : Nat) : Nat :=
  if word &&& 0x40000000 ≠ 0 then word ^^^ 0x3FFFFFC0 else word

/-- The outer loop of `decode_word` over the six masks: `parity <<= 1`, then the inner
loop on `(word & hamming[i]) >> 6`. -/
def wordParity (word : Nat) : Nat :=
  hamming.foldl (fun parity h => parityLoop 32 ((word &&& h) >>> 6) (u32 (parity <<< 1))) 0

/-- Embedding of `decode_word(word, data)`: the status and the array `data` after the
call.  `data[i] = static_cast<unsigned char>(word >> (22 - i * 8))` for `i = 0, 1, 2`. -/
def decode_word (word : Nat) (data : List Nat) : Int × List Nat :=
  let word := invertWord word
  if wordParity word ≠ word &&& 0x3F then (0, data)
  else
    (1, ((data.set 0 ((word >>> 22) % 256)).set 1 ((word >>> 14) % 256)).set 2
      ((word >>> 6) % 256))

/-- XOR of the bits of `x` at the positions `6..31`, as the specification words the
parity of a masked word. -/
def xorBits6to31 (x : Nat) : Nat :=
  (List.range 26).foldr (fun k acc => (x / 2 ^ (6 + k) % 2) ^^^ acc) 0

/-- XOR of the `n` low bits of `w`. -/
def xorLow : Nat → Nat → Nat
  | 0, _ => 0
  | n + 1, w => (w % 2) ^^^ xorLow n (w / 2)

/-! ## Time (`gtime_t`, calendar, week/seconds, leap seconds) -/

/-- The struct `gtime_t`: `time_t time` (64-bit integer seconds since 1970-01-01) and
`double sec` (fraction of a second). -/
structure gtime_t where
  time : Int
  sec : ℚ
  deriving DecidableEq

/-- The conversion `static_cast<int>(x)` of a `double`: truncation toward zero (defined
in C when the truncated value fits an `int`). -/
def castInt (x : ℚ) : Int := if 0 ≤ x then ⌊x⌋ else ⌈x⌉

/-- Constant `GPST0`: gps time reference. -/
def GPST0 : List ℚ := [1980, 1, 6, 0, 0, 0]

/-- Constant `GST0`: galileo system time reference. -/
def GST0 : List ℚ := [1999, 8, 22, 0, 0, 0]

/-- Constant `BDT0`: beidou time reference. -/
def BDT0 : List ℚ := [2006, 1, 1, 0, 0, 0]

/-- The compiled-in table `leaps` (y,m,d,h,m,s,utc-gpst); the rows after the last entry are
zero-initialised, the first of them is the sentinel that ends every walk. -/
def leaps : List (List ℚ) :=
  [[2017, 1, 1, 0, 0, 0, -18],
   [2015, 7, 1, 0, 0, 0, -17],
   [2012, 7, 1, 0, 0, 0, -16],
   [2009, 1, 1, 0, 0, 0, -15],
   [2006, 1, 1, 0, 0, 0, -14],
   [1999, 1, 1, 0, 0, 0, -13],
   [1997, 7, 1, 0, 0, 0, -12],
   [1996, 1, 1, 0, 0, 0, -11],
   [1994, 7, 1, 0, 0, 0, -10],
   [1993, 7, 1, 0, 0, 0, -9],
   [1992, 7, 1, 0, 0, 0, -8],
   [1991, 1, 1, 0, 0, 0, -7],
   [1990, 1, 1, 0, 0, 0, -6],
   [1988, 1, 1, 0, 0, 0, -5],
   [1985, 7, 1, 0, 0, 0, -4],
   [1983, 7, 1, 0, 0, 0, -3],
   [1982, 7, 1, 0, 0, 0, -2],
   [1981, 7, 1, 0, 0, 0, -1],
   [0, 0, 0, 0, 0, 0, 0]]

/-- The table `doy[]` of `epoch2time`. -/
def doy : List Int := [1, 32, 60, 91, 121, 152, 182, 213, 244, 274, 305, 335]

/-- Embedding of `epoch2time(ep)`, `ep = {year, month, day, hour, min, sec}`. -/
def epoch2time (ep : List ℚ) : gtime_t :=
  let year := castInt (ep.getD 0 0)
  let mon := castInt (ep.getD 1 0)
  let day := castInt (ep.getD 2 0)
  if year < 1970 ∨ 2099 < year ∨ mon < 1 ∨ 12 < mon then ⟨0, 0⟩
  else
    let days := int32 ((year - 1970) * 365 + Int.tdiv (year - 1969) 4 +
      doy.getD (mon - 1).toNat 0 + day - 2 +
      (if Int.tmod year 4 = 0 ∧ mon ≥ 3 then 1 else 0))
    let sec := castInt ((⌊ep.getD 5 0⌋ : Int) : ℚ)
    ⟨days * 86400 + int32 (castInt (ep.getD 3 0) * 3600) + int32 (castInt (ep.getD 4 0) * 60)
        + sec,
      ep.getD 5 0 - sec⟩

/-- The table `mday[]` of `time2epoch`: the days of the 48 months of a four-year cycle
that starts in 1970. -/
def mday : List Int :=
  [31, 28, 31, 30, 31, 30, 31, 31, 30, 31, 30, 31, 31, 28, 31, 30, 31, 30, 31, 31, 30, 31, 30, 31,
   31, 29, 31, 30, 31, 30, 31, 31, 30, 31, 30, 31, 31, 28, 31, 30, 31, 30, 31, 31, 30, 31, 30, 31]

/-- The loop `for (...; mon < 48; mon++)` of `time2epoch` over the entries of `mday` that
are left: it returns the final `(day, mon)`. -/
def time2epochLoop : List Int → Int → Int → Int × Int
  | [], day, mon => (day, mon)
  | m :: ms, day, mon => if day ≥ m then time2epochLoop ms (day - m) (mon + 1) else (day, mon)

/-- Embedding of `time2epoch(t, ep)`: the six values written to `ep`. -/
def time2epoch (t : gtime_t) : List ℚ :=
  let days := int32 (Int.tdiv t.time 86400)
  let sec := int32 (t.time - days * 86400)
  let r := time2epochLoop mday (Int.tmod days 1461) 0
  let day := r.1
  let mon := r.2
  [((1970 + Int.tdiv days 1461 * 4 + Int.tdiv mon 12 : Int) : ℚ),
   ((Int.tmod mon 12 + 1 : Int) : ℚ),
   ((day + 1 : Int) : ℚ),
   ((Int.tdiv sec 3600 : Int) : ℚ),
   ((Int.tdiv (Int.tmod sec 3600) 60 : Int) : ℚ),
   ((Int.tmod sec 60 : Int) : ℚ) + t.sec]

/-- The clamp shared by `gpst2time`, `gst2time` and `bdt2time`:
`if (sec < -1e9 || 1e9 < sec) sec = 0.0`, then the week and the seconds are added to the
reference instant `t`. -/
def weekSecToTime (t : gtime_t) (week : Int) (sec : ℚ) : gtime_t :=
  let sec := if sec < -1000000000 ∨ 1000000000 < sec then 0 else sec
  ⟨t.time + 86400 * 7 * week + castInt sec, sec - castInt sec⟩

/-- Embedding of `gpst2time(week, sec)`. -/
def gpst2time (week : Int) (sec : ℚ) : gtime_t := weekSecToTime (epoch2time GPST0) week sec

/-- Embedding of `gst2time(week, sec)`. -/
def gst2time (week : Int) (sec : ℚ) : gtime_t := weekSecToTime (epoch2time GST0) week sec

/-- Embedding of `bdt2time(week, sec)`. -/
def bdt2time (week : Int) (sec : ℚ) : gtime_t := weekSecToTime (epoch2time BDT0) week sec

/-- Embedding of `time2gpst(t, week)`: the pair (`*week`, returned time of week).  The
product `w * 604800` is an `int` product, converted to `time_t` afterwards. -/
def time2gpst (t : gtime_t) : Int × ℚ :=
  let t0 := epoch2time GPST0
  let sec := t.time - t0.time
  let w := int32 (Int.tdiv sec 604800)
  (w, ((sec - int32 (w * 604800) : Int) : ℚ) + t.sec)

/-- Embedding of `time2gst(t, week)`: the product `static_cast<double>(w) * 86400 * 7` is
a `double` product. -/
def time2gst (t : gtime_t) : Int × ℚ :=
  let t0 := epoch2time GST0
  let sec := t.time - t0.time
  let w := int32 (Int.tdiv sec (86400 * 7))
  (w, ((sec : ℚ) - (w : ℚ) * 86400 * 7) + t.sec)

/-- Embedding of `time2bdt(t, week)`. -/
def time2bdt (t : gtime_t) : Int × ℚ :=
  let t0 := epoch2time BDT0
  let sec := t.time - t0.time
  let w := int32 (Int.tdiv sec (86400 * 7))
  (w, ((sec : ℚ) - (w : ℚ) * 86400 * 7) + t.sec)

/-- Embedding of `timeadd(t, sec)`.  The whole seconds `tt` reach `t.time` through
`static_cast<int>(tt)`: an `int` holds 32 bits, so the converted value is wrapped to that
range.  The sum `t.sec + sec` and the difference `t.sec - tt` are exact here; in the
doubles of the source they are rounded. -/
def timeadd (t : gtime_t) (sec : ℚ) : gtime_t :=
  let s := t.sec + sec
  let tt : ℚ := ((⌊s⌋ : Int) : ℚ)
  ⟨t.time + int32 (castInt tt), s - tt⟩

/-- Embedding of `timediff(t1, t2)`. -/
def timediff (t1 t2 : gtime_t) : ℚ := ((t1.time - t2.time : Int) : ℚ) + t1.sec - t2.sec

/-- Embedding of `timediffweekcrossover(t1, t2)`. -/
def timediffweekcrossover (t1 t2 : gtime_t) : ℚ :=
  let tk := ((t1.time - t2.time : Int) : ℚ) + t1.sec - t2.sec
  if tk > 302400 then tk - 604800
  else if tk < -302400 then tk + 604800
  else tk

/-- Embedding of `time2str(t, s, n)` up to the call of `sprintf`: the six values `ep` and
the clamped number of decimals `n` that are handed to the format
`"%04.0f/%02.0f/%02.0f %02.0f:%02.0f:%0*.*f"`. -/
def time2str (t : gtime_t) (n : Int) : List ℚ × Int :=
  let n := if n < 0 then 0 else if n > 12 then 12 else n
  let t : gtime_t := if 1 - t.sec < (1 / 2) / 10 ^ n.toNat then ⟨t.time + 1, 0⟩ else t
  (time2epoch t, n)

/-- Rounding of a rational to the nearest integer, ties to the even neighbour: the
rounding `printf` applies to the digits it drops. -/
def roundHalfEven (y : ℚ) : Int :=
  if y - ⌊y⌋ < 1 / 2 then ⌊y⌋
  else if 1 / 2 < y - ⌊y⌋ then ⌊y⌋ + 1
  else if ⌊y⌋ % 2 = 0 then ⌊y⌋ else ⌊y⌋ + 1

/-- The value `printf` displays for `x` under `%.nf`: `x` rounded to `n` decimals. -/
def shownDecimals (n : Nat) (x : ℚ) : ℚ := (roundHalfEven (x * 10 ^ n) : ℚ) / 10 ^ n

/-- Embedding of `utc2gpst(t)` over a leap-second table: the walk
`for (i = 0; leaps[i][0] > 0; i++)` returns at the first row that `t` is not before. -/
def utc2gpst (table : List (List ℚ)) (t : gtime_t) : gtime_t :=
  match table with
  | [] => t
  | row :: rest =>
    if row.getD 0 0 > 0 then
      if timediff t (epoch2time row) ≥ 0 then timeadd t (-(row.getD 6 0))
      else utc2gpst rest t
    else t

/-- The instant a `gtime_t` denotes, in seconds: integral part plus fraction. -/
def instantValue (t : gtime_t) : ℚ := (t.time : ℚ) + t.sec

/-- Gregorian leap-year rule. -/
def isLeapYear (y : Int) : Bool := (y % 4 = 0 ∧ y % 100 ≠ 0) ∨ y % 400 = 0

/-- Number of days of month `m` of year `y` in the Gregorian calendar. -/
def daysInMonth (y m : Int) : Int :=
  if m = 2 then (if isLeapYear y then 29 else 28)
  else if m = 4 ∨ m = 6 ∨ m = 9 ∨ m = 11 then 30 else 31

/-! ## Dense matrices and the Kalman filter (`matmul`, `matinv`, `filter_`, `filter`) -/

/-- The block `mat(n, m)` returns: `n * m` doubles that `malloc` does not initialise; their
values are whatever the heap holds, given here by `junk`. -/
def mat (junk : List ℚ) (n m : Nat) : List ℚ :=
  (List.range (n * m)).map fun i => junk.getD i 0

/-- The block `zeros(n, m)` returns (`calloc`). -/
def zeros (n m : Nat) : List ℚ := List.replicate (n * m) 0

/-- The stores `buf[f t] = g t` of a loop, in the order `ts` of its iterations. -/
def storeAll {τ : Type} (buf : List ℚ) (ts : List τ) (f : τ → Nat) (g : τ → ℚ) :
    List ℚ :=
  ts.foldl (fun b t => b.set (f t) (g t)) buf

/-- The iterations `(i, j)` of `for (i = 0; i < a; i++) for (j = 0; j < b; j++)`. -/
def loop2 (a b : Nat) : List (Nat × Nat) := List.product (List.range a) (List.range b)

/-- Embedding of `eye(n)`: `zeros(n, n)` with `p[i + i * n] = 1.0` for `i < n`. -/
def eye (n : Nat) : List ℚ :=
  storeAll (zeros n n) (List.range n) (fun i => i + i * n) (fun _ => 1)

/-- Embedding of `matcpy(A, B, n, m)`: the first `n * m` doubles of `A` become those of
`B`. -/
def matcpy (A B : List ℚ) (n m : Nat) : List ℚ :=
  ((List.range (n * m)).map fun i => B.getD i 0) ++ A.drop (n * m)

/-- Modelled from the spec: the external BLAS routine `dgemm_`, in exact arithmetic.
`C = alpha * op(A) * op(B) + beta * C` on column-major arrays, `op(A)` of shape `n x m` and
`op(B)` of shape `m x k`, `op` the transpose when the flag is `'T'`, with leading
dimensions `lda`, `ldb` and `n` for `C`. -/
def dgemm (transa transb : Bool) (n k m : Nat) (alpha : ℚ) (A : List ℚ) (lda : Nat)
    (B : List ℚ) (ldb : Nat) (beta : ℚ) (C : List ℚ) : List ℚ :=
  ((List.range (n * k)).map fun idx =>
    alpha * ((List.range m).map fun l =>
      (if transa then A.getD (l + (idx % n) * lda) 0 else A.getD (idx % n + l * lda) 0) *
      (if transb then B.getD (idx / n + l * ldb) 0 else B.getD (l + (idx / n) * ldb) 0)).sum
    + beta * C.getD idx 0) ++ C.drop (n * k)

/-- Embedding of `matmul(tr, n, k, m, alpha, A, B, beta, C)`: the wrapper of `dgemm_`,
`lda = tr[0] == 'T' ? m : n` and `ldb = tr[1] == 'T' ? k : m`. -/
def matmul (tr : List Char) (n k m : Nat) (alpha : ℚ) (A B : List ℚ) (beta : ℚ)
    (C : List ℚ) : List ℚ :=
  let lda := if tr.getD 0 'N' = 'T' then m else n
  let ldb := if tr.getD 1 'N' = 'T' then k else m
  dgemm (decide (tr.getD 0 'N' = 'T')) (decide (tr.getD 1 'N' = 'T')) n k m alpha A lda B ldb
    beta C

/-- The column-major array `A` read as an `n x m` matrix. -/
def toMat (A : List ℚ) (n m : Nat) : Matrix (Fin n) (Fin m) ℚ :=
  Matrix.of fun i j => A.getD (i.val + j.val * n) 0

/-- The array `x` read as a vector of length `n`. -/
def toVec (x : List ℚ) (n : Nat) : Fin n → ℚ := fun i => x.getD i.val 0

/-- The column-major array of an `n x m` matrix. -/
def ofMat {n m : Nat} (M : Matrix (Fin n) (Fin m) ℚ) : List ℚ :=
  (List.range (n * m)).map fun idx =>
    if h : idx % n < n ∧ idx / n < m then M ⟨idx % n, h.1⟩ ⟨idx / n, h.2⟩ else 0

/-- Modelled from the spec: the external LAPACK pair `dgetrf_`/`dgetri_` behind
`matinv(A, n)`, in exact arithmetic.  The status is `0` and `A` becomes its inverse when
`A` is invertible; the status is positive when the factorisation meets a zero pivot, that
is when `A` is singular (LAPACK reports the index of the pivot, written `1` here; the
partial factors it leaves in `A` are not modelled, `A` is kept). -/
def matinv (A : List ℚ) (n : Nat) : Int × List ℚ :=
  if (toMat A n n).det = 0 then (1, A)
  else (0, ofMat ((toMat A n n).det⁻¹ • (toMat A n n).adjugate) ++ A.drop (n * n))

/-- Embedding of `filter_(x, P, H, v, R, n, m, xp, Pp)`: the status and the output arrays
`xp`, `Pp` after the call.  The work arrays `F`, `Q`, `K` come from `mat`. -/
def filter_ (junk x P H v R : List ℚ) (n m : Nat) (xp Pp : List ℚ) :
    Int × List ℚ × List ℚ :=
  let F := mat junk n m
  let Q := mat junk m m
  let K := mat junk n m
  let I := eye n
  let Q := matcpy Q R m m
  let xp := matcpy xp x n 1
  let F := matmul ['N', 'N'] n m n 1 P H 0 F
  let Q := matmul ['T', 'N'] m m n 1 H F 1 Q
  let r := matinv Q m
  if r.1 = 0 then
    let K := matmul ['N', 'N'] n m m 1 F r.2 0 K
    let xp := matmul ['N', 'N'] n 1 m 1 K v 1 xp
    let I := matmul ['N', 'T'] n n m (-1) K H 1 I
    let Pp := matmul ['N', 'N'] n n n 1 I P 0 Pp
    (r.1, xp, Pp)
  else (r.1, xp, Pp)

/-- The index array `ix` of `filter`: the states `i < n` with `x[i] != 0.0` and
`P[i + i * n] > 0.0`, in increasing order. -/
def activeIndices (x P : List ℚ) (n : Nat) : List Nat :=
  (List.range n).filter fun i => decide (x.getD i 0 ≠ 0 ∧ P.getD (i + i * n) 0 > 0)

/-- The gather `x_[i] = x[ix[i]]` of `filter` into the block `mat(k, 1)`. -/
def gatherX (ix : List Nat) (junk x : List ℚ) : List ℚ :=
  storeAll (mat junk ix.length 1) (List.range ix.length) (fun i => i)
    (fun i => x.getD (ix.getD i 0) 0)

/-- The gather `P_[i + j * k] = P[ix[i] + ix[j] * n]` of `filter` into the block
`mat(k, k)`. -/
def gatherP (ix : List Nat) (junk P : List ℚ) (n : Nat) : List ℚ :=
  storeAll (mat junk ix.length ix.length) (loop2 ix.length ix.length)
    (fun t => t.1 + t.2 * ix.length) (fun t => P.getD (ix.getD t.1 0 + ix.getD t.2 0 * n) 0)

/-- The gather `H_[i + j * k] = H[ix[i] + j * n]` of `filter` into the block `mat(k, m)`. -/
def gatherH (ix : List Nat) (junk H : List ℚ) (n m : Nat) : List ℚ :=
  storeAll (mat junk ix.length m) (loop2 ix.length m)
    (fun t => t.1 + t.2 * ix.length) (fun t => H.getD (ix.getD t.1 0 + t.2 * n) 0)

/-- The scatter `x[ix[i]] = xp_[i]` that ends `filter`. -/
def scatterX (ix : List Nat) (x xp : List ℚ) : List ℚ :=
  storeAll x (List.range ix.length) (fun i => ix.getD i 0) (fun i => xp.getD i 0)

/-- The scatter `P[ix[i] + ix[j] * n] = Pp_[i + j * k]` that ends `filter`. -/
def scatterP (ix : List Nat) (P Pp : List ℚ) (n : Nat) : List ℚ :=
  storeAll P (loop2 ix.length ix.length) (fun t => ix.getD t.1 0 + ix.getD t.2 0 * n)
    (fun t => Pp.getD (t.1 + t.2 * ix.length) 0)

/-- The part of `filter` that follows the construction of the index array `ix`: the
gather of `x_`, `P_`, `H_`, the call of `filter_` on `k = ix.length` states with the output
blocks `xp_ = mat(k, 1)` and `Pp_ = mat(k, k)`, and the scatter of `xp_`, `Pp_` back into
`x` and `P`.  Returns the status and `x`, `P` after the call; `junk` is the content of the
heap blocks that `mat` hands out. -/
def filterWith (ix : List Nat) (junk x P H v R : List ℚ) (n m : Nat) :
    Int × List ℚ × List ℚ :=
  let r := filter_ junk (gatherX ix junk x) (gatherP ix junk P n) (gatherH ix junk H n m) v R
    ix.length m (mat junk ix.length 1) (mat junk ix.length ix.length)
  (r.1, scatterX ix x r.2.1, scatterP ix P r.2.2 n)

/-- Embedding of `filter(x, P, H, v, R, n, m)`: the index array is built, then the
states it lists are updated. -/
def filter (junk x P H v R : List ℚ) (n m : Nat) : Int × List ℚ × List ℚ :=
  filterWith (activeIndices x P n) junk x P H v R n m

/-- The state restricted to the indices `ix`: entry `a` is `x[ix[a]]`. -/
def compactX (ix : List Nat) (x : List ℚ) : Fin ix.length → ℚ :=
  fun a => x.getD (ix.getD a.val 0) 0

/-- The covariance restricted to the indices `ix`: entry `(a, b)` is
`P[ix[a] + ix[b] * n]`. -/
def compactP (ix : List Nat) (P : List ℚ) (n : Nat) :
    Matrix (Fin ix.length) (Fin ix.length) ℚ :=
  Matrix.of fun a b => P.getD (ix.getD a.val 0 + ix.getD b.val 0 * n) 0

/-- The transposed design matrix restricted to the indices `ix`: entry `(a, j)` is
`H[ix[a] + j * n]`. -/
def compactH (ix : List Nat) (H : List ℚ) (n m : Nat) : Matrix (Fin ix.length) (Fin m) ℚ :=
  Matrix.of fun a j => H.getD (ix.getD a.val 0 + j.val * n) 0

/-! ## Least squares and the smoother (`lsq`, `smoother`) -/

/-- Embedding of `lsq(A, y, n, m, x, Q)`: the status and the output arrays `x`, `Q` after
the call.  The work array `Ay` comes from `mat`. -/
def lsq (junk A y : List ℚ) (n m : Nat) (x Q : List ℚ) : Int × List ℚ × List ℚ :=
  if m < n then (-1, x, Q)
  else
    let Ay := mat junk n 1
    let Ay := matmul ['N', 'N'] n 1 m 1 A y 0 Ay
    let Q := matmul ['N', 'T'] n n m 1 A A 0 Q
    let r := matinv Q n
    if r.1 = 0 then (r.1, matmul ['N', 'N'] n 1 n 1 r.2 Ay 0 x, r.2)
    else (r.1, x, r.2)

/-- The stores `Qs[i] = invQf[i] + invQb[i]`, `i < n * n`, of `smoother`. -/
def addInto (Qs A B : List ℚ) (N : Nat) : List ℚ :=
  ((List.range N).map fun i => A.getD i 0 + B.getD i 0) ++ Qs.drop N

/-- Embedding of `smoother(xf, Qf, xb, Qb, n, xs, Qs)`: the status and the output arrays
`xs`, `Qs` after the call.  The work arrays `invQf`, `invQb`, `xx` come from `mat`; the
second inversion is only run when the first succeeds (`&&`). -/
def smoother (junk xf Qf xb Qb : List ℚ) (n : Nat) (xs Qs : List ℚ) :
    Int × List ℚ × List ℚ :=
  let invQf := mat junk n n
  let invQb := mat junk n n
  let xx := mat junk n 1
  let invQf := matcpy invQf Qf n n
  let invQb := matcpy invQb Qb n n
  let rf := matinv invQf n
  if rf.1 = 0 then
    let rb := matinv invQb n
    if rb.1 = 0 then
      let Qs := addInto Qs rf.2 rb.2 (n * n)
      let r := matinv Qs n
      if r.1 = 0 then
        let xx := matmul ['N', 'N'] n 1 n 1 rf.2 xf 0 xx
        let xx := matmul ['N', 'N'] n 1 n 1 rb.2 xb 1 xx
        (r.1, matmul ['N', 'N'] n 1 n 1 r.2 xx 0 xs, r.2)
      else (r.1, xs, r.2)
    else (-1, xs, Qs)
  else (-1, xs, Qs)

/-! ## Earth rotation parameters (`geterp`) -/

/-- Embedding of `gpst2utc(t)` over a leap-second table: the walk
`for (i = 0; leaps[i][0] > 0; i++)` returns `timeadd(t, leaps[i][6])` at the first row that
this shifted instant is not before. -/
def gpst2utc (table : List (List ℚ)) (t : gtime_t) : gtime_t :=
  match table with
  | [] => t
  | row :: rest =>
    if row.getD 0 0 > 0 then
      if timediff (timeadd t (row.getD 6 0)) (epoch2time row) ≥ 0 then timeadd t (row.getD 6 0)
      else gpst2utc rest t
    else t

/-- The record `erpd_t` of one day of earth rotation parameters. -/
structure erpd_t where
  /-- Modified Julian date of the record. -/
  mjd : ℚ
  /-- Pole offset `xp` (rad). -/
  xp : ℚ
  /-- Pole offset `yp` (rad). -/
  yp : ℚ
  /-- Rate of `xp` (rad/day). -/
  xpr : ℚ
  /-- Rate of `yp` (rad/day). -/
  ypr : ℚ
  /-- The difference `ut1 - utc` (s). -/
  ut1_utc : ℚ
  /-- Length of day (s/day). -/
  lod : ℚ
  deriving DecidableEq, Repr

/-- The table `erp_t`: the count `n`, the capacity `nmax` and the records. -/
structure erp_t where
  /-- Number of records. -/
  n : Int
  /-- Number of records allocated. -/
  nmax : Int
  /-- The records. -/
  data : List erpd_t
  deriving DecidableEq, Repr

/-- The record `erp->data[i]` (a zero record outside the list). -/
def erp_t.at (erp : erp_t) (i : Int) : erpd_t :=
  erp.data.getD i.toNat ⟨0, 0, 0, 0, 0, 0, 0⟩

/-- The loop `for (j = 0, k = erp->n - 1; j < k - 1;)` of `geterp` from the state `(j, k)`,
with `i = (j + k) / 2` in `int` arithmetic: the final `j`, or `none` when the fuel is
spent before the loop ends. -/
def geterpSearch (erp : erp_t) (mjd : ℚ) : Nat → Int → Int → Option Int
  | 0, j, k => if j < int32 (k - 1) then none else some j
  | fuel + 1, j, k =>
    if j < int32 (k - 1) then
      if mjd < (erp.at (Int.tdiv (int32 (j + k)) 2)).mjd then
        geterpSearch erp mjd fuel j (Int.tdiv (int32 (j + k)) 2)
      else geterpSearch erp mjd fuel (Int.tdiv (int32 (j + k)) 2) k
    else some j

/-- The four stores `erpv[0..3]` of `geterp`. -/
def setErpv (erpv : List ℚ) (v0 v1 v2 v3 : ℚ) : List ℚ :=
  (((erpv.set 0 v0).set 1 v1).set 2 v2).set 3 v3

/-- The date `mjd` that `geterp` looks up for the GPS time `time`. -/
def geterpMjd (table : List (List ℚ)) (time : gtime_t) : ℚ :=
  51544.5 + timediff (gpst2utc table time) (epoch2time [2000, 1, 1, 12, 0, 0]) / 86400

/-- Embedding of `geterp(erp, time, erpv)` over a leap-second table: the status and the
array `erpv` after the call, `none` when the fuel of the search loop is spent. -/
def geterp (fuel : Nat) (table : List (List ℚ)) (erp : erp_t) (time : gtime_t)
    (erpv : List ℚ) : Option (Int × List ℚ) :=
  if erp.n ≤ 0 then some (0, erpv)
  else
    let mjd := geterpMjd table time
    if mjd ≤ (erp.at 0).mjd then
      let day := mjd - (erp.at 0).mjd
      some (1, setErpv erpv ((erp.at 0).xp + (erp.at 0).xpr * day)
        ((erp.at 0).yp + (erp.at 0).ypr * day)
        ((erp.at 0).ut1_utc - (erp.at 0).lod * day) (erp.at 0).lod)
    else if mjd ≥ (erp.at (int32 (erp.n - 1))).mjd then
      let l := erp.at (int32 (erp.n - 1))
      let day := mjd - l.mjd
      some (1, setErpv erpv (l.xp + l.xpr * day) (l.yp + l.ypr * day)
        (l.ut1_utc - l.lod * day) l.lod)
    else
      match geterpSearch erp mjd fuel 0 (int32 (erp.n - 1)) with
      | none => none
      | some j =>
        let a := if (erp.at j).mjd = (erp.at (int32 (j + 1))).mjd then (1 / 2 : ℚ)
          else (mjd - (erp.at j).mjd) / ((erp.at (int32 (j + 1))).mjd - (erp.at j).mjd)
        some (1, setErpv erpv
          ((1 - a) * (erp.at j).xp + a * (erp.at (int32 (j + 1))).xp)
          ((1 - a) * (erp.at j).yp + a * (erp.at (int32 (j + 1))).yp)
          ((1 - a) * (erp.at j).ut1_utc + a * (erp.at (int32 (j + 1))).ut1_utc)
          ((1 - a) * (erp.at j).lod + a * (erp.at (int32 (j + 1))).lod))

/-! ## Coordinates, geometry and atmosphere (`ecef2pos`, `xyz2enu`, `geodist`, `dops`,
`ionmodel`)

The functions of the C math library are external to the sources: they enter every
definition that calls them through a record `Libm`, over the field `K` in which `double`
arithmetic is taken exact.  The constants of the header (`PI`, `RE_WGS84`, ...) enter as
arguments of the same names. -/

/-- The functions of `<math.h>` that the sources call. -/
structure Libm (K : Type) where
  /-- The function `sqrt`. -/
  sqrt : K → K
  /-- The function `sin`. -/
  sin : K → K
  /-- The function `cos`. -/
  cos : K → K
  /-- The function `tan`. -/
  tan : K → K
  /-- The function `asin`. -/
  asin : K → K
  /-- The function `acos`. -/
  acos : K → K
  /-- The function `atan`. -/
  atan : K → K
  /-- The function `atan2(y, x)`. -/
  atan2 : K → K → K
  /-- The function `exp`. -/
  exp : K → K
  /-- The function `pow(x, y)`. -/
  pow : K → K → K

/-- A square root on `ℚ` that is exact on the squares of rationals: the integer square
roots of numerator and denominator. -/
def ratSqrt (q : ℚ) : ℚ := (Nat.sqrt q.num.toNat : ℚ) / (Nat.sqrt q.den : ℚ)

/-- A math library over `ℚ` on which the definitions can be run: `sqrt` is exact on
squares, `sin a = 2a / (1 + a²)` and `cos a = (1 - a²) / (1 + a²)` give a rational point of
the unit circle for every argument (the exact values at `0`), `atan` and `atan2` are exact
at `0`; the remaining fields only fill the record. -/
def ratLibm : Libm ℚ :=
  ⟨ratSqrt, fun a => 2 * a / (1 + a * a), fun a => (1 - a * a) / (1 + a * a),
    fun a => 2 * a / (1 - a * a), fun a => a, fun a => 1 - a, fun a => a,
    fun y x => if 0 < x then y / x else 0, fun a => 1 + a, fun x _ => x⟩

/-- The loop `while (--n >= 0) c += a[n] * b[n]` of `dot` from the state `(n, c)`. -/
def dotLoop {K : Type} [LinearOrderedField K] (a b : List K) : Nat → K → K
  | 0, c => c
  | n + 1, c => dotLoop a b n (c + a.getD n 0 * b.getD n 0)

/-- Embedding of `dot(a, b, n)`. -/
def dot {K : Type} [LinearOrderedField K] (a b : List K) (n : Nat) : K := dotLoop a b n 0

/-- Embedding of `norm_rtk(a, n)`. -/
def norm_rtk {K : Type} [LinearOrderedField K] (lm : Libm K) (a : List K) (n : Nat) : K :=
  lm.sqrt (dot a a n)

/-- The loop `for (z = r[2], zk = 0.0; fabs(z - zk) >= 1e-4;)` of `ecef2pos` from the state
`(z, zk, v)`: the final `(z, v)`, or `none` when the fuel is spent before the loop ends. -/
def ecef2posLoop {K : Type} [LinearOrderedField K] (lm : Libm K) (RE_WGS84 e2 r2 rz : K) :
    Nat → K → K → K → Option (K × K)
  | 0, z, zk, v => if |z - zk| ≥ 1 / 10000 then none else some (z, v)
  | fuel + 1, z, zk, v =>
    if |z - zk| ≥ 1 / 10000 then
      ecef2posLoop lm RE_WGS84 e2 r2 rz fuel
        (rz + RE_WGS84 / lm.sqrt (1 - e2 * (z / lm.sqrt (r2 + z * z)) *
            (z / lm.sqrt (r2 + z * z))) * e2 * (z / lm.sqrt (r2 + z * z)))
        z
        (RE_WGS84 / lm.sqrt (1 - e2 * (z / lm.sqrt (r2 + z * z)) *
            (z / lm.sqrt (r2 + z * z))))
    else some (z, v)

/-- Embedding of `ecef2pos(r, pos)`: the array `pos = {lat, lon, h}` after the call, `none`
when the fuel of the iteration is spent. -/
def ecef2pos {K : Type} [LinearOrderedField K] (lm : Libm K) (PI RE_WGS84 FE_WGS84 : K)
    (fuel : Nat) (r : List K) : Option (List K) :=
  let e2 := FE_WGS84 * (2 - FE_WGS84)
  let r2 := dot r r 2
  match ecef2posLoop lm RE_WGS84 e2 r2 (r.getD 2 0) fuel (r.getD 2 0) 0 RE_WGS84 with
  | none => none
  | some (z, v) =>
    some [if r2 > 1 / 1000000000000 then lm.atan (z / lm.sqrt r2)
          else (if r.getD 2 0 > 0 then PI / 2 else -PI / 2),
      if r2 > 1 / 1000000000000 then lm.atan2 (r.getD 1 0) (r.getD 0 0) else 0,
      lm.sqrt (r2 + z * z) - v]

/-- Embedding of `pos2ecef(pos, r)`: the array `r` after the call. -/
def pos2ecef {K : Type} [LinearOrderedField K] (lm : Libm K) (RE_WGS84 FE_WGS84 : K)
    (pos : List K) : List K :=
  let sinp := lm.sin (pos.getD 0 0)
  let cosp := lm.cos (pos.getD 0 0)
  let sinl := lm.sin (pos.getD 1 0)
  let cosl := lm.cos (pos.getD 1 0)
  let e2 := FE_WGS84 * (2 - FE_WGS84)
  let v := RE_WGS84 / lm.sqrt (1 - e2 * sinp * sinp)
  [(v + pos.getD 2 0) * cosp * cosl, (v + pos.getD 2 0) * cosp * sinl,
    (v * (1 - e2) + pos.getD 2 0) * sinp]

/-- Embedding of `xyz2enu(pos, E)`: the column-major array `E` after the call. -/
def xyz2enu (lm : Libm ℚ) (pos : List ℚ) : List ℚ :=
  let sinp := lm.sin (pos.getD 0 0)
  let cosp := lm.cos (pos.getD 0 0)
  let sinl := lm.sin (pos.getD 1 0)
  let cosl := lm.cos (pos.getD 1 0)
  [-sinl, -sinp * cosl, cosp * cosl, cosl, -sinp * sinl, cosp * sinl, 0, cosp, sinp]

/-- Embedding of `ecef2enu(pos, r, e)`: the array `e` after the call. -/
def ecef2enu (lm : Libm ℚ) (pos r e : List ℚ) : List ℚ :=
  matmul ['N', 'N'] 3 1 3 1 (xyz2enu lm pos) r 0 e

/-- Embedding of `enu2ecef(pos, e, r)`: the array `r` after the call. -/
def enu2ecef (lm : Libm ℚ) (pos e r : List ℚ) : List ℚ :=
  matmul ['T', 'N'] 3 1 3 1 (xyz2enu lm pos) e 0 r

/-- Embedding of `covenu(pos, P, Q)`: the array `Q` after the call; the work array `EP` is
on the stack, its content before the call is `junk`. -/
def covenu (lm : Libm ℚ) (junk pos P Q : List ℚ) : List ℚ :=
  matmul ['N', 'T'] 3 3 3 1 (matmul ['N', 'N'] 3 3 3 1 (xyz2enu lm pos) P 0 (mat junk 3 3))
    (xyz2enu lm pos) 0 Q

/-- Embedding of `covecef(pos, Q, P)`: the array `P` after the call; the work array `EQ` is
on the stack, its content before the call is `junk`. -/
def covecef (lm : Libm ℚ) (junk pos Q P : List ℚ) : List ℚ :=
  matmul ['N', 'N'] 3 3 3 1 (matmul ['T', 'N'] 3 3 3 1 (xyz2enu lm pos) Q 0 (mat junk 3 3))
    (xyz2enu lm pos) 0 P

/-- Embedding of `geodist(rs, rr, e)`: the returned distance and the array `e` after the
call. -/
def geodist {K : Type} [LinearOrderedField K] (lm : Libm K)
    (RE_WGS84 DEFAULT_OMEGA_EARTH_DOT SPEED_OF_LIGHT : K) (rs rr e : List K) : K × List K :=
  if norm_rtk lm rs 3 < RE_WGS84 then (-1, e)
  else
    let d := [rs.getD 0 0 - rr.getD 0 0, rs.getD 1 0 - rr.getD 1 0, rs.getD 2 0 - rr.getD 2 0]
      ++ e.drop 3
    let r := norm_rtk lm d 3
    (r + DEFAULT_OMEGA_EARTH_DOT * (rs.getD 0 0 * rr.getD 1 0 - rs.getD 1 0 * rr.getD 0 0) /
        SPEED_OF_LIGHT,
      [d.getD 0 0 / r, d.getD 1 0 / r, d.getD 2 0 / r] ++ e.drop 3)

/-- The test of `dops` that keeps satellite `i`: neither `azel[1 + i * 2] < elmin` nor
`azel[1 + i * 2] <= 0.0`. -/
def dopsUsable (azel : List ℚ) (elmin : ℚ) (i : Nat) : Bool :=
  !(decide (azel.getD (1 + i * 2) 0 < elmin) || decide (azel.getD (1 + i * 2) 0 ≤ 0))

/-- The array `H` of `dops` after its loop over the satellites `is`: four entries are
appended for every satellite kept (`n` is a quarter of the length). -/
def dopsH (lm : Libm ℚ) (azel : List ℚ) (elmin : ℚ) (is : List Nat) : List ℚ :=
  is.foldl (fun H i =>
    if dopsUsable azel elmin i then
      H ++ [lm.cos (azel.getD (1 + i * 2) 0) * lm.sin (azel.getD (i * 2) 0),
        lm.cos (azel.getD (1 + i * 2) 0) * lm.cos (azel.getD (i * 2) 0),
        lm.sin (azel.getD (1 + i * 2) 0), 1]
    else H) []

/-- Embedding of `dops(ns, azel, elmin, dop)`: the array `dop` after the call.  The loop
runs over `i < ns && i < MAXSAT`; the array `Q` is on the stack, its content before the
call is `junk`. -/
def dops (lm : Libm ℚ) (MAXSAT : Nat) (junk : List ℚ) (ns : Int) (azel : List ℚ) (elmin : ℚ)
    (dop : List ℚ) : List ℚ :=
  let dop := [0, 0, 0, 0] ++ dop.drop 4
  let H := dopsH lm azel elmin (List.range (min ns.toNat MAXSAT))
  let n := H.length / 4
  if n < 4 then dop
  else
    let r := matinv (matmul ['N', 'T'] 4 4 n 1 H H 0 (mat junk 4 4)) 4
    if r.1 = 0 then
      [lm.sqrt (r.2.getD 0 0 + r.2.getD 5 0 + r.2.getD 10 0 + r.2.getD 15 0),
        lm.sqrt (r.2.getD 0 0 + r.2.getD 5 0 + r.2.getD 10 0),
        lm.sqrt (r.2.getD 0 0 + r.2.getD 5 0), lm.sqrt (r.2.getD 10 0)] ++ dop.drop 4
    else dop

/-- The table `ion_default` of `ionmodel`. -/
def ion_default : List ℚ :=
  [0.1118e-07, -0.7451e-08, -0.5961e-07, 0.1192e-06,
   0.1167e+06, -0.2294e+06, -0.1311e+06, 0.1049e+07]

/-- Embedding of `ionmodel(t, ion, pos, azel)`. -/
def ionmodel (lm : Libm ℚ) (PI SPEED_OF_LIGHT : ℚ) (t : gtime_t) (ion pos azel : List ℚ) :
    ℚ :=
  if pos.getD 2 0 < -1e3 ∨ azel.getD 1 0 ≤ 0 then 0
  else
    let ion := if norm_rtk lm ion 8 ≤ 0 then ion_default else ion
    let psi := 0.0137 / (azel.getD 1 0 / PI + 0.11) - 0.022
    let phi := pos.getD 0 0 / PI + psi * lm.cos (azel.getD 0 0)
    let phi := if phi > 0.416 then 0.416 else if phi < -0.416 then -0.416 else phi
    let lam := pos.getD 1 0 / PI + psi * lm.sin (azel.getD 0 0) / lm.cos (phi * PI)
    let phi := phi + 0.064 * lm.cos ((lam - 1.617) * PI)
    let tt := 43200 * lam + (time2gpst t).2
    let tt := tt - ((⌊tt / 86400⌋ : Int) : ℚ) * 86400
    let f := 1 + 16 * (0.53 - azel.getD 1 0 / PI) ^ 3
    let amp := ion.getD 0 0 + phi * (ion.getD 1 0 + phi * (ion.getD 2 0 + phi * ion.getD 3 0))
    let per := ion.getD 4 0 + phi * (ion.getD 5 0 + phi * (ion.getD 6 0 + phi * ion.getD 7 0))
    let amp := if amp < 0 then 0 else amp
    let per := if per < 72000 then 72000 else per
    let x := 2 * PI * (tt - 50400) / per
    SPEED_OF_LIGHT * f *
      (if |x| < 1.57 then 5e-9 + amp * (1 + x * x * (-0.5 + x * x / 24)) else 5e-9)

/-! ## Earth orientation (`utc2gmst`, `ast_args`, `nut_iau1980`, `eci2ecef`) -/

/-- The function `fmod` of the math library, which is exact: `x - n * y` with `n` the
quotient `x / y` truncated toward zero. -/
def fmod (x y : ℚ) : ℚ := x - (castInt (x / y) : ℚ) * y

/-- Embedding of `time2sec(time, day)`: the pair (returned seconds of the day, `*day`). -/
def time2sec (time : gtime_t) : ℚ × gtime_t :=
  let ep := time2epoch time
  (ep.getD 3 0 * 3600 + ep.getD 4 0 * 60 + ep.getD 5 0,
    epoch2time [ep.getD 0 0, ep.getD 1 0, ep.getD 2 0, 0, 0, 0])

/-- Embedding of `utc2gmst(t, ut1_utc)`. -/
def utc2gmst (PI : ℚ) (t : gtime_t) (ut1_utc : ℚ) : ℚ :=
  let tut := timeadd t ut1_utc
  let ut := (time2sec tut).1
  let tut0 := (time2sec tut).2
  let t1 := timediff tut0 (epoch2time [2000, 1, 1, 12, 0, 0]) / 86400 / 36525
  let t2 := t1 * t1
  let t3 := t2 * t1
  let gmst0 := 24110.54841 + 8640184.812866 * t1 + 0.093104 * t2 - 6.2e-6 * t3
  let gmst := gmst0 + 1.002737909350795 * ut
  fmod gmst 86400 * PI / 43200

/-- The table `fc` of `ast_args`: coefficients for the IAU 1980 nutation. -/
def ast_fc : List (List ℚ) :=
  [[134.96340251, 1717915923.2178, 31.8792, 0.051635, -0.00024470],
   [357.52910918, 129596581.0481, -0.5532, 0.000136, -0.00001149],
   [93.27209062, 1739527262.8478, -12.7512, -0.001037, 0.00000417],
   [297.85019547, 1602961601.2090, -6.3706, 0.006593, -0.00003169],
   [125.04455501, -6962890.2665, 7.4722, 0.007702, -0.00005939]]

/-- Embedding of `ast_args(t, f)`: the array `f = {l, l', F, D, OMG}` after the call. -/
def ast_args (PI AS2R t : ℚ) : List ℚ :=
  let tt0 := t
  let tt1 := tt0 * t
  let tt2 := tt1 * t
  let tt3 := tt2 * t
  ast_fc.map fun row =>
    fmod ((row.getD 0 0 * 3600 + row.getD 1 0 * tt0 + row.getD 2 0 * tt1 + row.getD 3 0 * tt2 +
      row.getD 4 0 * tt3) * AS2R) (2 * PI)

/-- The table `nut` of `nut_iau1980`: the 106 terms of the IAU 1980 nutation series. -/
def nut : List (List ℚ) :=
  [([0, 0, 0, 0, 1, -6798.4, -171996, -174.2, 92025, 8.9] : List ℚ),
   ([0, 0, 2, -2, 2, 182.6, -13187, -1.6, 5736, -3.1] : List ℚ),
   ([0, 0, 2, 0, 2, 13.7, -2274, -0.2, 977, -0.5] : List ℚ),
   ([0, 0, 0, 0, 2, -3399.2, 2062, 0.2, -895, 0.5] : List ℚ),
   ([0, -1, 0, 0, 0, -365.3, -1426, 3.4, 54, -0.1] : List ℚ),
   ([1, 0, 0, 0, 0, 27.6, 712, 0.1, -7, 0.0] : List ℚ),
   ([0, 1, 2, -2, 2, 121.7, -517, 1.2, 224, -0.6] : List ℚ),
   ([0, 0, 2, 0, 1, 13.6, -386, -0.4, 200, 0.0] : List ℚ),
   ([1, 0, 2, 0, 2, 9.1, -301, 0.0, 129, -0.1] : List ℚ),
   ([0, -1, 2, -2, 2, 365.2, 217, -0.5, -95, 0.3] : List ℚ),
   ([-1, 0, 0, 2, 0, 31.8, 158, 0.0, -1, 0.0] : List ℚ),
   ([0, 0, 2, -2, 1, 177.8, 129, 0.1, -70, 0.0] : List ℚ),
   ([-1, 0, 2, 0, 2, 27.1, 123, 0.0, -53, 0.0] : List ℚ),
   ([1, 0, 0, 0, 1, 27.7, 63, 0.1, -33, 0.0] : List ℚ),
   ([0, 0, 0, 2, 0, 14.8, 63, 0.0, -2, 0.0] : List ℚ),
   ([-1, 0, 2, 2, 2, 9.6, -59, 0.0, 26, 0.0] : List ℚ),
   ([-1, 0, 0, 0, 1, -27.4, -58, -0.1, 32, 0.0] : List ℚ),
   ([1, 0, 2, 0, 1, 9.1, -51, 0.0, 27, 0.0] : List ℚ),
   ([-2, 0, 0, 2, 0, -205.9, -48, 0.0, 1, 0.0] : List ℚ),
   ([-2, 0, 2, 0, 1, 1305.5, 46, 0.0, -24, 0.0] : List ℚ),
   ([0, 0, 2, 2, 2, 7.1, -38, 0.0, 16, 0.0] : List ℚ),
   ([2, 0, 2, 0, 2, 6.9, -31, 0.0, 13, 0.0] : List ℚ),
   ([2, 0, 0, 0, 0, 13.8, 29, 0.0, -1, 0.0] : List ℚ),
   ([1, 0, 2, -2, 2, 23.9, 29, 0.0, -12, 0.0] : List ℚ),
   ([0, 0, 2, 0, 0, 13.6, 26, 0.0, -1, 0.0] : List ℚ),
   ([0, 0, 2, -2, 0, 173.3, -22, 0.0, 0, 0.0] : List ℚ),
   ([-1, 0, 2, 0, 1, 27.0, 21, 0.0, -10, 0.0] : List ℚ),
   ([0, 2, 0, 0, 0, 182.6, 17, -0.1, 0, 0.0] : List ℚ),
   ([0, 2, 2, -2, 2, 91.3, -16, 0.1, 7, 0.0] : List ℚ),
   ([-1, 0, 0, 2, 1, 32.0, 16, 0.0, -8, 0.0] : List ℚ),
   ([0, 1, 0, 0, 1, 386.0, -15, 0.0, 9, 0.0] : List ℚ),
   ([1, 0, 0, -2, 1, -31.7, -13, 0.0, 7, 0.0] : List ℚ),
   ([0, -1, 0, 0, 1, -346.6, -12, 0.0, 6, 0.0] : List ℚ),
   ([2, 0, -2, 0, 0, -1095.2, 11, 0.0, 0, 0.0] : List ℚ),
   ([-1, 0, 2, 2, 1, 9.5, -10, 0.0, 5, 0.0] : List ℚ),
   ([1, 0, 2, 2, 2, 5.6, -8, 0.0, 3, 0.0] : List ℚ),
   ([0, -1, 2, 0, 2, 14.2, -7, 0.0, 3, 0.0] : List ℚ),
   ([0, 0, 2, 2, 1, 7.1, -7, 0.0, 3, 0.0] : List ℚ),
   ([1, 1, 0, -2, 0, -34.8, -7, 0.0, 0, 0.0] : List ℚ),
   ([0, 1, 2, 0, 2, 13.2, 7, 0.0, -3, 0.0] : List ℚ),
   ([-2, 0, 0, 2, 1, -199.8, -6, 0.0, 3, 0.0] : List ℚ),
   ([0, 0, 0, 2, 1, 14.8, -6, 0.0, 3, 0.0] : List ℚ),
   ([2, 0, 2, -2, 2, 12.8, 6, 0.0, -3, 0.0] : List ℚ),
   ([1, 0, 0, 2, 0, 9.6, 6, 0.0, 0, 0.0] : List ℚ),
   ([1, 0, 2, -2, 1, 23.9, 6, 0.0, -3, 0.0] : List ℚ),
   ([0, 0, 0, -2, 1, -14.7, -5, 0.0, 3, 0.0] : List ℚ),
   ([0, -1, 2, -2, 1, 346.6, -5, 0.0, 3, 0.0] : List ℚ),
   ([2, 0, 2, 0, 1, 6.9, -5, 0.0, 3, 0.0] : List ℚ),
   ([1, -1, 0, 0, 0, 29.8, 5, 0.0, 0, 0.0] : List ℚ),
   ([1, 0, 0, -1, 0, 411.8, -4, 0.0, 0, 0.0] : List ℚ),
   ([0, 0, 0, 1, 0, 29.5, -4, 0.0, 0, 0.0] : List ℚ),
   ([0, 1, 0, -2, 0, -15.4, -4, 0.0, 0, 0.0] : List ℚ),
   ([1, 0, -2, 0, 0, -26.9, 4, 0.0, 0, 0.0] : List ℚ),
   ([2, 0, 0, -2, 1, 212.3, 4, 0.0, -2, 0.0] : List ℚ),
   ([0, 1, 2, -2, 1, 119.6, 4, 0.0, -2, 0.0] : List ℚ),
   ([1, 1, 0, 0, 0, 25.6, -3, 0.0, 0, 0.0] : List ℚ),
   ([1, -1, 0, -1, 0, -3232.9, -3, 0.0, 0, 0.0] : List ℚ),
   ([-1, -1, 2, 2, 2, 9.8, -3, 0.0, 1, 0.0] : List ℚ),
   ([0, -1, 2, 2, 2, 7.2, -3, 0.0, 1, 0.0] : List ℚ),
   ([1, -1, 2, 0, 2, 9.4, -3, 0.0, 1, 0.0] : List ℚ),
   ([3, 0, 2, 0, 2, 5.5, -3, 0.0, 1, 0.0] : List ℚ),
   ([-2, 0, 2, 0, 2, 1615.7, -3, 0.0, 1, 0.0] : List ℚ),
   ([1, 0, 2, 0, 0, 9.1, 3, 0.0, 0, 0.0] : List ℚ),
   ([-1, 0, 2, 4, 2, 5.8, -2, 0.0, 1, 0.0] : List ℚ),
   ([1, 0, 0, 0, 2, 27.8, -2, 0.0, 1, 0.0] : List ℚ),
   ([-1, 0, 2, -2, 1, -32.6, -2, 0.0, 1, 0.0] : List ℚ),
   ([0, -2, 2, -2, 1, 6786.3, -2, 0.0, 1, 0.0] : List ℚ),
   ([-2, 0, 0, 0, 1, -13.7, -2, 0.0, 1, 0.0] : List ℚ),
   ([2, 0, 0, 0, 1, 13.8, 2, 0.0, -1, 0.0] : List ℚ),
   ([3, 0, 0, 0, 0, 9.2, 2, 0.0, 0, 0.0] : List ℚ),
   ([1, 1, 2, 0, 2, 8.9, 2, 0.0, -1, 0.0] : List ℚ),
   ([0, 0, 2, 1, 2, 9.3, 2, 0.0, -1, 0.0] : List ℚ),
   ([1, 0, 0, 2, 1, 9.6, -1, 0.0, 0, 0.0] : List ℚ),
   ([1, 0, 2, 2, 1, 5.6, -1, 0.0, 1, 0.0] : List ℚ),
   ([1, 1, 0, -2, 1, -34.7, -1, 0.0, 0, 0.0] : List ℚ),
   ([0, 1, 0, 2, 0, 14.2, -1, 0.0, 0, 0.0] : List ℚ),
   ([0, 1, 2, -2, 0, 117.5, -1, 0.0, 0, 0.0] : List ℚ),
   ([0, 1, -2, 2, 0, -329.8, -1, 0.0, 0, 0.0] : List ℚ),
   ([1, 0, -2, 2, 0, 23.8, -1, 0.0, 0, 0.0] : List ℚ),
   ([1, 0, -2, -2, 0, -9.5, -1, 0.0, 0, 0.0] : List ℚ),
   ([1, 0, 2, -2, 0, 32.8, -1, 0.0, 0, 0.0] : List ℚ),
   ([1, 0, 0, -4, 0, -10.1, -1, 0.0, 0, 0.0] : List ℚ),
   ([2, 0, 0, -4, 0, -15.9, -1, 0.0, 0, 0.0] : List ℚ),
   ([0, 0, 2, 4, 2, 4.8, -1, 0.0, 0, 0.0] : List ℚ),
   ([0, 0, 2, -1, 2, 25.4, -1, 0.0, 0, 0.0] : List ℚ),
   ([-2, 0, 2, 4, 2, 7.3, -1, 0.0, 1, 0.0] : List ℚ),
   ([2, 0, 2, 2, 2, 4.7, -1, 0.0, 0, 0.0] : List ℚ),
   ([0, -1, 2, 0, 1, 14.2, -1, 0.0, 0, 0.0] : List ℚ),
   ([0, 0, -2, 0, 1, -13.6, -1, 0.0, 0, 0.0] : List ℚ),
   ([0, 0, 4, -2, 2, 12.7, 1, 0.0, 0, 0.0] : List ℚ),
   ([0, 1, 0, 0, 2, 409.2, 1, 0.0, 0, 0.0] : List ℚ),
   ([1, 1, 2, -2, 2, 22.5, 1, 0.0, -1, 0.0] : List ℚ),
   ([3, 0, 2, -2, 2, 8.7, 1, 0.0, 0, 0.0] : List ℚ),
   ([-2, 0, 2, 2, 2, 14.6, 1, 0.0, -1, 0.0] : List ℚ),
   ([-1, 0, 0, 0, 2, -27.3, 1, 0.0, -1, 0.0] : List ℚ),
   ([0, 0, -2, 2, 1, -169.0, 1, 0.0, 0, 0.0] : List ℚ),
   ([0, 1, 2, 0, 1, 13.1, 1, 0.0, 0, 0.0] : List ℚ),
   ([-1, 0, 4, 0, 2, 9.1, 1, 0.0, 0, 0.0] : List ℚ),
   ([2, 1, 0, -2, 0, 131.7, 1, 0.0, 0, 0.0] : List ℚ),
   ([2, 0, 0, 2, 0, 7.1, 1, 0.0, 0, 0.0] : List ℚ),
   ([2, 0, 2, -2, 1, 12.8, 1, 0.0, -1, 0.0] : List ℚ),
   ([2, 0, -2, 0, 1, -943.2, 1, 0.0, 0, 0.0] : List ℚ),
   ([1, -1, 0, -2, 0, -29.3, 1, 0.0, 0, 0.0] : List ℚ),
   ([-1, 0, 0, 1, 1, -388.3, 1, 0.0, 0, 0.0] : List ℚ),
   ([-1, -1, 0, 2, 1, 35.0, 1, 0.0, 0, 0.0] : List ℚ),
   ([0, 1, 0, 1, 0, 27.3, 1, 0.0, 0, 0.0] : List ℚ)]

/-- Embedding of `nut_iau1980(t, f, dpsi, deps)`: the pair (`*dpsi`, `*deps`). -/
def nut_iau1980 (lm : Libm ℚ) (AS2R t : ℚ) (f : List ℚ) : ℚ × ℚ :=
  let s := nut.foldl (fun (acc : ℚ × ℚ) row =>
    let ang := 0 + row.getD 0 0 * f.getD 0 0 + row.getD 1 0 * f.getD 1 0 +
      row.getD 2 0 * f.getD 2 0 + row.getD 3 0 * f.getD 3 0 + row.getD 4 0 * f.getD 4 0
    (acc.1 + (row.getD 6 0 + row.getD 7 0 * t) * lm.sin ang,
      acc.2 + (row.getD 8 0 + row.getD 9 0 * t) * lm.cos ang)) (0, 0)
  (s.1 * (1e-4 * AS2R), s.2 * (1e-4 * AS2R))

/-- The static variables of `eci2ecef`: the single cache slot. -/
structure EciCache where
  /-- The static `tutc_`: the instant of the cached result. -/
  tutc_ : gtime_t
  /-- The static `U_`: the cached matrix. -/
  U_ : List ℚ
  /-- The static `gmst_`: the cached sidereal time. -/
  gmst_ : ℚ

/-- The static variables of `eci2ecef` when the program starts: zero-initialised. -/
def EciCache.init : EciCache := ⟨⟨0, 0⟩, zeros 9 1, 0⟩

/-- The elementary rotation about the x axis, as the header macro `Rx(t, X)` fills the
column-major array `X`, for the `sin` and `cos` of `lm`.  The macros `Rx`, `Ry`, `Rz` are
not among the sources and enter `eci2ecef` as parameters; `rotX`, `rotY`, `rotZ` are the
instances on which it is run. -/
def rotX (lm : Libm ℚ) (t : ℚ) : List ℚ :=
  [1, 0, 0, 0, lm.cos t, -lm.sin t, 0, lm.sin t, lm.cos t]

/-- The elementary rotation about the y axis, see `rotX`. -/
def rotY (lm : Libm ℚ) (t : ℚ) : List ℚ :=
  [lm.cos t, 0, lm.sin t, 0, 1, 0, -lm.sin t, 0, lm.cos t]

/-- The elementary rotation about the z axis, see `rotX`. -/
def rotZ (lm : Libm ℚ) (t : ℚ) : List ℚ :=
  [lm.cos t, -lm.sin t, 0, lm.sin t, lm.cos t, 0, 0, 0, 1]

/-- The part of `eci2ecef` after the cache test: the new `U_` and `gmst_` computed for the
instant `tutc` and the values `erpv`.  The rotation macros `Rx`, `Ry`, `Rz` of the header
enter as the functions giving the array they fill; the work arrays are on the stack, their
content before the call is `junk`. -/
def eciCompute (lm : Libm ℚ) (PI AS2R : ℚ) (Rx Ry Rz : ℚ → List ℚ) (table : List (List ℚ))
    (junk : List ℚ) (U_ : List ℚ) (tutc : gtime_t) (erpv : List ℚ) : List ℚ × ℚ :=
  let tgps := utc2gpst table tutc
  let t := (timediff tgps (epoch2time [2000, 1, 1, 12, 0, 0]) + 19 + 32.184) / 86400 / 36525
  let t2 := t * t
  let t3 := t2 * t
  let f := ast_args PI AS2R t
  let ze := (2306.2181 * t + 0.30188 * t2 + 0.017998 * t3) * AS2R
  let th := (2004.3109 * t - 0.42665 * t2 - 0.041833 * t3) * AS2R
  let z := (2306.2181 * t + 1.09468 * t2 + 0.018203 * t3) * AS2R
  let eps := (84381.448 - 46.8150 * t - 0.00059 * t2 + 0.001813 * t3) * AS2R
  let R := matmul ['N', 'N'] 3 3 3 1 (Rz (-z)) (Ry th) 0 (mat junk 3 3)
  let P := matmul ['N', 'N'] 3 3 3 1 R (Rz (-ze)) 0 (mat junk 3 3)
  let dpsi := (nut_iau1980 lm AS2R t f).1
  let deps := (nut_iau1980 lm AS2R t f).2
  let R := matmul ['N', 'N'] 3 3 3 1 (Rx (-eps - deps)) (Rz (-dpsi)) 0 R
  let N := matmul ['N', 'N'] 3 3 3 1 R (Rx eps) 0 (mat junk 3 3)
  let gmst_ := utc2gmst PI tutc (erpv.getD 2 0)
  let gast := gmst_ + dpsi * lm.cos eps
  let gast := gast + (0.00264 * lm.sin (f.getD 4 0) + 0.000063 * lm.sin (2 * f.getD 4 0)) * AS2R
  let W := matmul ['N', 'N'] 3 3 3 1 (Ry (-(erpv.getD 0 0))) (Rx (-(erpv.getD 1 0))) 0
    (mat junk 3 3)
  let R := matmul ['N', 'N'] 3 3 3 1 W (Rz gast) 0 R
  let NP := matmul ['N', 'N'] 3 3 3 1 N P 0 (mat junk 3 3)
  (matmul ['N', 'N'] 3 3 3 1 R NP 0 U_, gmst_)

/-- Embedding of `eci2ecef(tutc, erpv, U, gmst)` as a step on the cache slot: the slot after
the call, the array `U` after the call and `*gmst` (`none` for a null pointer). -/
def eci2ecef (lm : Libm ℚ) (PI AS2R : ℚ) (Rx Ry Rz : ℚ → List ℚ) (table : List (List ℚ))
    (junk : List ℚ) (c : EciCache) (tutc : gtime_t) (erpv U : List ℚ) (gmst : Option ℚ) :
    EciCache × List ℚ × Option ℚ :=
  if |timediff tutc c.tutc_| < 0.01 then
    (c, matcpy U c.U_ 9 1, gmst.map fun _ => c.gmst_)
  else
    let r := eciCompute lm PI AS2R Rx Ry Rz table junk c.U_ tutc erpv
    (⟨tutc, r.1, r.2⟩, matcpy U r.1 9 1, gmst.map fun _ => r.2)

/-! ## Checksums (`rtk_crc32`, `rtk_crc24q`, `rtk_crc16`)

The calls of `trace` at the head of the three routines write to the debug log only and are
left out.  The macro `POLYCRC32` of the header enters as an argument. -/

/-- The table `TBL_CR_C16`. -/
def TBL_CR_C16 : List Nat :=
  [0x0000, 0x1021, 0x2042, 0x3063, 0x4084, 0x50A5, 0x60C6, 0x70E7,
   0x8108, 0x9129, 0xA14A, 0xB16B, 0xC18C, 0xD1AD, 0xE1CE, 0xF1EF,
   0x1231, 0x0210, 0x3273, 0x2252, 0x52B5, 0x4294, 0x72F7, 0x62D6,
   0x9339, 0x8318, 0xB37B, 0xA35A, 0xD3BD, 0xC39C, 0xF3FF, 0xE3DE,
   0x2462, 0x3443, 0x0420, 0x1401, 0x64E6, 0x74C7, 0x44A4, 0x5485,
   0xA56A, 0xB54B, 0x8528, 0x9509, 0xE5EE, 0xF5CF, 0xC5AC, 0xD58D,
   0x3653, 0x2672, 0x1611, 0x0630, 0x76D7, 0x66F6, 0x5695, 0x46B4,
   0xB75B, 0xA77A, 0x9719, 0x8738, 0xF7DF, 0xE7FE, 0xD79D, 0xC7BC,
   0x48C4, 0x58E5, 0x6886, 0x78A7, 0x0840, 0x1861, 0x2802, 0x3823,
   0xC9CC, 0xD9ED, 0xE98E, 0xF9AF, 0x8948, 0x9969, 0xA90A, 0xB92B,
   0x5AF5, 0x4AD4, 0x7AB7, 0x6A96, 0x1A71, 0x0A50, 0x3A33, 0x2A12,
   0xDBFD, 0xCBDC, 0xFBBF, 0xEB9E, 0x9B79, 0x8B58, 0xBB3B, 0xAB1A,
   0x6CA6, 0x7C87, 0x4CE4, 0x5CC5, 0x2C22, 0x3C03, 0x0C60, 0x1C41,
   0xEDAE, 0xFD8F, 0xCDEC, 0xDDCD, 0xAD2A, 0xBD0B, 0x8D68, 0x9D49,
   0x7E97, 0x6EB6, 0x5ED5, 0x4EF4, 0x3E13, 0x2E32, 0x1E51, 0x0E70,
   0xFF9F, 0xEFBE, 0xDFDD, 0xCFFC, 0xBF1B, 0xAF3A, 0x9F59, 0x8F78,
   0x9188, 0x81A9, 0xB1CA, 0xA1EB, 0xD10C, 0xC12D, 0xF14E, 0xE16F,
   0x1080, 0x00A1, 0x30C2, 0x20E3, 0x5004, 0x4025, 0x7046, 0x6067,
   0x83B9, 0x9398, 0xA3FB, 0xB3DA, 0xC33D, 0xD31C, 0xE37F, 0xF35E,
   0x02B1, 0x1290, 0x22F3, 0x32D2, 0x4235, 0x5214, 0x6277, 0x7256,
   0xB5EA, 0xA5CB, 0x95A8, 0x8589, 0xF56E, 0xE54F, 0xD52C, 0xC50D,
   0x34E2, 0x24C3, 0x14A0, 0x0481, 0x7466, 0x6447, 0x5424, 0x4405,
   0xA7DB, 0xB7FA, 0x8799, 0x97B8, 0xE75F, 0xF77E, 0xC71D, 0xD73C,
   0x26D3, 0x36F2, 0x0691, 0x16B0, 0x6657, 0x7676, 0x4615, 0x5634,
   0xD94C, 0xC96D, 0xF90E, 0xE92F, 0x99C8, 0x89E9, 0xB98A, 0xA9AB,
   0x5844, 0x4865, 0x7806, 0x6827, 0x18C0, 0x08E1, 0x3882, 0x28A3,
   0xCB7D, 0xDB5C, 0xEB3F, 0xFB1E, 0x8BF9, 0x9BD8, 0xABBB, 0xBB9A,
   0x4A75, 0x5A54, 0x6A37, 0x7A16, 0x0AF1, 0x1AD0, 0x2AB3, 0x3A92,
   0xFD2E, 0xED0F, 0xDD6C, 0xCD4D, 0xBDAA, 0xAD8B, 0x9DE8, 0x8DC9,
   0x7C26, 0x6C07, 0x5C64, 0x4C45, 0x3CA2, 0x2C83, 0x1CE0, 0x0CC1,
   0xEF1F, 0xFF3E, 0xCF5D, 0xDF7C, 0xAF9B, 0xBFBA, 0x8FD9, 0x9FF8,
   0x6E17, 0x7E36, 0x4E55, 0x5E74, 0x2E93, 0x3EB2, 0x0ED1, 0x1EF0]

/-- The table `TBL_CR_C24_Q`. -/
def TBL_CR_C24_Q : List Nat :=
  [0x000000, 0x864CFB, 0x8AD50D, 0x0C99F6, 0x93E6E1, 0x15AA1A, 0x1933EC, 0x9F7F17,
   0xA18139, 0x27CDC2, 0x2B5434, 0xAD18CF, 0x3267D8, 0xB42B23, 0xB8B2D5, 0x3EFE2E,
   0xC54E89, 0x430272, 0x4F9B84, 0xC9D77F, 0x56A868, 0xD0E493, 0xDC7D65, 0x5A319E,
   0x64CFB0, 0xE2834B, 0xEE1ABD, 0x685646, 0xF72951, 0x7165AA, 0x7DFC5C, 0xFBB0A7,
   0x0CD1E9, 0x8A9D12, 0x8604E4, 0x00481F, 0x9F3708, 0x197BF3, 0x15E205, 0x93AEFE,
   0xAD50D0, 0x2B1C2B, 0x2785DD, 0xA1C926, 0x3EB631, 0xB8FACA, 0xB4633C, 0x322FC7,
   0xC99F60, 0x4FD39B, 0x434A6D, 0xC50696, 0x5A7981, 0xDC357A, 0xD0AC8C, 0x56E077,
   0x681E59, 0xEE52A2, 0xE2CB54, 0x6487AF, 0xFBF8B8, 0x7DB443, 0x712DB5, 0xF7614E,
   0x19A3D2, 0x9FEF29, 0x9376DF, 0x153A24, 0x8A4533, 0x0C09C8, 0x00903E, 0x86DCC5,
   0xB822EB, 0x3E6E10, 0x32F7E6, 0xB4BB1D, 0x2BC40A, 0xAD88F1, 0xA11107, 0x275DFC,
   0xDCED5B, 0x5AA1A0, 0x563856, 0xD074AD, 0x4F0BBA, 0xC94741, 0xC5DEB7, 0x43924C,
   0x7D6C62, 0xFB2099, 0xF7B96F, 0x71F594, 0xEE8A83, 0x68C678, 0x645F8E, 0xE21375,
   0x15723B, 0x933EC0, 0x9FA736, 0x19EBCD, 0x8694DA, 0x00D821, 0x0C41D7, 0x8A0D2C,
   0xB4F302, 0x32BFF9, 0x3E260F, 0xB86AF4, 0x2715E3, 0xA15918, 0xADC0EE, 0x2B8C15,
   0xD03CB2, 0x567049, 0x5AE9BF, 0xDCA544, 0x43DA53, 0xC596A8, 0xC90F5E, 0x4F43A5,
   0x71BD8B, 0xF7F170, 0xFB6886, 0x7D247D, 0xE25B6A, 0x641791, 0x688E67, 0xEEC29C,
   0x3347A4, 0xB50B5F, 0xB992A9, 0x3FDE52, 0xA0A145, 0x26EDBE, 0x2A7448, 0xAC38B3,
   0x92C69D, 0x148A66, 0x181390, 0x9E5F6B, 0x01207C, 0x876C87, 0x8BF571, 0x0DB98A,
   0xF6092D, 0x7045D6, 0x7CDC20, 0xFA90DB, 0x65EFCC, 0xE3A337, 0xEF3AC1, 0x69763A,
   0x578814, 0xD1C4EF, 0xDD5D19, 0x5B11E2, 0xC46EF5, 0x42220E, 0x4EBBF8, 0xC8F703,
   0x3F964D, 0xB9DAB6, 0xB54340, 0x330FBB, 0xAC70AC, 0x2A3C57, 0x26A5A1, 0xA0E95A,
   0x9E1774, 0x185B8F, 0x14C279, 0x928E82, 0x0DF195, 0x8BBD6E, 0x872498, 0x016863,
   0xFAD8C4, 0x7C943F, 0x700DC9, 0xF64132, 0x693E25, 0xEF72DE, 0xE3EB28, 0x65A7D3,
   0x5B59FD, 0xDD1506, 0xD18CF0, 0x57C00B, 0xC8BF1C, 0x4EF3E7, 0x426A11, 0xC426EA,
   0x2AE476, 0xACA88D, 0xA0317B, 0x267D80, 0xB90297, 0x3F4E6C, 0x33D79A, 0xB59B61,
   0x8B654F, 0x0D29B4, 0x01B042, 0x87FCB9, 0x1883AE, 0x9ECF55, 0x9256A3, 0x141A58,
   0xEFAAFF, 0x69E604, 0x657FF2, 0xE33309, 0x7C4C1E, 0xFA00E5, 0xF69913, 0x70D5E8,
   0x4E2BC6, 0xC8673D, 0xC4FECB, 0x42B230, 0xDDCD27, 0x5B81DC, 0x57182A, 0xD154D1,
   0x26359F, 0xA07964, 0xACE092, 0x2AAC69, 0xB5D37E, 0x339F85, 0x3F0673, 0xB94A88,
   0x87B4A6, 0x01F85D, 0x0D61AB, 0x8B2D50, 0x145247, 0x921EBC, 0x9E874A, 0x18CBB1,
   0xE37B16, 0x6537ED, 0x69AE1B, 0xEFE2E0, 0x709DF7, 0xF6D10C, 0xFA48FA, 0x7C0401,
   0x42FA2F, 0xC4B6D4, 0xC82F22, 0x4E63D9, 0xD11CCE, 0x575035, 0x5BC9C3, 0xDD8538]

/-- The inner loop `for (j = 0; j < 8; j++)` of `rtk_crc32` with `n` passes left:
`if (crc & 1) crc = (crc >> 1) ^ POLYCRC32; else crc >>= 1`. -/
def crc32Bits (POLYCRC32 : Nat) : Nat → Nat → Nat
  | 0, crc => crc
  | n + 1, crc =>
    crc32Bits POLYCRC32 n (if crc &&& 1 ≠ 0 then u32 ((crc >>> 1) ^^^ POLYCRC32) else crc >>> 1)

/-- The loop `for (i = 0; i < len; i++)` of `rtk_crc32` from the state `(i, crc)` with `n`
passes left. -/
def crc32Loop (POLYCRC32 : Nat) (buff : List Nat) : Nat → Nat → Nat → Nat
  | _, 0, crc => crc
  | i, n + 1, crc =>
    crc32Loop POLYCRC32 buff (i + 1) n (crc32Bits POLYCRC32 8 (u32 (crc ^^^ buff.getD i 0)))

/-- Embedding of `rtk_crc32(buff, len)`. -/
def rtk_crc32 (POLYCRC32 : Nat) (buff : List Nat) (len : Int) : Nat :=
  crc32Loop POLYCRC32 buff 0 len.toNat 0

/-- The loop `for (i = 0; i < len; i++)` of `rtk_crc24q` from the state `(i, crc)` with `n`
passes left: `crc = ((crc << 8) & 0xFFFFFF) ^ TBL_CR_C24_Q[(crc >> 16) ^ buff[i]]`. -/
def crc24qLoop (buff : List Nat) : Nat → Nat → Nat → Nat
  | _, 0, crc => crc
  | i, n + 1, crc =>
    crc24qLoop buff (i + 1) n
      (u32 ((u32 (crc <<< 8) &&& 0xFFFFFF) ^^^
        TBL_CR_C24_Q.getD ((crc >>> 16) ^^^ buff.getD i 0) 0))

/-- Embedding of `rtk_crc24q(buff, len)`. -/
def rtk_crc24q (buff : List Nat) (len : Int) : Nat :=
  crc24qLoop buff 0 len.toNat 0

/-- The loop `for (i = 0; i < len; i++)` of `rtk_crc16` from the state `(i, crc)` with `n`
passes left: `crc = (crc << 8) ^ TBL_CR_C16[((crc >> 8) ^ buff[i]) & 0xFF]`, narrowed to the
`uint16_t` it is stored in. -/
def crc16Loop (buff : List Nat) : Nat → Nat → Nat → Nat
  | _, 0, crc => crc
  | i, n + 1, crc =>
    crc16Loop buff (i + 1) n
      (((crc <<< 8) ^^^ TBL_CR_C16.getD (((crc >>> 8) ^^^ buff.getD i 0) &&& 0xFF) 0) % 2 ^ 16)

/-- Embedding of `rtk_crc16(buff, len)`. -/
def rtk_crc16 (buff : List Nat) (len : Int) : Nat :=
  crc16Loop buff 0 len.toNat 0

/-- One step of the division by the CRC-24Q polynomial as the specification words it:
shift left by one; if bit 24 is set, xor with `0x1864CFB`. -/
def crc24qShift (x : Nat) : Nat :=
  if (x <<< 1) &&& 0x1000000 ≠ 0 then (x <<< 1) ^^^ 0x1864CFB else x <<< 1

/-- Eight steps of `crc24qShift`. -/
def crc24qShift8 (x : Nat) : Nat :=
  crc24qShift (crc24qShift (crc24qShift (crc24qShift (crc24qShift (crc24qShift (crc24qShift
    (crc24qShift x)))))))

/-- The MSB-first bitwise CRC of the specification with polynomial `0x1864CFB`, zero
initial value and no final xor: each byte is xor-ed into the top eight of the 24 bits, then
eight steps of the division follow. -/
def crc24qBitwise (bytes : List Nat) : Nat :=
  bytes.foldl (fun crc b => crc24qShift8 (crc ^^^ (b <<< 16))) 0

/-! ## Angles in degrees, minutes and seconds (`deg2dms`, `dms2deg`) -/

/-- Embedding of the two-argument `deg2dms(deg, dms)`: the array `dms` after the call. -/
def deg2dms (deg : ℚ) (dms : List ℚ) : List ℚ :=
  let sign : ℚ := if deg < 0 then -1 else 1
  let a := |deg|
  let d0 : ℚ := ((⌊a⌋ : Int) : ℚ)
  let a := (a - d0) * 60
  let d1 : ℚ := ((⌊a⌋ : Int) : ℚ)
  let a := (a - d1) * 60
  [d0 * sign, d1, a] ++ dms.drop 3

/-- Embedding of `dms2deg(dms)`. -/
def dms2deg (dms : List ℚ) : ℚ :=
  let sign : ℚ := if dms.getD 0 0 < 0 then -1 else 1
  sign * (|dms.getD 0 0| + dms.getD 1 0 / 60 + dms.getD 2 0 / 3600)

/-! ## Saastamoinen troposphere model (`tropmodel`) -/

/-- The local `hgt` of `tropmodel`. -/
def tropmodel_hgt (pos : List ℚ) : ℚ := if pos.getD 2 0 < 0 then 0 else pos.getD 2 0

/-- The local `temp` of `tropmodel`: `temp0 - 6.5E-3 * hgt + 273.16` with `temp0 = 15.0`. -/
def tropmodel_temp (pos : List ℚ) : ℚ := 15 - 6.5e-3 * tropmodel_hgt pos + 273.16

/-- The hydrostatic term `trph` of `tropmodel`. -/
def tropmodel_trph (lm : Libm ℚ) (PI : ℚ) (pos azel : List ℚ) : ℚ :=
  let hgt := tropmodel_hgt pos
  let pres := 1013.25 * lm.pow (1 - 2.2557e-5 * hgt) 5.2568
  let z := PI / 2 - azel.getD 1 0
  0.0022768 * pres / (1 - 0.00266 * lm.cos (2 * pos.getD 0 0) - 0.00028 * hgt / 1000) / lm.cos z

/-- The wet term `trpw` of `tropmodel`. -/
def tropmodel_trpw (lm : Libm ℚ) (PI : ℚ) (pos azel : List ℚ) (humi : ℚ) : ℚ :=
  let temp := tropmodel_temp pos
  let e := 6.108 * humi * lm.exp ((17.15 * temp - 4684) / (temp - 38.45))
  let z := PI / 2 - azel.getD 1 0
  0.002277 * (1255 / temp + 0.05) * e / lm.cos z

/-- Embedding of `tropmodel(time, pos, azel, humi)`; the argument `time` is unused. -/
def tropmodel (lm : Libm ℚ) (PI : ℚ) (_time : gtime_t) (pos azel : List ℚ) (humi : ℚ) : ℚ :=
  if pos.getD 2 0 < -100 ∨ 10000 < pos.getD 2 0 ∨ azel.getD 1 0 ≤ 0 then 0
  else tropmodel_trph lm PI pos azel + tropmodel_trpw lm PI pos azel humi

/-! ## Phase wind-up (`cross3`, `normv3`, `sunmoonpos`, `windupcorr`) -/

/-- The update of `z` in one pass of the loop of `ecef2pos` (the first argument of the
recursive call of `ecef2posLoop`): `r[2] + v * e2 * sinp` with `sinp = z / sqrt(r2 + z * z)`
and `v = RE_WGS84 / sqrt(1 - e2 * sinp * sinp)`. -/
def ecef2posStep {K : Type} [LinearOrderedField K] (lm : Libm K) (RE_WGS84 e2 r2 rz z : K) : K :=
  rz + RE_WGS84 / lm.sqrt (1 - e2 * (z / lm.sqrt (r2 + z * z)) *
    (z / lm.sqrt (r2 + z * z))) * e2 * (z / lm.sqrt (r2 + z * z))

theorem bitAt_eq_specBit (buff : List Nat) (i : Nat) : bitAt buff i = specBit buff i := by
  simp [bitAt, specBit, Nat.shiftRight_eq_div_pow, Nat.and_one_is_mod]

theorem bitAt_eq_testBit (buff : List Nat) (i : Nat) :
    bitAt buff i = ((buff.getD (i / 8) 0).testBit (7 - i % 8)).toNat := by
  rw [Nat.toNat_testBit, bitAt, Nat.shiftRight_eq_div_pow, Nat.and_one_is_mod]

theorem bitAt_le_one (buff : List Nat) (i : Nat) : bitAt buff i ≤ 1 := by
  rw [bitAt_eq_testBit]; exact Bool.toNat_le _

theorem fieldValue_lt (buff : List Nat) (n i : Nat) : fieldValue buff i n < 2 ^ n := by
  induction n generalizing i with
  | zero => simp [fieldValue]
  | succ n ih =>
    have h1 := ih (i + 1)
    have h2 := bitAt_le_one buff i
    have h3 : bitAt buff i * 2 ^ n ≤ 1 * 2 ^ n := Nat.mul_le_mul_right _ h2
    rw [fieldValue, pow_succ]
    omega

theorem getbituLoop_eq (buff : List Nat) (n : Nat) :
    ∀ (i bits k : Nat), bits < 2 ^ k → k + n ≤ 32 →
      getbituLoop buff i n bits = bits * 2 ^ n + fieldValue buff i n := by
  induction n with
  | zero => intro i bits k _ _; simp [getbituLoop, fieldValue]
  | succ n ih =>
    intro i bits k hb hk
    have hbit := bitAt_le_one buff i
    have hlt : bits * 2 + bitAt buff i < 2 ^ (k + 1) := by rw [pow_succ]; omega
    have hle : 2 ^ (k + 1) ≤ 2 ^ 32 := Nat.pow_le_pow_right (by norm_num) (by omega)
    have hstep : u32 (u32 (bits <<< 1) + bitAt buff i) = bits * 2 + bitAt buff i := by
      have e1 : bits <<< 1 = bits * 2 := by simp [Nat.shiftLeft_eq]
      rw [e1, u32, u32, Nat.mod_eq_of_lt (by omega), Nat.mod_eq_of_lt (by omega)]
    rw [getbituLoop, hstep, ih (i + 1) _ (k + 1) hlt (by omega), fieldValue, pow_succ]
    ring

theorem getbitu_eq_fieldValue (buff : List Nat) (pos n : Nat) (hn : n ≤ 32) :
    getbitu buff pos (n : Int) = fieldValue buff pos n := by
  have h := getbituLoop_eq buff n pos 0 0 (by norm_num) (by omega)
  simpa [getbitu] using h

theorem fieldValue_eq_sum (buff : List Nat) (n i : Nat) :
    fieldValue buff i n = ∑ k in Finset.range n, specBit buff (i + k) * 2 ^ (n - 1 - k) := by
  induction n generalizing i with
  | zero => simp [fieldValue]
  | succ n ih =>
    rw [fieldValue, Finset.sum_range_succ', ih (i + 1), bitAt_eq_specBit]
    have : ∀ k ∈ Finset.range n,
        specBit buff (i + 1 + k) * 2 ^ (n - 1 - k) =
          specBit buff (i + (k + 1)) * 2 ^ (n + 1 - 1 - (k + 1)) := by
      intro k _
      have e1 : i + 1 + k = i + (k + 1) := by omega
      have e2 : n + 1 - 1 - (k + 1) = n - 1 - k := by omega
      rw [e1, e2]
    rw [Finset.sum_congr rfl this]
    simp [Nat.add_comm]

theorem fieldValue_eq_mod (buff : List Nat) (d n : Nat) :
    ∀ i, (∀ k, k < n → bitAt buff (i + k) = (d.testBit (n - 1 - k)).toNat) →
      fieldValue buff i n = d % 2 ^ n := by
  induction n with
  | zero => intro i _; simp [fieldValue, Nat.mod_one]
  | succ n ih =>
    intro i h
    have h0 := h 0 (by omega)
    have hrest : ∀ k, k < n → bitAt buff (i + 1 + k) = (d.testBit (n - 1 - k)).toNat := by
      intro k hk
      have := h (k + 1) (by omega)
      have e1 : i + (k + 1) = i + 1 + k := by omega
      have e2 : n + 1 - 1 - (k + 1) = n - 1 - k := by omega
      rwa [e1, e2] at this
    simp only [Nat.add_zero, Nat.add_sub_cancel, Nat.sub_zero] at h0
    rw [fieldValue, ih (i + 1) hrest, h0, Nat.toNat_testBit, Nat.mod_pow_succ]
    ring

theorem setBitStep_length (buff : List Nat) (i : Nat) (v : Bool) :
    (setBitStep buff i v).length = buff.length := by
  unfold setBitStep; split <;> simp

theorem getD_setBitStep_ne (buff : List Nat) (i : Nat) (v : Bool) (j : Nat) (h : j ≠ i / 8) :
    (setBitStep buff i v).getD j 0 = buff.getD j 0 := by
  have h2 : ¬ (i / 8 = j) := fun e => h e.symm
  unfold setBitStep
  split <;> simp [List.getD_eq_getElem?_getD, List.getElem?_set, h2]

theorem setByte_testBit (b k m : Nat) (hk : k < 8) (v : Bool) :
    (if v then (b ||| (1 <<< k)) % 256
      else (b &&& ((2 ^ 32 - 1) ^^^ (1 <<< k))) % 256).testBit m =
      (decide (m < 8) && (if m = k then v else b.testBit m)) := by
  have e256 : (256 : Nat) = 2 ^ 8 := by norm_num
  cases v with
  | true =>
    simp only [if_true, e256, Nat.testBit_mod_two_pow, Nat.testBit_or, Nat.one_shiftLeft,
      Nat.testBit_two_pow]
    by_cases hm : m = k
    · subst hm; simp
    · have : ¬ (k = m) := fun e => hm e.symm
      simp [hm, this]
  | false =>
    simp only [Bool.false_eq_true, if_false, e256, Nat.testBit_mod_two_pow, Nat.testBit_and,
      Nat.testBit_xor, Nat.one_shiftLeft, Nat.testBit_two_pow, Nat.testBit_two_pow_sub_one]
    by_cases hm : m = k
    · subst hm
      have : m < 32 := by omega
      simp [this]
    · have : ¬ (k = m) := fun e => hm e.symm
      by_cases h8 : m < 8
      · have : m < 32 := by omega
        simp [*]
      · simp [*]

theorem bitAt_setBitStep_self (buff : List Nat) (i : Nat) (v : Bool)
    (h : i / 8 < buff.length) : bitAt (setBitStep buff i v) i = v.toNat := by
  have hk : 7 - i % 8 < 8 := by omega
  have hb := setByte_testBit (buff.getD (i / 8) 0) (7 - i % 8) (7 - i % 8) hk v
  rw [bitAt_eq_testBit]
  unfold setBitStep
  cases v <;>
    simp [List.getD_eq_getElem?_getD, List.getElem?_set, h] at hb ⊢ <;> simp [hb, hk]

theorem bitAt_setBitStep_ne (buff : List Nat) (i j : Nat) (v : Bool) (h : j ≠ i) :
    bitAt (setBitStep buff i v) j = bitAt buff j := by
  by_cases hbyte : j / 8 = i / 8
  · by_cases hlen : i / 8 < buff.length
    · have hk : 7 - i % 8 < 8 := by omega
      have hm : 7 - j % 8 ≠ 7 - i % 8 := by omega
      have hm8 : 7 - j % 8 < 8 := by omega
      have hb := setByte_testBit (buff.getD (i / 8) 0) (7 - i % 8) (7 - j % 8) hk v
      rw [bitAt_eq_testBit, bitAt_eq_testBit, hbyte]
      unfold setBitStep
      cases v <;>
        simp [List.getD_eq_getElem?_getD, List.getElem?_set, hlen, hm, hm8] at hb ⊢ <;>
        simp [hb]
    · have hnone : ∀ x, buff.set (i / 8) x = buff := by
        intro x
        apply List.ext_getElem?
        intro n
        rw [List.getElem?_set]
        by_cases e : i / 8 = n
        · subst e
          simp [hlen, List.getElem?_eq_none (Nat.le_of_not_lt hlen)]
        · simp [e]
      unfold setBitStep
      split <;> simp [hnone]
  · rw [bitAt, bitAt, getD_setBitStep_ne buff i v (j / 8) hbyte]

theorem and_two_pow_ne_zero (data m : Nat) :
    decide (data &&& 2 ^ m ≠ 0) = data.testBit m := by
  rw [Nat.and_two_pow]
  have hp : 0 < 2 ^ m := Nat.pow_pos (by norm_num)
  cases h : data.testBit m
  · simp
  · simp [Nat.ne_of_gt hp]

theorem setbituLoop_spec (data : Nat) (n : Nat) :
    ∀ (buff : List Nat) (i mask : Nat), (∀ m, n = m + 1 → mask = 2 ^ m) →
      i + n ≤ 8 * buff.length →
      (setbituLoop data buff i n mask).length = buff.length ∧
      (∀ k, k < n →
        bitAt (setbituLoop data buff i n mask) (i + k) = (data.testBit (n - 1 - k)).toNat) ∧
      (∀ j, j < i ∨ i + n ≤ j → bitAt (setbituLoop data buff i n mask) j = bitAt buff j) := by
  induction n with
  | zero => intro buff i mask _ _; simp [setbituLoop]
  | succ n ih =>
    intro buff i mask hmask hlen
    have hm : mask = 2 ^ n := hmask n rfl
    have hmask2 : ∀ m, n = m + 1 → mask >>> 1 = 2 ^ m := by
      intro m e
      rw [hm, e, Nat.shiftRight_eq_div_pow, pow_succ]; simp
    have hlen2 : i + 1 + n ≤ 8 * (setBitStep buff i (decide (data &&& mask ≠ 0))).length := by
      rw [setBitStep_length]; omega
    obtain ⟨h1, h2, h3⟩ :=
      ih (setBitStep buff i (decide (data &&& mask ≠ 0))) (i + 1) (mask >>> 1) hmask2 hlen2
    rw [setbituLoop]
    refine ⟨by rw [h1, setBitStep_length], ?_, ?_⟩
    · intro k hk
      cases k with
      | zero =>
        show bitAt _ i = _
        rw [h3 i (Or.inl (by omega)),
          bitAt_setBitStep_self buff i _ (by omega), hm, and_two_pow_ne_zero]
        simp
      | succ k =>
        have := h2 k (by omega)
        have e1 : i + (k + 1) = i + 1 + k := by omega
        have e2 : n + 1 - 1 - (k + 1) = n - 1 - k := by omega
        rw [e1, e2]; exact this
    · intro j hj
      rw [h3 j (by omega), bitAt_setBitStep_ne buff i j _ (by omega)]

theorem u32_one_shiftLeft (m : Nat) (h : m < 32) : u32 (1 <<< m) = 2 ^ m := by
  rw [Nat.one_shiftLeft, u32]
  exact Nat.mod_eq_of_lt (Nat.pow_lt_pow_right (by norm_num) h)

theorem setbitu_nat (buff : List Nat) (pos n data : Nat) (h1 : 1 ≤ n) (h32 : n ≤ 32) :
    setbitu buff pos (n : Int) data = setbituLoop data buff pos n (2 ^ (n - 1)) := by
  have e : ((n : Int) - 1).toNat = n - 1 := by omega
  have c : ¬ ((n : Int) ≤ 0 ∨ 32 < (n : Int)) := by omega
  rw [setbitu, if_neg c, e, u32_one_shiftLeft _ (by omega)]
  simp

/-- The bits of the buffer after `setbitu`: inside the field they are the low `n` bits of
`data`, most significant first; outside they are unchanged; the length is unchanged. -/
theorem setbitu_spec (buff : List Nat) (pos n data : Nat) (h1 : 1 ≤ n) (h32 : n ≤ 32)
    (hin : pos + n ≤ 8 * buff.length) :
    (setbitu buff pos (n : Int) data).length = buff.length ∧
    (∀ k, k < n →
      bitAt (setbitu buff pos (n : Int) data) (pos + k) = (data.testBit (n - 1 - k)).toNat) ∧
    (∀ j, j < pos ∨ pos + n ≤ j →
      bitAt (setbitu buff pos (n : Int) data) j = bitAt buff j) := by
  rw [setbitu_nat buff pos n data h1 h32]
  apply setbituLoop_spec data n buff pos (2 ^ (n - 1)) _ hin
  intro m e
  rw [e]; simp

theorem getbitu_setbitu_nat (buff : List Nat) (pos n data : Nat) (h1 : 1 ≤ n) (h32 : n ≤ 32)
    (hin : pos + n ≤ 8 * buff.length) :
    getbitu (setbitu buff pos (n : Int) data) pos (n : Int) = data % 2 ^ n := by
  rw [getbitu_eq_fieldValue _ _ _ h32]
  exact fieldValue_eq_mod _ data n pos (setbitu_spec buff pos n data h1 h32 hin).2.1

theorem topBit_iff (u q : Nat) (hq : 0 < q) (hu : u < 2 * q) : u / q % 2 = 1 ↔ q ≤ u := by
  have h2 : u / q < 2 := (Nat.div_lt_iff_lt_mul hq).2 (by omega)
  constructor
  · intro h
    have h1 : u / q = 1 := by
      generalize u / q = d at *
      omega
    have := Nat.div_mul_le_self u q
    rw [h1] at this; omega
  · intro h
    have : 0 < u / q := Nat.div_pos h hq
    generalize u / q = d at *
    omega

theorem u32_ones_shiftLeft (n : Nat) (h : n ≤ 32) :
    u32 ((2 ^ 32 - 1) <<< n) = 2 ^ n * (2 ^ (32 - n) - 1) := by
  interval_cases n <;> rfl

theorem or_high_ones (u n : Nat) (hn : n ≤ 32) (hu : u < 2 ^ n) :
    (u ||| u32 ((2 ^ 32 - 1) <<< n)) + 2 ^ n = u + 2 ^ 32 := by
  rw [u32_ones_shiftLeft n hn, Nat.or_comm, ← Nat.mul_add_lt_is_or hu, Nat.mul_sub, Nat.mul_one,
    ← pow_add]
  have e : n + (32 - n) = 32 := by omega
  have hle : 2 ^ n ≤ 2 ^ 32 := Nat.pow_le_pow_right (by norm_num) hn
  rw [e]; omega

theorem and_mask_eq_zero_iff (u m : Nat) : u &&& 2 ^ m = 0 ↔ ¬ (u / 2 ^ m % 2 = 1) := by
  rw [Nat.and_two_pow, Nat.toNat_testBit]
  have hp : 0 < 2 ^ m := Nat.pow_pos (by norm_num)
  have h2 : u / 2 ^ m % 2 < 2 := Nat.mod_lt _ (by norm_num)
  constructor
  · intro h
    rcases Nat.mul_eq_zero.1 h with h | h <;> omega
  · intro h
    have : u / 2 ^ m % 2 = 0 := by omega
    simp [this]

/-- Value of `getbits` on a field of `n` bits, `1 ≤ n ≤ 32`, from the unsigned value of
the field. -/
theorem getbits_nat (buff : List Nat) (pos n : Nat) (h1 : 1 ≤ n) (h32 : n ≤ 32) :
    getbits buff pos (n : Int) =
      if fieldValue buff pos n / 2 ^ (n - 1) % 2 = 1 then (fieldValue buff pos n : Int) - 2 ^ n
      else (fieldValue buff pos n : Int) := by
  have hu := fieldValue_lt buff n pos
  have e1 : ((n : Int) - 1).toNat = n - 1 := by omega
  have hq : 0 < 2 ^ (n - 1) := Nat.pow_pos (by norm_num)
  have hpq : 2 ^ n = 2 * 2 ^ (n - 1) := by
    have : n = (n - 1) + 1 := by omega
    rw [this, pow_succ]; simp; ring
  have htop := topBit_iff (fieldValue buff pos n) (2 ^ (n - 1)) hq (by omega)
  have hle : 2 ^ n ≤ 2 ^ 32 := Nat.pow_le_pow_right (by norm_num) h32
  simp only [getbits, getbitu_eq_fieldValue buff pos n h32, e1, Int.toNat_ofNat,
    u32_one_shiftLeft (n - 1) (by omega), and_mask_eq_zero_iff]
  generalize fieldValue buff pos n = u at *
  by_cases h32' : n = 32
  · subst h32'
    have c : ((32 : Nat) : Int) ≤ 0 ∨ 32 ≤ ((32 : Nat) : Int) ∨ ¬ (u / 2 ^ (32 - 1) % 2 = 1) :=
      Or.inr (Or.inl (by norm_num))
    rw [if_pos c]
    simp only [toInt32, int32]
    norm_num at hu htop ⊢
    split <;> omega
  · have hlt : n < 32 := by omega
    have hle31 : 2 ^ n ≤ 2 ^ 31 := Nat.pow_le_pow_right (by norm_num) (by omega)
    by_cases hb : u / 2 ^ (n - 1) % 2 = 1
    · have c : ¬ ((n : Int) ≤ 0 ∨ 32 ≤ (n : Int) ∨ ¬ (u / 2 ^ (n - 1) % 2 = 1)) := by
        intro h
        rcases h with h | h | h
        · omega
        · omega
        · exact h hb
      rw [if_neg c, if_pos hb]
      have hor := or_high_ones u n h32 hu
      have hge := htop.1 hb
      simp only [toInt32, int32]
      generalize u ||| u32 ((2 ^ 32 - 1) <<< n) = x at hor
      have hx : (x : Int) = (u : Int) + 2 ^ 32 - 2 ^ n := by
        have : ((x + 2 ^ n : Nat) : Int) = ((u + 2 ^ 32 : Nat) : Int) := by rw [hor]
        push_cast at this
        linarith
      have hP : ((2 : Int) ^ n) = ((2 ^ n : Nat) : Int) := by push_cast; rfl
      rw [hx, hP]
      generalize 2 ^ n = P at *
      norm_num at hle31 ⊢
      omega
    · have c : (n : Int) ≤ 0 ∨ 32 ≤ (n : Int) ∨ ¬ (u / 2 ^ (n - 1) % 2 = 1) :=
        Or.inr (Or.inr hb)
      rw [if_pos c, if_neg hb]
      simp only [toInt32, int32]
      norm_num at hle31 ⊢
      omega

theorem signWord_nat (n : Nat) (data : Int) (h1 : 1 ≤ n) (h32 : n ≤ 32) :
    signWord (n : Int) data =
      if data < 0 then toU32 data ||| 2 ^ (n - 1)
      else toU32 data &&& ((2 ^ 32 - 1) ^^^ 2 ^ (n - 1)) := by
  have e1 : ((n : Int) - 1).toNat = n - 1 := by omega
  simp only [signWord, e1, u32_one_shiftLeft (n - 1) (by omega)]

theorem signWord_testBit_top (n : Nat) (data : Int) (h1 : 1 ≤ n) (h32 : n ≤ 32) :
    (signWord (n : Int) data).testBit (n - 1) = decide (data < 0) := by
  have hlt : n - 1 < 32 := by omega
  rw [signWord_nat n data h1 h32]
  by_cases hd : data < 0
  · simp [hd, Nat.testBit_or, Nat.testBit_two_pow]
  · rw [if_neg hd, Nat.testBit_and, Nat.testBit_xor, Nat.testBit_two_pow_sub_one,
      Nat.testBit_two_pow]
    simp [hd, hlt]

theorem signWord_testBit_low (n : Nat) (data : Int) (h1 : 1 ≤ n) (h32 : n ≤ 32) (j : Nat)
    (hj : j < n - 1) : (signWord (n : Int) data).testBit j = (toU32 data).testBit j := by
  have hlt : j < 32 := by omega
  have hne : ¬ (n - 1 = j) := by omega
  rw [signWord_nat n data h1 h32]
  by_cases hd : data < 0
  · simp [hd, Nat.testBit_or, Nat.testBit_two_pow, hne]
  · rw [if_neg hd, Nat.testBit_and, Nat.testBit_xor, Nat.testBit_two_pow_sub_one,
      Nat.testBit_two_pow]
    simp [hlt, hne]

/-- The low `n` bits of the word written by `setbits`: the forced sign bit on top of the
low `n - 1` bits of the pattern of `data`. -/
theorem signWord_mod (n : Nat) (data : Int) (h1 : 1 ≤ n) (h32 : n ≤ 32) :
    signWord (n : Int) data % 2 ^ n =
      (if data < 0 then 2 ^ (n - 1) else 0) + toU32 data % 2 ^ (n - 1) := by
  have hpow : signWord (n : Int) data % 2 ^ n =
      signWord (n : Int) data % 2 ^ (n - 1) +
        2 ^ (n - 1) * (signWord (n : Int) data / 2 ^ (n - 1) % 2) := by
    have hn : 2 ^ n = 2 ^ ((n - 1) + 1) := by congr 1; omega
    rw [hn, Nat.mod_pow_succ]
  have hlow : signWord (n : Int) data % 2 ^ (n - 1) = toU32 data % 2 ^ (n - 1) := by
    apply Nat.eq_of_testBit_eq
    intro i
    rw [Nat.testBit_mod_two_pow, Nat.testBit_mod_two_pow]
    by_cases hi : i < n - 1
    · simp [hi, signWord_testBit_low n data h1 h32 i hi]
    · simp [hi]
  have htop : signWord (n : Int) data / 2 ^ (n - 1) % 2 = (decide (data < 0)).toNat := by
    rw [← Nat.toNat_testBit, signWord_testBit_top n data h1 h32]
  rw [hpow, hlow, htop]
  by_cases hd : data < 0 <;> simp [hd, Nat.add_comm]

theorem toU32_mod_cast (v : Int) (m : Nat) (hm : m ≤ 32) :
    ((toU32 v % 2 ^ m : Nat) : Int) = v % 2 ^ m := by
  have hnn : 0 ≤ v % 2 ^ 32 := Int.emod_nonneg _ (by norm_num)
  have hdvd : ((2 : Int) ^ m) ∣ 2 ^ 32 := pow_dvd_pow 2 hm
  have hc : ((toU32 v % 2 ^ m : Nat) : Int) = ((toU32 v : Nat) : Int) % 2 ^ m := by
    push_cast; rfl
  rw [hc, toU32, Int.toNat_of_nonneg hnn, Int.emod_emod_of_dvd _ hdvd]

theorem setbits_fieldValue (buff : List Nat) (pos n : Nat) (data : Int) (h1 : 1 ≤ n)
    (h32 : n ≤ 32) (hin : pos + n ≤ 8 * buff.length) :
    fieldValue (setbits buff pos (n : Int) data) pos n =
      (if data < 0 then 2 ^ (n - 1) else 0) + toU32 data % 2 ^ (n - 1) := by
  rw [setbits, fieldValue_eq_mod _ (signWord (n : Int) data) n pos
    (setbitu_spec buff pos n _ h1 h32 hin).2.1, signWord_mod n data h1 h32]

theorem getbits_setbits_nat (buff : List Nat) (pos n : Nat) (v : Int) (h1 : 1 ≤ n)
    (h32 : n ≤ 32) (hin : pos + n ≤ 8 * buff.length)
    (hlo : -2 ^ (n - 1) ≤ v) (hhi : v < 2 ^ (n - 1)) :
    getbits (setbits buff pos (n : Int) v) pos (n : Int) = v := by
  have hq : 0 < 2 ^ (n - 1) := Nat.pow_pos (by norm_num)
  have hpq : 2 ^ n = 2 * 2 ^ (n - 1) := by
    have : n = (n - 1) + 1 := by omega
    rw [this, pow_succ]; simp; ring
  have hfv := setbits_fieldValue buff pos n v h1 h32 hin
  have hmod := toU32_mod_cast v (n - 1) (by omega)
  have hult := fieldValue_lt (setbits buff pos (n : Int) v) n pos
  have htop := topBit_iff (fieldValue (setbits buff pos (n : Int) v) pos n) (2 ^ (n - 1)) hq
    (by omega)
  rw [getbits_nat _ pos n h1 h32]
  have hP : ((2 : Int) ^ n) = ((2 ^ n : Nat) : Int) := by push_cast; rfl
  have hQ : ((2 : Int) ^ (n - 1)) = ((2 ^ (n - 1) : Nat) : Int) := by push_cast; rfl
  rw [hQ] at hlo hhi hmod
  rw [hP]
  generalize fieldValue (setbits buff pos (n : Int) v) pos n = u at *
  by_cases hv : v < 0
  · have hm : v % ((2 ^ (n - 1) : Nat) : Int) = v + ((2 ^ (n - 1) : Nat) : Int) := by
      rw [← Int.add_emod_self]
      exact Int.emod_eq_of_lt (by omega) (by omega)
    rw [hm] at hmod
    rw [if_pos hv] at hfv
    generalize toU32 v % 2 ^ (n - 1) = r at *
    generalize 2 ^ (n - 1) = Q at *
    generalize 2 ^ n = P at *
    have hbit : u / Q % 2 = 1 := htop.2 (by omega)
    rw [if_pos hbit]
    omega
  · have hm : v % ((2 ^ (n - 1) : Nat) : Int) = v := Int.emod_eq_of_lt (by omega) (by omega)
    rw [hm] at hmod
    rw [if_neg hv] at hfv
    generalize toU32 v % 2 ^ (n - 1) = r at *
    generalize 2 ^ (n - 1) = Q at *
    generalize 2 ^ n = P at *
    have hbit : ¬ (u / Q % 2 = 1) := fun h => by have := htop.1 h; omega
    rw [if_neg hbit]
    omega

/-! ## Navigation-word parity: lemmas -/

theorem xorLow_zero (n : Nat) : xorLow n 0 = 0 := by
  induction n with
  | zero => rfl
  | succ n ih => simp [xorLow, ih]

theorem xorLow_le_one (n : Nat) : ∀ w, xorLow n w ≤ 1 := by
  induction n with
  | zero => intro w; simp [xorLow]
  | succ n ih =>
    intro w
    have h1 : w % 2 < 2 ^ 1 := by norm_num; omega
    have h2 : xorLow n (w / 2) < 2 ^ 1 := by have := ih (w / 2); norm_num; omega
    have := Nat.xor_lt_two_pow h1 h2
    rw [xorLow]; norm_num at this; omega

/-- The inner loop needs no more fuel than the bit length of `w`: with enough fuel it
returns `parity` XOR-ed with every bit of `w`. -/
theorem parityLoop_eq (n : Nat) :
    ∀ (fuel w parity : Nat), w < 2 ^ n → n ≤ fuel →
      parityLoop fuel w parity = parity ^^^ xorLow n w := by
  induction n with
  | zero =>
    intro fuel w parity hw _
    have hw0 : w = 0 := by simpa using hw
    subst hw0
    cases fuel <;> simp [parityLoop, xorLow]
  | succ n ih =>
    intro fuel w parity hw hf
    obtain ⟨f, rfl⟩ : ∃ f, fuel = f + 1 := ⟨fuel - 1, by omega⟩
    by_cases h0 : w = 0
    · subst h0
      simp [parityLoop, xorLow_zero]
    · have hw2 : w / 2 < 2 ^ n := by rw [pow_succ] at hw; omega
      have e1 : w >>> 1 = w / 2 := by simp [Nat.shiftRight_eq_div_pow]
      rw [parityLoop, if_pos h0, e1, Nat.and_one_is_mod, ih f (w / 2) _ hw2 (by omega), xorLow,
        Nat.xor_assoc]

theorem xorLow_eq_foldr (n : Nat) :
    ∀ w, xorLow n w = (List.range n).foldr (fun k acc => (w / 2 ^ k % 2) ^^^ acc) 0 := by
  induction n with
  | zero => intro w; simp [xorLow]
  | succ n ih =>
    intro w
    rw [xorLow, ih (w / 2), List.range_succ_eq_map, List.foldr_cons, List.foldr_map]
    have hf : (fun k acc => (w / 2 / 2 ^ k % 2) ^^^ acc) =
        (fun k acc => (w / 2 ^ (k + 1) % 2) ^^^ acc) := by
      funext k acc
      rw [Nat.div_div_eq_div_mul, pow_succ, Nat.mul_comm]
    simp [hf]

theorem xorLow_shift_eq (x : Nat) : xorLow 26 (x >>> 6) = xorBits6to31 x := by
  rw [xorLow_eq_foldr, xorBits6to31, Nat.shiftRight_eq_div_pow]
  have hf : (fun k acc => (x / 2 ^ 6 / 2 ^ k % 2) ^^^ acc) =
      (fun k acc => (x / 2 ^ (6 + k) % 2) ^^^ acc) := by
    funext k acc
    rw [Nat.div_div_eq_div_mul, pow_add]
  rw [hf]

theorem xorBits6to31_le_one (x : Nat) : xorBits6to31 x ≤ 1 := by
  rw [← xorLow_shift_eq]; exact xorLow_le_one 26 _

theorem two_mul_xor (q x : Nat) (hx : x ≤ 1) : (2 * q) ^^^ x = 2 * q + x := by
  have hx' : x = 0 ∨ x = 1 := by omega
  rcases hx' with rfl | rfl
  · simp
  · have hd : ((2 * q) ^^^ 1) / 2 = q := by rw [Nat.xor_div_two]; simp
    have hm : ((2 * q) ^^^ 1) % 2 = 1 := by rw [Nat.xor_mod_two_eq_one]; simp
    have := Nat.div_add_mod ((2 * q) ^^^ 1) 2
    rw [hd, hm] at this
    exact this.symm

/-- One round of the outer loop of `decode_word`. -/
theorem parity_step (word h parity : Nat) (hh : h < 2 ^ 32) (hp : parity < 2 ^ 31) :
    parityLoop 32 ((word &&& h) >>> 6) (u32 (parity <<< 1)) =
      2 * parity + xorBits6to31 (word &&& h) := by
  have hand : word &&& h < 2 ^ 32 := Nat.and_lt_two_pow _ hh
  have hw : (word &&& h) >>> 6 < 2 ^ 26 := by
    rw [Nat.shiftRight_eq_div_pow]
    norm_num at hand ⊢
    omega
  have hu : u32 (parity <<< 1) = 2 * parity := by
    have e1 : parity <<< 1 = 2 * parity := by simp [Nat.shiftLeft_eq, Nat.mul_comm]
    rw [e1, u32]
    exact Nat.mod_eq_of_lt (by norm_num at hp ⊢; omega)
  rw [parityLoop_eq 26 32 _ _ hw (by norm_num), hu, xorLow_shift_eq,
    two_mul_xor _ _ (xorBits6to31_le_one _)]

/-- The six parity bits computed by `decode_word`, most significant first. -/
theorem wordParity_eq (word : Nat) :
    wordParity word =
      32 * xorBits6to31 (word &&& 0xBB1F3480) + 16 * xorBits6to31 (word &&& 0x5D8F9A40) +
      8 * xorBits6to31 (word &&& 0xAEC7CD00) + 4 * xorBits6to31 (word &&& 0x5763E680) +
      2 * xorBits6to31 (word &&& 0x6BB1F340) + xorBits6to31 (word &&& 0x8B7A89C0) := by
  have h0 := xorBits6to31_le_one (word &&& 0xBB1F3480)
  have h1 := xorBits6to31_le_one (word &&& 0x5D8F9A40)
  have h2 := xorBits6to31_le_one (word &&& 0xAEC7CD00)
  have h3 := xorBits6to31_le_one (word &&& 0x5763E680)
  have h4 := xorBits6to31_le_one (word &&& 0x6BB1F340)
  simp only [wordParity, hamming, List.foldl]
  rw [parity_step word 0xBB1F3480 0 (by norm_num) (by norm_num)]
  generalize xorBits6to31 (word &&& 0xBB1F3480) = x0 at *
  rw [parity_step word 0x5D8F9A40 (2 * 0 + x0) (by norm_num) (by norm_num; omega)]
  generalize xorBits6to31 (word &&& 0x5D8F9A40) = x1 at *
  rw [parity_step word 0xAEC7CD00 (2 * (2 * 0 + x0) + x1) (by norm_num) (by norm_num; omega)]
  generalize xorBits6to31 (word &&& 0xAEC7CD00) = x2 at *
  rw [parity_step word 0x5763E680 (2 * (2 * (2 * 0 + x0) + x1) + x2) (by norm_num)
    (by norm_num; omega)]
  generalize xorBits6to31 (word &&& 0x5763E680) = x3 at *
  rw [parity_step word 0x6BB1F340 (2 * (2 * (2 * (2 * 0 + x0) + x1) + x2) + x3) (by norm_num)
    (by norm_num; omega)]
  generalize xorBits6to31 (word &&& 0x6BB1F340) = x4 at *
  rw [parity_step word 0x8B7A89C0 (2 * (2 * (2 * (2 * (2 * 0 + x0) + x1) + x2) + x3) + x4)
    (by norm_num) (by norm_num; omega)]
  ring

theorem invertWord_eq (word : Nat) :
    invertWord word = if word / 2 ^ 30 % 2 = 1 then word ^^^ 0x3FFFFFC0 else word := by
  have e : (0x40000000 : Nat) = 2 ^ 30 := by norm_num
  have h := and_mask_eq_zero_iff word 30
  rw [invertWord, e]
  by_cases hb : word / 2 ^ 30 % 2 = 1
  · rw [if_pos hb, if_pos (fun h0 => (h.1 h0) hb)]
  · rw [if_neg hb, if_neg (fun h0 => h0 (h.2 hb))]

/-- The parity test of `decode_word`, bit by bit. -/
theorem parity_ok_iff (w : Nat) :
    wordParity w = w &&& 0x3F ↔
      ∀ i, i < 6 → w / 2 ^ (5 - i) % 2 = xorBits6to31 (w &&& hamming.getD i 0) := by
  have h0 := xorBits6to31_le_one (w &&& 0xBB1F3480)
  have h1 := xorBits6to31_le_one (w &&& 0x5D8F9A40)
  have h2 := xorBits6to31_le_one (w &&& 0xAEC7CD00)
  have h3 := xorBits6to31_le_one (w &&& 0x5763E680)
  have h4 := xorBits6to31_le_one (w &&& 0x6BB1F340)
  have h5 := xorBits6to31_le_one (w &&& 0x8B7A89C0)
  have e : w &&& 0x3F = w % 2 ^ 6 := Nat.and_pow_two_sub_one_eq_mod w 6
  rw [wordParity_eq, e]
  constructor
  · intro h i hi
    interval_cases i <;> simp only [hamming, List.getD_cons_zero, List.getD_cons_succ] <;>
      norm_num at h ⊢ <;> omega
  · intro h
    have a0 := h 0 (by norm_num)
    have a1 := h 1 (by norm_num)
    have a2 := h 2 (by norm_num)
    have a3 := h 3 (by norm_num)
    have a4 := h 4 (by norm_num)
    have a5 := h 5 (by norm_num)
    simp only [hamming, List.getD_cons_zero, List.getD_cons_succ] at a0 a1 a2 a3 a4 a5
    norm_num at a0 a1 a2 a3 a4 a5 ⊢
    omega

/-! ## Time: lemmas -/

theorem int32_eq (x : Int) (h1 : -2 ^ 31 ≤ x) (h2 : x < 2 ^ 31) : int32 x = x := by
  unfold int32
  norm_num at h1 h2 ⊢
  omega

theorem castInt_intCast (n : Int) : castInt (n : ℚ) = n := by
  unfold castInt; split <;> simp

theorem time2epochLoop_append (a : List Int) (m : Int) (b : List Int) (d : Int)
    (ha : ∀ x ∈ a, 0 ≤ x) (h0 : 0 ≤ d) (hd : d < m) :
    ∀ mon : Int, time2epochLoop (a ++ m :: b) (a.sum + d) mon = (d, mon + a.length) := by
  induction a with
  | nil =>
    intro mon
    have : ¬ (d ≥ m) := by omega
    simp [time2epochLoop, this]
  | cons x a ih =>
    intro mon
    have hsum : 0 ≤ a.sum := List.sum_nonneg (fun y hy => ha y (List.mem_cons_of_mem _ hy))
    have hge : (x :: a).sum + d ≥ x := by rw [List.sum_cons]; omega
    have hsub : (x :: a).sum + d - x = a.sum + d := by rw [List.sum_cons]; ring
    rw [List.cons_append, time2epochLoop, if_pos hge, hsub,
      ih (fun y hy => ha y (List.mem_cons_of_mem _ hy)) (mon + 1)]
    simp; ring

theorem mday_nonneg : ∀ x ∈ mday, (0 : Int) ≤ x := by decide

/-- The month loop of `time2epoch` stops in month `k` of the cycle with `d` days left when
it starts from the days of the first `k` months plus `d`. -/
theorem mday_loop (k : Nat) (hk : k < 48) (d : Int) (h0 : 0 ≤ d) (hd : d < mday.getD k 0) :
    time2epochLoop mday ((mday.take k).sum + d) 0 = (d, (k : Int)) := by
  have hlen : mday.length = 48 := rfl
  have hk' : k < mday.length := by omega
  have hsplit : mday.take k ++ mday[k] :: mday.drop (k + 1) = mday := by
    rw [← List.drop_eq_getElem_cons hk', List.take_append_drop]
  rw [List.getD_eq_getElem _ _ hk'] at hd
  have h := time2epochLoop_append (mday.take k) mday[k] (mday.drop (k + 1)) d
    (fun x hx => mday_nonneg x (List.mem_of_mem_take hx)) h0 hd 0
  rw [hsplit, List.length_take, hlen, Nat.min_eq_left (by omega)] at h
  simpa using h

/-- The four-year cycle: the day number that `epoch2time` builds from `doy` for month
`m + 1` of year `r` of a cycle is the sum of the first `12 r + m` entries of `mday`, and
that entry of `mday` is the length of the month. -/
theorem cycle_table :
    ∀ r : Nat, r < 4 → ∀ m : Nat, m < 12 →
      doy.getD m 0 + 365 * (r : Int) + (if r = 3 then 1 else 0) - 1 +
          (if r = 2 ∧ 2 ≤ m then 1 else 0) = (mday.take (12 * r + m)).sum ∧
      mday.getD (12 * r + m) 0 =
        (if m = 1 then (if r = 2 then 29 else 28)
          else if m = 3 ∨ m = 5 ∨ m = 8 ∨ m = 10 then 30 else 31) ∧
      (mday.take (12 * r + m)).sum + mday.getD (12 * r + m) 0 ≤ 1461 ∧
      0 ≤ (mday.take (12 * r + m)).sum := by
  decide

/-- Decoding of an instant by `time2epoch`, from its position in the four-year cycle:
cycle `q`, month `k` of the cycle, `d` days into the month, `S` seconds into the day. -/
theorem time2epoch_decode (q : Int) (k : Nat) (d S : Int) (f : ℚ)
    (hq0 : 0 ≤ q) (hq : q ≤ 32) (hk : k < 48) (h0 : 0 ≤ d) (hd : d < mday.getD k 0)
    (hsum : (mday.take k).sum + mday.getD k 0 ≤ 1461) (hsum0 : 0 ≤ (mday.take k).sum)
    (hS0 : 0 ≤ S) (hS : S < 86400) :
    time2epoch ⟨(1461 * q + (mday.take k).sum + d) * 86400 + S, f⟩ =
      [((1970 + 4 * q + ((k / 12 : Nat) : Int) : Int) : ℚ),
       ((((k % 12 : Nat) : Int) + 1 : Int) : ℚ),
       ((d + 1 : Int) : ℚ),
       ((S / 3600 : Int) : ℚ),
       ((S % 3600 / 60 : Int) : ℚ),
       ((S % 60 : Int) : ℚ) + f] := by
  have hloop := mday_loop k hk d h0 hd
  generalize (mday.take k).sum = c at *
  have hD0 : 0 ≤ 1461 * q + c + d := by omega
  have e1 : Int.tdiv ((1461 * q + c + d) * 86400 + S) 86400 = 1461 * q + c + d := by
    rw [Int.tdiv_eq_ediv (by omega) (by norm_num)]; omega
  have e2 : int32 (1461 * q + c + d) = 1461 * q + c + d :=
    int32_eq _ (by norm_num; omega) (by norm_num; omega)
  have e3 : int32 ((1461 * q + c + d) * 86400 + S - (1461 * q + c + d) * 86400) = S := by
    rw [int32_eq _ (by norm_num; omega) (by norm_num; omega)]; ring
  have e4 : Int.tmod (1461 * q + c + d) 1461 = c + d := by
    rw [Int.tmod_eq_emod hD0 (by norm_num)]; omega
  have e5 : Int.tdiv (1461 * q + c + d) 1461 = q := by
    rw [Int.tdiv_eq_ediv hD0 (by norm_num)]; omega
  have e6 : Int.tdiv (k : Int) 12 = ((k / 12 : Nat) : Int) := by
    rw [Int.tdiv_eq_ediv (by omega) (by norm_num)]; omega
  have e7 : Int.tmod (k : Int) 12 = ((k % 12 : Nat) : Int) := by
    rw [Int.tmod_eq_emod (by omega) (by norm_num)]; omega
  have e8 : Int.tdiv S 3600 = S / 3600 := Int.tdiv_eq_ediv hS0 (by norm_num)
  have e9 : Int.tmod S 3600 = S % 3600 := Int.tmod_eq_emod hS0 (by norm_num)
  have e10 : Int.tdiv (S % 3600) 60 = S % 3600 / 60 :=
    Int.tdiv_eq_ediv (Int.emod_nonneg _ (by norm_num)) (by norm_num)
  have e11 : Int.tmod S 60 = S % 60 := Int.tmod_eq_emod hS0 (by norm_num)
  simp only [time2epoch, e1, e2, e3, e4, hloop, e5, e6, e7, e8, e9, e10, e11]
  have e12 : q * 4 = 4 * q := by ring
  rw [e12]

theorem doy_bounds (m : Nat) (hm : m < 12) : 1 ≤ doy.getD m 0 ∧ doy.getD m 0 ≤ 335 := by
  interval_cases m <;> decide

/-- Value of `epoch2time` on a tuple of integer calendar fields inside the guard. -/
theorem epoch2time_encode (year mon day hour min : Int) (sec : ℚ)
    (hy0 : 1970 ≤ year) (hy1 : year ≤ 2099) (hm0 : 1 ≤ mon) (hm1 : mon ≤ 12)
    (hd0 : 1 ≤ day) (hd1 : day ≤ 31) (hh0 : 0 ≤ hour) (hh1 : hour ≤ 23)
    (hmi0 : 0 ≤ min) (hmi1 : min ≤ 59) :
    epoch2time [(year : ℚ), (mon : ℚ), (day : ℚ), (hour : ℚ), (min : ℚ), sec] =
      ⟨((year - 1970) * 365 + (year - 1969) / 4 + doy.getD (mon - 1).toNat 0 + day - 2 +
          (if year % 4 = 0 ∧ 3 ≤ mon then 1 else 0)) * 86400 + hour * 3600 + min * 60 + ⌊sec⌋,
        sec - ⌊sec⌋⟩ := by
  have hguard : ¬ (year < 1970 ∨ 2099 < year ∨ mon < 1 ∨ 12 < mon) := by omega
  have hdoy := doy_bounds (mon - 1).toNat (by omega)
  have e1 : Int.tdiv (year - 1969) 4 = (year - 1969) / 4 :=
    Int.tdiv_eq_ediv (by omega) (by norm_num)
  have e2 : Int.tmod year 4 = year % 4 := Int.tmod_eq_emod (by omega) (by norm_num)
  have hif : (if year % 4 = 0 ∧ 3 ≤ mon then (1 : Int) else 0) ≤ 1 ∧
      0 ≤ (if year % 4 = 0 ∧ 3 ≤ mon then (1 : Int) else 0) := by
    split <;> simp
  have e3' : ∀ g i : Int, 1 ≤ g → g ≤ 335 → 0 ≤ i → i ≤ 1 →
      int32 ((year - 1970) * 365 + (year - 1969) / 4 + g + day - 2 + i) =
        (year - 1970) * 365 + (year - 1969) / 4 + g + day - 2 + i := by
    intro g i hg0 hg1 hi0 hi1
    exact int32_eq _ (by norm_num; omega) (by norm_num; omega)
  have e3 := e3' _ _ hdoy.1 hdoy.2 hif.2 hif.1
  have e4 : int32 (hour * 3600) = hour * 3600 :=
    int32_eq _ (by norm_num; omega) (by norm_num; omega)
  have e5 : int32 (min * 60) = min * 60 := int32_eq _ (by norm_num; omega) (by norm_num; omega)
  simp only [epoch2time, List.getD_cons_zero, List.getD_cons_succ, castInt_intCast, if_neg hguard,
    e1, e2, ge_iff_le, e3, e4, e5]

theorem leap_in_band (year : Int) (hy0 : 1970 ≤ year) (hy1 : year ≤ 2099) :
    isLeapYear year = true ↔ year % 4 = 0 := by
  simp only [isLeapYear, decide_eq_true_eq, Bool.or_eq_true, Bool.and_eq_true, ne_eq,
    Bool.decide_and, Bool.decide_or, decide_not, Bool.not_eq_true', decide_eq_false_iff_not]
  omega

/-- Claim C7: Calendar round trip: for every valid calendar tuple with integer year in
`[1970, 2099]`, month in `1..12`, day valid for that month and year (Gregorian rule), hour
in `0..23`, minute in `0..59` and `0 ≤ sec < 60`, `time2epoch (epoch2time e) = e` in all six
fields, the seconds in exact arithmetic. -/
theorem calendar_roundtrip (year mon day hour min : Int) (sec : ℚ)
    (hy0 : 1970 ≤ year) (hy1 : year ≤ 2099) (hm0 : 1 ≤ mon) (hm1 : mon ≤ 12)
    (hd0 : 1 ≤ day) (hd1 : day ≤ daysInMonth year mon) (hh0 : 0 ≤ hour) (hh1 : hour ≤ 23)
    (hmi0 : 0 ≤ min) (hmi1 : min ≤ 59) (hs0 : 0 ≤ sec) (hs1 : sec < 60) :
    time2epoch (epoch2time [(year : ℚ), (mon : ℚ), (day : ℚ), (hour : ℚ), (min : ℚ), sec]) =
      [(year : ℚ), (mon : ℚ), (day : ℚ), (hour : ℚ), (min : ℚ), sec] := by
  obtain ⟨q, r, hr, hq0, hq1, hyear⟩ :
      ∃ (q : Int) (r : Nat), r < 4 ∧ 0 ≤ q ∧ q ≤ 32 ∧ year = 1970 + 4 * q + (r : Int) :=
    ⟨(year - 1970) / 4, ((year - 1970) % 4).toNat, by omega, by omega, by omega, by omega⟩
  obtain ⟨m, hm, hmon⟩ : ∃ m : Nat, m < 12 ∧ mon = (m : Int) + 1 :=
    ⟨(mon - 1).toNat, by omega, by omega⟩
  obtain ⟨t1, t2, t3, t4⟩ := cycle_table r hr m hm
  have hleap := leap_in_band year hy0 hy1
  have hdim : day - 1 < mday.getD (12 * r + m) 0 := by
    rw [t2]
    unfold daysInMonth at hd1
    by_cases hl : isLeapYear year = true
    · have h4 := hleap.1 hl
      rw [hl] at hd1
      simp only [if_true] at hd1
      split_ifs at hd1 ⊢ <;> omega
    · have h4 : ¬ (year % 4 = 0) := fun h => hl (hleap.2 h)
      have hl' : isLeapYear year = false := by simpa using hl
      rw [hl'] at hd1
      simp only [Bool.false_eq_true, if_false] at hd1
      split_ifs at hd1 ⊢ <;> omega
  have hd31 : day ≤ 31 := by
    have : mday.getD (12 * r + m) 0 ≤ 31 := by rw [t2]; split_ifs <;> omega
    omega
  have hfl0 : 0 ≤ ⌊sec⌋ := Int.floor_nonneg.2 hs0
  have hfl1 : ⌊sec⌋ < 60 := Int.floor_lt.2 (by exact_mod_cast hs1)
  have emon : (mon - 1).toNat = m := by omega
  have hdays : (year - 1970) * 365 + (year - 1969) / 4 + doy.getD (mon - 1).toNat 0 + day - 2 +
      (if year % 4 = 0 ∧ 3 ≤ mon then 1 else 0) =
      1461 * q + (mday.take (12 * r + m)).sum + (day - 1) := by
    rw [emon, ← t1]
    split_ifs <;> omega
  rw [epoch2time_encode year mon day hour min sec hy0 hy1 hm0 hm1 hd0 hd31 hh0 hh1 hmi0 hmi1, hdays]
  have hT : (1461 * q + (mday.take (12 * r + m)).sum + (day - 1)) * 86400 + hour * 3600 +
      min * 60 + ⌊sec⌋ =
      (1461 * q + (mday.take (12 * r + m)).sum + (day - 1)) * 86400 +
        (hour * 3600 + min * 60 + ⌊sec⌋) := by ring
  rw [hT, time2epoch_decode q (12 * r + m) (day - 1) (hour * 3600 + min * 60 + ⌊sec⌋) _ hq0 hq1
    (by omega) (by omega) hdim t3 t4 (by omega) (by omega)]
  have f1 : 1970 + 4 * q + (((12 * r + m) / 12 : Nat) : Int) = year := by omega
  have f2 : (((12 * r + m) % 12 : Nat) : Int) + 1 = mon := by omega
  have f3 : day - 1 + 1 = day := by ring
  have f4 : (hour * 3600 + min * 60 + ⌊sec⌋) / 3600 = hour := by omega
  have f5 : (hour * 3600 + min * 60 + ⌊sec⌋) % 3600 / 60 = min := by omega
  have f6 : (hour * 3600 + min * 60 + ⌊sec⌋) % 60 = ⌊sec⌋ := by omega
  rw [f1, f2, f3, f4, f5, f6]
  have f7 : ((⌊sec⌋ : Int) : ℚ) + (sec - ((⌊sec⌋ : Int) : ℚ)) = sec := by ring
  rw [f7]

theorem calendar_roundtrip_witness :
    time2epoch (epoch2time [2000, 2, 29, 23, 59, (119 / 2 : ℚ)]) =
      [2000, 2, 29, 23, 59, (119 / 2 : ℚ)] := by
  have h := calendar_roundtrip 2000 2 29 23 59 (119 / 2) (by decide) (by decide) (by decide)
    (by decide) (by decide) (by decide) (by decide) (by decide) (by decide) (by decide)
    (by norm_num) (by norm_num)
  simpa using h

/-! ## Week and seconds of week -/

theorem castInt_of_nonneg (x : ℚ) (h : 0 ≤ x) : castInt x = ⌊x⌋ := by
  unfold castInt; rw [if_pos h]

theorem weekSecToTime_of_range (t0 : gtime_t) (w : Int) (s : ℚ) (hs0 : 0 ≤ s)
    (hs : s < 604800) :
    weekSecToTime t0 w s = ⟨t0.time + 604800 * w + ⌊s⌋, s - ⌊s⌋⟩ := by
  have hc : ¬ (s < -1000000000 ∨ 1000000000 < s) := by
    intro h
    rcases h with h | h <;> linarith
  simp only [weekSecToTime, if_neg hc, castInt_of_nonneg s hs0]
  norm_num

theorem floor_week_bounds (s : ℚ) (hs0 : 0 ≤ s) (hs : s < 604800) :
    0 ≤ ⌊s⌋ ∧ ⌊s⌋ < 604800 :=
  ⟨Int.floor_nonneg.2 hs0, Int.floor_lt.2 (by exact_mod_cast hs)⟩

theorem week_of_seconds (w f : Int) (hw0 : 0 ≤ w) (hw : w < 2 ^ 31) (hf0 : 0 ≤ f)
    (hf : f < 604800) : int32 (Int.tdiv (604800 * w + f) 604800) = w := by
  rw [Int.tdiv_eq_ediv (by omega) (by norm_num)]
  have : (604800 * w + f) / 604800 = w := by omega
  rw [this]
  exact int32_eq w (by norm_num; omega) hw

theorem time2gpst_gpst2time (w : Int) (s : ℚ) (hw0 : 0 ≤ w) (hw : w * 604800 < 2 ^ 31)
    (hs0 : 0 ≤ s) (hs : s < 604800) : time2gpst (gpst2time w s) = (w, s) := by
  obtain ⟨hf0, hf⟩ := floor_week_bounds s hs0 hs
  have hw31 : w < 2 ^ 31 := by norm_num at hw ⊢; omega
  have e1 : (epoch2time GPST0).time + 604800 * w + ⌊s⌋ - (epoch2time GPST0).time =
      604800 * w + ⌊s⌋ := by ring
  have e2 := week_of_seconds w ⌊s⌋ hw0 hw31 hf0 hf
  have e3 : int32 (w * 604800) = w * 604800 := int32_eq _ (by norm_num; omega) hw
  simp only [time2gpst, gpst2time, weekSecToTime_of_range _ w s hs0 hs, e1, e2, e3]
  congr 1
  push_cast
  ring

theorem time2gst_gst2time (w : Int) (s : ℚ) (hw0 : 0 ≤ w) (hw : w < 2 ^ 31)
    (hs0 : 0 ≤ s) (hs : s < 604800) : time2gst (gst2time w s) = (w, s) := by
  obtain ⟨hf0, hf⟩ := floor_week_bounds s hs0 hs
  have e1 : (epoch2time GST0).time + 604800 * w + ⌊s⌋ - (epoch2time GST0).time =
      604800 * w + ⌊s⌋ := by ring
  have e2 := week_of_seconds w ⌊s⌋ hw0 hw hf0 hf
  have e0 : (86400 : Int) * 7 = 604800 := by norm_num
  simp only [time2gst, gst2time, weekSecToTime_of_range _ w s hs0 hs, e0, e1, e2]
  congr 1
  push_cast
  ring

theorem time2bdt_bdt2time (w : Int) (s : ℚ) (hw0 : 0 ≤ w) (hw : w < 2 ^ 31)
    (hs0 : 0 ≤ s) (hs : s < 604800) : time2bdt (bdt2time w s) = (w, s) := by
  obtain ⟨hf0, hf⟩ := floor_week_bounds s hs0 hs
  have e1 : (epoch2time BDT0).time + 604800 * w + ⌊s⌋ - (epoch2time BDT0).time =
      604800 * w + ⌊s⌋ := by ring
  have e2 := week_of_seconds w ⌊s⌋ hw0 hw hf0 hf
  have e0 : (86400 : Int) * 7 = 604800 := by norm_num
  simp only [time2bdt, bdt2time, weekSecToTime_of_range _ w s hs0 hs, e0, e1, e2]
  congr 1
  push_cast
  ring

theorem epoch2time_GPST0 : epoch2time GPST0 = ⟨315964800, 0⟩ := by
  norm_num [GPST0, epoch2time, castInt, int32, doy, Int.tdiv, Int.tmod]

theorem epoch2time_GST0 : epoch2time GST0 = ⟨935280000, 0⟩ := by
  norm_num [GST0, epoch2time, castInt, int32, doy, Int.tdiv, Int.tmod, Int.toNat]

theorem epoch2time_BDT0 : epoch2time BDT0 = ⟨1136073600, 0⟩ := by
  norm_num [BDT0, epoch2time, castInt, int32, doy, Int.tdiv, Int.tmod]

/-! ## Bit fields: the specification's statements -/

/-- Claim C1: Signed bit-field round trip: for a field of `1 ≤ len ≤ 32` bits lying inside
the buffer and every `v` with `-2^(len-1) ≤ v < 2^(len-1)`, `getbits` reads back `v` from
the buffer produced by `setbits`. -/
theorem getbits_setbits_roundtrip (buff : List Nat) (pos : Nat) (len : Int) (v : Int)
    (h1 : 1 ≤ len) (h32 : len ≤ 32) (hin : pos + len.toNat ≤ 8 * buff.length)
    (hlo : -2 ^ (len - 1).toNat ≤ v) (hhi : v < 2 ^ (len - 1).toNat) :
    getbits (setbits buff pos len v) pos len = v := by
  lift len to Nat using (by omega)
  have e1 : ((len : Int) - 1).toNat = len - 1 := by omega
  rw [e1] at hlo hhi
  rw [Int.toNat_ofNat] at hin
  exact getbits_setbits_nat buff pos len v (by omega) (by omega) hin hlo hhi

theorem getbits_setbits_roundtrip_witness :
    getbits (setbits [0xFF, 0xFF, 0x00] 3 (7 : Int) (-64)) 3 (7 : Int) = -64 ∧
    getbits (setbits [0xFF, 0xFF, 0x00] 3 (7 : Int) 63) 3 (7 : Int) = 63 :=
  ⟨getbits_setbits_roundtrip [0xFF, 0xFF, 0x00] 3 7 (-64) (by decide) (by decide) (by decide)
      (by decide) (by decide),
   getbits_setbits_roundtrip [0xFF, 0xFF, 0x00] 3 7 63 (by decide) (by decide) (by decide)
      (by decide) (by decide)⟩

/-- Claim C2: `getbitu` reads big-endian, most significant bit first: for `0 ≤ len ≤ 32` and a
field inside the buffer the result is the sum over `k < len` of
`bit (pos + k) * 2^(len - 1 - k)`, with `bit i` the bit `7 - i mod 8` of byte `i / 8`; it is
below `2^len`; a field may straddle a byte boundary; and
`getbitu([0xFF,0xFF],0,8) = 255`. -/
theorem getbitu_big_endian (buff : List Nat) (pos : Nat) (len : Int)
    (h0 : 0 ≤ len) (h32 : len ≤ 32) (_hin : pos + len.toNat ≤ 8 * buff.length) :
    getbitu buff pos len =
      ∑ k in Finset.range len.toNat, specBit buff (pos + k) * 2 ^ (len.toNat - 1 - k) ∧
    getbitu buff pos len < 2 ^ len.toNat ∧
    getbitu [0x01, 0x80] 7 2 = 3 ∧
    getbitu [0xFF, 0xFF] 0 8 = 255 := by
  lift len to Nat using h0
  have hn : len ≤ 32 := by omega
  rw [Int.toNat_ofNat, getbitu_eq_fieldValue buff pos len hn]
  exact ⟨fieldValue_eq_sum buff len pos, fieldValue_lt buff len pos, by decide, by decide⟩

theorem getbitu_big_endian_witness :
    getbitu [0x12, 0x34, 0x56] 4 (12 : Int) =
      ∑ k in Finset.range 12, specBit [0x12, 0x34, 0x56] (4 + k) * 2 ^ (12 - 1 - k) ∧
    getbitu [0x12, 0x34, 0x56] 4 (12 : Int) = 0x234 :=
  ⟨(getbitu_big_endian [0x12, 0x34, 0x56] 4 12 (by decide) (by decide) (by decide)).1,
   by decide⟩

/-- Claim C3: `getbits` sign-extends from the top requested bit: for `1 ≤ len ≤ 32`, with
`u = getbitu(buff,pos,len)`, the result is `u - 2^len` when bit `len - 1` of `u` is set and
`u` otherwise; for `len = 32` it is the two's-complement reading of `u`; it always lies in
`[-2^(len-1), 2^(len-1))`. -/
theorem getbits_sign_extends (buff : List Nat) (pos : Nat) (len : Int)
    (h1 : 1 ≤ len) (h32 : len ≤ 32) :
    getbits buff pos len =
      (if getbitu buff pos len / 2 ^ (len - 1).toNat % 2 = 1
        then (getbitu buff pos len : Int) - 2 ^ len.toNat
        else (getbitu buff pos len : Int)) ∧
    (len = 32 → getbits buff pos len = toInt32 (getbitu buff pos len)) ∧
    -2 ^ (len - 1).toNat ≤ getbits buff pos len ∧
    getbits buff pos len < 2 ^ (len - 1).toNat := by
  lift len to Nat using (by omega)
  have hn1 : 1 ≤ len := by omega
  have hn32 : len ≤ 32 := by omega
  have e1 : ((len : Int) - 1).toNat = len - 1 := by omega
  have hq : 0 < 2 ^ (len - 1) := Nat.pow_pos (by norm_num)
  have hpq : 2 ^ len = 2 * 2 ^ (len - 1) := by
    have : len = (len - 1) + 1 := by omega
    rw [this, pow_succ]; simp; ring
  have hu := fieldValue_lt buff len pos
  have htop := topBit_iff (fieldValue buff pos len) (2 ^ (len - 1)) hq (by omega)
  have hg := getbits_nat buff pos len hn1 hn32
  rw [e1, Int.toNat_ofNat, getbitu_eq_fieldValue buff pos len hn32]
  refine ⟨hg, ?_, ?_⟩
  · intro h
    have c : (len : Int) ≤ 0 ∨ 32 ≤ (len : Int) ∨
        getbitu buff pos (len : Int) &&& u32 (1 <<< ((len : Int) - 1).toNat) = 0 :=
      Or.inr (Or.inl (by omega))
    rw [getbits, if_pos c, getbitu_eq_fieldValue buff pos len hn32]
  · have hP : ((2 : Int) ^ len) = ((2 ^ len : Nat) : Int) := by push_cast; rfl
    have hQ : ((2 : Int) ^ (len - 1)) = ((2 ^ (len - 1) : Nat) : Int) := by push_cast; rfl
    rw [hg, hP, hQ]
    generalize fieldValue buff pos len = u at *
    generalize 2 ^ (len - 1) = Q at *
    generalize 2 ^ len = P at *
    split
    · rename_i hb
      have := htop.1 hb
      omega
    · rename_i hb
      have : ¬ (Q ≤ u) := fun h => hb (htop.2 h)
      omega

theorem getbits_sign_extends_witness :
    getbits [0xF0] 0 (4 : Int) = -1 ∧ getbits [0x70] 0 (4 : Int) = 7 ∧
    -2 ^ ((4 : Int) - 1).toNat ≤ getbits [0xF0] 0 (4 : Int) :=
  ⟨by decide, by decide,
   (getbits_sign_extends [0xF0] 0 4 (by decide) (by decide)).2.2.1⟩

/-- Claim C4: Unsigned bit-field round trip: for `1 ≤ len ≤ 32` and a field inside the
buffer, `getbitu` on the buffer produced by `setbitu(buff,pos,len,data)` at the same `pos`
and `len` returns `data mod 2^len`. -/
theorem getbitu_setbitu_roundtrip (buff : List Nat) (pos : Nat) (len : Int) (data : Nat)
    (h1 : 1 ≤ len) (h32 : len ≤ 32) (hin : pos + len.toNat ≤ 8 * buff.length) :
    getbitu (setbitu buff pos len data) pos len = data % 2 ^ len.toNat := by
  lift len to Nat using (by omega)
  rw [Int.toNat_ofNat] at hin ⊢
  exact getbitu_setbitu_nat buff pos len data (by omega) (by omega) hin

theorem getbitu_setbitu_roundtrip_witness :
    getbitu (setbitu [0xAA, 0x55, 0xAA] 6 (10 : Int) 0xABCD) 6 (10 : Int) = 0xABCD % 2 ^ 10 :=
  getbitu_setbitu_roundtrip [0xAA, 0x55, 0xAA] 6 10 0xABCD (by decide) (by decide) (by decide)

/-- Claim C5: Explicit sign-bit convention of `setbits`: for `1 ≤ len ≤ 32`, a field inside the
buffer and any `data`, after `setbits` the first bit of the field is `1` exactly when
`data < 0`, and the other `len - 1` bits are the low `len - 1` bits of the 32-bit pattern
of `data`; read back unsigned, the field is the sign bit on top of that truncated
pattern. -/
theorem setbits_forces_sign_bit (buff : List Nat) (pos : Nat) (len : Int) (data : Int)
    (h1 : 1 ≤ len) (h32 : len ≤ 32) (hin : pos + len.toNat ≤ 8 * buff.length) :
    (specBit (setbits buff pos len data) pos = 1 ↔ data < 0) ∧
    (specBit (setbits buff pos len data) pos = 0 ↔ 0 ≤ data) ∧
    (∀ k, 1 ≤ k → k < len.toNat →
      specBit (setbits buff pos len data) (pos + k) =
        toU32 data / 2 ^ (len.toNat - 1 - k) % 2) ∧
    getbitu (setbits buff pos len data) pos len =
      (if data < 0 then 2 ^ (len.toNat - 1) else 0) + toU32 data % 2 ^ (len.toNat - 1) := by
  lift len to Nat using (by omega)
  have hn1 : 1 ≤ len := by omega
  have hn32 : len ≤ 32 := by omega
  rw [Int.toNat_ofNat] at hin
  simp only [Int.toNat_ofNat]
  have hs := (setbitu_spec buff pos len (signWord (len : Int) data) hn1 hn32 hin).2.1
  have h0 := hs 0 (by omega)
  rw [Nat.add_zero, Nat.sub_zero, signWord_testBit_top len data hn1 hn32,
    bitAt_eq_specBit] at h0
  refine ⟨?_, ?_, ?_, ?_⟩
  · rw [setbits, h0]; by_cases hd : data < 0 <;> simp [hd]
  · rw [setbits, h0]; by_cases hd : data < 0 <;> simp [hd]; omega
  · intro k hk1 hk
    have := hs k hk
    rw [signWord_testBit_low len data hn1 hn32 _ (by omega), bitAt_eq_specBit,
      Nat.toNat_testBit] at this
    rw [setbits, this]
  · rw [getbitu_eq_fieldValue _ pos len hn32]
    exact setbits_fieldValue buff pos len data hn1 hn32 hin

theorem setbits_forces_sign_bit_witness :
    getbitu (setbits [0x00, 0x00] 2 (5 : Int) (-17)) 2 (5 : Int) =
      (if (-17 : Int) < 0 then 2 ^ ((5 : Int).toNat - 1) else 0) +
        toU32 (-17) % 2 ^ ((5 : Int).toNat - 1) ∧
    getbits (setbits [0x00, 0x00] 2 (5 : Int) (-17)) 2 (5 : Int) = -1 :=
  ⟨(setbits_forces_sign_bit [0x00, 0x00] 2 5 (-17) (by decide) (by decide) (by decide)).2.2.2,
   by decide⟩

/-! ## Navigation-word parity: the specification's statement -/

/-- Claim C6: Postcondition of `decode_word`: with `w'` the word after the inversion rule
(`w xor 0x3FFFFFC0` when bit 30 of `w` is set, `w` otherwise), the status is `1` exactly
when, for each `i` in `0..5`, bit `5 - i` of `w'` is the XOR of the bits `6..31` of
`w' AND hamming[i]`; on status `1` the three output bytes are the bits `29..22`, `21..14`
and `13..6` of `w'`; otherwise the status is `0` and the output array is not written. -/
theorem decode_word_postcondition (word : Nat) (data : List Nat) (hd : 3 ≤ data.length) :
    ((decode_word word data).1 = 1 ↔
      ∀ i, i < 6 →
        (if word / 2 ^ 30 % 2 = 1 then word ^^^ 0x3FFFFFC0 else word) / 2 ^ (5 - i) % 2 =
          xorBits6to31
            ((if word / 2 ^ 30 % 2 = 1 then word ^^^ 0x3FFFFFC0 else word) &&&
              hamming.getD i 0)) ∧
    ((decode_word word data).1 = 1 →
      (decode_word word data).2.getD 0 0 =
          (if word / 2 ^ 30 % 2 = 1 then word ^^^ 0x3FFFFFC0 else word) / 2 ^ 22 % 256 ∧
      (decode_word word data).2.getD 1 0 =
          (if word / 2 ^ 30 % 2 = 1 then word ^^^ 0x3FFFFFC0 else word) / 2 ^ 14 % 256 ∧
      (decode_word word data).2.getD 2 0 =
          (if word / 2 ^ 30 % 2 = 1 then word ^^^ 0x3FFFFFC0 else word) / 2 ^ 6 % 256) ∧
    ((decode_word word data).1 ≠ 1 →
      (decode_word word data).1 = 0 ∧ (decode_word word data).2 = data) := by
  rw [← invertWord_eq]
  have hiff := parity_ok_iff (invertWord word)
  obtain ⟨a, l, hl⟩ : ∃ a l, data = a :: l := by
    cases data with
    | nil => simp at hd
    | cons a l => exact ⟨a, l, rfl⟩
  obtain ⟨b, l2, hl2⟩ : ∃ b l2, l = b :: l2 := by
    cases l with
    | nil => simp [hl] at hd
    | cons b l2 => exact ⟨b, l2, rfl⟩
  obtain ⟨c, l3, hl3⟩ : ∃ c l3, l2 = c :: l3 := by
    cases l2 with
    | nil => simp [hl, hl2] at hd
    | cons c l3 => exact ⟨c, l3, rfl⟩
  subst hl3; subst hl2; subst hl
  by_cases hp : wordParity (invertWord word) = invertWord word &&& 0x3F
  · have hdw : decode_word word (a :: b :: c :: l3) =
        ((1 : Int), (invertWord word >>> 22) % 256 :: (invertWord word >>> 14) % 256 ::
          (invertWord word >>> 6) % 256 :: l3) := by
      simp [decode_word, hp]
    rw [hdw]
    refine ⟨⟨fun _ => hiff.1 hp, fun _ => rfl⟩, fun _ => ?_, fun h => absurd rfl h⟩
    simp [Nat.shiftRight_eq_div_pow]
  · have hdw : decode_word word (a :: b :: c :: l3) = ((0 : Int), a :: b :: c :: l3) := by
      simp [decode_word, hp]
    rw [hdw]
    refine ⟨⟨fun h => absurd h (by norm_num), fun h => absurd (hiff.2 h) hp⟩,
      fun h => absurd h (by norm_num), fun _ => ⟨rfl, rfl⟩⟩

theorem decode_word_postcondition_witness :
    decode_word 0x22C05B79 [9, 9, 9] = (1, [0x8B, 0x01, 0x6D]) ∧
    decode_word 0x22C05B78 [9, 9, 9] = (0, [9, 9, 9]) ∧
    ((decode_word 0x22C05B79 [9, 9, 9]).2.getD 0 0 =
        (if 0x22C05B79 / 2 ^ 30 % 2 = 1 then 0x22C05B79 ^^^ 0x3FFFFFC0 else 0x22C05B79) /
          2 ^ 22 % 256) ∧
    ((decode_word 0x22C05B78 [9, 9, 9]).1 = 0 ∧
      (decode_word 0x22C05B78 [9, 9, 9]).2 = [9, 9, 9]) :=
  ⟨by set_option maxRecDepth 4096 in decide, by set_option maxRecDepth 4096 in decide,
   ((decode_word_postcondition 0x22C05B79 [9, 9, 9] (by decide)).2.1
      (by set_option maxRecDepth 4096 in decide)).1,
   (decode_word_postcondition 0x22C05B78 [9, 9, 9] (by decide)).2.2
      (by set_option maxRecDepth 4096 in decide)⟩

/-- Claim C8, as amended: week/seconds round trip for week numbers counted from the
reference epoch: for every week `0 ≤ w` of the `int` range and `0 ≤ s < 604800`,
`time2gst (gst2time w s)` and `time2bdt (bdt2time w s)` return `(w, s)` exactly, and so does
`time2gpst (gpst2time w s)` while the `int` product `w * 604800` stays below `2^31`; and
`epoch2time {1980,1,6,0,0,0}` is `gpst2time 0 0`. -/
theorem week_seconds_roundtrip (w : Int) (s : ℚ) (hw0 : 0 ≤ w) (hw : w < 2 ^ 31)
    (hs0 : 0 ≤ s) (hs : s < 604800) :
    (w * 604800 < 2 ^ 31 → time2gpst (gpst2time w s) = (w, s)) ∧
    time2gst (gst2time w s) = (w, s) ∧
    time2bdt (bdt2time w s) = (w, s) ∧
    epoch2time [1980, 1, 6, 0, 0, 0] = gpst2time 0 0 := by
  refine ⟨fun h => time2gpst_gpst2time w s hw0 h hs0 hs, time2gst_gst2time w s hw0 hw hs0 hs,
    time2bdt_bdt2time w s hw0 hw hs0 hs, ?_⟩
  have h := weekSecToTime_of_range (epoch2time GPST0) 0 0 (by norm_num) (by norm_num)
  rw [gpst2time, h, epoch2time_GPST0]
  have : epoch2time [1980, 1, 6, 0, 0, 0] = epoch2time GPST0 := rfl
  rw [this, epoch2time_GPST0]
  norm_num

theorem week_seconds_roundtrip_witness :
    time2gpst (gpst2time 2000 (1209599 / 2)) = (2000, (1209599 / 2 : ℚ)) ∧
    time2gst (gst2time 2000 (1209599 / 2)) = (2000, (1209599 / 2 : ℚ)) :=
  ⟨(week_seconds_roundtrip 2000 (1209599 / 2) (by decide) (by decide) (by norm_num)
      (by norm_num)).1 (by decide),
   (week_seconds_roundtrip 2000 (1209599 / 2) (by decide) (by decide) (by norm_num)
      (by norm_num)).2.1⟩

/-- Counterexample to claim C8 as stated, a week before the reference epoch: the division
`sec / 604800` of `time2gpst` truncates toward zero, so week `-1`, second `100` comes back
as week `0`, second `-604700`; `time2gst` and `time2bdt` do the same. -/
theorem week_seconds_roundtrip_negative_week :
    time2gpst (gpst2time (-1) 100) = (0, -604700) ∧
    time2gpst (gpst2time (-1) 100) ≠ (-1, 100) ∧
    time2gst (gst2time (-1) 100) = (0, -604700) ∧
    time2bdt (bdt2time (-1) 100) = (0, -604700) := by
  have e : Int.tdiv (-604700) 604800 = 0 := by decide
  have h : time2gpst (gpst2time (-1) 100) = (0, -604700) := by
    norm_num [time2gpst, gpst2time, weekSecToTime, epoch2time_GPST0, castInt, int32, e]
  have h2 : time2gst (gst2time (-1) 100) = (0, -604700) := by
    norm_num [time2gst, gst2time, weekSecToTime, epoch2time_GST0, castInt, int32, e]
  have h3 : time2bdt (bdt2time (-1) 100) = (0, -604700) := by
    norm_num [time2bdt, bdt2time, weekSecToTime, epoch2time_BDT0, castInt, int32, e]
  rw [h]
  exact ⟨rfl, by simp, h2, h3⟩

/-- Evaluation of `time2gpst` where the `int` product `w * 604800` leaves the 32-bit
range (week 3551, January 2048): the time of week comes back `2^32` too large. -/
theorem time2gpst_week_3551 :
    time2gpst (gpst2time 3551 100) = (3551, 4294967396) ∧
    time2gst (gst2time 3551 100) = (3551, 100) := by
  constructor
  · norm_num [time2gpst, gpst2time, weekSecToTime, epoch2time_GPST0, castInt, int32, Int.tdiv]
  · norm_num [time2gst, gst2time, weekSecToTime, epoch2time_GST0, castInt, int32, Int.tdiv]

theorem castInt_lt_of_lt (x : ℚ) (n : Int) (hn : 0 < n) (h : x < n) : castInt x < n := by
  unfold castInt
  split
  · exact Int.floor_lt.2 h
  · rename_i hx
    have : ⌈x⌉ ≤ 0 := Int.ceil_le.2 (by push_cast; linarith)
    omega

theorem castInt_ge_of_ge (x : ℚ) (n : Int) (hn : 0 ≤ n) (h : (n : ℚ) ≤ x) : n ≤ castInt x := by
  have hx : (0 : ℚ) ≤ x := le_trans (by exact_mod_cast hn) h
  rw [castInt_of_nonneg x hx]
  exact Int.le_floor.2 h

/-- The guard of `epoch2time` on fields that are not whole numbers: the cast truncates,
so the zero instant is returned below 1970 and from 2100 on, and for a month below 1 or
from 13 on. -/
theorem epoch2time_guard_truncates (year mon day hour min sec : ℚ)
    (h : year < 1970 ∨ 2100 ≤ year ∨ mon < 1 ∨ 13 ≤ mon) :
    epoch2time [year, mon, day, hour, min, sec] = ⟨0, 0⟩ := by
  have hg : castInt year < 1970 ∨ 2099 < castInt year ∨ castInt mon < 1 ∨ 12 < castInt mon := by
    rcases h with h | h | h | h
    · exact Or.inl (castInt_lt_of_lt year 1970 (by norm_num) (by exact_mod_cast h))
    · have := castInt_ge_of_ge year 2100 (by norm_num) (by exact_mod_cast h)
      exact Or.inr (Or.inl (by omega))
    · exact Or.inr (Or.inr (Or.inl (castInt_lt_of_lt mon 1 (by norm_num) (by exact_mod_cast h))))
    · have := castInt_ge_of_ge mon 13 (by norm_num) (by exact_mod_cast h)
      exact Or.inr (Or.inr (Or.inr (by omega)))
  simp only [epoch2time, List.getD_cons_zero, List.getD_cons_succ, if_pos hg]

/-- Claim C9: Out-of-range calendar input yields the zero instant: for every tuple whose
year is below 1970 or above 2099, or whose month is outside `1..12`, `epoch2time` returns
integral seconds `0` and fraction `0`, whatever the other four fields are. -/
theorem epoch2time_out_of_range (year mon : Int) (day hour min sec : ℚ)
    (h : year < 1970 ∨ 2099 < year ∨ mon < 1 ∨ 12 < mon) :
    epoch2time [(year : ℚ), (mon : ℚ), day, hour, min, sec] = ⟨0, 0⟩ ∧
    (epoch2time [(year : ℚ), (mon : ℚ), day, hour, min, sec]).time = 0 ∧
    (epoch2time [(year : ℚ), (mon : ℚ), day, hour, min, sec]).sec = 0 := by
  have e : epoch2time [(year : ℚ), (mon : ℚ), day, hour, min, sec] = ⟨0, 0⟩ := by
    simp only [epoch2time, List.getD_cons_zero, List.getD_cons_succ, castInt_intCast, if_pos h]
  rw [e]
  exact ⟨rfl, rfl, rfl⟩

theorem epoch2time_out_of_range_witness :
    epoch2time [((1969 : Int) : ℚ), ((12 : Int) : ℚ), 31, 23, 59, 59] = ⟨0, 0⟩ ∧
    epoch2time [((2000 : Int) : ℚ), ((13 : Int) : ℚ), 1, 0, 0, (1 / 2 : ℚ)] = ⟨0, 0⟩ :=
  ⟨(epoch2time_out_of_range 1969 12 31 23 59 59 (by decide)).1,
   (epoch2time_out_of_range 2000 13 1 0 0 (1 / 2) (by decide)).1⟩

/-! ## Leap seconds -/

theorem timediff_nonneg_iff (t e : gtime_t) :
    timediff t e ≥ 0 ↔ instantValue e ≤ instantValue t := by
  unfold timediff instantValue
  push_cast
  constructor <;> intro h <;> linarith

theorem timeadd_of_normalised (t : gtime_t) (n : Int) (h0 : 0 ≤ t.sec) (h1 : t.sec < 1)
    (hn0 : -2 ^ 31 ≤ n) (hn1 : n < 2 ^ 31) :
    timeadd t (n : ℚ) = ⟨t.time + n, t.sec⟩ := by
  have hfl : ⌊t.sec + (n : ℚ)⌋ = n := by
    rw [Int.floor_add_int, Int.floor_eq_zero_iff.2 ⟨h0, h1⟩]; simp
  simp only [timeadd, castInt_intCast, hfl, int32_eq n hn0 hn1]
  congr 1
  ring

theorem utc2gpst_first (table : List (List ℚ)) (t : gtime_t) :
    ∀ i : Nat, (∀ j, j ≤ i → (table.getD j []).getD 0 0 > 0) →
      instantValue (epoch2time (table.getD i [])) ≤ instantValue t →
      (∀ j, j < i → instantValue t < instantValue (epoch2time (table.getD j []))) →
      utc2gpst table t = timeadd t (-((table.getD i []).getD 6 0)) := by
  induction table with
  | nil =>
    intro i hpos _ _
    have := hpos i (Nat.le_refl i)
    simp at this
  | cons row rest ih =>
    intro i hpos hge hlt
    have hrow : row.getD 0 0 > 0 := by simpa using hpos 0 (Nat.zero_le i)
    cases i with
    | zero =>
      have h0 : timediff t (epoch2time row) ≥ 0 :=
        (timediff_nonneg_iff t _).2 (by simpa using hge)
      simp only [utc2gpst, if_pos hrow, if_pos h0, List.getD_cons_zero]
    | succ i =>
      have h0 : ¬ (timediff t (epoch2time row) ≥ 0) := by
        intro h
        have h1 := (timediff_nonneg_iff t _).1 h
        have h2 := hlt 0 (Nat.succ_pos i)
        simp only [List.getD_cons_zero] at h2
        linarith
      simp only [utc2gpst, if_pos hrow, if_neg h0, List.getD_cons_succ]
      apply ih i
      · intro j hj
        simpa using hpos (j + 1) (by omega)
      · simpa using hge
      · intro j hj
        simpa using hlt (j + 1) (by omega)

theorem utc2gpst_none (table : List (List ℚ)) (t : gtime_t) :
    (∀ i : Nat, (∀ j, j ≤ i → (table.getD j []).getD 0 0 > 0) →
      instantValue t < instantValue (epoch2time (table.getD i []))) →
    utc2gpst table t = t := by
  induction table with
  | nil => intro _; rfl
  | cons row rest ih =>
    intro h
    by_cases hrow : row.getD 0 0 > 0
    · have h0 : ¬ (timediff t (epoch2time row) ≥ 0) := by
        intro hd
        have h1 := (timediff_nonneg_iff t _).1 hd
        have h2 := h 0 (fun j hj => by
          have : j = 0 := by omega
          subst this; simpa using hrow)
        simp only [List.getD_cons_zero] at h2
        linarith
      simp only [utc2gpst, if_pos hrow, if_neg h0]
      apply ih
      intro i hi
      have := h (i + 1) (fun j hj => by
        cases j with
        | zero => simpa using hrow
        | succ j => simpa using hi j (by omega))
      simpa using this
    · simp only [utc2gpst, if_neg hrow]

theorem leaps_epoch_ge (j : Nat) (hj : j < 18) :
    362793600 ≤ instantValue (epoch2time (leaps.getD j [])) := by
  interval_cases j <;>
    norm_num [leaps, epoch2time, castInt, int32, doy, Int.tdiv, Int.tmod, Int.toNat,
      instantValue]

theorem leaps_first_epoch :
    epoch2time [2017, 1, 1, 0, 0, 0, -18] = ⟨1483228800, 0⟩ := by
  norm_num [epoch2time, castInt, int32, doy, Int.tdiv, Int.tmod, Int.toNat]

theorem leaps_last_epoch :
    epoch2time [1981, 7, 1, 0, 0, 0] = ⟨362793600, 0⟩ := by
  norm_num [epoch2time, castInt, int32, doy, Int.tdiv, Int.tmod, Int.toNat]

/-- Claim C10: `utc2gpst` applies the first (most recent) leap-second entry at or before the
query: if `i` is the smallest index of the table, before its sentinel, with
`t ≥ epoch2time (leaps[i])`, then `utc2gpst t = timeadd t (-leaps[i][6])`; if no entry
qualifies, `utc2gpst t = t`.  With the compiled-in table every `t` at or after
2017-01-01 00:00:00 maps to `t + 18 s` (to `{t.time + 18, t.sec}` when the fraction of `t`
is in `[0, 1)`) and every `t` before 1981-07-01 00:00:00 maps to `t`. -/
theorem utc2gpst_first_entry (table : List (List ℚ)) (t : gtime_t) :
    (∀ i : Nat, (∀ j, j ≤ i → (table.getD j []).getD 0 0 > 0) →
      instantValue (epoch2time (table.getD i [])) ≤ instantValue t →
      (∀ j, j < i → instantValue t < instantValue (epoch2time (table.getD j []))) →
      utc2gpst table t = timeadd t (-((table.getD i []).getD 6 0))) ∧
    ((∀ i : Nat, (∀ j, j ≤ i → (table.getD j []).getD 0 0 > 0) →
        instantValue t < instantValue (epoch2time (table.getD i []))) →
      utc2gpst table t = t) ∧
    (instantValue (epoch2time [2017, 1, 1, 0, 0, 0]) ≤ instantValue t →
      utc2gpst leaps t = timeadd t 18 ∧
      (0 ≤ t.sec → t.sec < 1 →
        utc2gpst leaps t = ⟨t.time + 18, t.sec⟩ ∧
        instantValue (utc2gpst leaps t) = instantValue t + 18)) ∧
    (instantValue t < instantValue (epoch2time [1981, 7, 1, 0, 0, 0]) →
      utc2gpst leaps t = t) := by
  refine ⟨utc2gpst_first table t, utc2gpst_none table t, ?_, ?_⟩
  · intro h
    have h17 : epoch2time [2017, 1, 1, 0, 0, 0] = ⟨1483228800, 0⟩ := by
      norm_num [epoch2time, castInt, int32, doy, Int.tdiv, Int.tmod, Int.toNat]
    have hfirst := utc2gpst_first leaps t 0
      (fun j hj => by
        have : j = 0 := by omega
        subst this; norm_num [leaps])
      (by
        have : leaps.getD 0 [] = [2017, 1, 1, 0, 0, 0, -18] := rfl
        rw [this, leaps_first_epoch]
        rw [h17] at h
        exact h)
      (fun j hj => absurd hj (Nat.not_lt_zero j))
    have e : -((leaps.getD 0 []).getD 6 0) = 18 := by norm_num [leaps]
    rw [e] at hfirst
    refine ⟨hfirst, fun h0 h1 => ?_⟩
    have hn := timeadd_of_normalised t 18 h0 h1 (by norm_num) (by norm_num)
    have hn' : timeadd t 18 = ⟨t.time + 18, t.sec⟩ := by simpa using hn
    rw [hfirst, hn']
    exact ⟨rfl, by simp only [instantValue]; push_cast; ring⟩
  · intro h
    rw [leaps_last_epoch] at h
    apply utc2gpst_none leaps t
    intro i hpos
    by_cases hi : i < 18
    · have := leaps_epoch_ge i hi
      have hv : instantValue (⟨362793600, 0⟩ : gtime_t) = 362793600 := by
        norm_num [instantValue]
      rw [hv] at h
      linarith
    · have h18 := hpos 18 (by omega)
      norm_num [leaps] at h18

theorem utc2gpst_first_entry_witness :
    utc2gpst leaps ⟨1500000000, 1 / 4⟩ = timeadd ⟨1500000000, 1 / 4⟩ 18 ∧
    utc2gpst leaps ⟨300000000, 1 / 4⟩ = ⟨300000000, 1 / 4⟩ := by
  have h := utc2gpst_first_entry leaps ⟨1500000000, 1 / 4⟩
  have h2 := utc2gpst_first_entry leaps ⟨300000000, 1 / 4⟩
  refine ⟨(h.2.2.1 ?_).1, h2.2.2.2 ?_⟩
  · norm_num [epoch2time, castInt, int32, doy, Int.tdiv, Int.tmod, Int.toNat, instantValue]
  · norm_num [epoch2time, castInt, int32, doy, Int.tdiv, Int.tmod, Int.toNat, instantValue]

/-! ## Instant arithmetic -/

/-- Claim C12, evaluated where it fails: a negative, fractional seconds-of-week.  The
constructors split `sec` with `static_cast<int>`, which truncates toward zero, so half a
second before the reference epoch comes back with the fraction `-1/2`. -/
theorem week_seconds_negative_fraction :
    gpst2time 0 (-1 / 2) = ⟨315964800, -1 / 2⟩ ∧
    gst2time 0 (-1 / 2) = ⟨935280000, -1 / 2⟩ ∧
    bdt2time 0 (-1 / 2) = ⟨1136073600, -1 / 2⟩ ∧
    (gpst2time 0 (-1 / 2)).sec < 0 := by
  have hc : ⌈(-1 / 2 : ℚ)⌉ = 0 := by
    rw [Int.ceil_eq_iff]; norm_num
  have h1 : gpst2time 0 (-1 / 2) = ⟨315964800, -1 / 2⟩ := by
    norm_num [gpst2time, weekSecToTime, epoch2time_GPST0, castInt, hc]
  have h2 : gst2time 0 (-1 / 2) = ⟨935280000, -1 / 2⟩ := by
    norm_num [gst2time, weekSecToTime, epoch2time_GST0, castInt, hc]
  have h3 : bdt2time 0 (-1 / 2) = ⟨1136073600, -1 / 2⟩ := by
    norm_num [bdt2time, weekSecToTime, epoch2time_BDT0, castInt, hc]
  refine ⟨h1, h2, h3, ?_⟩
  rw [h1]; norm_num

/-- The fraction produced by the week/seconds constructors: in `[0, 1)` for a
seconds-of-week that is not negative, in `(-1, 0]` for a negative one. -/
theorem weekSecToTime_sec (t0 : gtime_t) (w : Int) (s : ℚ)
    (h1 : -1000000000 ≤ s) (h2 : s ≤ 1000000000) :
    (0 ≤ s → 0 ≤ (weekSecToTime t0 w s).sec ∧ (weekSecToTime t0 w s).sec < 1) ∧
    (s < 0 → -1 < (weekSecToTime t0 w s).sec ∧ (weekSecToTime t0 w s).sec ≤ 0 ∧
      ((weekSecToTime t0 w s).sec = 0 ↔ ((⌈s⌉ : Int) : ℚ) = s)) := by
  have hc : ¬ (s < -1000000000 ∨ 1000000000 < s) := by
    intro h; rcases h with h | h <;> linarith
  constructor
  · intro h0
    simp only [weekSecToTime, if_neg hc, castInt, if_pos h0]
    exact ⟨by linarith [Int.floor_le s], by linarith [Int.lt_floor_add_one s]⟩
  · intro h0
    have hn : ¬ (0 ≤ s) := not_le.2 h0
    simp only [weekSecToTime, if_neg hc, castInt, if_neg hn]
    refine ⟨by linarith [Int.ceil_lt_add_one s], by linarith [Int.le_ceil s], ?_⟩
    constructor <;> intro h <;> linarith

/-- Claim C14, as amended: a seconds-of-week outside `[-1e9, 1e9]` is replaced by zero:
for every week `w` and every `sec` above `1e9` or below `-1e9`, `gpst2time w sec` is
`gpst2time w 0`, and likewise for `gst2time` and `bdt2time`. -/
theorem week_seconds_out_of_range (w : Int) (sec : ℚ)
    (h : 1000000000 < sec ∨ sec < -1000000000) :
    gpst2time w sec = gpst2time w 0 ∧ gst2time w sec = gst2time w 0 ∧
    bdt2time w sec = bdt2time w 0 := by
  have hc : sec < -1000000000 ∨ 1000000000 < sec := h.symm
  have h0 : ¬ ((0 : ℚ) < -1000000000 ∨ (1000000000 : ℚ) < 0) := by norm_num
  have key : ∀ t0 : gtime_t, weekSecToTime t0 w sec = weekSecToTime t0 w 0 := by
    intro t0
    simp only [weekSecToTime, if_pos hc, if_neg h0]
  exact ⟨key _, key _, key _⟩

theorem week_seconds_out_of_range_witness :
    gpst2time 5 2000000000 = gpst2time 5 0 ∧ bdt2time 5 (-2000000000) = bdt2time 5 0 :=
  ⟨(week_seconds_out_of_range 5 2000000000 (by norm_num)).1,
   (week_seconds_out_of_range 5 (-2000000000) (by norm_num)).2.2⟩

/-- Counterexample to claim C14 as stated: `2e9` seconds is not clamped to `1e9`, the
instant is the one of second `0`. -/
theorem week_seconds_not_clamped :
    gpst2time 0 2000000000 = ⟨315964800, 0⟩ ∧
    gpst2time 0 1000000000 = ⟨1315964800, 0⟩ ∧
    gpst2time 0 2000000000 ≠ gpst2time 0 1000000000 := by
  have h1 : gpst2time 0 2000000000 = ⟨315964800, 0⟩ := by
    norm_num [gpst2time, weekSecToTime, epoch2time_GPST0, castInt]
  have h2 : gpst2time 0 1000000000 = ⟨1315964800, 0⟩ := by
    norm_num [gpst2time, weekSecToTime, epoch2time_GPST0, castInt]
  refine ⟨h1, h2, ?_⟩
  rw [h1, h2]
  intro h
  have := congrArg gtime_t.time h
  norm_num at this

/-! ## Half-week wrapping -/

/-- Claim C13, as amended: `timediffweekcrossover` applies one wrap of a week.  For every
pair of instants the result is `timediff a b`, `timediff a b - 604800` or
`timediff a b + 604800`; it lies in `[-302400, 302400]` whenever
`-907200 ≤ timediff a b ≤ 907200`, and in `(-302400, 302400]` when moreover `timediff a b`
is neither `-302400` nor `-907200`. -/
theorem timediffweekcrossover_one_wrap (a b : gtime_t) :
    (timediffweekcrossover a b = timediff a b ∨
      timediffweekcrossover a b = timediff a b - 604800 ∨
      timediffweekcrossover a b = timediff a b + 604800) ∧
    (-907200 ≤ timediff a b → timediff a b ≤ 907200 →
      -302400 ≤ timediffweekcrossover a b ∧ timediffweekcrossover a b ≤ 302400) ∧
    (-907200 < timediff a b → timediff a b ≤ 907200 → timediff a b ≠ -302400 →
      -302400 < timediffweekcrossover a b ∧ timediffweekcrossover a b ≤ 302400) := by
  have hdef : timediffweekcrossover a b =
      if timediff a b > 302400 then timediff a b - 604800
      else if timediff a b < -302400 then timediff a b + 604800 else timediff a b := rfl
  rw [hdef]
  generalize timediff a b = tk
  refine ⟨?_, ?_, ?_⟩
  · split_ifs
    · exact Or.inr (Or.inl rfl)
    · exact Or.inr (Or.inr rfl)
    · exact Or.inl rfl
  · intro h1 h2
    split_ifs with c1 c2
    · constructor <;> linarith
    · constructor <;> linarith
    · constructor <;> linarith
  · intro h1 h2 h3
    split_ifs with c1 c2
    · constructor <;> linarith
    · constructor <;> linarith
    · have h4 : -302400 ≤ tk := by linarith
      exact ⟨lt_of_le_of_ne h4 (Ne.symm h3), by linarith⟩

theorem timediffweekcrossover_one_wrap_witness :
    timediffweekcrossover ⟨400000, 1 / 2⟩ ⟨0, 0⟩ = -204800 + 1 / 2 ∧
    (-302400 < timediffweekcrossover ⟨400000, 1 / 2⟩ ⟨0, 0⟩ ∧
      timediffweekcrossover ⟨400000, 1 / 2⟩ ⟨0, 0⟩ ≤ 302400) := by
  refine ⟨by norm_num [timediffweekcrossover], ?_⟩
  apply (timediffweekcrossover_one_wrap ⟨400000, 1 / 2⟩ ⟨0, 0⟩).2.2 <;>
    norm_num [timediff]

/-- Counterexample to claim C13 as stated: a difference of `1000000` seconds is wrapped
once, to `395200`, above the half week; and a difference of exactly `-302400` seconds is
returned as it is, on the open end of the interval. -/
theorem timediffweekcrossover_outside_half_week :
    timediffweekcrossover ⟨1000000, 0⟩ ⟨0, 0⟩ = 395200 ∧
    ¬ (timediffweekcrossover ⟨1000000, 0⟩ ⟨0, 0⟩ ≤ 302400) ∧
    timediffweekcrossover ⟨0, 0⟩ ⟨302400, 0⟩ = -302400 ∧
    ¬ (-302400 < timediffweekcrossover ⟨0, 0⟩ ⟨302400, 0⟩) := by
  have h1 : timediffweekcrossover ⟨1000000, 0⟩ ⟨0, 0⟩ = 395200 := by
    norm_num [timediffweekcrossover]
  have h2 : timediffweekcrossover ⟨0, 0⟩ ⟨302400, 0⟩ = -302400 := by
    norm_num [timediffweekcrossover]
  rw [h1, h2]
  norm_num

/-! ## `time2str` -/

theorem roundHalfEven_lt (y : ℚ) (N : Int) (h : y < (N : ℚ) - 1 / 2) :
    roundHalfEven y < N := by
  have hfl : ⌊y⌋ ≤ y := Int.floor_le y
  have h1 : ⌊y⌋ < N := by
    have : ((⌊y⌋ : Int) : ℚ) < (N : ℚ) := by linarith
    exact_mod_cast this
  unfold roundHalfEven
  split_ifs with c1 c2 c3
  · exact h1
  · have : ((⌊y⌋ : Int) : ℚ) + 1 < (N : ℚ) := by linarith
    exact_mod_cast this
  · exact h1
  · have c : y - ⌊y⌋ = 1 / 2 := le_antisymm (not_lt.1 c2) (not_lt.1 c1)
    have : ((⌊y⌋ : Int) : ℚ) + 1 < (N : ℚ) := by linarith
    exact_mod_cast this

theorem tmod_60_le (x : Int) : Int.tmod x 60 ≤ 59 := by
  have h := Int.tmod_lt_of_pos x (by norm_num : (0 : Int) < 60)
  omega

/-- Away from the tie, `time2str` keeps the displayed seconds below 60: whenever
`1 - t.sec ≠ 0.5 / 10^n`, the seconds value handed to `printf`, rounded to the `n`
displayed decimals, is below 60. -/
theorem time2str_seconds_below_60 (t : gtime_t) (n : Int)
    (hne : 1 - t.sec ≠ (1 / 2) / 10 ^ (time2str t n).2.toNat) :
    shownDecimals (time2str t n).2.toNat ((time2str t n).1.getD 5 0) < 60 := by
  have hdef : time2str t n =
      (time2epoch (if 1 - t.sec <
          (1 / 2) / 10 ^ (if n < 0 then (0 : Int) else if n > 12 then 12 else n).toNat
        then ⟨t.time + 1, 0⟩ else t),
        if n < 0 then (0 : Int) else if n > 12 then 12 else n) := rfl
  rw [hdef] at hne ⊢
  simp only at hne ⊢
  generalize (if n < 0 then (0 : Int) else if n > 12 then 12 else n) = nn at *
  have hp : (0 : ℚ) < 10 ^ nn.toNat := by positivity
  have hp1 : (1 : ℚ) ≤ 10 ^ nn.toNat := one_le_pow₀ (by norm_num)
  have hd : (1 / 2 : ℚ) / 10 ^ nn.toNat ≤ 1 / 2 := by
    rw [div_le_iff₀ hp]; linarith
  have key : ∀ u : gtime_t, u.sec < 1 - (1 / 2) / 10 ^ nn.toNat →
      shownDecimals nn.toNat ((time2epoch u).getD 5 0) < 60 := by
    intro u hu
    have h59 := tmod_60_le (int32 (u.time - int32 (Int.tdiv u.time 86400) * 86400))
    have h59' : ((Int.tmod (int32 (u.time - int32 (Int.tdiv u.time 86400) * 86400)) 60 : Int)
        : ℚ) ≤ 59 := by exact_mod_cast h59
    simp only [time2epoch, List.getD_cons_zero, List.getD_cons_succ, shownDecimals]
    generalize ((Int.tmod (int32 (u.time - int32 (Int.tdiv u.time 86400) * 86400)) 60 : Int)
        : ℚ) = c at h59' ⊢
    have hlt : (c + u.sec) * 10 ^ nn.toNat < (((60 * 10 ^ nn.toNat : Int)) : ℚ) - 1 / 2 := by
      push_cast
      have : (c + u.sec) < 60 - (1 / 2) / 10 ^ nn.toNat := by linarith
      calc (c + u.sec) * 10 ^ nn.toNat
          < (60 - (1 / 2) / 10 ^ nn.toNat) * 10 ^ nn.toNat :=
            mul_lt_mul_of_pos_right this hp
        _ = 60 * 10 ^ nn.toNat - 1 / 2 := by field_simp; ring
    have hr := roundHalfEven_lt _ _ hlt
    rw [div_lt_iff₀ hp]
    have : ((roundHalfEven ((c + u.sec) * 10 ^ nn.toNat) : Int) : ℚ) <
        ((60 * 10 ^ nn.toNat : Int) : ℚ) := by exact_mod_cast hr
    push_cast at this
    linarith
  apply key
  split_ifs with hc
  · show (0 : ℚ) < 1 - (1 / 2) / 10 ^ nn.toNat
    linarith
  · have : (1 / 2 : ℚ) / 10 ^ nn.toNat < 1 - t.sec :=
      lt_of_le_of_ne (not_lt.1 hc) (Ne.symm hne)
    linarith

/-- Claim C15, evaluated where it fails: second 59 of a minute with the fraction `1/2`
and no decimals requested.  The guard `1.0 - t.sec < 0.5 / pow(10.0, n)` is strict, so the
tie is not carried: `time2str` hands `59.5` to `%02.0f`, which displays `60`. -/
theorem time2str_tie_prints_60 :
    time2str ⟨59, 1 / 2⟩ 0 = ([1970, 1, 1, 0, 0, 119 / 2], 0) ∧
    shownDecimals 0 ((time2str ⟨59, 1 / 2⟩ 0).1.getD 5 0) = 60 ∧
    time2str ⟨60, 0⟩ 0 = ([1970, 1, 1, 0, 1, 0], 0) := by
  have h1 : time2str ⟨59, 1 / 2⟩ 0 = ([1970, 1, 1, 0, 0, 119 / 2], 0) := by
    norm_num [time2str, time2epoch, time2epochLoop, mday, int32, Int.tdiv, Int.tmod]
  have h2 : time2str ⟨60, 0⟩ 0 = ([1970, 1, 1, 0, 1, 0], 0) := by
    norm_num [time2str, time2epoch, time2epochLoop, mday, int32, Int.tdiv, Int.tmod]
  refine ⟨h1, ?_, h2⟩
  rw [h1]
  have hfl : ⌊(119 / 2 : ℚ)⌋ = 59 := by rw [Int.floor_eq_iff]; norm_num
  simp only [List.getD_cons_zero, List.getD_cons_succ, shownDecimals, roundHalfEven]
  norm_num [hfl]

open Matrix

/-! ## Stores of a loop -/

theorem storeAll_length {τ : Type} (ts : List τ) (f : τ → Nat) (g : τ → ℚ) :
    ∀ buf : List ℚ, (storeAll buf ts f g).length = buf.length := by
  induction ts with
  | nil => intro buf; rfl
  | cons t ts ih =>
    intro buf
    show (storeAll (buf.set (f t) (g t)) ts f g).length = buf.length
    rw [ih, List.length_set]

theorem getD_set_ne (buf : List ℚ) (i p : Nat) (a : ℚ) (h : i ≠ p) :
    (buf.set i a).getD p 0 = buf.getD p 0 := by
  simp [List.getD_eq_getElem?_getD, List.getElem?_set_ne h]

theorem getD_set_self (buf : List ℚ) (i : Nat) (a : ℚ) (h : i < buf.length) :
    (buf.set i a).getD i 0 = a := by
  simp [List.getD_eq_getElem?_getD, List.getElem?_set_self h]

/-- A cell that no iteration stores to keeps its value. -/
theorem storeAll_getD_of_not_mem {τ : Type} (ts : List τ) (f : τ → Nat) (g : τ → ℚ) (p : Nat)
    (hp : ∀ t ∈ ts, f t ≠ p) :
    ∀ buf : List ℚ, (storeAll buf ts f g).getD p 0 = buf.getD p 0 := by
  induction ts with
  | nil => intro buf; rfl
  | cons t ts ih =>
    intro buf
    show (storeAll (buf.set (f t) (g t)) ts f g).getD p 0 = buf.getD p 0
    rw [ih (fun u hu => hp u (List.mem_cons_of_mem _ hu)),
      getD_set_ne _ _ _ _ (hp t (List.mem_cons_self _ _))]

/-- A cell that the loop stores to holds the value of the iterations that store to it,
when they all store the same value. -/
theorem storeAll_getD_of_mem {τ : Type} (ts : List τ) (f : τ → Nat) (g : τ → ℚ)
    (hinj : ∀ t ∈ ts, ∀ u ∈ ts, f t = f u → g t = g u) :
    ∀ (buf : List ℚ) (t : τ), t ∈ ts → f t < buf.length →
      (storeAll buf ts f g).getD (f t) 0 = g t := by
  induction ts with
  | nil => intro buf t ht; simp at ht
  | cons t0 ts ih =>
    intro buf t ht hlen
    show (storeAll (buf.set (f t0) (g t0)) ts f g).getD (f t) 0 = g t
    by_cases hmem : ∃ u ∈ ts, f u = f t
    · obtain ⟨u, hu, hfu⟩ := hmem
      have hgu : g u = g t :=
        hinj u (List.mem_cons_of_mem _ hu) t ht hfu
      have := ih (fun a ha b hb => hinj a (List.mem_cons_of_mem _ ha) b
        (List.mem_cons_of_mem _ hb)) (buf.set (f t0) (g t0)) u hu
        (by rw [List.length_set, hfu]; exact hlen)
      rw [hfu, hgu] at this
      exact this
    · have hnot : ∀ u ∈ ts, f u ≠ f t := fun u hu h => hmem ⟨u, hu, h⟩
      rw [storeAll_getD_of_not_mem ts f g (f t) hnot]
      rcases List.mem_cons.1 ht with h | h
      · subst h
        exact getD_set_self _ _ _ hlen
      · exact absurd rfl (hnot t h)

theorem mem_loop2 (a b i j : Nat) : (i, j) ∈ loop2 a b ↔ i < a ∧ j < b := by
  simp [loop2, List.pair_mem_product]

/-! ## Column-major indices -/

theorem colmajor_mod (i j n : Nat) (hi : i < n) : (i + j * n) % n = i := by
  rw [Nat.add_mul_mod_self_right, Nat.mod_eq_of_lt hi]

theorem colmajor_div (i j n : Nat) (hi : i < n) : (i + j * n) / n = j := by
  have hn : 0 < n := by omega
  rw [Nat.add_mul_div_right _ _ hn, Nat.div_eq_of_lt hi, Nat.zero_add]

theorem colmajor_lt (i j n k : Nat) (hi : i < n) (hj : j < k) : i + j * n < n * k := by
  have : (j + 1) * n ≤ k * n := Nat.mul_le_mul_right n hj
  have e : n * k = k * n := Nat.mul_comm n k
  rw [e]
  have : (j + 1) * n = j * n + n := by ring
  omega

theorem colmajor_inj (i j i2 j2 n : Nat) (hi : i < n) (hi2 : i2 < n)
    (h : i + j * n = i2 + j2 * n) : i = i2 ∧ j = j2 := by
  have h1 := colmajor_mod i j n hi
  have h2 := colmajor_mod i2 j2 n hi2
  have h3 := colmajor_div i j n hi
  have h4 := colmajor_div i2 j2 n hi2
  rw [h] at h1 h3
  exact ⟨by rw [← h1, h2], by rw [← h3, h4]⟩

/-! ## The active indices of `filter` -/

theorem mem_activeIndices (x P : List ℚ) (n i : Nat) :
    i ∈ activeIndices x P n ↔ i < n ∧ x.getD i 0 ≠ 0 ∧ P.getD (i + i * n) 0 > 0 := by
  simp [activeIndices, List.mem_filter]

theorem activeIndices_nodup (x P : List ℚ) (n : Nat) : (activeIndices x P n).Nodup :=
  List.Nodup.filter _ (List.nodup_range n)

theorem activeIndices_getD_mem (x P : List ℚ) (n a : Nat)
    (ha : a < (activeIndices x P n).length) :
    (activeIndices x P n).getD a 0 ∈ activeIndices x P n := by
  rw [List.getD_eq_getElem _ _ ha]
  exact List.getElem_mem _

theorem activeIndices_getD_lt (x P : List ℚ) (n a : Nat)
    (ha : a < (activeIndices x P n).length) : (activeIndices x P n).getD a 0 < n :=
  ((mem_activeIndices x P n _).1 (activeIndices_getD_mem x P n a ha)).1

theorem activeIndices_getD_inj (x P : List ℚ) (n a b : Nat)
    (ha : a < (activeIndices x P n).length) (hb : b < (activeIndices x P n).length)
    (h : (activeIndices x P n).getD a 0 = (activeIndices x P n).getD b 0) : a = b := by
  rw [List.getD_eq_getElem _ _ ha, List.getD_eq_getElem _ _ hb] at h
  exact (List.Nodup.getElem_inj_iff (activeIndices_nodup x P n)).1 h

theorem exists_of_mem_activeIndices (x P : List ℚ) (n i : Nat)
    (h : i ∈ activeIndices x P n) :
    ∃ a, a < (activeIndices x P n).length ∧ (activeIndices x P n).getD a 0 = i := by
  obtain ⟨a, ha, he⟩ := List.getElem_of_mem h
  exact ⟨a, ha, by rw [List.getD_eq_getElem _ _ ha, he]⟩

/-! ## Arrays as matrices -/

theorem list_sum_map_range (f : Nat → ℚ) (m : Nat) :
    ((List.range m).map f).sum = ∑ l : Fin m, f l.val := by
  rw [Fin.sum_univ_eq_sum_range]
  induction m with
  | zero => simp
  | succ m ih => rw [List.range_succ, List.map_append, List.sum_append, ih,
      Finset.sum_range_succ]; simp

theorem getD_map_range_append (g : Nat → ℚ) (N : Nat) (rest : List ℚ) (p : Nat) (hp : p < N) :
    (((List.range N).map g) ++ rest).getD p 0 = g p := by
  have hlen : p < ((List.range N).map g).length := by simpa using hp
  rw [List.getD_append _ _ _ _ hlen, List.getD_eq_getElem _ _ hlen]
  simp

theorem getD_map_range_append_ge (g : Nat → ℚ) (N : Nat) (rest : List ℚ) (p : Nat)
    (hp : N ≤ p) : (((List.range N).map g) ++ rest).getD p 0 = rest.getD (p - N) 0 := by
  have hlen : ((List.range N).map g).length ≤ p := by simpa using hp
  rw [List.getD_append_right _ _ _ _ hlen]
  simp

theorem toMat_apply (A : List ℚ) (n m : Nat) (i : Fin n) (j : Fin m) :
    toMat A n m i j = A.getD (i.val + j.val * n) 0 := rfl

theorem toMat_ofMat_append {n m : Nat} (M : Matrix (Fin n) (Fin m) ℚ) (rest : List ℚ) :
    toMat (ofMat M ++ rest) n m = M := by
  ext i j
  have hlt := colmajor_lt i.val j.val n m i.isLt j.isLt
  have hmod := colmajor_mod i.val j.val n i.isLt
  have hdiv := colmajor_div i.val j.val n i.isLt
  rw [toMat_apply, ofMat, getD_map_range_append _ _ _ _ hlt]
  have hc : (i.val + j.val * n) % n < n ∧ (i.val + j.val * n) / n < m := by
    rw [hmod, hdiv]; exact ⟨i.isLt, j.isLt⟩
  rw [dif_pos hc]
  congr 1
  · exact Fin.ext hmod
  · exact Fin.ext hdiv

/-- The model of `dgemm_` on the matrices the arrays hold. -/
theorem toMat_dgemm (ta tb : Bool) (n k m : Nat) (alpha : ℚ) (A : List ℚ) (lda : Nat)
    (B : List ℚ) (ldb : Nat) (beta : ℚ) (C : List ℚ) :
    toMat (dgemm ta tb n k m alpha A lda B ldb beta C) n k =
      alpha • ((Matrix.of fun (i : Fin n) (l : Fin m) =>
          if ta then A.getD (l.val + i.val * lda) 0 else A.getD (i.val + l.val * lda) 0) *
        (Matrix.of fun (l : Fin m) (j : Fin k) =>
          if tb then B.getD (j.val + l.val * ldb) 0 else B.getD (l.val + j.val * ldb) 0)) +
      beta • toMat C n k := by
  ext i j
  have hlt := colmajor_lt i.val j.val n k i.isLt j.isLt
  have hmod := colmajor_mod i.val j.val n i.isLt
  have hdiv := colmajor_div i.val j.val n i.isLt
  rw [toMat_apply, dgemm, getD_map_range_append _ _ _ _ hlt, hmod, hdiv, list_sum_map_range]
  simp [Matrix.mul_apply, toMat_apply]

theorem toMat_matmul_NN (n k m : Nat) (alpha : ℚ) (A B : List ℚ) (beta : ℚ) (C : List ℚ) :
    toMat (matmul ['N', 'N'] n k m alpha A B beta C) n k =
      alpha • (toMat A n m * toMat B m k) + beta • toMat C n k := by
  have e : matmul ['N', 'N'] n k m alpha A B beta C =
      dgemm false false n k m alpha A n B m beta C := by simp [matmul]
  rw [e, toMat_dgemm]
  rfl

theorem toMat_matmul_TN (n k m : Nat) (alpha : ℚ) (A B : List ℚ) (beta : ℚ) (C : List ℚ) :
    toMat (matmul ['T', 'N'] n k m alpha A B beta C) n k =
      alpha • ((toMat A m n)ᵀ * toMat B m k) + beta • toMat C n k := by
  have e : matmul ['T', 'N'] n k m alpha A B beta C =
      dgemm true false n k m alpha A m B m beta C := by simp [matmul]
  rw [e, toMat_dgemm]
  rfl

theorem toMat_matmul_NT (n k m : Nat) (alpha : ℚ) (A B : List ℚ) (beta : ℚ) (C : List ℚ) :
    toMat (matmul ['N', 'T'] n k m alpha A B beta C) n k =
      alpha • (toMat A n m * (toMat B k m)ᵀ) + beta • toMat C n k := by
  have e : matmul ['N', 'T'] n k m alpha A B beta C =
      dgemm false true n k m alpha A n B k beta C := by simp [matmul]
  rw [e, toMat_dgemm]
  rfl

theorem toMat_matcpy (A B : List ℚ) (n m : Nat) : toMat (matcpy A B n m) n m = toMat B n m := by
  ext i j
  have hlt := colmajor_lt i.val j.val n m i.isLt j.isLt
  rw [toMat_apply, toMat_apply, matcpy, getD_map_range_append _ _ _ _ hlt]

theorem toMat_eye (n : Nat) : toMat (eye n) n n = 1 := by
  ext i j
  have hlt := colmajor_lt i.val j.val n n i.isLt j.isLt
  rw [toMat_apply, eye]
  by_cases hij : i = j
  · subst hij
    have h := storeAll_getD_of_mem (List.range n) (fun i => i + i * n) (fun _ => (1 : ℚ))
      (fun _ _ _ _ _ => rfl) (zeros n n) i.val (List.mem_range.2 i.isLt)
      (by simpa [zeros] using hlt)
    simpa using h
  · have h := storeAll_getD_of_not_mem (List.range n) (fun i => i + i * n) (fun _ => (1 : ℚ))
      (i.val + j.val * n)
      (fun t ht hEq => by
        have ht' : t < n := List.mem_range.1 ht
        have := colmajor_inj t t i.val j.val n ht' i.isLt hEq
        exact hij (Fin.ext (by omega)))
      (zeros n n)
    rw [h, Matrix.one_apply_ne hij]
    simp [zeros, List.getD_eq_getElem?_getD, List.getElem?_replicate, hlt]

/-- The model of `matinv` on the matrix the array holds. -/
theorem matinv_status (A : List ℚ) (n : Nat) :
    ((matinv A n).1 = 0 ↔ (toMat A n n).det ≠ 0) ∧ ((matinv A n).1 = 0 ∨ (matinv A n).1 = 1) := by
  unfold matinv
  split_ifs with h
  · simp [h]
  · simp [h]

theorem toMat_matinv (A : List ℚ) (n : Nat) (h : (toMat A n n).det ≠ 0) :
    toMat (matinv A n).2 n n = (toMat A n n)⁻¹ := by
  unfold matinv
  rw [if_neg h]
  simp only
  rw [toMat_ofMat_append, Matrix.inv_def, Ring.inverse_eq_inv']

/-! ## `filter_` on matrices -/

theorem filter__unfold (junk x P H v R : List ℚ) (n m : Nat) (xp Pp : List ℚ) :
    filter_ junk x P H v R n m xp Pp =
      if (matinv (matmul ['T', 'N'] m m n 1 H (matmul ['N', 'N'] n m n 1 P H 0 (mat junk n m)) 1
            (matcpy (mat junk m m) R m m)) m).1 = 0 then
        ((matinv (matmul ['T', 'N'] m m n 1 H (matmul ['N', 'N'] n m n 1 P H 0 (mat junk n m)) 1
            (matcpy (mat junk m m) R m m)) m).1,
          matmul ['N', 'N'] n 1 m 1
            (matmul ['N', 'N'] n m m 1 (matmul ['N', 'N'] n m n 1 P H 0 (mat junk n m))
              (matinv (matmul ['T', 'N'] m m n 1 H
                (matmul ['N', 'N'] n m n 1 P H 0 (mat junk n m)) 1
                (matcpy (mat junk m m) R m m)) m).2 0 (mat junk n m))
            v 1 (matcpy xp x n 1),
          matmul ['N', 'N'] n n n 1
            (matmul ['N', 'T'] n n m (-1)
              (matmul ['N', 'N'] n m m 1 (matmul ['N', 'N'] n m n 1 P H 0 (mat junk n m))
                (matinv (matmul ['T', 'N'] m m n 1 H
                  (matmul ['N', 'N'] n m n 1 P H 0 (mat junk n m)) 1
                  (matcpy (mat junk m m) R m m)) m).2 0 (mat junk n m))
              H 1 (eye n))
            P 0 Pp)
      else
        ((matinv (matmul ['T', 'N'] m m n 1 H (matmul ['N', 'N'] n m n 1 P H 0 (mat junk n m)) 1
            (matcpy (mat junk m m) R m m)) m).1, matcpy xp x n 1, Pp) := rfl

/-- The innovation covariance `H' P H + R` that `filter_` builds in `Q`. -/
theorem toMat_innovation (junk P H R : List ℚ) (n m : Nat) :
    toMat (matmul ['T', 'N'] m m n 1 H (matmul ['N', 'N'] n m n 1 P H 0 (mat junk n m)) 1
        (matcpy (mat junk m m) R m m)) m m =
      (toMat H n m)ᵀ * toMat P n n * toMat H n m + toMat R m m := by
  rw [toMat_matmul_TN, toMat_matmul_NN, toMat_matcpy, Matrix.mul_assoc]
  simp

/-- Failure of `filter_`: when `H' P H + R` is singular the status is not `0`, `xp` is the
copy of `x`, and `Pp` is not written. -/
theorem filter__singular (junk x P H v R : List ℚ) (n m : Nat) (xp Pp : List ℚ)
    (h : ((toMat H n m)ᵀ * toMat P n n * toMat H n m + toMat R m m).det = 0) :
    filter_ junk x P H v R n m xp Pp = (1, matcpy xp x n 1, Pp) := by
  rw [← toMat_innovation junk P H R n m] at h
  rw [filter__unfold]
  have h1 : (matinv (matmul ['T', 'N'] m m n 1 H
      (matmul ['N', 'N'] n m n 1 P H 0 (mat junk n m)) 1 (matcpy (mat junk m m) R m m)) m).1
      = 1 := by
    unfold matinv; rw [if_pos h]
  rw [h1]
  simp

/-- Success of `filter_`: when `H' P H + R` is invertible the status is `0`,
`xp = x + K v` and `Pp = (I - K H') P` with `K = P H (H' P H + R)⁻¹`. -/
theorem filter__regular (junk x P H v R : List ℚ) (n m : Nat) (xp Pp : List ℚ)
    (h : ((toMat H n m)ᵀ * toMat P n n * toMat H n m + toMat R m m).det ≠ 0) :
    (filter_ junk x P H v R n m xp Pp).1 = 0 ∧
    toVec (filter_ junk x P H v R n m xp Pp).2.1 n =
      toVec x n + (toMat P n n * toMat H n m *
        ((toMat H n m)ᵀ * toMat P n n * toMat H n m + toMat R m m)⁻¹).mulVec (toVec v m) ∧
    toMat (filter_ junk x P H v R n m xp Pp).2.2 n n =
      (1 - toMat P n n * toMat H n m *
        ((toMat H n m)ᵀ * toMat P n n * toMat H n m + toMat R m m)⁻¹ * (toMat H n m)ᵀ) *
        toMat P n n := by
  have hS := toMat_innovation junk P H R n m
  rw [← hS] at h
  have h1 := ((matinv_status _ m).1).2 h
  have hinv := toMat_matinv _ m h
  rw [hS] at hinv
  rw [filter__unfold, if_pos h1]
  refine ⟨h1, ?_, ?_⟩
  · funext i
    have e : toVec (matmul ['N', 'N'] n 1 m 1
        (matmul ['N', 'N'] n m m 1 (matmul ['N', 'N'] n m n 1 P H 0 (mat junk n m))
          (matinv (matmul ['T', 'N'] m m n 1 H
            (matmul ['N', 'N'] n m n 1 P H 0 (mat junk n m)) 1
            (matcpy (mat junk m m) R m m)) m).2 0 (mat junk n m))
        v 1 (matcpy xp x n 1)) n i =
        toMat (matmul ['N', 'N'] n 1 m 1
        (matmul ['N', 'N'] n m m 1 (matmul ['N', 'N'] n m n 1 P H 0 (mat junk n m))
          (matinv (matmul ['T', 'N'] m m n 1 H
            (matmul ['N', 'N'] n m n 1 P H 0 (mat junk n m)) 1
            (matcpy (mat junk m m) R m m)) m).2 0 (mat junk n m))
        v 1 (matcpy xp x n 1)) n 1 i 0 := by
      simp [toVec, toMat_apply]
    show toVec _ n i = _
    rw [e, toMat_matmul_NN, toMat_matmul_NN, toMat_matmul_NN, hinv, toMat_matcpy]
    simp [Matrix.mul_apply, Matrix.mulVec, Matrix.dotProduct, toMat_apply, toVec, add_comm]
  · show toMat _ n n = _
    rw [toMat_matmul_NN, toMat_matmul_NT, toMat_matmul_NN, toMat_matmul_NN, hinv, toMat_eye]
    simp [sub_eq_add_neg, add_comm]

/-! ## Gather and scatter of `filter` -/

theorem getD_mem_of_lt (ix : List Nat) (a : Nat) (ha : a < ix.length) : ix.getD a 0 ∈ ix := by
  rw [List.getD_eq_getElem _ _ ha]
  exact List.getElem_mem _

theorem getD_inj_of_nodup (ix : List Nat) (hnd : ix.Nodup) (a b : Nat) (ha : a < ix.length)
    (hb : b < ix.length) (h : ix.getD a 0 = ix.getD b 0) : a = b := by
  rw [List.getD_eq_getElem _ _ ha, List.getD_eq_getElem _ _ hb] at h
  exact (List.Nodup.getElem_inj_iff hnd).1 h

theorem mat_length (junk : List ℚ) (n m : Nat) : (mat junk n m).length = n * m := by
  simp [mat]

theorem toVec_gatherX (ix : List Nat) (junk x : List ℚ) :
    toVec (gatherX ix junk x) ix.length = compactX ix x := by
  funext a
  have h := storeAll_getD_of_mem (List.range ix.length) (fun i => i)
    (fun i => x.getD (ix.getD i 0) 0) (fun t _ u _ e => by simp only at e; rw [e])
    (mat junk ix.length 1) a.val (List.mem_range.2 a.isLt)
    (by rw [mat_length, Nat.mul_one]; exact a.isLt)
  exact h

theorem toMat_gatherP (ix : List Nat) (junk P : List ℚ) (n : Nat) :
    toMat (gatherP ix junk P n) ix.length ix.length = compactP ix P n := by
  ext a b
  have h := storeAll_getD_of_mem (loop2 ix.length ix.length) (fun t => t.1 + t.2 * ix.length)
    (fun t => P.getD (ix.getD t.1 0 + ix.getD t.2 0 * n) 0)
    (fun t ht u hu e => by
      have ht' := (mem_loop2 _ _ t.1 t.2).1 ht
      have hu' := (mem_loop2 _ _ u.1 u.2).1 hu
      obtain ⟨e1, e2⟩ := colmajor_inj t.1 t.2 u.1 u.2 ix.length ht'.1 hu'.1 e
      simp only [e1, e2])
    (mat junk ix.length ix.length) (a.val, b.val) ((mem_loop2 _ _ _ _).2 ⟨a.isLt, b.isLt⟩)
    (by rw [mat_length]; exact colmajor_lt a.val b.val _ _ a.isLt b.isLt)
  exact h

theorem toMat_gatherH (ix : List Nat) (junk H : List ℚ) (n m : Nat) :
    toMat (gatherH ix junk H n m) ix.length m = compactH ix H n m := by
  ext a j
  have h := storeAll_getD_of_mem (loop2 ix.length m) (fun t => t.1 + t.2 * ix.length)
    (fun t => H.getD (ix.getD t.1 0 + t.2 * n) 0)
    (fun t ht u hu e => by
      have ht' := (mem_loop2 _ _ t.1 t.2).1 ht
      have hu' := (mem_loop2 _ _ u.1 u.2).1 hu
      obtain ⟨e1, e2⟩ := colmajor_inj t.1 t.2 u.1 u.2 ix.length ht'.1 hu'.1 e
      simp only [e1, e2])
    (mat junk ix.length m) (a.val, j.val) ((mem_loop2 _ _ _ _).2 ⟨a.isLt, j.isLt⟩)
    (by rw [mat_length]; exact colmajor_lt a.val j.val _ _ a.isLt j.isLt)
  exact h

/-- Scatter of the state: the cell of the `a`-th listed index receives `xp[a]`. -/
theorem scatter_x_mem (ix : List Nat) (hnd : ix.Nodup) (x xp : List ℚ) (a : Nat)
    (ha : a < ix.length) (hlen : ix.getD a 0 < x.length) :
    (scatterX ix x xp).getD (ix.getD a 0) 0 = xp.getD a 0 := by
  exact storeAll_getD_of_mem (List.range ix.length) (fun i => ix.getD i 0)
    (fun i => xp.getD i 0)
    (fun t ht u hu e => by
      have := getD_inj_of_nodup ix hnd t u (List.mem_range.1 ht) (List.mem_range.1 hu) e
      simp only [this])
    x a (List.mem_range.2 ha) hlen

/-- Scatter of the state: a cell whose index is not listed is not written. -/
theorem scatter_x_not_mem (ix : List Nat) (x xp : List ℚ) (i : Nat) (hi : i ∉ ix) :
    (scatterX ix x xp).getD i 0 = x.getD i 0 := by
  apply storeAll_getD_of_not_mem
  intro t ht e
  exact hi (e ▸ getD_mem_of_lt ix t (List.mem_range.1 ht))

/-- Scatter of the covariance: the cell of the `a`-th and `b`-th listed indices receives
`Pp[a + b * k]`. -/
theorem scatter_P_mem (ix : List Nat) (hnd : ix.Nodup) (n : Nat) (hlt : ∀ i ∈ ix, i < n)
    (P Pp : List ℚ) (a b : Nat) (ha : a < ix.length) (hb : b < ix.length)
    (hlen : P.length = n * n) :
    (scatterP ix P Pp n).getD (ix.getD a 0 + ix.getD b 0 * n) 0 =
      Pp.getD (a + b * ix.length) 0 := by
  exact storeAll_getD_of_mem (loop2 ix.length ix.length)
    (fun t => ix.getD t.1 0 + ix.getD t.2 0 * n) (fun t => Pp.getD (t.1 + t.2 * ix.length) 0)
    (fun t ht u hu e => by
      have ht' := (mem_loop2 _ _ t.1 t.2).1 ht
      have hu' := (mem_loop2 _ _ u.1 u.2).1 hu
      obtain ⟨e1, e2⟩ := colmajor_inj _ _ _ _ n
        (hlt _ (getD_mem_of_lt ix t.1 ht'.1)) (hlt _ (getD_mem_of_lt ix u.1 hu'.1)) e
      have f1 := getD_inj_of_nodup ix hnd _ _ ht'.1 hu'.1 e1
      have f2 := getD_inj_of_nodup ix hnd _ _ ht'.2 hu'.2 e2
      simp only [f1, f2])
    P (a, b) ((mem_loop2 _ _ _ _).2 ⟨ha, hb⟩)
    (by
      rw [hlen]
      exact colmajor_lt _ _ n n (hlt _ (getD_mem_of_lt ix a ha)) (hlt _ (getD_mem_of_lt ix b hb)))

/-- Scatter of the covariance: a cell in the row or in the column of an index that is
not listed is not written. -/
theorem scatter_P_not_mem (ix : List Nat) (n : Nat) (hlt : ∀ i ∈ ix, i < n) (P Pp : List ℚ)
    (i j : Nat) (hi : i < n) (hnot : i ∉ ix ∨ j ∉ ix) :
    (scatterP ix P Pp n).getD (i + j * n) 0 = P.getD (i + j * n) 0 := by
  apply storeAll_getD_of_not_mem
  intro t ht e
  have ht' := (mem_loop2 _ _ t.1 t.2).1 ht
  obtain ⟨e1, e2⟩ := colmajor_inj _ _ _ _ n (hlt _ (getD_mem_of_lt ix t.1 ht'.1)) hi e
  rcases hnot with h | h
  · exact h (e1 ▸ getD_mem_of_lt ix t.1 ht'.1)
  · exact h (e2 ▸ getD_mem_of_lt ix t.2 ht'.2)

theorem activeIndices_lt (x P : List ℚ) (n : Nat) : ∀ i ∈ activeIndices x P n, i < n :=
  fun i hi => ((mem_activeIndices x P n i).1 hi).1

/-! ## The Kalman update of `filter` -/

theorem filterWith_status (ix : List Nat) (junk x P H v R : List ℚ) (n m : Nat) :
    (filterWith ix junk x P H v R n m).1 =
      (filter_ junk (gatherX ix junk x) (gatherP ix junk P n) (gatherH ix junk H n m) v R
        ix.length m (mat junk ix.length 1) (mat junk ix.length ix.length)).1 := rfl

theorem filterWith_x (ix : List Nat) (junk x P H v R : List ℚ) (n m : Nat) :
    (filterWith ix junk x P H v R n m).2.1 =
      scatterX ix x (filter_ junk (gatherX ix junk x) (gatherP ix junk P n)
        (gatherH ix junk H n m) v R ix.length m (mat junk ix.length 1)
        (mat junk ix.length ix.length)).2.1 := rfl

theorem filterWith_P (ix : List Nat) (junk x P H v R : List ℚ) (n m : Nat) :
    (filterWith ix junk x P H v R n m).2.2 =
      scatterP ix P (filter_ junk (gatherX ix junk x) (gatherP ix junk P n)
        (gatherH ix junk H n m) v R ix.length m (mat junk ix.length 1)
        (mat junk ix.length ix.length)).2.2 n := rfl

/-- Frame of `filter`: a state that is not in the index array keeps its value, its row and
its column, whatever `filter_` returns. -/
theorem filter_frame_of_not_active (junk x P H v R : List ℚ) (n m i : Nat) (hi : i < n)
    (hnot : i ∉ activeIndices x P n) :
    (filter junk x P H v R n m).2.1.getD i 0 = x.getD i 0 ∧
    ∀ j, j < n →
      (filter junk x P H v R n m).2.2.getD (i + j * n) 0 = P.getD (i + j * n) 0 ∧
      (filter junk x P H v R n m).2.2.getD (j + i * n) 0 = P.getD (j + i * n) 0 := by
  unfold filter
  rw [filterWith_x, filterWith_P]
  refine ⟨scatter_x_not_mem _ _ _ i hnot, fun j hj => ⟨?_, ?_⟩⟩
  · exact scatter_P_not_mem _ n (activeIndices_lt x P n) _ _ i j hi (Or.inl hnot)
  · exact scatter_P_not_mem _ n (activeIndices_lt x P n) _ _ j i hj (Or.inr hnot)

/-- Claim C16, as amended: the inactive-state mask of `filter`.  A state index `i < n` is
in the compacted active subset exactly when `x[i] != 0` and `P[i,i] > 0`; the excluded
indices are exactly those with `x[i] == 0` or `P[i,i] <= 0`, and the call leaves the
state, the row and the column of an excluded index as they were. -/
theorem filter_mask (junk x P H v R : List ℚ) (n m i : Nat) (hi : i < n) :
    (i ∈ activeIndices x P n ↔ x.getD i 0 ≠ 0 ∧ P.getD (i + i * n) 0 > 0) ∧
    (i ∉ activeIndices x P n ↔ x.getD i 0 = 0 ∨ P.getD (i + i * n) 0 ≤ 0) ∧
    (x.getD i 0 = 0 ∨ P.getD (i + i * n) 0 ≤ 0 →
      (filter junk x P H v R n m).2.1.getD i 0 = x.getD i 0 ∧
      ∀ j, j < n →
        (filter junk x P H v R n m).2.2.getD (i + j * n) 0 = P.getD (i + j * n) 0 ∧
        (filter junk x P H v R n m).2.2.getD (j + i * n) 0 = P.getD (j + i * n) 0) := by
  have hmem := mem_activeIndices x P n i
  have h1 : i ∈ activeIndices x P n ↔ x.getD i 0 ≠ 0 ∧ P.getD (i + i * n) 0 > 0 :=
    ⟨fun h => (hmem.1 h).2, fun h => hmem.2 ⟨hi, h⟩⟩
  have h2 : i ∉ activeIndices x P n ↔ x.getD i 0 = 0 ∨ P.getD (i + i * n) 0 ≤ 0 := by
    rw [h1, not_and_or, not_not, not_lt]
  exact ⟨h1, h2, fun h => filter_frame_of_not_active junk x P H v R n m i hi (h2.2 h)⟩

theorem filter_mask_witness :
    (1 ∉ activeIndices [3, 0] [1, 0, 0, 2] 2 ↔
      ([3, 0] : List ℚ).getD 1 0 = 0 ∨ ([1, 0, 0, 2] : List ℚ).getD (1 + 1 * 2) 0 ≤ 0) ∧
    activeIndices [3, 0] [1, 0, 0, 2] 2 = [0] :=
  ⟨(filter_mask [] [3, 0] [1, 0, 0, 2] [1, 1] [1] [1] 2 1 1 (by decide)).2.1,
   by simp [activeIndices, List.range_succ]⟩

/-- Counterexample to claim C16 as stated: a state with `x[0] == 0` and `P[0,0] = 1 > 0` is
not in the set `{ i | x[i] == 0 and P[i,i] <= 0 }`, yet `filter` excludes it: the index
array is empty and an innovation of `5` leaves `x` and `P` as they were. -/
theorem filter_excludes_zero_state :
    ¬ (([0] : List ℚ).getD 0 0 = 0 ∧ ([1] : List ℚ).getD (0 + 0 * 1) 0 ≤ 0) ∧
    activeIndices [0] [1] 1 = [] ∧
    0 ∉ activeIndices [0] [1] 1 ∧
    (filter [] [0] [1] [1] [5] [1] 1 1).2 = ([0], [1]) := by
  have hix : activeIndices [0] [1] 1 = [] := by simp [activeIndices, List.range_succ]
  refine ⟨by norm_num, hix, by rw [hix]; simp, ?_⟩
  unfold filter
  rw [hix]
  rfl

/-- Claim C17: the masked indices are a frame of the Kalman update.  For every call of
`filter` and every index `i < n` with `x[i] == 0` and `P[i,i] <= 0`, after the call,
whatever the status, `x[i]` and every entry of row `i` and of column `i` of `P` are
unchanged. -/
theorem filter_frame (junk x P H v R : List ℚ) (n m i : Nat) (hi : i < n)
    (hmask : x.getD i 0 = 0 ∧ P.getD (i + i * n) 0 ≤ 0) :
    (filter junk x P H v R n m).2.1.getD i 0 = x.getD i 0 ∧
    ∀ j, j < n →
      (filter junk x P H v R n m).2.2.getD (i + j * n) 0 = P.getD (i + j * n) 0 ∧
      (filter junk x P H v R n m).2.2.getD (j + i * n) 0 = P.getD (j + i * n) 0 := by
  apply filter_frame_of_not_active junk x P H v R n m i hi
  intro h
  exact ((mem_activeIndices x P n i).1 h).2.1 hmask.1

theorem filter_frame_witness :
    (filter [7, 7] [3, 0] [1, 4, 4, 0] [1, 1] [1] [1] 2 1).2.1.getD 1 0 =
      ([3, 0] : List ℚ).getD 1 0 ∧
    (filter [7, 7] [3, 0] [1, 4, 4, 0] [1, 1] [1] [1] 2 1).2.2.getD (1 + 0 * 2) 0 =
      ([1, 4, 4, 0] : List ℚ).getD (1 + 0 * 2) 0 :=
  ⟨(filter_frame [7, 7] [3, 0] [1, 4, 4, 0] [1, 1] [1] [1] 2 1 1 (by decide)
      (by norm_num)).1,
   ((filter_frame [7, 7] [3, 0] [1, 4, 4, 0] [1, 1] [1] [1] 2 1 1 (by decide)
      (by norm_num)).2 0 (by decide)).1⟩

theorem activeIndices_eq_range (x P : List ℚ) (n : Nat)
    (hall : ∀ i, i < n → x.getD i 0 ≠ 0 ∧ P.getD (i + i * n) 0 > 0) :
    activeIndices x P n = List.range n := by
  unfold activeIndices
  rw [List.filter_eq_self]
  intro i hi
  simpa using hall i (List.mem_range.1 hi)

theorem range_getD (n a : Nat) (ha : a < n) : (List.range n).getD a 0 = a := by
  rw [List.getD_eq_getElem _ _ (by simpa using ha)]
  simp

theorem toVec_gatherX_range (junk x : List ℚ) (n : Nat) :
    toVec (gatherX (List.range n) junk x) n = toVec x n := by
  funext a
  have h := congrFun (toVec_gatherX (List.range n) junk x) ⟨a.val, by simp⟩
  simp only [toVec, compactX] at h ⊢
  rw [h, range_getD n a.val a.isLt]

theorem toMat_gatherP_range (junk P : List ℚ) (n : Nat) :
    toMat (gatherP (List.range n) junk P n) n n = toMat P n n := by
  ext a b
  have h := congrFun (congrFun (toMat_gatherP (List.range n) junk P n)
    ⟨a.val, by simp⟩) ⟨b.val, by simp⟩
  simp only [toMat_apply, compactP, Matrix.of_apply, List.length_range] at h ⊢
  rw [h, range_getD n a.val a.isLt, range_getD n b.val b.isLt]

theorem toMat_gatherH_range (junk H : List ℚ) (n m : Nat) :
    toMat (gatherH (List.range n) junk H n m) n m = toMat H n m := by
  ext a j
  have h := congrFun (congrFun (toMat_gatherH (List.range n) junk H n m)
    ⟨a.val, by simp⟩) j
  simp only [toMat_apply, compactH, Matrix.of_apply, List.length_range] at h ⊢
  rw [h, range_getD n a.val a.isLt]

/-- Claim C19: the Kalman update formula.  When `S = H' P H + R`, taken on the active
indices, is invertible, `filter` returns `0` and, on the active indices, the new state is
`x + K v` and the new covariance is `(I - K H') P` with `K = P H S⁻¹`; when every index is
active this is the whole of `x` and `P`. -/
theorem filter_update_formula (junk x P H v R : List ℚ) (n m : Nat) (hx : x.length = n)
    (hP : P.length = n * n) :
    (((compactH (activeIndices x P n) H n m)ᵀ * compactP (activeIndices x P n) P n *
        compactH (activeIndices x P n) H n m + toMat R m m).det ≠ 0 →
      (filter junk x P H v R n m).1 = 0 ∧
      (∀ a : Fin (activeIndices x P n).length,
        (filter junk x P H v R n m).2.1.getD ((activeIndices x P n).getD a.val 0) 0 =
          (compactX (activeIndices x P n) x +
            (compactP (activeIndices x P n) P n * compactH (activeIndices x P n) H n m *
              ((compactH (activeIndices x P n) H n m)ᵀ * compactP (activeIndices x P n) P n *
                compactH (activeIndices x P n) H n m + toMat R m m)⁻¹).mulVec (toVec v m)) a) ∧
      (∀ a b : Fin (activeIndices x P n).length,
        (filter junk x P H v R n m).2.2.getD
            ((activeIndices x P n).getD a.val 0 + (activeIndices x P n).getD b.val 0 * n) 0 =
          (((1 : Matrix (Fin (activeIndices x P n).length) (Fin (activeIndices x P n).length) ℚ)
              - compactP (activeIndices x P n) P n * compactH (activeIndices x P n) H n m *
              ((compactH (activeIndices x P n) H n m)ᵀ * compactP (activeIndices x P n) P n *
                compactH (activeIndices x P n) H n m + toMat R m m)⁻¹ *
              (compactH (activeIndices x P n) H n m)ᵀ) *
            compactP (activeIndices x P n) P n) a b)) ∧
    ((∀ i, i < n → x.getD i 0 ≠ 0 ∧ P.getD (i + i * n) 0 > 0) →
      ((toMat H n m)ᵀ * toMat P n n * toMat H n m + toMat R m m).det ≠ 0 →
      (filter junk x P H v R n m).1 = 0 ∧
      toVec (filter junk x P H v R n m).2.1 n =
        toVec x n + (toMat P n n * toMat H n m *
          ((toMat H n m)ᵀ * toMat P n n * toMat H n m + toMat R m m)⁻¹).mulVec (toVec v m) ∧
      toMat (filter junk x P H v R n m).2.2 n n =
        (1 - toMat P n n * toMat H n m *
          ((toMat H n m)ᵀ * toMat P n n * toMat H n m + toMat R m m)⁻¹ * (toMat H n m)ᵀ) *
          toMat P n n) := by
  constructor
  · intro hS
    have hnd := activeIndices_nodup x P n
    have hlt := activeIndices_lt x P n
    unfold filter
    generalize activeIndices x P n = ix at *
    have hS' : ((toMat (gatherH ix junk H n m) ix.length m)ᵀ *
        toMat (gatherP ix junk P n) ix.length ix.length *
          toMat (gatherH ix junk H n m) ix.length m + toMat R m m).det ≠ 0 := by
      rw [toMat_gatherP, toMat_gatherH]; exact hS
    obtain ⟨r1, r2, r3⟩ := filter__regular junk (gatherX ix junk x) (gatherP ix junk P n)
      (gatherH ix junk H n m) v R ix.length m (mat junk ix.length 1)
      (mat junk ix.length ix.length) hS'
    rw [toMat_gatherP, toMat_gatherH, toVec_gatherX] at r2
    rw [toMat_gatherP, toMat_gatherH] at r3
    refine ⟨r1, fun a => ?_, fun a b => ?_⟩
    · rw [filterWith_x, scatter_x_mem ix hnd x _ a.val a.isLt
        (by rw [hx]; exact hlt _ (getD_mem_of_lt ix a.val a.isLt))]
      exact congrFun r2 a
    · rw [filterWith_P, scatter_P_mem ix hnd n hlt P _ a.val b.val a.isLt b.isLt hP]
      exact congrFun (congrFun r3 a) b
  · intro hall hS
    have hix := activeIndices_eq_range x P n hall
    have hS' : ((toMat (gatherH (List.range n) junk H n m) n m)ᵀ *
        toMat (gatherP (List.range n) junk P n) n n *
          toMat (gatherH (List.range n) junk H n m) n m + toMat R m m).det ≠ 0 := by
      rw [toMat_gatherP_range, toMat_gatherH_range]; exact hS
    obtain ⟨r1, r2, r3⟩ := filter__regular junk (gatherX (List.range n) junk x)
      (gatherP (List.range n) junk P n) (gatherH (List.range n) junk H n m) v R n m
      (mat junk n 1) (mat junk n n) hS'
    rw [toMat_gatherP_range, toMat_gatherH_range, toVec_gatherX_range] at r2
    rw [toMat_gatherP_range, toMat_gatherH_range] at r3
    have hnd : (List.range n).Nodup := List.nodup_range n
    have hlt : ∀ i ∈ List.range n, i < n := fun i hi => List.mem_range.1 hi
    unfold filter
    rw [hix]
    have hlen : (List.range n).length = n := List.length_range n
    refine ⟨?_, ?_, ?_⟩
    · rw [filterWith_status]
      simp only [hlen]
      exact r1
    · rw [filterWith_x]
      simp only [hlen]
      rw [← r2]
      funext i
      have := scatter_x_mem (List.range n) hnd x
        (filter_ junk (gatherX (List.range n) junk x) (gatherP (List.range n) junk P n)
          (gatherH (List.range n) junk H n m) v R n m (mat junk n 1) (mat junk n n)).2.1
        i.val (by rw [hlen]; exact i.isLt)
        (by rw [range_getD n i.val i.isLt, hx]; exact i.isLt)
      rw [range_getD n i.val i.isLt] at this
      exact this
    · rw [filterWith_P]
      simp only [hlen]
      rw [← r3]
      ext i j
      have := scatter_P_mem (List.range n) hnd n hlt P
        (filter_ junk (gatherX (List.range n) junk x) (gatherP (List.range n) junk P n)
          (gatherH (List.range n) junk H n m) v R n m (mat junk n 1) (mat junk n n)).2.2
        i.val j.val (by rw [hlen]; exact i.isLt) (by rw [hlen]; exact j.isLt) hP
      rw [range_getD n i.val i.isLt, range_getD n j.val j.isLt, hlen] at this
      exact this

theorem filter_update_formula_witness :
    (filter [] [1] [1] [1] [1] [1] 1 1).1 = 0 ∧
    toVec (filter [] [1] [1] [1] [1] [1] 1 1).2.1 1 =
      toVec [1] 1 + (toMat [1] 1 1 * toMat [1] 1 1 *
        ((toMat [1] 1 1)ᵀ * toMat [1] 1 1 * toMat [1] 1 1 + toMat [1] 1 1)⁻¹).mulVec
          (toVec [1] 1) ∧
    filter [] [1] [1] [1] [1] [1] 1 1 = (0, [3 / 2], [1 / 2]) := by
  have h := (filter_update_formula [] [1] [1] [1] [1] [1] 1 1 rfl rfl).2
    (by intro i hi; interval_cases i; norm_num)
    (by simp [Matrix.det_unique, toMat, Matrix.mul_apply])
  refine ⟨h.1, h.2.1, ?_⟩
  have hix : activeIndices [1] [1] 1 = [0] := by
    simp [activeIndices, List.range, List.range.loop]
  have hm : matmul ['T', 'N'] 1 1 1 1 [1] (matmul ['N', 'N'] 1 1 1 1 [1] [1] 0 [0]) 1 [1]
      = [2] := by
    simp [matmul, dgemm, List.range, List.range.loop]; norm_num
  have hd : (toMat [2] 1 1).det = 2 := by
    simp [Matrix.det_unique, toMat]
  simp [filter, hix, filterWith, filter_, gatherX, gatherP, gatherH, scatterX, scatterP,
    storeAll, loop2, mat, matcpy, matinv, eye, zeros, List.range, List.range.loop,
    List.product, hm, hd]
  simp [matmul, dgemm, ofMat, List.range, List.range.loop]
  norm_num

/-- Failure of `filter`: when `H' P H + R`, taken on the active indices, is singular, the
status is not `0` and `x` is as it was, but the scatter still runs: the active block of `P`
receives the block `Pp_`, which `filter_` has not written, that is the heap content. -/
theorem filter_singular (junk x P H v R : List ℚ) (n m : Nat) (hx : x.length = n)
    (hP : P.length = n * n)
    (hS : ((compactH (activeIndices x P n) H n m)ᵀ * compactP (activeIndices x P n) P n *
        compactH (activeIndices x P n) H n m + toMat R m m).det = 0) :
    (filter junk x P H v R n m).1 = 1 ∧
    (∀ i, (filter junk x P H v R n m).2.1.getD i 0 = x.getD i 0) ∧
    (∀ a b, a < (activeIndices x P n).length → b < (activeIndices x P n).length →
      (filter junk x P H v R n m).2.2.getD
          ((activeIndices x P n).getD a 0 + (activeIndices x P n).getD b 0 * n) 0 =
        junk.getD (a + b * (activeIndices x P n).length) 0) := by
  have hnd := activeIndices_nodup x P n
  have hlt := activeIndices_lt x P n
  unfold filter
  generalize activeIndices x P n = ix at *
  have hS' : ((toMat (gatherH ix junk H n m) ix.length m)ᵀ *
      toMat (gatherP ix junk P n) ix.length ix.length *
        toMat (gatherH ix junk H n m) ix.length m + toMat R m m).det = 0 := by
    rw [toMat_gatherP, toMat_gatherH]; exact hS
  have hf := filter__singular junk (gatherX ix junk x) (gatherP ix junk P n)
    (gatherH ix junk H n m) v R ix.length m (mat junk ix.length 1)
    (mat junk ix.length ix.length) hS'
  rw [filterWith_status, filterWith_x, filterWith_P, hf]
  refine ⟨rfl, fun i => ?_, fun a b ha hb => ?_⟩
  · by_cases hi : i ∈ ix
    · obtain ⟨a, ha, he⟩ := List.getElem_of_mem hi
      have he' : ix.getD a 0 = i := by rw [List.getD_eq_getElem _ _ ha, he]
      have h1 := scatter_x_mem ix hnd x
        (matcpy (mat junk ix.length 1) (gatherX ix junk x) ix.length 1) a ha
        (by rw [he', hx]; exact hlt i hi)
      rw [he'] at h1
      show (scatterX ix x _).getD i 0 = _
      rw [h1, matcpy, getD_map_range_append _ _ _ _ (by rw [Nat.mul_one]; exact ha)]
      have h2 := congrFun (toVec_gatherX ix junk x) ⟨a, ha⟩
      simp only [toVec, compactX] at h2
      rw [h2, he']
    · exact scatter_x_not_mem ix x _ i hi
  · show (scatterP ix P _ n).getD _ 0 = _
    have h := getD_map_range_append (fun i => junk.getD i 0) (ix.length * ix.length) []
      (a + b * ix.length) (colmajor_lt a b _ _ ha hb)
    rw [List.append_nil] at h
    rw [scatter_P_mem ix hnd n hlt P _ a b ha hb hP]
    show (mat junk ix.length ix.length).getD _ 0 = _
    unfold mat
    exact h

/-- Claim C18, evaluated where it fails: one state observed twice without measurement
noise (`H = [1 1]`, `R = 0`), so that `H' P H + R` is singular.  `filter` returns a
non-zero status and leaves `x`, but overwrites `P` with the content of the block `Pp_`
that `filter_` never wrote (here the heap value `7`). -/
theorem filter_failure_overwrites_P :
    filter [7, 7, 7, 7] [1] [1] [1, 1] [0, 0] [0, 0, 0, 0] 1 2 = (1, [1], [7]) ∧
    (filter [7, 7, 7, 7] [1] [1] [1, 1] [0, 0] [0, 0, 0, 0] 1 2).2.2 ≠ [1] := by
  have hix : activeIndices [1] [1] 1 = [0] := by
    simp [activeIndices, List.range, List.range.loop]
  have hd : (toMat (matmul ['T', 'N'] 2 2 1 1 [1, 1]
      (matmul ['N', 'N'] 1 2 1 1 [1] [1, 1] 0 [7, 7]) 1 [0, 0, 0, 0]) 2 2).det = 0 := by
    simp [Matrix.det_fin_two, toMat, matmul, dgemm, List.range, List.range.loop]
  have h : filter [7, 7, 7, 7] [1] [1] [1, 1] [0, 0] [0, 0, 0, 0] 1 2 = (1, [1], [7]) := by
    simp [filter, hix, filterWith, filter_, gatherX, gatherP, gatherH, scatterX, scatterP,
      storeAll, loop2, mat, matcpy, matinv, eye, zeros, List.range, List.range.loop,
      List.product, hd]
  rw [h]
  exact ⟨rfl, by simp⟩

/-! ## Positive semi-definite matrices in exact arithmetic -/

theorem posDef_det_ne_zero {m : Nat} (S : Matrix (Fin m) (Fin m) ℚ) (h : S.PosDef) :
    S.det ≠ 0 := by
  intro h0
  obtain ⟨w, hw, hSw⟩ := Matrix.exists_mulVec_eq_zero_iff.2 h0
  have := h.2 w hw
  rw [hSw] at this
  simp at this

/-- Joseph form of the covariance update: with `S = H' P H + R` invertible and
`K = P H S⁻¹`, `(I - K H') P = (I - K H') P (I - K H')' + K R K'`. -/
theorem joseph_form {k m : Nat} (P : Matrix (Fin k) (Fin k) ℚ) (H : Matrix (Fin k) (Fin m) ℚ)
    (R : Matrix (Fin m) (Fin m) ℚ) (hS : (Hᵀ * P * H + R).det ≠ 0) :
    (1 - P * H * (Hᵀ * P * H + R)⁻¹ * Hᵀ) * P =
      (1 - P * H * (Hᵀ * P * H + R)⁻¹ * Hᵀ) * P * (1 - P * H * (Hᵀ * P * H + R)⁻¹ * Hᵀ)ᵀ +
        (P * H * (Hᵀ * P * H + R)⁻¹) * R * (P * H * (Hᵀ * P * H + R)⁻¹)ᵀ := by
  have hu : IsUnit (Hᵀ * P * H + R).det := isUnit_iff_ne_zero.2 hS
  set S := Hᵀ * P * H + R with hSdef
  set K := P * H * S⁻¹ with hK
  have hKS : K * S = P * H := by
    rw [hK, Matrix.mul_assoc, Matrix.nonsing_inv_mul _ hu, Matrix.mul_one]
  have hHPH : Hᵀ * P * H = S - R := by rw [hSdef]; abel
  have hAPH : (1 - K * Hᵀ) * P * H = K * R := by
    rw [Matrix.sub_mul, Matrix.sub_mul, Matrix.one_mul, Matrix.mul_assoc (K * Hᵀ),
      Matrix.mul_assoc K, ← Matrix.mul_assoc Hᵀ, hHPH, Matrix.mul_sub, hKS]
    abel
  have hT : (1 - K * Hᵀ)ᵀ = 1 - H * Kᵀ := by
    rw [Matrix.transpose_sub, Matrix.transpose_one, Matrix.transpose_mul,
      Matrix.transpose_transpose]
  rw [hT, Matrix.mul_sub, Matrix.mul_one, ← Matrix.mul_assoc _ H, hAPH]
  abel

theorem kalman_posSemidef {k m : Nat} (P : Matrix (Fin k) (Fin k) ℚ)
    (H : Matrix (Fin k) (Fin m) ℚ) (R : Matrix (Fin m) (Fin m) ℚ) (hP : P.PosSemidef)
    (hR : R.PosDef) :
    (Hᵀ * P * H + R).det ≠ 0 ∧
    ((1 - P * H * (Hᵀ * P * H + R)⁻¹ * Hᵀ) * P).PosSemidef := by
  have hS : (Hᵀ * P * H + R).PosDef := by
    have h1 := hP.conjTranspose_mul_mul_same H
    rw [Matrix.conjTranspose_eq_transpose_of_trivial] at h1
    exact Matrix.PosDef.posSemidef_add h1 hR
  have hdet := posDef_det_ne_zero _ hS
  refine ⟨hdet, ?_⟩
  rw [joseph_form P H R hdet]
  have h1 := hP.mul_mul_conjTranspose_same (1 - P * H * (Hᵀ * P * H + R)⁻¹ * Hᵀ)
  have h2 := hR.posSemidef.mul_mul_conjTranspose_same (P * H * (Hᵀ * P * H + R)⁻¹)
  rw [Matrix.conjTranspose_eq_transpose_of_trivial] at h1 h2
  exact h1.add h2

/-- In a positive semi-definite matrix a diagonal entry that is not positive has a zero
row. -/
theorem posSemidef_zero_row {n : Nat} (M : Matrix (Fin n) (Fin n) ℚ) (hM : M.PosSemidef)
    (i j : Fin n) (hi : M i i ≤ 0) : M i j = 0 := by
  have hsym : M j i = M i j := by
    have := congrFun (congrFun hM.1 i) j
    simpa using this
  by_contra hne
  have h := (hM.submatrix ![i, j]).2 ![-(M j j + 1) / (2 * M i j), 1]
  simp [Matrix.mulVec, Matrix.dotProduct, Fin.sum_univ_two, hsym] at h
  have h0 := (hM.submatrix ![i, j]).2 ![1, 0]
  simp [Matrix.mulVec, Matrix.dotProduct, Fin.sum_univ_two] at h0
  have hii : M i i = 0 := le_antisymm hi h0
  rw [hii] at h
  have he : ((-1 + -M j j) * M i j + (M i j * (-1 + -M j j) + M j j * (2 * M i j))) /
      (2 * M i j) = -1 := by
    field_simp
    ring
  field_simp at h
  rw [he] at h
  linarith

/-- Entries of `E M E'` for the selection matrix `E` of an injective index map `e`. -/
theorem select_mul_mul {k n : Nat} (e : Fin k → Fin n) (he : Function.Injective e)
    (M : Matrix (Fin k) (Fin k) ℚ) :
    (∀ a b, ((Matrix.of fun (i : Fin n) (a : Fin k) => if i = e a then (1 : ℚ) else 0) * M *
        (Matrix.of fun (i : Fin n) (a : Fin k) => if i = e a then (1 : ℚ) else 0)ᵀ)
          (e a) (e b) = M a b) ∧
    (∀ i j, (∀ a, i ≠ e a) →
      ((Matrix.of fun (i : Fin n) (a : Fin k) => if i = e a then (1 : ℚ) else 0) * M *
        (Matrix.of fun (i : Fin n) (a : Fin k) => if i = e a then (1 : ℚ) else 0)ᵀ) i j = 0 ∧
      ((Matrix.of fun (i : Fin n) (a : Fin k) => if i = e a then (1 : ℚ) else 0) * M *
        (Matrix.of fun (i : Fin n) (a : Fin k) => if i = e a then (1 : ℚ) else 0)ᵀ) j i = 0) := by
  refine ⟨fun a b => ?_, fun i j hi => ⟨?_, ?_⟩⟩
  · simp [Matrix.mul_apply, he.eq_iff]
  · simp [Matrix.mul_apply, hi]
  · simp [Matrix.mul_apply, hi]

/-- Success of `filter`: when `S = H' P H + R` on the active indices is invertible, the
status is `0` and the active block of `P` is `(I - K H') P` with `K = P H S⁻¹`. -/
theorem filter_regular_P (junk x P H v R : List ℚ) (n m : Nat) (hP : P.length = n * n)
    (hS : ((compactH (activeIndices x P n) H n m)ᵀ * compactP (activeIndices x P n) P n *
        compactH (activeIndices x P n) H n m + toMat R m m).det ≠ 0) :
    (filter junk x P H v R n m).1 = 0 ∧
    (∀ a b : Fin (activeIndices x P n).length,
      (filter junk x P H v R n m).2.2.getD
          ((activeIndices x P n).getD a.val 0 + (activeIndices x P n).getD b.val 0 * n) 0 =
        (((1 : Matrix (Fin (activeIndices x P n).length) (Fin (activeIndices x P n).length) ℚ)
            - compactP (activeIndices x P n) P n * compactH (activeIndices x P n) H n m *
            ((compactH (activeIndices x P n) H n m)ᵀ * compactP (activeIndices x P n) P n *
              compactH (activeIndices x P n) H n m + toMat R m m)⁻¹ *
            (compactH (activeIndices x P n) H n m)ᵀ) *
          compactP (activeIndices x P n) P n) a b) := by
  have hnd := activeIndices_nodup x P n
  have hlt := activeIndices_lt x P n
  unfold filter
  generalize activeIndices x P n = ix at *
  have hS' : ((toMat (gatherH ix junk H n m) ix.length m)ᵀ *
      toMat (gatherP ix junk P n) ix.length ix.length *
        toMat (gatherH ix junk H n m) ix.length m + toMat R m m).det ≠ 0 := by
    rw [toMat_gatherP, toMat_gatherH]; exact hS
  obtain ⟨r1, -, r3⟩ := filter__regular junk (gatherX ix junk x) (gatherP ix junk P n)
    (gatherH ix junk H n m) v R ix.length m (mat junk ix.length 1)
    (mat junk ix.length ix.length) hS'
  rw [toMat_gatherP, toMat_gatherH] at r3
  refine ⟨r1, fun a b => ?_⟩
  rw [filterWith_P, scatter_P_mem ix hnd n hlt P _ a.val b.val a.isLt b.isLt hP]
  exact congrFun (congrFun r3 a) b

/-- Claim C20, as amended: what the update preserves of the covariance invariant.  For a
symmetric positive semi-definite `P` and a symmetric positive definite `R`, `filter`
returns `0`, the new `P` is symmetric and its active block is positive semi-definite; the
whole new `P` is positive semi-definite when every state excluded for `x[i] == 0` alone
(`P[i,i] > 0`) has zero covariance with every active state. -/
theorem filter_keeps_posSemidef (junk x P H v R : List ℚ) (n m : Nat)
    (hP : P.length = n * n) (hPsd : (toMat P n n).PosSemidef) (hR : (toMat R m m).PosDef) :
    (filter junk x P H v R n m).1 = 0 ∧
    (toMat (filter junk x P H v R n m).2.2 n n).IsSymm ∧
    (compactP (activeIndices x P n) (filter junk x P H v R n m).2.2 n).PosSemidef ∧
    ((∀ i j, i < n → j < n → x.getD i 0 = 0 → P.getD (i + i * n) 0 > 0 →
        x.getD j 0 ≠ 0 → P.getD (j + j * n) 0 > 0 → P.getD (i + j * n) 0 = 0) →
      (toMat (filter junk x P H v R n m).2.2 n n).PosSemidef) := by
  have hnd := activeIndices_nodup x P n
  have hlt := activeIndices_lt x P n
  have hmemiff := mem_activeIndices x P n
  set ix := activeIndices x P n with hix
  obtain ⟨e, he⟩ : ∃ e : Fin ix.length → Fin n, ∀ a, (e a).val = ix.getD a.val 0 :=
    ⟨fun a => ⟨ix.getD a.val 0, hlt _ (getD_mem_of_lt ix a.val a.isLt)⟩, fun _ => rfl⟩
  have hinj : Function.Injective e := by
    intro a b hab
    apply Fin.ext
    apply getD_inj_of_nodup ix hnd a.val b.val a.isLt b.isLt
    rw [← he a, ← he b, hab]
  have hsurj : ∀ i : Fin n, i.val ∈ ix → ∃ a, e a = i := by
    intro i hi
    obtain ⟨a, ha, hea⟩ := List.getElem_of_mem hi
    refine ⟨⟨a, ha⟩, Fin.ext ?_⟩
    rw [he, List.getD_eq_getElem _ _ ha, hea]
  have hnotmem : ∀ i : Fin n, i.val ∉ ix → ∀ a, i ≠ e a := by
    intro i hi a h
    apply hi
    rw [h, he]
    exact getD_mem_of_lt ix a.val a.isLt
  have hsym : ∀ i j : Fin n, toMat P n n i j = toMat P n n j i := by
    intro i j
    have := congrFun (congrFun hPsd.1 j) i
    simpa using this
  have hcomp : compactP ix P n = (toMat P n n).submatrix e e := by
    ext a b
    simp [compactP, toMat_apply, he]
  have hPa : (compactP ix P n).PosSemidef := by
    rw [hcomp]; exact hPsd.submatrix e
  obtain ⟨hdet, hM⟩ := kalman_posSemidef (compactP ix P n) (compactH ix H n m) (toMat R m m)
    hPa hR
  obtain ⟨r1, r3⟩ := filter_regular_P junk x P H v R n m hP hdet
  set M : Matrix (Fin ix.length) (Fin ix.length) ℚ :=
    (1 - compactP ix P n * compactH ix H n m *
      ((compactH ix H n m)ᵀ * compactP ix P n * compactH ix H n m + toMat R m m)⁻¹ *
        (compactH ix H n m)ᵀ) * compactP ix P n with hMdef
  have hact : ∀ a b, toMat (filter junk x P H v R n m).2.2 n n (e a) (e b) = M a b := by
    intro a b
    rw [toMat_apply, he, he]
    exact r3 a b
  have hfr : ∀ i j : Fin n, (i.val ∉ ix ∨ j.val ∉ ix) →
      toMat (filter junk x P H v R n m).2.2 n n i j = toMat P n n i j := by
    intro i j h
    rw [toMat_apply, toMat_apply]
    rcases h with h | h
    · exact ((filter_frame_of_not_active junk x P H v R n m i.val i.isLt h).2 j.val j.isLt).1
    · exact ((filter_frame_of_not_active junk x P H v R n m j.val j.isLt h).2 i.val i.isLt).2
  refine ⟨r1, ?_, ?_, ?_⟩
  · ext i j
    rw [Matrix.transpose_apply]
    by_cases hi : i.val ∈ ix
    · by_cases hj : j.val ∈ ix
      · obtain ⟨a, rfl⟩ := hsurj i hi
        obtain ⟨b, rfl⟩ := hsurj j hj
        rw [hact, hact]
        have := congrFun (congrFun hM.1 a) b
        simpa using this
      · rw [hfr j i (Or.inl hj), hfr i j (Or.inr hj)]
        exact hsym j i
    · rw [hfr j i (Or.inr hi), hfr i j (Or.inl hi)]
      exact hsym j i
  · have : compactP ix (filter junk x P H v R n m).2.2 n = M := by
      ext a b
      rw [← hact a b, toMat_apply, he, he]
      rfl
    rw [this]
    exact hM
  · intro hcross
    have hzero : ∀ i j : Fin n, i.val ∉ ix → j.val ∈ ix → toMat P n n i j = 0 := by
      intro i j hi hj
      by_cases hd : toMat P n n i i ≤ 0
      · exact posSemidef_zero_row _ hPsd i j hd
      · have hpos : P.getD (i.val + i.val * n) 0 > 0 := by
          rw [toMat_apply] at hd
          exact not_le.1 hd
        have hxi : x.getD i.val 0 = 0 := by
          by_contra hne
          exact hi ((hmemiff i.val).2 ⟨i.isLt, hne, hpos⟩)
        have hj' := ((hmemiff j.val).1 hj).2
        rw [toMat_apply]
        exact hcross i.val j.val i.isLt j.isLt hxi hpos hj'.1 hj'.2
    obtain ⟨s1, s2⟩ := select_mul_mul e hinj M
    have hfull : toMat (filter junk x P H v R n m).2.2 n n =
        (Matrix.of fun (i : Fin n) (a : Fin ix.length) => if i = e a then (1 : ℚ) else 0) *
          M *
          (Matrix.of fun (i : Fin n) (a : Fin ix.length) => if i = e a then (1 : ℚ) else 0)ᵀ +
        Matrix.diagonal (fun i : Fin n => if i.val ∈ ix then (0 : ℚ) else 1) * toMat P n n *
          Matrix.diagonal (fun i : Fin n => if i.val ∈ ix then (0 : ℚ) else 1) := by
      ext i j
      rw [Matrix.add_apply, Matrix.mul_diagonal, Matrix.diagonal_mul]
      by_cases hi : i.val ∈ ix
      · by_cases hj : j.val ∈ ix
        · obtain ⟨a, rfl⟩ := hsurj i hi
          obtain ⟨b, rfl⟩ := hsurj j hj
          rw [hact, s1, if_pos hi, if_pos hj]
          ring
        · rw [hfr i j (Or.inr hj), (s2 j i (hnotmem j hj)).2, if_pos hi, if_neg hj,
            hsym i j, hzero j i hj hi]
          ring
      · rw [hfr i j (Or.inl hi), (s2 i j (hnotmem i hi)).1, if_neg hi]
        by_cases hj : j.val ∈ ix
        · rw [if_pos hj, hzero i j hi hj]
          ring
        · rw [if_neg hj]
          ring
    rw [hfull]
    have h1 := hM.mul_mul_conjTranspose_same
      (Matrix.of fun (i : Fin n) (a : Fin ix.length) => if i = e a then (1 : ℚ) else 0)
    have h2 := hPsd.mul_mul_conjTranspose_same
      (Matrix.diagonal (fun i : Fin n => if i.val ∈ ix then (0 : ℚ) else 1))
    rw [Matrix.conjTranspose_eq_transpose_of_trivial] at h1 h2
    rw [Matrix.diagonal_transpose] at h2
    exact h1.add h2

theorem posDef_one_by_one : (toMat [1] 1 1).PosDef := by
  refine ⟨?_, fun z hz => ?_⟩
  · ext i j
    fin_cases i; fin_cases j
    simp [toMat]
  · have hz0 : z 0 ≠ 0 := by
      intro h
      apply hz
      funext i
      fin_cases i
      exact h
    simp [Matrix.mulVec, Matrix.dotProduct, toMat]
    positivity

theorem filter_keeps_posSemidef_witness :
    (toMat [1, 0, 0, 1] 2 2).PosSemidef ∧ (toMat [1] 1 1).PosDef ∧
    activeIndices [1, 0] [1, 0, 0, 1] 2 = [0] ∧
    (filter [] [1, 0] [1, 0, 0, 1] [1, 0] [1] [1] 2 1).1 = 0 ∧
    (toMat (filter [] [1, 0] [1, 0, 0, 1] [1, 0] [1] [1] 2 1).2.2 2 2).PosSemidef := by
  have hP : (toMat [1, 0, 0, 1] 2 2).PosSemidef := by
    have h1 : toMat [1, 0, 0, 1] 2 2 = 1 := by
      ext i j
      fin_cases i <;> fin_cases j <;> simp [toMat]
    rw [h1]
    exact Matrix.PosSemidef.one
  have h := filter_keeps_posSemidef [] [1, 0] [1, 0, 0, 1] [1, 0] [1] [1] 2 1 rfl hP
    posDef_one_by_one
  refine ⟨hP, posDef_one_by_one, by simp [activeIndices, List.range_succ], h.1, h.2.2.2 ?_⟩
  intro i j hi hj
  interval_cases i <;> interval_cases j <;> simp

/-- Counterexample to claim C20 as stated: two fully correlated states, `P = [1 1; 1 1]`
(symmetric positive semi-definite), of which the second is excluded because `x[1] == 0`.
`filter` returns `0` and halves `P[0,0]` only; the new `P = [1/2 1; 1 1]` has the
quadratic form `-1` at `z = (2, -1)` and is not positive semi-definite. -/
theorem filter_loses_posSemidef :
    (toMat [1, 1, 1, 1] 2 2).PosSemidef ∧ (toMat [1] 1 1).PosDef ∧
    filter [] [1, 0] [1, 1, 1, 1] [1, 0] [0] [1] 2 1 = (0, [1, 0], [1 / 2, 1, 1, 1]) ∧
    ¬ (toMat (filter [] [1, 0] [1, 1, 1, 1] [1, 0] [0] [1] 2 1).2.2 2 2).PosSemidef := by
  have hP : (toMat [1, 1, 1, 1] 2 2).PosSemidef := by
    refine ⟨?_, fun z => ?_⟩
    · ext i j
      fin_cases i <;> fin_cases j <;> simp [toMat]
    · simp [Matrix.mulVec, Matrix.dotProduct, Fin.sum_univ_two, toMat]
      nlinarith [sq_nonneg (z 0 + z 1)]
  have hix : activeIndices [1, 0] [1, 1, 1, 1] 2 = [0] := by
    simp [activeIndices, List.range_succ]
  have hm : matmul ['T', 'N'] 1 1 1 1 [1] (matmul ['N', 'N'] 1 1 1 1 [1] [1] 0 [0]) 1 [1]
      = [2] := by
    simp [matmul, dgemm, List.range, List.range.loop]; norm_num
  have hd : (toMat [2] 1 1).det = 2 := by
    simp [Matrix.det_unique, toMat]
  have hf : filter [] [1, 0] [1, 1, 1, 1] [1, 0] [0] [1] 2 1 =
      (0, [1, 0], [1 / 2, 1, 1, 1]) := by
    simp [filter, hix, filterWith, filter_, gatherX, gatherP, gatherH, scatterX, scatterP,
      storeAll, loop2, mat, matcpy, matinv, eye, zeros, List.range, List.range.loop,
      List.product, hm, hd]
    simp [matmul, dgemm, ofMat, List.range, List.range.loop]
    norm_num
  refine ⟨hP, posDef_one_by_one, hf, ?_⟩
  rw [hf]
  intro h
  have h2 := h.2 ![2, -1]
  simp [Matrix.mulVec, Matrix.dotProduct, Fin.sum_univ_two, toMat] at h2

/-! ## Least squares and the smoother -/

theorem toVec_eq_col (X : List ℚ) (n : Nat) (i : Fin n) :
    toVec X n i = toMat X n 1 i 0 := by
  simp [toVec, toMat_apply]

theorem toVec_matmul_NN (n m : Nat) (alpha : ℚ) (A B : List ℚ) (beta : ℚ) (C : List ℚ) :
    toVec (matmul ['N', 'N'] n 1 m alpha A B beta C) n =
      alpha • (toMat A n m).mulVec (toVec B m) + beta • toVec C n := by
  funext i
  rw [toVec_eq_col, toMat_matmul_NN]
  simp [Matrix.mul_apply, Matrix.mulVec, Matrix.dotProduct, toMat_apply, toVec]

theorem toMat_addInto (Qs A B : List ℚ) (n : Nat) :
    toMat (addInto Qs A B (n * n)) n n = toMat A n n + toMat B n n := by
  ext i j
  rw [Matrix.add_apply, toMat_apply, toMat_apply, toMat_apply, addInto,
    getD_map_range_append _ _ _ _ (colmajor_lt i.val j.val n n i.isLt j.isLt)]

/-- Claim C22: least squares by the normal equations.  With fewer measurements than
parameters (`m < n`) `lsq` returns `-1` and `x`, `Q` are as they were; for `n ≤ m` and
`A A'` invertible it returns `0` with `Q = (A A')⁻¹` and `x = Q A y`, `A` the `n x m`
transposed design matrix. -/
theorem lsq_normal_equations (junk A y : List ℚ) (n m : Nat) (x Q : List ℚ) :
    (m < n → lsq junk A y n m x Q = (-1, x, Q)) ∧
    (n ≤ m → (toMat A n m * (toMat A n m)ᵀ).det ≠ 0 →
      (lsq junk A y n m x Q).1 = 0 ∧
      toMat (lsq junk A y n m x Q).2.2 n n = (toMat A n m * (toMat A n m)ᵀ)⁻¹ ∧
      toVec (lsq junk A y n m x Q).2.1 n =
        (toMat (lsq junk A y n m x Q).2.2 n n).mulVec ((toMat A n m).mulVec (toVec y m))) := by
  refine ⟨fun h => by simp [lsq, h], fun hnm hdet => ?_⟩
  have hQ : toMat (matmul ['N', 'T'] n n m 1 A A 0 Q) n n = toMat A n m * (toMat A n m)ᵀ := by
    rw [toMat_matmul_NT]; simp
  have hdet' : (toMat (matmul ['N', 'T'] n n m 1 A A 0 Q) n n).det ≠ 0 := by rwa [hQ]
  have h1 := ((matinv_status _ n).1).2 hdet'
  have hinv := toMat_matinv _ n hdet'
  rw [hQ] at hinv
  have hl : lsq junk A y n m x Q =
      ((matinv (matmul ['N', 'T'] n n m 1 A A 0 Q) n).1,
        matmul ['N', 'N'] n 1 n 1 (matinv (matmul ['N', 'T'] n n m 1 A A 0 Q) n).2
          (matmul ['N', 'N'] n 1 m 1 A y 0 (mat junk n 1)) 0 x,
        (matinv (matmul ['N', 'T'] n n m 1 A A 0 Q) n).2) := by
    simp only [lsq, if_neg (not_lt.2 hnm), if_pos h1]
  rw [hl]
  refine ⟨h1, hinv, ?_⟩
  show toVec (matmul _ n 1 n 1 _ _ 0 x) n = _
  rw [toVec_matmul_NN, toVec_matmul_NN]
  simp

theorem lsq_normal_equations_witness :
    lsq [7, 7] [1, 0, 0, 1, 1, 1] [1, 2, 3] 3 2 [9, 9] [9, 9, 9, 9] = (-1, [9, 9], [9, 9, 9, 9]) ∧
    (lsq [7] [1, 1] [1, 3] 1 2 [9] [9]).1 = 0 ∧
    toMat (lsq [7] [1, 1] [1, 3] 1 2 [9] [9]).2.2 1 1 =
      (toMat [1, 1] 1 2 * (toMat [1, 1] 1 2)ᵀ)⁻¹ := by
  have h := (lsq_normal_equations [7] [1, 1] [1, 3] 1 2 [9] [9]).2 (by decide)
    (by simp [Matrix.det_unique, Matrix.mul_apply, toMat, Fin.sum_univ_two])
  exact ⟨(lsq_normal_equations [7, 7] [1, 0, 0, 1, 1, 1] [1, 2, 3] 3 2 [9, 9]
    [9, 9, 9, 9]).1 (by decide), h.1, h.2.1⟩

theorem smoother_unfold (junk xf Qf xb Qb : List ℚ) (n : Nat) (xs Qs : List ℚ) :
    smoother junk xf Qf xb Qb n xs Qs =
      if (matinv (matcpy (mat junk n n) Qf n n) n).1 = 0 then
        if (matinv (matcpy (mat junk n n) Qb n n) n).1 = 0 then
          if (matinv (addInto Qs (matinv (matcpy (mat junk n n) Qf n n) n).2
              (matinv (matcpy (mat junk n n) Qb n n) n).2 (n * n)) n).1 = 0 then
            ((matinv (addInto Qs (matinv (matcpy (mat junk n n) Qf n n) n).2
              (matinv (matcpy (mat junk n n) Qb n n) n).2 (n * n)) n).1,
             matmul ['N', 'N'] n 1 n 1
               (matinv (addInto Qs (matinv (matcpy (mat junk n n) Qf n n) n).2
                 (matinv (matcpy (mat junk n n) Qb n n) n).2 (n * n)) n).2
               (matmul ['N', 'N'] n 1 n 1 (matinv (matcpy (mat junk n n) Qb n n) n).2 xb 1
                 (matmul ['N', 'N'] n 1 n 1 (matinv (matcpy (mat junk n n) Qf n n) n).2 xf 0
                   (mat junk n 1))) 0 xs,
             (matinv (addInto Qs (matinv (matcpy (mat junk n n) Qf n n) n).2
               (matinv (matcpy (mat junk n n) Qb n n) n).2 (n * n)) n).2)
          else
            ((matinv (addInto Qs (matinv (matcpy (mat junk n n) Qf n n) n).2
              (matinv (matcpy (mat junk n n) Qb n n) n).2 (n * n)) n).1, xs,
             (matinv (addInto Qs (matinv (matcpy (mat junk n n) Qf n n) n).2
               (matinv (matcpy (mat junk n n) Qb n n) n).2 (n * n)) n).2)
        else (-1, xs, Qs)
      else (-1, xs, Qs) := rfl

/-- Claim C21: the fixed-interval smoother.  The status is non-zero when `Qf` is singular,
when `Qb` is singular, or when `Qf⁻¹ + Qb⁻¹` is singular; otherwise it is `0`,
`Qs = (Qf⁻¹ + Qb⁻¹)⁻¹` and `xs = Qs (Qf⁻¹ xf + Qb⁻¹ xb)`.  The inputs `xf`, `Qf`, `xb`,
`Qb` are read only: the call returns nothing but the status, `xs` and `Qs`. -/
theorem smoother_combines (junk xf Qf xb Qb : List ℚ) (n : Nat) (xs Qs : List ℚ) :
    ((toMat Qf n n).det = 0 → (smoother junk xf Qf xb Qb n xs Qs).1 ≠ 0) ∧
    ((toMat Qb n n).det = 0 → (smoother junk xf Qf xb Qb n xs Qs).1 ≠ 0) ∧
    (((toMat Qf n n)⁻¹ + (toMat Qb n n)⁻¹).det = 0 →
      (smoother junk xf Qf xb Qb n xs Qs).1 ≠ 0) ∧
    ((toMat Qf n n).det ≠ 0 → (toMat Qb n n).det ≠ 0 →
      ((toMat Qf n n)⁻¹ + (toMat Qb n n)⁻¹).det ≠ 0 →
      (smoother junk xf Qf xb Qb n xs Qs).1 = 0 ∧
      toMat (smoother junk xf Qf xb Qb n xs Qs).2.2 n n =
        ((toMat Qf n n)⁻¹ + (toMat Qb n n)⁻¹)⁻¹ ∧
      toVec (smoother junk xf Qf xb Qb n xs Qs).2.1 n =
        (toMat (smoother junk xf Qf xb Qb n xs Qs).2.2 n n).mulVec
          ((toMat Qf n n)⁻¹.mulVec (toVec xf n) + (toMat Qb n n)⁻¹.mulVec (toVec xb n))) := by
  have sf := (matinv_status (matcpy (mat junk n n) Qf n n) n).1
  have sb := (matinv_status (matcpy (mat junk n n) Qb n n) n).1
  rw [toMat_matcpy] at sf sb
  have key : ∀ hf : (toMat Qf n n).det ≠ 0, ∀ hb : (toMat Qb n n).det ≠ 0,
      toMat (addInto Qs (matinv (matcpy (mat junk n n) Qf n n) n).2
        (matinv (matcpy (mat junk n n) Qb n n) n).2 (n * n)) n n =
        (toMat Qf n n)⁻¹ + (toMat Qb n n)⁻¹ := by
    intro hf hb
    have hf' : (toMat (matcpy (mat junk n n) Qf n n) n n).det ≠ 0 := by
      rw [toMat_matcpy]; exact hf
    have hb' : (toMat (matcpy (mat junk n n) Qb n n) n n).det ≠ 0 := by
      rw [toMat_matcpy]; exact hb
    rw [toMat_addInto, toMat_matinv _ n hf', toMat_matinv _ n hb', toMat_matcpy, toMat_matcpy]
  refine ⟨fun h => ?_, fun h => ?_, fun h => ?_, fun hf hb hs => ?_⟩
  · rw [smoother_unfold, if_neg (fun c => (sf.1 c) h)]
    simp
  · rw [smoother_unfold]
    split_ifs with c1 c2 c3
    · exact absurd h (sb.1 c2)
    · exact absurd h (sb.1 c2)
    · simp
    · simp
  · rw [smoother_unfold]
    split_ifs with c1 c2 c3
    · exfalso
      have := (matinv_status _ n).1.1 c3
      rw [key (sf.1 c1) (sb.1 c2)] at this
      exact this h
    · exact c3
    · simp
    · simp
  · have c1 := sf.2 hf
    have c2 := sb.2 hb
    have hk := key hf hb
    have hs' : (toMat (addInto Qs (matinv (matcpy (mat junk n n) Qf n n) n).2
        (matinv (matcpy (mat junk n n) Qb n n) n).2 (n * n)) n n).det ≠ 0 := by rwa [hk]
    have c3 := (matinv_status _ n).1.2 hs'
    have hinv := toMat_matinv _ n hs'
    rw [hk] at hinv
    rw [smoother_unfold, if_pos c1, if_pos c2, if_pos c3]
    refine ⟨c3, hinv, ?_⟩
    show toVec (matmul _ n 1 n 1 _ _ 0 xs) n = _
    have hf' : (toMat (matcpy (mat junk n n) Qf n n) n n).det ≠ 0 := by
      rw [toMat_matcpy]; exact hf
    have hb' : (toMat (matcpy (mat junk n n) Qb n n) n n).det ≠ 0 := by
      rw [toMat_matcpy]; exact hb
    rw [toVec_matmul_NN, toVec_matmul_NN, toVec_matmul_NN, toMat_matinv _ n hf',
      toMat_matinv _ n hb', toMat_matcpy, toMat_matcpy]
    simp [add_comm]

theorem smoother_combines_witness :
    (smoother [7] [1] [2] [3] [1] 1 [9] [9]).1 = 0 ∧
    toMat (smoother [7] [1] [2] [3] [1] 1 [9] [9]).2.2 1 1 =
      ((toMat [2] 1 1)⁻¹ + (toMat [1] 1 1)⁻¹)⁻¹ ∧
    (smoother [7] [1] [0] [3] [1] 1 [9] [9]).1 ≠ 0 := by
  have h2 : (toMat [2] 1 1).det ≠ 0 := by simp [Matrix.det_unique, toMat]
  have h1 : (toMat [1] 1 1).det ≠ 0 := by simp [Matrix.det_unique, toMat]
  have h3 : ((toMat [2] 1 1)⁻¹ + (toMat [1] 1 1)⁻¹).det ≠ 0 := by
    simp [Matrix.det_unique, Matrix.inv_def, toMat, Matrix.adjugate_fin_one]
    norm_num
  have h := (smoother_combines [7] [1] [2] [3] [1] 1 [9] [9]).2.2.2 h2 h1 h3
  exact ⟨h.1, h.2.1, (smoother_combines [7] [1] [0] [3] [1] 1 [9] [9]).1
    (by simp [Matrix.det_unique, toMat])⟩

/-! ## Earth rotation parameters -/

/-- The search loop of `geterp` keeps the bracket `data[j].mjd ≤ mjd < data[k].mjd` and
ends, within `k - j - 1` iterations, on two neighbouring records. -/
theorem geterpSearch_spec (erp : erp_t) (mjd : ℚ) :
    ∀ (fuel : Nat) (j k : Int), 0 ≤ j → j < k → k ≤ 2 ^ 30 →
      (erp.at j).mjd ≤ mjd → mjd < (erp.at k).mjd → k - j ≤ fuel + 1 →
      ∃ j', geterpSearch erp mjd fuel j k = some j' ∧ j ≤ j' ∧ j' + 1 ≤ k ∧
        (erp.at j').mjd ≤ mjd ∧ mjd < (erp.at (j' + 1)).mjd := by
  intro fuel
  induction fuel with
  | zero =>
    intro j k hj hjk hk hlo hhi hf
    have hk1 : int32 (k - 1) = k - 1 := int32_eq _ (by omega) (by omega)
    have he : k = j + 1 := by omega
    refine ⟨j, ?_, le_refl _, by omega, hlo, by rw [← he]; exact hhi⟩
    simp only [geterpSearch, hk1]
    rw [if_neg (by omega)]
  | succ fuel ih =>
    intro j k hj hjk hk hlo hhi hf
    have hk1 : int32 (k - 1) = k - 1 := int32_eq _ (by omega) (by omega)
    have hjk2 : int32 (j + k) = j + k := int32_eq _ (by omega) (by omega)
    have hdiv : Int.tdiv (j + k) 2 = (j + k) / 2 := Int.tdiv_eq_ediv (by omega) (by norm_num)
    simp only [geterpSearch, hk1, hjk2, hdiv]
    by_cases hc : j < k - 1
    · rw [if_pos hc]
      have hi1 : j < (j + k) / 2 := by omega
      have hi2 : (j + k) / 2 < k := by omega
      by_cases hm : mjd < (erp.at ((j + k) / 2)).mjd
      · rw [if_pos hm]
        obtain ⟨j', e, a, b, c, d⟩ := ih j ((j + k) / 2) hj hi1 (by omega) hlo hm
          (by push_cast at hf ⊢; omega)
        exact ⟨j', e, a, by omega, c, d⟩
      · rw [if_neg hm]
        obtain ⟨j', e, a, b, c, d⟩ := ih ((j + k) / 2) k (by omega) hi2 hk (not_lt.1 hm) hhi
          (by push_cast at hf ⊢; omega)
        exact ⟨j', e, by omega, b, c, d⟩
    · rw [if_neg hc]
      have he : k = j + 1 := by omega
      exact ⟨j, rfl, le_refl _, by omega, hlo, by rw [← he]; exact hhi⟩

theorem getD_setErpv (erpv : List ℚ) (v0 v1 v2 v3 : ℚ) (h : 4 ≤ erpv.length) :
    (setErpv erpv v0 v1 v2 v3).getD 0 0 = v0 ∧ (setErpv erpv v0 v1 v2 v3).getD 1 0 = v1 ∧
    (setErpv erpv v0 v1 v2 v3).getD 2 0 = v2 ∧ (setErpv erpv v0 v1 v2 v3).getD 3 0 = v3 := by
  match erpv, h with
  | a :: b :: c :: d :: rest, _ => simp [setErpv]

/-- Claim C28: interpolation of the earth rotation parameters.  An empty table gives status
`0`.  For a non-empty table (of at most `2^30` records) and the date `mjd` of the query:
at or before the first record, and otherwise at or after the last record, the outputs are
that record extrapolated over `d = mjd - its date`; strictly between them the search loop
ends, with enough fuel, on an index `0 ≤ j < n - 1` with
`data[j].mjd ≤ mjd < data[j+1].mjd`, and every output is `(1 - a) v[j] + a v[j+1]` with
`a = (mjd - data[j].mjd) / (data[j+1].mjd - data[j].mjd)`, `0 ≤ a < 1`. -/
theorem geterp_interpolates (fuel : Nat) (table : List (List ℚ)) (erp : erp_t)
    (time : gtime_t) (erpv : List ℚ) (hlen : 4 ≤ erpv.length) (hn : erp.n ≤ 2 ^ 30) :
    (erp.n ≤ 0 → geterp fuel table erp time erpv = some (0, erpv)) ∧
    (0 < erp.n → geterpMjd table time ≤ (erp.at 0).mjd →
      ∃ r, geterp fuel table erp time erpv = some (1, r) ∧
        r.getD 0 0 = (erp.at 0).xp + (erp.at 0).xpr * (geterpMjd table time - (erp.at 0).mjd) ∧
        r.getD 1 0 = (erp.at 0).yp + (erp.at 0).ypr * (geterpMjd table time - (erp.at 0).mjd) ∧
        r.getD 2 0 =
          (erp.at 0).ut1_utc - (erp.at 0).lod * (geterpMjd table time - (erp.at 0).mjd) ∧
        r.getD 3 0 = (erp.at 0).lod) ∧
    (0 < erp.n → (erp.at 0).mjd < geterpMjd table time →
      (erp.at (erp.n - 1)).mjd ≤ geterpMjd table time →
      ∃ r, geterp fuel table erp time erpv = some (1, r) ∧
        r.getD 0 0 = (erp.at (erp.n - 1)).xp +
          (erp.at (erp.n - 1)).xpr * (geterpMjd table time - (erp.at (erp.n - 1)).mjd) ∧
        r.getD 1 0 = (erp.at (erp.n - 1)).yp +
          (erp.at (erp.n - 1)).ypr * (geterpMjd table time - (erp.at (erp.n - 1)).mjd) ∧
        r.getD 2 0 = (erp.at (erp.n - 1)).ut1_utc -
          (erp.at (erp.n - 1)).lod * (geterpMjd table time - (erp.at (erp.n - 1)).mjd) ∧
        r.getD 3 0 = (erp.at (erp.n - 1)).lod) ∧
    (0 < erp.n → (erp.at 0).mjd < geterpMjd table time →
      geterpMjd table time < (erp.at (erp.n - 1)).mjd → erp.n ≤ fuel + 2 →
      ∃ j a r, 0 ≤ j ∧ j < erp.n - 1 ∧
        (erp.at j).mjd ≤ geterpMjd table time ∧ geterpMjd table time < (erp.at (j + 1)).mjd ∧
        a = (geterpMjd table time - (erp.at j).mjd) / ((erp.at (j + 1)).mjd - (erp.at j).mjd) ∧
        0 ≤ a ∧ a < 1 ∧
        geterp fuel table erp time erpv = some (1, r) ∧
        r.getD 0 0 = (1 - a) * (erp.at j).xp + a * (erp.at (j + 1)).xp ∧
        r.getD 1 0 = (1 - a) * (erp.at j).yp + a * (erp.at (j + 1)).yp ∧
        r.getD 2 0 = (1 - a) * (erp.at j).ut1_utc + a * (erp.at (j + 1)).ut1_utc ∧
        r.getD 3 0 = (1 - a) * (erp.at j).lod + a * (erp.at (j + 1)).lod) := by
  refine ⟨fun h => by simp [geterp, h], fun h0 h1 => ?_, fun h0 h1 h2 => ?_,
    fun h0 h1 h2 hf => ?_⟩
  · refine ⟨_, by simp only [geterp, if_neg (not_le.2 h0), if_pos h1]; rfl, ?_⟩
    exact getD_setErpv erpv _ _ _ _ hlen
  · have hl : int32 (erp.n - 1) = erp.n - 1 := int32_eq _ (by omega) (by omega)
    refine ⟨_, by simp only [geterp, if_neg (not_le.2 h0), if_neg (not_le.2 h1), hl,
      if_pos (ge_iff_le.2 h2)]; rfl, ?_⟩
    exact getD_setErpv erpv _ _ _ _ hlen
  · have hl : int32 (erp.n - 1) = erp.n - 1 := int32_eq _ (by omega) (by omega)
    have hn2 : (0 : Int) < erp.n - 1 := by
      by_contra hc
      have : erp.n - 1 = 0 := by omega
      rw [this] at h2
      exact lt_asymm h1 h2
    obtain ⟨j, e, hj0, hj1, hlo, hhi⟩ := geterpSearch_spec erp (geterpMjd table time) fuel 0
      (erp.n - 1) (le_refl _) hn2 (by omega) (le_of_lt h1) h2 (by omega)
    have hj2 : int32 (j + 1) = j + 1 := int32_eq _ (by omega) (by omega)
    have hne : (erp.at j).mjd ≠ (erp.at (j + 1)).mjd := ne_of_lt (lt_of_le_of_lt hlo hhi)
    have hpos : 0 < (erp.at (j + 1)).mjd - (erp.at j).mjd :=
      sub_pos.2 (lt_of_le_of_lt hlo hhi)
    refine ⟨j, _, _, hj0, by omega, hlo, hhi, rfl, div_nonneg (sub_nonneg.2 hlo) hpos.le,
      (div_lt_one hpos).2 (by linarith),
      by simp only [geterp, if_neg (not_le.2 h0), if_neg (not_le.2 h1), hl,
        if_neg (not_le.2 h2), e, hj2, if_neg hne],
      getD_setErpv erpv _ _ _ _ hlen⟩

theorem epoch2time_J2000 : epoch2time [2000, 1, 1, 12, 0, 0] = ⟨946728000, 0⟩ := by
  norm_num [epoch2time, castInt, int32, doy, Int.tdiv, Int.tmod, Int.toNat]

theorem geterp_interpolates_witness :
    ∃ r, geterp 0 [] ⟨2, 2, [⟨51544, 1, 3, 0, 0, 5, 7⟩, ⟨51545, 2, 4, 0, 0, 6, 8⟩]⟩
        ⟨946728000, 0⟩ [0, 0, 0, 0] = some (1, r) ∧ r.getD 0 0 = 3 / 2 ∧ r.getD 3 0 = 15 / 2 := by
  have hm : geterpMjd [] ⟨946728000, 0⟩ = 51544.5 := by
    simp [geterpMjd, gpst2utc, epoch2time_J2000, timediff]
  obtain ⟨j, a, r, hj0, hj1, -, -, ha, -, -, hr, r0, -, -, r3⟩ :=
    (geterp_interpolates 0 [] ⟨2, 2, [⟨51544, 1, 3, 0, 0, 5, 7⟩, ⟨51545, 2, 4, 0, 0, 6, 8⟩]⟩
      ⟨946728000, 0⟩ [0, 0, 0, 0] (by simp) (by norm_num)).2.2.2 (by norm_num)
      (by rw [hm]; norm_num [erp_t.at]) (by rw [hm]; norm_num [erp_t.at]) (by norm_num)
  have hj : j = 0 := by
    have : j < 1 := by simpa using hj1
    omega
  subst hj
  rw [hm] at ha
  norm_num [erp_t.at] at ha
  subst ha
  refine ⟨r, hr, ?_, ?_⟩
  · rw [r0]; norm_num [erp_t.at]
  · rw [r3]; norm_num [erp_t.at]

/-! ## Dilution of precision -/

theorem dopsH_length_aux (lm : Libm ℚ) (azel : List ℚ) (elmin : ℚ) (is : List Nat) :
    ∀ H0 : List ℚ, (is.foldl (fun H i =>
      if dopsUsable azel elmin i then
        H ++ [lm.cos (azel.getD (1 + i * 2) 0) * lm.sin (azel.getD (i * 2) 0),
          lm.cos (azel.getD (1 + i * 2) 0) * lm.cos (azel.getD (i * 2) 0),
          lm.sin (azel.getD (1 + i * 2) 0), 1]
      else H) H0).length = H0.length + 4 * (is.filter (dopsUsable azel elmin)).length := by
  induction is with
  | nil => intro H0; simp
  | cons i is ih =>
    intro H0
    rw [List.foldl_cons, ih]
    by_cases h : dopsUsable azel elmin i
    · simp [h, List.filter_cons]; ring
    · simp [h, List.filter_cons]

/-- The array `H` of `dops` holds four entries for every satellite kept. -/
theorem dopsH_length (lm : Libm ℚ) (azel : List ℚ) (elmin : ℚ) (is : List Nat) :
    (dopsH lm azel elmin is).length = 4 * (is.filter (dopsUsable azel elmin)).length := by
  unfold dopsH
  rw [dopsH_length_aux]
  simp

theorem dopsUsable_iff (azel : List ℚ) (elmin : ℚ) (i : Nat) :
    dopsUsable azel elmin i = true ↔
      elmin ≤ azel.getD (1 + i * 2) 0 ∧ 0 < azel.getD (1 + i * 2) 0 := by
  simp [dopsUsable, not_or]

/-- Claim C23: DOP with too few satellites.  When fewer than 4 of the first
`min(ns, MAXSAT)` satellites have an elevation `>= elmin` and `> 0`, `dops` leaves GDOP,
PDOP, HDOP and VDOP at the `0` it starts with; and so it does when the `4 x 4` normal
matrix `H H'` of the satellites kept is singular. -/
theorem dops_zero (lm : Libm ℚ) (MAXSAT : Nat) (junk : List ℚ) (ns : Int) (azel : List ℚ)
    (elmin : ℚ) (dop : List ℚ) :
    (∀ i, dopsUsable azel elmin i = true ↔
      elmin ≤ azel.getD (1 + i * 2) 0 ∧ 0 < azel.getD (1 + i * 2) 0) ∧
    (((List.range (min ns.toNat MAXSAT)).filter (dopsUsable azel elmin)).length < 4 →
      dops lm MAXSAT junk ns azel elmin dop = [0, 0, 0, 0] ++ dop.drop 4) ∧
    ((toMat (dopsH lm azel elmin (List.range (min ns.toNat MAXSAT))) 4
          ((List.range (min ns.toNat MAXSAT)).filter (dopsUsable azel elmin)).length *
        (toMat (dopsH lm azel elmin (List.range (min ns.toNat MAXSAT))) 4
          ((List.range (min ns.toNat MAXSAT)).filter (dopsUsable azel elmin)).length)ᵀ).det
        = 0 →
      dops lm MAXSAT junk ns azel elmin dop = [0, 0, 0, 0] ++ dop.drop 4) := by
  have hn : (dopsH lm azel elmin (List.range (min ns.toNat MAXSAT))).length / 4 =
      ((List.range (min ns.toNat MAXSAT)).filter (dopsUsable azel elmin)).length := by
    rw [dopsH_length]; omega
  refine ⟨dopsUsable_iff azel elmin, fun h => ?_, fun h => ?_⟩
  · simp only [dops, hn, if_pos h]
  · simp only [dops, hn]
    split_ifs with c1 c2
    · rfl
    · exfalso
      have := (matinv_status _ 4).1.1 c2
      rw [toMat_matmul_NT] at this
      simp at this
      exact this h
    · rfl

theorem dops_zero_witness :
    dops ⟨id, id, id, id, id, id, id, fun y _ => y, id, fun x _ => x⟩ 64 [] 3
      [0, 1, 1, 1, 2, 1] 0 [9, 9, 9, 9] = [0, 0, 0, 0] :=
  (dops_zero ⟨id, id, id, id, id, id, id, fun y _ => y, id, fun x _ => x⟩ 64 [] 3
    [0, 1, 1, 1, 2, 1] 0 [9, 9, 9, 9]).2.1 (by decide)

/-! ## Klobuchar ionosphere model -/

/-- The cosine series of `ionmodel` is positive on `|x| < 1.57`. -/
theorem klobuchar_series_pos (x : ℚ) (hx : |x| < 1.57) :
    0 < 1 + x * x * (-0.5 + x * x / 24) := by
  have h1 := abs_lt.1 hx
  have h2 : x * x < 2.4649 := by nlinarith [h1.1, h1.2]
  have h3 : 0 ≤ x * x := mul_self_nonneg x
  nlinarith [mul_pos (show (0 : ℚ) < 2.4649 - x * x by linarith)
    (show (0 : ℚ) < 9.5351 - x * x by linarith)]

theorem ite_neg_nonneg (a : ℚ) : 0 ≤ (if a < 0 then 0 else a) := by
  split_ifs with h
  · exact le_refl _
  · exact not_lt.1 h

theorem ionmodel_shape (lm : Libm ℚ) (PI SPEED_OF_LIGHT : ℚ) (t : gtime_t)
    (ion pos azel : List ℚ) (hg : ¬ (pos.getD 2 0 < -1e3 ∨ azel.getD 1 0 ≤ 0)) :
    ∃ A X : ℚ, 0 ≤ A ∧ ionmodel lm PI SPEED_OF_LIGHT t ion pos azel =
      SPEED_OF_LIGHT * (1 + 16 * (0.53 - azel.getD 1 0 / PI) ^ 3) *
        (if |X| < 1.57 then 5e-9 + A * (1 + X * X * (-0.5 + X * X / 24)) else 5e-9) := by
  simp only [ionmodel, if_neg hg]
  exact ⟨_, _, ite_neg_nonneg _, rfl⟩

/-- Claim C30: guard and floor of the Klobuchar delay.  `ionmodel` returns exactly `0` when
the elevation is `<= 0` or the height is below `-1000 m`; otherwise, for an elevation in
`(0, pi/2]`, it returns `SPEED_OF_LIGHT * f * (5e-9 + d)` with the slant factor
`f = 1 + 16 (0.53 - el/pi)^3 ≥ 1` and `d ≥ 0`, so the delay is never below
`SPEED_OF_LIGHT * 5e-9`. -/
theorem ionmodel_floor (lm : Libm ℚ) (PI SPEED_OF_LIGHT : ℚ) (t : gtime_t)
    (ion pos azel : List ℚ) (hPI : 0 < PI) (hc : 0 < SPEED_OF_LIGHT) :
    ((azel.getD 1 0 ≤ 0 ∨ pos.getD 2 0 < -1000) →
      ionmodel lm PI SPEED_OF_LIGHT t ion pos azel = 0) ∧
    (0 < azel.getD 1 0 → azel.getD 1 0 ≤ PI / 2 → -1000 ≤ pos.getD 2 0 →
      1 ≤ 1 + 16 * (0.53 - azel.getD 1 0 / PI) ^ 3 ∧
      (∃ d : ℚ, 0 ≤ d ∧ ionmodel lm PI SPEED_OF_LIGHT t ion pos azel =
        SPEED_OF_LIGHT * (1 + 16 * (0.53 - azel.getD 1 0 / PI) ^ 3) * (5e-9 + d)) ∧
      SPEED_OF_LIGHT * 5e-9 ≤ ionmodel lm PI SPEED_OF_LIGHT t ion pos azel) := by
  have e3 : (-1e3 : ℚ) = -1000 := by norm_num
  have e53 : (0.53 : ℚ) = 53 / 100 := by norm_num
  constructor
  · intro h
    have hg : pos.getD 2 0 < -1e3 ∨ azel.getD 1 0 ≤ 0 := by
      rcases h with h | h
      · exact Or.inr h
      · left; rw [e3]; exact h
    simp only [ionmodel, if_pos hg]
  · intro h0 h1 h2
    have hg : ¬ (pos.getD 2 0 < -1e3 ∨ azel.getD 1 0 ≤ 0) := by
      intro h
      rcases h with h | h
      · rw [e3] at h; linarith
      · linarith
    obtain ⟨A, X, hA, e⟩ := ionmodel_shape lm PI SPEED_OF_LIGHT t ion pos azel hg
    have hel : azel.getD 1 0 / PI ≤ 1 / 2 := by
      rw [div_le_iff₀ hPI]; linarith
    have hf : 1 ≤ 1 + 16 * (0.53 - azel.getD 1 0 / PI) ^ 3 := by
      have : 0 ≤ (0.53 - azel.getD 1 0 / PI) ^ 3 := by
        apply pow_nonneg
        rw [e53]
        linarith
      linarith
    have hd : ∃ d : ℚ, 0 ≤ d ∧ (if |X| < 1.57 then
        5e-9 + A * (1 + X * X * (-0.5 + X * X / 24)) else 5e-9) = 5e-9 + d := by
      by_cases hx : |X| < 1.57
      · exact ⟨_, mul_nonneg hA (klobuchar_series_pos X hx).le, by rw [if_pos hx]⟩
      · exact ⟨0, le_refl _, by rw [if_neg hx, add_zero]⟩
    obtain ⟨d, hd0, hd1⟩ := hd
    rw [hd1] at e
    refine ⟨hf, ⟨d, hd0, e⟩, ?_⟩
    rw [e]
    have hcf : SPEED_OF_LIGHT ≤ SPEED_OF_LIGHT * (1 + 16 * (0.53 - azel.getD 1 0 / PI) ^ 3) :=
      le_mul_of_one_le_right hc.le hf
    have h5 : (0 : ℚ) ≤ 5e-9 := by norm_num
    calc SPEED_OF_LIGHT * 5e-9
        ≤ SPEED_OF_LIGHT * (1 + 16 * (0.53 - azel.getD 1 0 / PI) ^ 3) * 5e-9 :=
          mul_le_mul_of_nonneg_right hcf h5
      _ ≤ SPEED_OF_LIGHT * (1 + 16 * (0.53 - azel.getD 1 0 / PI) ^ 3) * (5e-9 + d) := by
          apply mul_le_mul_of_nonneg_left
          · linarith
          · exact le_trans hc.le hcf

theorem ionmodel_floor_witness :
    ionmodel ⟨id, id, id, id, id, id, id, fun y _ => y, id, fun x _ => x⟩ 3.1415926535897932
      299792458 ⟨0, 0⟩ [] [0, 0, -2000] [0, 1] = 0 ∧
    (299792458 : ℚ) * 5e-9 ≤
      ionmodel ⟨id, id, id, id, id, id, id, fun y _ => y, id, fun x _ => x⟩ 3.1415926535897932
        299792458 ⟨0, 0⟩ [] [0, 0, 0] [0, 1] :=
  ⟨(ionmodel_floor ⟨id, id, id, id, id, id, id, fun y _ => y, id, fun x _ => x⟩
      3.1415926535897932 299792458 ⟨0, 0⟩ [] [0, 0, -2000] [0, 1] (by norm_num)
      (by norm_num)).1 (Or.inr (by norm_num)),
   ((ionmodel_floor ⟨id, id, id, id, id, id, id, fun y _ => y, id, fun x _ => x⟩
      3.1415926535897932 299792458 ⟨0, 0⟩ [] [0, 0, 0] [0, 1] (by norm_num)
      (by norm_num)).2 (by norm_num) (by norm_num) (by norm_num)).2.2⟩

/-! ## Local tangent coordinates -/

theorem toVec_matmul_TN (n m : Nat) (alpha : ℚ) (A B : List ℚ) (beta : ℚ) (C : List ℚ) :
    toVec (matmul ['T', 'N'] n 1 m alpha A B beta C) n =
      alpha • ((toMat A m n)ᵀ).mulVec (toVec B m) + beta • toVec C n := by
  funext i
  rw [toVec_eq_col, toMat_matmul_TN]
  simp [Matrix.mul_apply, Matrix.mulVec, Matrix.dotProduct, toMat_apply, toVec]

theorem dot_eq_dotProduct (a b : List ℚ) : dot a b 3 = toVec a 3 ⬝ᵥ toVec b 3 := by
  simp [dot, dotLoop, Matrix.dotProduct, Fin.sum_univ_three, toVec]
  ring

theorem enu_matrix_orthogonal (sp cp sl cl : ℚ) (hp : sp ^ 2 + cp ^ 2 = 1)
    (hl : sl ^ 2 + cl ^ 2 = 1) :
    (toMat [-sl, -sp * cl, cp * cl, cl, -sp * sl, cp * sl, 0, cp, sp] 3 3)ᵀ *
      toMat [-sl, -sp * cl, cp * cl, cl, -sp * sl, cp * sl, 0, cp, sp] 3 3 = 1 := by
  ext i j
  fin_cases i <;> fin_cases j <;>
    simp [Matrix.mul_apply, Fin.sum_univ_three, toMat_apply] <;>
    first
      | linear_combination cl ^ 2 * hp + hl
      | linear_combination sl ^ 2 * hp + hl
      | linear_combination (cl * sl) * hp
      | linear_combination hp
      | ring

/-- The matrix `E` of `xyz2enu` is orthogonal as soon as `sin² + cos² = 1` at the latitude
and at the longitude. -/
theorem xyz2enu_orthogonal (lm : Libm ℚ) (pos : List ℚ)
    (hp : lm.sin (pos.getD 0 0) ^ 2 + lm.cos (pos.getD 0 0) ^ 2 = 1)
    (hl : lm.sin (pos.getD 1 0) ^ 2 + lm.cos (pos.getD 1 0) ^ 2 = 1) :
    (toMat (xyz2enu lm pos) 3 3)ᵀ * toMat (xyz2enu lm pos) 3 3 = 1 ∧
    toMat (xyz2enu lm pos) 3 3 * (toMat (xyz2enu lm pos) 3 3)ᵀ = 1 := by
  have key : (toMat (xyz2enu lm pos) 3 3)ᵀ * toMat (xyz2enu lm pos) 3 3 = 1 :=
    enu_matrix_orthogonal _ _ _ _ hp hl
  exact ⟨key, mul_eq_one_comm.1 key⟩

/-- Claim C26: the ENU rotation and its transpose are inverse.  With `sin² + cos² = 1` at
the latitude and at the longitude, the matrix `E` of `xyz2enu` satisfies `E' E = I`;
`enu2ecef` undoes `ecef2enu`, `ecef2enu` keeps the Euclidean norm, `covenu` yields
`E P E'` and `covecef` undoes `covenu`. -/
theorem enu_rotation_inverse (lm : Libm ℚ) (junk pos r e0 r0 P Q0 P0 : List ℚ)
    (hp : lm.sin (pos.getD 0 0) ^ 2 + lm.cos (pos.getD 0 0) ^ 2 = 1)
    (hl : lm.sin (pos.getD 1 0) ^ 2 + lm.cos (pos.getD 1 0) ^ 2 = 1) :
    (toMat (xyz2enu lm pos) 3 3)ᵀ * toMat (xyz2enu lm pos) 3 3 = 1 ∧
    toVec (enu2ecef lm pos (ecef2enu lm pos r e0) r0) 3 = toVec r 3 ∧
    dot (ecef2enu lm pos r e0) (ecef2enu lm pos r e0) 3 = dot r r 3 ∧
    norm_rtk lm (ecef2enu lm pos r e0) 3 = norm_rtk lm r 3 ∧
    toMat (covenu lm junk pos P Q0) 3 3 =
      toMat (xyz2enu lm pos) 3 3 * toMat P 3 3 * (toMat (xyz2enu lm pos) 3 3)ᵀ ∧
    toMat (covecef lm junk pos (covenu lm junk pos P Q0) P0) 3 3 = toMat P 3 3 := by
  obtain ⟨h1, h2⟩ := xyz2enu_orthogonal lm pos hp hl
  have he : toVec (ecef2enu lm pos r e0) 3 = (toMat (xyz2enu lm pos) 3 3).mulVec (toVec r 3) := by
    unfold ecef2enu
    rw [toVec_matmul_NN]
    simp
  have hd : dot (ecef2enu lm pos r e0) (ecef2enu lm pos r e0) 3 = dot r r 3 := by
    rw [dot_eq_dotProduct, dot_eq_dotProduct, he, Matrix.dotProduct_mulVec,
      Matrix.vecMul_mulVec, ← Matrix.dotProduct_mulVec, h1, Matrix.one_mulVec]
  have hc : toMat (covenu lm junk pos P Q0) 3 3 =
      toMat (xyz2enu lm pos) 3 3 * toMat P 3 3 * (toMat (xyz2enu lm pos) 3 3)ᵀ := by
    unfold covenu
    rw [toMat_matmul_NT, toMat_matmul_NN]
    simp
  refine ⟨h1, ?_, hd, ?_, hc, ?_⟩
  · unfold enu2ecef
    rw [toVec_matmul_TN, he, Matrix.mulVec_mulVec, h1]
    simp
  · unfold norm_rtk
    rw [hd]
  · unfold covecef
    rw [toMat_matmul_NN, toMat_matmul_TN, hc]
    simp only [one_smul, zero_smul, add_zero]
    rw [← Matrix.mul_assoc, ← Matrix.mul_assoc, h1, Matrix.one_mul, Matrix.mul_assoc, h1,
      Matrix.mul_one]

theorem enu_rotation_inverse_witness :
    toVec (enu2ecef ratLibm [1 / 2, 1 / 3] (ecef2enu ratLibm [1 / 2, 1 / 3] [1, 2, 3] [0, 0, 0])
      [0, 0, 0]) 3 = toVec [1, 2, 3] 3 ∧
    dot (ecef2enu ratLibm [1 / 2, 1 / 3] [1, 2, 3] [0, 0, 0])
      (ecef2enu ratLibm [1 / 2, 1 / 3] [1, 2, 3] [0, 0, 0]) 3 = dot [1, 2, 3] [1, 2, 3] 3 :=
  ⟨(enu_rotation_inverse ratLibm [] [1 / 2, 1 / 3] [1, 2, 3] [0, 0, 0] [0, 0, 0] [] [] []
      (by norm_num [ratLibm]) (by norm_num [ratLibm])).2.1,
   (enu_rotation_inverse ratLibm [] [1 / 2, 1 / 3] [1, 2, 3] [0, 0, 0] [0, 0, 0] [] [] []
      (by norm_num [ratLibm]) (by norm_num [ratLibm])).2.2.1⟩

/-! ## Geometric distance -/

theorem ratSqrt_mul_self (q : ℚ) (h : 0 ≤ q) : ratSqrt (q * q) = q := by
  have hn : 0 ≤ q.num := Rat.num_nonneg.2 h
  unfold ratSqrt
  rw [Rat.mul_self_num, Rat.mul_self_den, Nat.sqrt_eq]
  have : (q.num * q.num).toNat = q.num.toNat * q.num.toNat := by
    obtain ⟨k, hk⟩ := Int.eq_ofNat_of_zero_le hn
    rw [hk]
    exact_mod_cast rfl
  rw [this, Nat.sqrt_eq]
  have h2 : ((q.num.toNat : Nat) : ℚ) = (q.num : ℚ) := by
    have := Int.toNat_of_nonneg hn
    exact_mod_cast congrArg (fun z : Int => (z : ℚ)) this
  rw [h2]
  exact Rat.num_div_den q

theorem dot_three {K : Type} [LinearOrderedField K] (a b : List K) :
    dot a b 3 = a.getD 0 0 * b.getD 0 0 + a.getD 1 0 * b.getD 1 0 + a.getD 2 0 * b.getD 2 0 := by
  simp only [dot, dotLoop]
  ring

theorem dot_two {K : Type} [LinearOrderedField K] (a b : List K) :
    dot a b 2 = a.getD 0 0 * b.getD 0 0 + a.getD 1 0 * b.getD 1 0 := by
  simp only [dot, dotLoop]
  ring

/-- A non-negative root of `v` is below a positive bound exactly when `v` is below its
square. -/
theorem sqrt_lt_iff {K : Type} [LinearOrderedField K] (s v R : K) (hs : 0 ≤ s)
    (hv : s * s = v) (hR : 0 < R) : s < R ↔ v < R * R := by
  rw [← hv]
  constructor
  · intro h
    nlinarith
  · intro h
    by_contra hc
    have := not_lt.1 hc
    nlinarith

/-- Claim C27: the geometric distance.  For a satellite position inside the reference
ellipsoid (semi-axes `RE_WGS84` and `RE_WGS84 (1 - FE_WGS84)`) `geodist` returns a negative
value and leaves `e` as it was; for `|rs| ≥ RE_WGS84` and `rr ≠ rs` it returns
`|rs - rr| + OMEGA (rs_x rr_y - rs_y rr_x) / c` and `e` is the unit vector
`(rs - rr) / |rs - rr|`.  The square root is taken exact at the two squared lengths. -/
theorem geodist_spec {K : Type} [LinearOrderedField K] (lm : Libm K)
    (RE_WGS84 FE_WGS84 DEFAULT_OMEGA_EARTH_DOT SPEED_OF_LIGHT : K) (rs rr e : List K)
    (hRE : 0 < RE_WGS84) (hFE0 : 0 ≤ FE_WGS84) (hFE1 : FE_WGS84 < 1)
    (hs : 0 ≤ lm.sqrt (dot rs rs 3) ∧ lm.sqrt (dot rs rs 3) * lm.sqrt (dot rs rs 3) = dot rs rs 3)
    (hd : 0 ≤ lm.sqrt ((rs.getD 0 0 - rr.getD 0 0) * (rs.getD 0 0 - rr.getD 0 0) +
        (rs.getD 1 0 - rr.getD 1 0) * (rs.getD 1 0 - rr.getD 1 0) +
        (rs.getD 2 0 - rr.getD 2 0) * (rs.getD 2 0 - rr.getD 2 0)) ∧
      lm.sqrt ((rs.getD 0 0 - rr.getD 0 0) * (rs.getD 0 0 - rr.getD 0 0) +
        (rs.getD 1 0 - rr.getD 1 0) * (rs.getD 1 0 - rr.getD 1 0) +
        (rs.getD 2 0 - rr.getD 2 0) * (rs.getD 2 0 - rr.getD 2 0)) *
      lm.sqrt ((rs.getD 0 0 - rr.getD 0 0) * (rs.getD 0 0 - rr.getD 0 0) +
        (rs.getD 1 0 - rr.getD 1 0) * (rs.getD 1 0 - rr.getD 1 0) +
        (rs.getD 2 0 - rr.getD 2 0) * (rs.getD 2 0 - rr.getD 2 0)) =
      (rs.getD 0 0 - rr.getD 0 0) * (rs.getD 0 0 - rr.getD 0 0) +
        (rs.getD 1 0 - rr.getD 1 0) * (rs.getD 1 0 - rr.getD 1 0) +
        (rs.getD 2 0 - rr.getD 2 0) * (rs.getD 2 0 - rr.getD 2 0)) :
    ((rs.getD 0 0 * rs.getD 0 0 + rs.getD 1 0 * rs.getD 1 0) / (RE_WGS84 * RE_WGS84) +
        rs.getD 2 0 * rs.getD 2 0 /
          (RE_WGS84 * (1 - FE_WGS84) * (RE_WGS84 * (1 - FE_WGS84))) < 1 →
      (geodist lm RE_WGS84 DEFAULT_OMEGA_EARTH_DOT SPEED_OF_LIGHT rs rr e).1 < 0 ∧
      (geodist lm RE_WGS84 DEFAULT_OMEGA_EARTH_DOT SPEED_OF_LIGHT rs rr e).2 = e) ∧
    (RE_WGS84 ≤ norm_rtk lm rs 3 →
      (rs.getD 0 0 ≠ rr.getD 0 0 ∨ rs.getD 1 0 ≠ rr.getD 1 0 ∨ rs.getD 2 0 ≠ rr.getD 2 0) →
      ∃ ρ : K, 0 < ρ ∧
        ρ * ρ = (rs.getD 0 0 - rr.getD 0 0) * (rs.getD 0 0 - rr.getD 0 0) +
          (rs.getD 1 0 - rr.getD 1 0) * (rs.getD 1 0 - rr.getD 1 0) +
          (rs.getD 2 0 - rr.getD 2 0) * (rs.getD 2 0 - rr.getD 2 0) ∧
        (geodist lm RE_WGS84 DEFAULT_OMEGA_EARTH_DOT SPEED_OF_LIGHT rs rr e).1 =
          ρ + DEFAULT_OMEGA_EARTH_DOT *
            (rs.getD 0 0 * rr.getD 1 0 - rs.getD 1 0 * rr.getD 0 0) / SPEED_OF_LIGHT ∧
        (geodist lm RE_WGS84 DEFAULT_OMEGA_EARTH_DOT SPEED_OF_LIGHT rs rr e).2 =
          [(rs.getD 0 0 - rr.getD 0 0) / ρ, (rs.getD 1 0 - rr.getD 1 0) / ρ,
            (rs.getD 2 0 - rr.getD 2 0) / ρ] ++ e.drop 3 ∧
        dot (geodist lm RE_WGS84 DEFAULT_OMEGA_EARTH_DOT SPEED_OF_LIGHT rs rr e).2
          (geodist lm RE_WGS84 DEFAULT_OMEGA_EARTH_DOT SPEED_OF_LIGHT rs rr e).2 3 = 1) := by
  constructor
  · intro hin
    have hb : 0 < RE_WGS84 * (1 - FE_WGS84) := mul_pos hRE (by linarith)
    have hlt : dot rs rs 3 < RE_WGS84 * RE_WGS84 := by
      rw [dot_three]
      have hz : rs.getD 2 0 * rs.getD 2 0 / (RE_WGS84 * RE_WGS84) ≤
          rs.getD 2 0 * rs.getD 2 0 /
            (RE_WGS84 * (1 - FE_WGS84) * (RE_WGS84 * (1 - FE_WGS84))) := by
        apply div_le_div_of_nonneg_left (mul_self_nonneg _) (mul_pos hb hb)
        have hble : RE_WGS84 * (1 - FE_WGS84) ≤ RE_WGS84 := by nlinarith
        exact mul_le_mul hble hble hb.le hRE.le
      have h1 : (rs.getD 0 0 * rs.getD 0 0 + rs.getD 1 0 * rs.getD 1 0 +
          rs.getD 2 0 * rs.getD 2 0) / (RE_WGS84 * RE_WGS84) < 1 := by
        rw [add_div]
        linarith
      rwa [div_lt_one (mul_pos hRE hRE)] at h1
    have hn : norm_rtk lm rs 3 < RE_WGS84 :=
      (sqrt_lt_iff _ _ _ hs.1 hs.2 hRE).2 hlt
    simp only [geodist, if_pos hn]
    exact ⟨by norm_num, trivial⟩
  · intro hout hne
    have hn : ¬ norm_rtk lm rs 3 < RE_WGS84 := not_lt.2 hout
    have hdd : dot ([rs.getD 0 0 - rr.getD 0 0, rs.getD 1 0 - rr.getD 1 0,
        rs.getD 2 0 - rr.getD 2 0] ++ e.drop 3)
        ([rs.getD 0 0 - rr.getD 0 0, rs.getD 1 0 - rr.getD 1 0,
        rs.getD 2 0 - rr.getD 2 0] ++ e.drop 3) 3 =
        (rs.getD 0 0 - rr.getD 0 0) * (rs.getD 0 0 - rr.getD 0 0) +
        (rs.getD 1 0 - rr.getD 1 0) * (rs.getD 1 0 - rr.getD 1 0) +
        (rs.getD 2 0 - rr.getD 2 0) * (rs.getD 2 0 - rr.getD 2 0) := by
      rw [dot_three]
      simp
    have hpos : 0 < (rs.getD 0 0 - rr.getD 0 0) * (rs.getD 0 0 - rr.getD 0 0) +
        (rs.getD 1 0 - rr.getD 1 0) * (rs.getD 1 0 - rr.getD 1 0) +
        (rs.getD 2 0 - rr.getD 2 0) * (rs.getD 2 0 - rr.getD 2 0) := by
      rcases hne with h | h | h
      · exact add_pos_of_pos_of_nonneg (add_pos_of_pos_of_nonneg
          (mul_self_pos.2 (sub_ne_zero.2 h)) (mul_self_nonneg _)) (mul_self_nonneg _)
      · exact add_pos_of_pos_of_nonneg (add_pos_of_nonneg_of_pos (mul_self_nonneg _)
          (mul_self_pos.2 (sub_ne_zero.2 h))) (mul_self_nonneg _)
      · exact add_pos_of_nonneg_of_pos (add_nonneg (mul_self_nonneg _) (mul_self_nonneg _))
          (mul_self_pos.2 (sub_ne_zero.2 h))
    have hρ : 0 < lm.sqrt ((rs.getD 0 0 - rr.getD 0 0) * (rs.getD 0 0 - rr.getD 0 0) +
        (rs.getD 1 0 - rr.getD 1 0) * (rs.getD 1 0 - rr.getD 1 0) +
        (rs.getD 2 0 - rr.getD 2 0) * (rs.getD 2 0 - rr.getD 2 0)) := by
      rcases lt_or_eq_of_le hd.1 with h | h
      · exact h
      · exfalso
        have h2 := hd.2
        rw [← h, zero_mul] at h2
        exact (ne_of_lt hpos) h2
    have hg : geodist lm RE_WGS84 DEFAULT_OMEGA_EARTH_DOT SPEED_OF_LIGHT rs rr e =
        (lm.sqrt (dot ([rs.getD 0 0 - rr.getD 0 0, rs.getD 1 0 - rr.getD 1 0,
            rs.getD 2 0 - rr.getD 2 0] ++ e.drop 3)
            ([rs.getD 0 0 - rr.getD 0 0, rs.getD 1 0 - rr.getD 1 0,
            rs.getD 2 0 - rr.getD 2 0] ++ e.drop 3) 3) +
          DEFAULT_OMEGA_EARTH_DOT * (rs.getD 0 0 * rr.getD 1 0 - rs.getD 1 0 * rr.getD 0 0) /
            SPEED_OF_LIGHT,
         [(rs.getD 0 0 - rr.getD 0 0) / lm.sqrt (dot ([rs.getD 0 0 - rr.getD 0 0,
            rs.getD 1 0 - rr.getD 1 0, rs.getD 2 0 - rr.getD 2 0] ++ e.drop 3)
            ([rs.getD 0 0 - rr.getD 0 0, rs.getD 1 0 - rr.getD 1 0,
            rs.getD 2 0 - rr.getD 2 0] ++ e.drop 3) 3),
          (rs.getD 1 0 - rr.getD 1 0) / lm.sqrt (dot ([rs.getD 0 0 - rr.getD 0 0,
            rs.getD 1 0 - rr.getD 1 0, rs.getD 2 0 - rr.getD 2 0] ++ e.drop 3)
            ([rs.getD 0 0 - rr.getD 0 0, rs.getD 1 0 - rr.getD 1 0,
            rs.getD 2 0 - rr.getD 2 0] ++ e.drop 3) 3),
          (rs.getD 2 0 - rr.getD 2 0) / lm.sqrt (dot ([rs.getD 0 0 - rr.getD 0 0,
            rs.getD 1 0 - rr.getD 1 0, rs.getD 2 0 - rr.getD 2 0] ++ e.drop 3)
            ([rs.getD 0 0 - rr.getD 0 0, rs.getD 1 0 - rr.getD 1 0,
            rs.getD 2 0 - rr.getD 2 0] ++ e.drop 3) 3)] ++ e.drop 3) := by
      unfold geodist
      rw [if_neg hn]
      rfl
    rw [hg, hdd]
    generalize rs.getD 0 0 - rr.getD 0 0 = d0 at *
    generalize rs.getD 1 0 - rr.getD 1 0 = d1 at *
    generalize rs.getD 2 0 - rr.getD 2 0 = d2 at *
    generalize lm.sqrt (d0 * d0 + d1 * d1 + d2 * d2) = ρ at *
    refine ⟨ρ, hρ, hd.2, rfl, rfl, ?_⟩
    rw [dot_three]
    simp only [List.getD_cons_zero, List.getD_cons_succ, List.cons_append]
    have h2 := hd.2
    field_simp
    linarith

/-- The square root of `ratLibm` is exact at the square of a non-negative rational. -/
theorem ratLibm_sqrt_exact (v q : ℚ) (hq : 0 ≤ q) (h : v = q * q) :
    0 ≤ ratLibm.sqrt v ∧ ratLibm.sqrt v * ratLibm.sqrt v = v := by
  have e : ratLibm.sqrt v = q := by rw [h]; exact ratSqrt_mul_self q hq
  rw [e]
  exact ⟨hq, h.symm⟩

theorem geodist_spec_witness :
    (geodist ratLibm 6378137 7.2921151467e-5 299792458 [1000, 0, 0] [6378137, 0, 0]
      [9, 9, 9]).1 < 0 ∧
    dot (geodist ratLibm 6378137 7.2921151467e-5 299792458 [7000000, 0, 0] [6378137, 0, 0]
        [9, 9, 9]).2
      (geodist ratLibm 6378137 7.2921151467e-5 299792458 [7000000, 0, 0] [6378137, 0, 0]
        [9, 9, 9]).2 3 = 1 := by
  have h1 := (geodist_spec ratLibm 6378137 (1 / 298.257223563) 7.2921151467e-5 299792458
    [1000, 0, 0] [6378137, 0, 0] [9, 9, 9] (by norm_num) (by norm_num) (by norm_num)
    (ratLibm_sqrt_exact _ 1000 (by norm_num) (by norm_num [dot_three]))
    (ratLibm_sqrt_exact _ 6377137 (by norm_num) (by norm_num))).1 (by norm_num)
  have hn : (6378137 : ℚ) ≤ norm_rtk ratLibm [7000000, 0, 0] 3 := by
    have : norm_rtk ratLibm [(7000000 : ℚ), 0, 0] 3 = 7000000 := by
      unfold norm_rtk
      have e : dot [(7000000 : ℚ), 0, 0] [7000000, 0, 0] 3 = 7000000 * 7000000 := by
        norm_num [dot_three]
      rw [e]; exact ratSqrt_mul_self 7000000 (by norm_num)
    rw [this]; norm_num
  obtain ⟨ρ, -, -, -, -, h2⟩ := (geodist_spec ratLibm 6378137 (1 / 298.257223563)
    7.2921151467e-5 299792458 [7000000, 0, 0] [6378137, 0, 0] [9, 9, 9] (by norm_num)
    (by norm_num) (by norm_num)
    (ratLibm_sqrt_exact _ 7000000 (by norm_num) (by norm_num [dot_three]))
    (ratLibm_sqrt_exact _ 621863 (by norm_num) (by norm_num))).2 hn
    (Or.inl (by norm_num))
  exact ⟨h1.1, h2⟩

/-! ## Geodetic coordinates -/

/-- Claim C25: positions of the equatorial plane convert in closed form.  For
`r = (x, y, 0)` with `x² + y² > 1e-12` the iteration of `ecef2pos` does not run and the
result is latitude `0`, longitude `atan2(y, x)` and height `sqrt(x² + y²) - RE_WGS84`
(`atan(0) = 0` is all that is used of the math library); in particular
`ecef2pos({6378137, 0, 0}) = {0, 0, 0}`. -/
theorem ecef2pos_equator {K : Type} [LinearOrderedField K] (lm : Libm K)
    (PI RE_WGS84 FE_WGS84 : K) (fuel : Nat) (x y : K) (hatan : lm.atan 0 = 0)
    (hr : 1 / 1000000000000 < x * x + y * y) :
    ecef2pos lm PI RE_WGS84 FE_WGS84 fuel [x, y, 0] =
      some [0, lm.atan2 y x, lm.sqrt (x * x + y * y) - RE_WGS84] ∧
    (x = 6378137 → y = 0 → RE_WGS84 = 6378137 → lm.sqrt (6378137 * 6378137) = 6378137 →
      lm.atan2 0 6378137 = 0 →
      ecef2pos lm PI RE_WGS84 FE_WGS84 fuel [x, y, 0] = some [0, 0, 0]) := by
  have hmain : ecef2pos lm PI RE_WGS84 FE_WGS84 fuel [x, y, 0] =
      some [0, lm.atan2 y x, lm.sqrt (x * x + y * y) - RE_WGS84] := by
    have hd : dot [x, y, 0] [x, y, 0] 2 = x * x + y * y := by
      rw [dot_two]; simp
    have hloop : ecef2posLoop lm RE_WGS84 (FE_WGS84 * (2 - FE_WGS84)) (x * x + y * y) 0 fuel
        0 0 RE_WGS84 = some (0, RE_WGS84) := by
      cases fuel <;> simp [ecef2posLoop]
    simp only [ecef2pos, hd, List.getD_cons_zero, List.getD_cons_succ, hloop,
      if_pos (gt_iff_lt.2 hr)]
    simp [hatan]
  refine ⟨hmain, fun hx hy hR hs ha => ?_⟩
  rw [hmain, hx, hy, hR]
  simp [hs, ha]

theorem ecef2pos_equator_witness :
    ecef2pos (⟨Real.sqrt, Real.sin, Real.cos, Real.tan, Real.arcsin, Real.arccos,
        Real.arctan, fun y x => Complex.arg ⟨x, y⟩, Real.exp, fun x y => x ^ y⟩ : Libm ℝ)
      Real.pi 6378137 (1 / 298.257223563) 0 [6378137, 0, 0] = some [0, 0, 0] :=
  (ecef2pos_equator (⟨Real.sqrt, Real.sin, Real.cos, Real.tan, Real.arcsin, Real.arccos,
        Real.arctan, fun y x => Complex.arg ⟨x, y⟩, Real.exp, fun x y => x ^ y⟩ : Libm ℝ)
      Real.pi 6378137 (1 / 298.257223563) 0 6378137 0 Real.arctan_zero (by norm_num)).2
    rfl rfl rfl (Real.sqrt_mul_self (by norm_num))
    (by
      show Complex.arg ⟨6378137, 0⟩ = 0
      have : (⟨6378137, 0⟩ : ℂ) = ((6378137 : ℝ) : ℂ) := by
        apply Complex.ext <;> simp
      rw [this]
      exact Complex.arg_ofReal_of_nonneg (by norm_num))

/-! ## The geodetic round trip -/

/-! ## The iteration of `ecef2pos` over the reals -/

/-- The auxiliary term `z / sqrt (p2 + k z²)` of the iteration grows with `z`. -/
theorem geo_ratio_mono (p2 k : ℝ) (hp : 0 < p2) (hk : 0 < k) (z w : ℝ) (h : z ≤ w) :
    z / Real.sqrt (p2 + k * (z * z)) ≤ w / Real.sqrt (p2 + k * (w * w)) := by
  have hAz : 0 < p2 + k * (z * z) := by nlinarith [mul_self_nonneg z]
  have hAw : 0 < p2 + k * (w * w) := by nlinarith [mul_self_nonneg w]
  have hDz := Real.sqrt_pos.2 hAz
  have hDw := Real.sqrt_pos.2 hAw
  have sz := Real.mul_self_sqrt hAz.le
  have sw := Real.mul_self_sqrt hAw.le
  rw [div_le_div_iff hDz hDw]
  rcases le_or_lt 0 z with hz | hz
  · have hw : 0 ≤ w := le_trans hz h
    apply (mul_self_le_mul_self_iff (mul_nonneg hz hDw.le) (mul_nonneg hw hDz.le)).2
    have e1 : z * Real.sqrt (p2 + k * (w * w)) * (z * Real.sqrt (p2 + k * (w * w))) =
        z * z * (p2 + k * (w * w)) := by
      rw [mul_mul_mul_comm, sw]
    have e2 : w * Real.sqrt (p2 + k * (z * z)) * (w * Real.sqrt (p2 + k * (z * z))) =
        w * w * (p2 + k * (z * z)) := by
      rw [mul_mul_mul_comm, sz]
    rw [e1, e2]
    nlinarith [mul_self_le_mul_self hz h]
  · rcases le_or_lt 0 w with hw | hw
    · have : z * Real.sqrt (p2 + k * (w * w)) ≤ 0 :=
        mul_nonpos_of_nonpos_of_nonneg hz.le hDw.le
      exact le_trans this (mul_nonneg hw hDz.le)
    · have hnz : 0 ≤ -z := by linarith
      have hnw : 0 ≤ -w := by linarith
      have key : (-w) * Real.sqrt (p2 + k * (z * z)) ≤ (-z) * Real.sqrt (p2 + k * (w * w)) := by
        apply (mul_self_le_mul_self_iff (mul_nonneg hnw hDz.le) (mul_nonneg hnz hDw.le)).2
        have e1 : -z * Real.sqrt (p2 + k * (w * w)) * (-z * Real.sqrt (p2 + k * (w * w))) =
            z * z * (p2 + k * (w * w)) := by
          rw [mul_mul_mul_comm, sw]; ring
        have e2 : -w * Real.sqrt (p2 + k * (z * z)) * (-w * Real.sqrt (p2 + k * (z * z))) =
            w * w * (p2 + k * (z * z)) := by
          rw [mul_mul_mul_comm, sz]; ring
        rw [e1, e2]
        nlinarith [mul_self_le_mul_self hnw (by linarith : -w ≤ -z)]
      linarith

/-- The auxiliary term `z / sqrt (p2 + k z²)` is bounded by `1 / k` for `0 < k ≤ 1`. -/
theorem geo_ratio_bound (p2 k : ℝ) (hp : 0 < p2) (hk : 0 < k) (hk1 : k ≤ 1) (z : ℝ) :
    |z / Real.sqrt (p2 + k * (z * z))| ≤ 1 / k := by
  have hA : 0 < p2 + k * (z * z) := by nlinarith [mul_self_nonneg z]
  have hD := Real.sqrt_pos.2 hA
  have s := Real.mul_self_sqrt hA.le
  rw [abs_div, abs_of_pos hD, div_le_div_iff hD hk, one_mul]
  have h1 : |z| * k ≤ Real.sqrt (p2 + k * (z * z)) := by
    apply (mul_self_le_mul_self_iff (mul_nonneg (abs_nonneg z) hk.le) hD.le).2
    rw [s, mul_mul_mul_comm, abs_mul_abs_self]
    nlinarith [mul_self_nonneg z, mul_nonneg (mul_self_nonneg z) hk.le]
  exact h1

/-- One pass of the loop of `ecef2pos` in closed form: with `ρ = sqrt (p2 + z²)` and
`D = sqrt (p2 + (1 - e2) z²)`, the radius of curvature is `a ρ / D` and the new `z` is
`c + a e2 z / D`. -/
theorem geo_step (a e2 p2 z : ℝ) (he1 : e2 < 1) (hp : 0 < p2) :
    a / Real.sqrt (1 - e2 * (z / Real.sqrt (p2 + z * z)) * (z / Real.sqrt (p2 + z * z))) =
      a * Real.sqrt (p2 + z * z) / Real.sqrt (p2 + (1 - e2) * (z * z)) ∧
    a / Real.sqrt (1 - e2 * (z / Real.sqrt (p2 + z * z)) * (z / Real.sqrt (p2 + z * z))) * e2 *
        (z / Real.sqrt (p2 + z * z)) =
      a * e2 * (z / Real.sqrt (p2 + (1 - e2) * (z * z))) := by
  have hA : 0 < p2 + z * z := by nlinarith [mul_self_nonneg z]
  have hB : 0 < p2 + (1 - e2) * (z * z) := by
    nlinarith [mul_self_nonneg z, mul_nonneg (sub_pos.2 he1).le (mul_self_nonneg z)]
  have hρ := Real.sqrt_pos.2 hA
  have hD := Real.sqrt_pos.2 hB
  have sρ := Real.mul_self_sqrt hA.le
  have key : Real.sqrt (1 - e2 * (z / Real.sqrt (p2 + z * z)) * (z / Real.sqrt (p2 + z * z)))
      = Real.sqrt (p2 + (1 - e2) * (z * z)) / Real.sqrt (p2 + z * z) := by
    have e : 1 - e2 * (z / Real.sqrt (p2 + z * z)) * (z / Real.sqrt (p2 + z * z)) =
        (p2 + (1 - e2) * (z * z)) / (p2 + z * z) := by
      rw [mul_assoc, div_mul_div_comm, sρ]
      field_simp
      ring
    rw [e, Real.sqrt_div hB.le]
  rw [key]
  constructor
  · field_simp
  · field_simp
    ring

theorem ecef2posLoop_succ (lm : Libm ℝ) (hs : lm.sqrt = Real.sqrt) (a e2 p2 c : ℝ)
    (he1 : e2 < 1) (hp : 0 < p2) (fuel : Nat) (z zk v : ℝ) :
    ecef2posLoop lm a e2 p2 c (fuel + 1) z zk v =
      if |z - zk| ≥ 1 / 10000 then
        ecef2posLoop lm a e2 p2 c fuel
          (c + a * e2 * (z / Real.sqrt (p2 + (1 - e2) * (z * z)))) z
          (a * Real.sqrt (p2 + z * z) / Real.sqrt (p2 + (1 - e2) * (z * z)))
      else some (z, v) := by
  rw [ecef2posLoop, hs, (geo_step a e2 p2 z he1 hp).2, (geo_step a e2 p2 z he1 hp).1]

/-- From a state of the orbit `z = g zk`, `v = V zk`, the loop of `ecef2pos` ends within the
budget left by the monotone, bounded sequence of its iterates: on a state with
`|z - zk| < 1e-4`. -/
theorem ecef2posLoop_orbit (lm : Libm ℝ) (hs : lm.sqrt = Real.sqrt) (a e2 p2 c M σ : ℝ)
    (ha : 0 < a) (he0 : 0 < e2) (he1 : e2 < 1) (hp : 0 < p2) (hM : a * e2 / (1 - e2) ≤ M)
    (hσ : σ = 1 ∨ σ = -1) :
    ∀ (fuel : Nat) (zk : ℝ), |zk - c| ≤ M → 0 ≤ σ * (zk - c) →
      0 ≤ σ * (c + a * e2 * (zk / Real.sqrt (p2 + (1 - e2) * (zk * zk))) - zk) →
      M - σ * (zk - c) < fuel * (1 / 10000) →
      ∃ z' zk' : ℝ,
        ecef2posLoop lm a e2 p2 c fuel
            (c + a * e2 * (zk / Real.sqrt (p2 + (1 - e2) * (zk * zk)))) zk
            (a * Real.sqrt (p2 + zk * zk) / Real.sqrt (p2 + (1 - e2) * (zk * zk))) =
          some (z', a * Real.sqrt (p2 + zk' * zk') / Real.sqrt (p2 + (1 - e2) * (zk' * zk'))) ∧
        z' = c + a * e2 * (zk' / Real.sqrt (p2 + (1 - e2) * (zk' * zk'))) ∧
        |z' - zk'| < 1 / 10000 ∧ |zk' - c| ≤ M := by
  have hk : 0 < 1 - e2 := sub_pos.2 he1
  have hk1 : 1 - e2 ≤ 1 := by linarith
  have hbound : ∀ w : ℝ, |c + a * e2 * (w / Real.sqrt (p2 + (1 - e2) * (w * w))) - c| ≤ M := by
    intro w
    have h1 := geo_ratio_bound p2 (1 - e2) hp hk hk1 w
    have h2 : c + a * e2 * (w / Real.sqrt (p2 + (1 - e2) * (w * w))) - c =
        a * e2 * (w / Real.sqrt (p2 + (1 - e2) * (w * w))) := by ring
    rw [h2, abs_mul, abs_of_pos (mul_pos ha he0)]
    calc a * e2 * |w / Real.sqrt (p2 + (1 - e2) * (w * w))|
        ≤ a * e2 * (1 / (1 - e2)) := mul_le_mul_of_nonneg_left h1 (mul_pos ha he0).le
      _ = a * e2 / (1 - e2) := by ring
      _ ≤ M := hM
  have hσabs : ∀ t : ℝ, 0 ≤ σ * t → σ * t = |t| := by
    intro t ht
    rcases hσ with h | h <;> rw [h] at ht ⊢
    · rw [one_mul] at ht ⊢; exact (abs_of_nonneg ht).symm
    · have : t ≤ 0 := by linarith
      rw [abs_of_nonpos this]
      ring
  intro fuel
  induction fuel with
  | zero =>
    intro zk h1 h2 h3 h4
    exfalso
    rw [hσabs _ h2] at h4
    simp at h4
    linarith
  | succ fuel ih =>
    intro zk h1 h2 h3 h4
    rw [ecef2posLoop_succ lm hs a e2 p2 c he1 hp]
    by_cases ht : |c + a * e2 * (zk / Real.sqrt (p2 + (1 - e2) * (zk * zk))) - zk| ≥ 1 / 10000
    · rw [if_pos ht]
      have hm : 0 ≤ σ * (c + a * e2 * ((c + a * e2 * (zk / Real.sqrt (p2 + (1 - e2) * (zk * zk))))
          / Real.sqrt (p2 + (1 - e2) * ((c + a * e2 * (zk / Real.sqrt (p2 + (1 - e2) * (zk * zk))))
            * (c + a * e2 * (zk / Real.sqrt (p2 + (1 - e2) * (zk * zk))))))) -
          (c + a * e2 * (zk / Real.sqrt (p2 + (1 - e2) * (zk * zk))))) := by
        rcases hσ with h | h
        · rw [h, one_mul] at h3 ⊢
          have := geo_ratio_mono p2 (1 - e2) hp hk zk
            (c + a * e2 * (zk / Real.sqrt (p2 + (1 - e2) * (zk * zk)))) (by linarith)
          have := mul_le_mul_of_nonneg_left this (mul_pos ha he0).le
          linarith
        · rw [h] at h3 ⊢
          have := geo_ratio_mono p2 (1 - e2) hp hk
            (c + a * e2 * (zk / Real.sqrt (p2 + (1 - e2) * (zk * zk)))) zk (by linarith)
          have := mul_le_mul_of_nonneg_left this (mul_pos ha he0).le
          linarith
      have h3' := hσabs _ h3
      apply ih (c + a * e2 * (zk / Real.sqrt (p2 + (1 - e2) * (zk * zk)))) (hbound zk)
      · have : σ * (c + a * e2 * (zk / Real.sqrt (p2 + (1 - e2) * (zk * zk))) - c) =
            σ * (zk - c) +
              σ * (c + a * e2 * (zk / Real.sqrt (p2 + (1 - e2) * (zk * zk))) - zk) := by ring
        rw [this]; linarith
      · exact hm
      · have : σ * (c + a * e2 * (zk / Real.sqrt (p2 + (1 - e2) * (zk * zk))) - c) =
            σ * (zk - c) +
              σ * (c + a * e2 * (zk / Real.sqrt (p2 + (1 - e2) * (zk * zk))) - zk) := by ring
        rw [this, h3']
        push_cast at h4
        have ht' : (1 : ℝ) / 10000 ≤
            |c + a * e2 * (zk / Real.sqrt (p2 + (1 - e2) * (zk * zk))) - zk| := ht
        linarith
    · rw [if_neg ht]
      exact ⟨_, zk, rfl, rfl, not_le.1 ht, h1⟩

/-- The loop of `ecef2pos` ends: from the initial state `(z, zk, v) = (c, 0, a)`, with a
fuel above `10000 M + 1` where `M ≥ a e2 / (1 - e2)` bounds the travel of `z`, it returns a
state with `z = c + a e2 zk / D(zk)`, `v = a ρ(zk) / D(zk)` and `|z - zk| < 1e-4`. -/
theorem ecef2posLoop_terminates (lm : Libm ℝ) (hs : lm.sqrt = Real.sqrt) (a e2 p2 c M : ℝ)
    (ha : 0 < a) (he0 : 0 < e2) (he1 : e2 < 1) (hp : 0 < p2) (hM : a * e2 / (1 - e2) ≤ M)
    (hM0 : 1 / 10000 ≤ M) (fuel : Nat) (hf : M * 10000 + 1 < fuel) :
    ∃ z' zk' : ℝ,
      ecef2posLoop lm a e2 p2 c fuel c 0 a =
        some (z', a * Real.sqrt (p2 + zk' * zk') / Real.sqrt (p2 + (1 - e2) * (zk' * zk'))) ∧
      z' = c + a * e2 * (zk' / Real.sqrt (p2 + (1 - e2) * (zk' * zk'))) ∧
      |z' - zk'| < 1 / 10000 ∧ |zk' - c| ≤ M := by
  obtain ⟨n, rfl⟩ : ∃ n, fuel = n + 1 := by
    cases fuel with
    | zero =>
      exfalso
      simp at hf
      linarith
    | succ n => exact ⟨n, rfl⟩
  rw [ecef2posLoop_succ lm hs a e2 p2 c he1 hp]
  by_cases ht : |c - 0| ≥ 1 / 10000
  · rw [if_pos ht]
    have hn : M < n * (1 / 10000) := by
      push_cast at hf
      linarith
    by_cases hdir : 0 ≤ c + a * e2 * (c / Real.sqrt (p2 + (1 - e2) * (c * c))) - c
    · exact ecef2posLoop_orbit lm hs a e2 p2 c M 1 ha he0 he1 hp hM (Or.inl rfl) n c
        (by simp; linarith) (by simp) (by rw [one_mul]; exact hdir) (by simp; linarith)
    · exact ecef2posLoop_orbit lm hs a e2 p2 c M (-1) ha he0 he1 hp hM (Or.inr rfl) n c
        (by simp; linarith) (by simp) (by linarith [not_le.1 hdir]) (by simp; linarith)
  · rw [if_neg ht]
    refine ⟨c, 0, ?_, ?_, ?_, ?_⟩
    · have : Real.sqrt p2 ≠ 0 := ne_of_gt (Real.sqrt_pos.2 hp)
      simp
      field_simp
    · simp
    · exact not_le.1 ht
    · have := not_le.1 ht
      simp at this ⊢
      linarith

/-- Sine and cosine of the latitude `atan (z / p)` and of the longitude `atan2 (y, x)`, for
the real functions: `z / ρ`, `p / ρ`, `y / p` and `x / p`. -/
theorem geo_trig (x y z : ℝ) (hp : 0 < x * x + y * y) :
    Real.sin (Real.arctan (z / Real.sqrt (x * x + y * y))) =
      z / Real.sqrt (x * x + y * y + z * z) ∧
    Real.cos (Real.arctan (z / Real.sqrt (x * x + y * y))) =
      Real.sqrt (x * x + y * y) / Real.sqrt (x * x + y * y + z * z) ∧
    Real.sin (Complex.arg ⟨x, y⟩) = y / Real.sqrt (x * x + y * y) ∧
    Real.cos (Complex.arg ⟨x, y⟩) = x / Real.sqrt (x * x + y * y) := by
  have hA : 0 < x * x + y * y + z * z := by nlinarith [mul_self_nonneg z]
  have hsp := Real.sqrt_pos.2 hp
  have hsA := Real.sqrt_pos.2 hA
  have key : Real.sqrt (1 + (z / Real.sqrt (x * x + y * y)) ^ 2) =
      Real.sqrt (x * x + y * y + z * z) / Real.sqrt (x * x + y * y) := by
    have e : 1 + (z / Real.sqrt (x * x + y * y)) ^ 2 =
        (x * x + y * y + z * z) / (x * x + y * y) := by
      rw [div_pow, Real.sq_sqrt hp.le]
      field_simp
      ring
    rw [e, Real.sqrt_div hA.le]
  have habs : Complex.abs ⟨x, y⟩ = Real.sqrt (x * x + y * y) := by
    rw [Complex.abs_apply, Complex.normSq_mk]
  have hne : (⟨x, y⟩ : ℂ) ≠ 0 := by
    intro h
    have h1 := congrArg Complex.re h
    have h2 := congrArg Complex.im h
    simp at h1 h2
    rw [h1, h2] at hp
    simp at hp
  refine ⟨?_, ?_, ?_, ?_⟩
  · rw [Real.sin_arctan, key]
    field_simp
  · rw [Real.cos_arctan, key]
    field_simp
  · rw [Complex.sin_arg, habs]
  · rw [Complex.cos_arg hne, habs]

theorem hasDerivAt_geo_D (p2 k u : ℝ) (hp : 0 < p2) (hk : 0 < k) :
    HasDerivAt (fun t : ℝ => Real.sqrt (p2 + k * (t * t)))
      (k * u / Real.sqrt (p2 + k * (u * u))) u := by
  have hA : 0 < p2 + k * (u * u) := by nlinarith [mul_self_nonneg u]
  have h1 : HasDerivAt (fun t : ℝ => p2 + k * (t * t)) (k * (1 * u + u * 1)) u :=
    (((hasDerivAt_id u).mul (hasDerivAt_id u)).const_mul k).const_add p2
  have h2 := h1.sqrt (ne_of_gt hA)
  convert h2 using 1
  field_simp
  ring

/-- Derivative of the auxiliary term `G(u) = u / D(u)`. -/
theorem hasDerivAt_geo_G (p2 k u : ℝ) (hp : 0 < p2) (hk : 0 < k) :
    HasDerivAt (fun t : ℝ => t / Real.sqrt (p2 + k * (t * t)))
      (p2 / (Real.sqrt (p2 + k * (u * u))) ^ 3) u := by
  have hA : 0 < p2 + k * (u * u) := by nlinarith [mul_self_nonneg u]
  have hD := Real.sqrt_pos.2 hA
  have sD := Real.sq_sqrt hA.le
  have h := (hasDerivAt_id u).div (hasDerivAt_geo_D p2 k u hp hk) (ne_of_gt hD)
  convert h using 1
  simp only [id]
  field_simp
  linear_combination (-(p2 * Real.sqrt (p2 + k * (u * u)))) * sD

/-- Derivative of the radius of curvature `V(u) / a = ρ(u) / D(u)`. -/
theorem hasDerivAt_geo_V (p2 k u : ℝ) (hp : 0 < p2) (hk : 0 < k) :
    HasDerivAt (fun t : ℝ => Real.sqrt (p2 + t * t) / Real.sqrt (p2 + k * (t * t)))
      ((1 - k) * p2 * u /
        (Real.sqrt (p2 + u * u) * (Real.sqrt (p2 + k * (u * u))) ^ 3)) u := by
  have hA : 0 < p2 + k * (u * u) := by nlinarith [mul_self_nonneg u]
  have hB : 0 < p2 + u * u := by nlinarith [mul_self_nonneg u]
  have hD := Real.sqrt_pos.2 hA
  have hρ := Real.sqrt_pos.2 hB
  have sD := Real.sq_sqrt hA.le
  have sρ := Real.sq_sqrt hB.le
  have hr : HasDerivAt (fun t : ℝ => Real.sqrt (p2 + t * t))
      (u / Real.sqrt (p2 + u * u)) u := by
    have := hasDerivAt_geo_D p2 1 u hp one_pos
    simpa using this
  have h := hr.div (hasDerivAt_geo_D p2 k u hp hk) (ne_of_gt hD)
  convert h using 1
  field_simp
  linear_combination
    (-(Real.sqrt (p2 + u * u) * Real.sqrt (p2 + k * (u * u)) *
        (u * p2 * (1 - k) + u * Real.sqrt (p2 + k * (u * u)) ^ 2))) * sD +
    (Real.sqrt (p2 + u * u) * Real.sqrt (p2 + k * (u * u)) * k * u *
        Real.sqrt (p2 + k * (u * u)) ^ 2) * sρ

/-- The round trip in closed form.  For a position of `ecef2pos` built from the last two
iterates `z` and `w`, `pos2ecef` returns `(x, y, z) (1 + δ / ρ) - (0, 0, a e2 z / D(z))`
with `δ = V(z) - V(w)` the change of the radius of curvature over the last pass. -/
theorem geo_roundtrip (lm : Libm ℝ) (hs : lm.sqrt = Real.sqrt) (hsin : lm.sin = Real.sin)
    (hcos : lm.cos = Real.cos) (a FE x y z w : ℝ) (hp : 0 < x * x + y * y)
    (he1 : FE * (2 - FE) < 1) :
    pos2ecef lm a FE [Real.arctan (z / Real.sqrt (x * x + y * y)), Complex.arg ⟨x, y⟩,
        Real.sqrt (x * x + y * y + z * z) -
          a * Real.sqrt (x * x + y * y + w * w) /
            Real.sqrt (x * x + y * y + (1 - FE * (2 - FE)) * (w * w))] =
      [x * (1 + (a * Real.sqrt (x * x + y * y + z * z) /
            Real.sqrt (x * x + y * y + (1 - FE * (2 - FE)) * (z * z)) -
          a * Real.sqrt (x * x + y * y + w * w) /
            Real.sqrt (x * x + y * y + (1 - FE * (2 - FE)) * (w * w))) /
          Real.sqrt (x * x + y * y + z * z)),
       y * (1 + (a * Real.sqrt (x * x + y * y + z * z) /
            Real.sqrt (x * x + y * y + (1 - FE * (2 - FE)) * (z * z)) -
          a * Real.sqrt (x * x + y * y + w * w) /
            Real.sqrt (x * x + y * y + (1 - FE * (2 - FE)) * (w * w))) /
          Real.sqrt (x * x + y * y + z * z)),
       z * (1 + (a * Real.sqrt (x * x + y * y + z * z) /
            Real.sqrt (x * x + y * y + (1 - FE * (2 - FE)) * (z * z)) -
          a * Real.sqrt (x * x + y * y + w * w) /
            Real.sqrt (x * x + y * y + (1 - FE * (2 - FE)) * (w * w))) /
          Real.sqrt (x * x + y * y + z * z)) -
        a * (FE * (2 - FE)) *
          (z / Real.sqrt (x * x + y * y + (1 - FE * (2 - FE)) * (z * z)))] := by
  obtain ⟨t1, t2, t3, t4⟩ := geo_trig x y z hp
  have g := geo_step a (FE * (2 - FE)) (x * x + y * y) z he1 hp
  have hA : 0 < x * x + y * y + z * z := by nlinarith [mul_self_nonneg z]
  have hB : 0 < x * x + y * y + (1 - FE * (2 - FE)) * (z * z) := by
    nlinarith [mul_self_nonneg z, mul_nonneg (sub_pos.2 he1).le (mul_self_nonneg z)]
  have hBw : 0 < x * x + y * y + (1 - FE * (2 - FE)) * (w * w) := by
    nlinarith [mul_self_nonneg w, mul_nonneg (sub_pos.2 he1).le (mul_self_nonneg w)]
  have hsp := Real.sqrt_pos.2 hp
  have hsA := Real.sqrt_pos.2 hA
  have hsB := Real.sqrt_pos.2 hB
  have hsBw := Real.sqrt_pos.2 hBw
  simp only [pos2ecef, List.getD_cons_zero, List.getD_cons_succ, hs, hsin, hcos, t1, t2, t3,
    t4, g.1]
  generalize FE * (2 - FE) = e2 at *
  generalize Real.sqrt (x * x + y * y + z * z) = ρ at *
  generalize Real.sqrt (x * x + y * y + (1 - e2) * (z * z)) = D at *
  generalize Real.sqrt (x * x + y * y + (1 - e2) * (w * w)) = Dw at *
  generalize Real.sqrt (x * x + y * y + w * w) = ρw at *
  generalize Real.sqrt (x * x + y * y) = p at *
  congr 1
  · field_simp
    ring
  · congr 1
    · field_simp
      ring
    · congr 1
      field_simp
      ring

/-- The bound `(ρ - t) (ρ + t)² ≤ 32/27 ρ³` for `0 ≤ t ≤ ρ`. -/
theorem geo_cubic_bound (ρ t : ℝ) (ht : 0 ≤ t) (hρ : 0 ≤ ρ) :
    27 * ((ρ * ρ - t * t) * (ρ + t)) ≤ 32 * ρ ^ 3 := by
  nlinarith [mul_nonneg (sq_nonneg (ρ - 3 * t)) (by linarith : 0 ≤ 5 * ρ + 3 * t)]

/-- Pointwise bound of the derivative of `α V - β a e2 G` at a point at distance at least
`m` from the centre. -/
theorem geo_deriv_bound (A p2 k κ m u α β : ℝ) (hA : 0 ≤ A) (hp : 0 < p2) (hk0 : 0 < k)
    (hk1 : k ≤ 1) (hκ : 0 < κ) (hκk : κ * κ ≤ k) (hm : 0 < m) (hρm : m * m ≤ p2 + u * u)
    (hα : |α| ≤ 1) (hβ : |β| ≤ 1) :
    |α * (A * (p2 * u / (Real.sqrt (p2 + u * u) * (Real.sqrt (p2 + k * (u * u))) ^ 3))) -
        β * (A * (p2 / (Real.sqrt (p2 + k * (u * u))) ^ 3))| ≤
      A * (32 / 27) / (κ ^ 3 * m) := by
  have hB : 0 < p2 + u * u := by nlinarith [mul_self_nonneg u]
  have hC : 0 < p2 + k * (u * u) := by nlinarith [mul_self_nonneg u]
  have hρ := Real.sqrt_pos.2 hB
  have hD := Real.sqrt_pos.2 hC
  have sρ := Real.mul_self_sqrt hB.le
  have sD := Real.mul_self_sqrt hC.le
  generalize Real.sqrt (p2 + u * u) = ρ at *
  generalize Real.sqrt (p2 + k * (u * u)) = D at *
  have hρm' : m ≤ ρ := by
    apply (mul_self_le_mul_self_iff hm.le hρ.le).2
    rw [sρ]; exact hρm
  have hDρ : κ * ρ ≤ D := by
    apply (mul_self_le_mul_self_iff (mul_nonneg hκ.le hρ.le) hD.le).2
    rw [sD, mul_mul_mul_comm, sρ]
    nlinarith [mul_self_nonneg u]
  have hu : |u| ≤ ρ := by
    apply (mul_self_le_mul_self_iff (abs_nonneg u) hρ.le).2
    rw [sρ, abs_mul_abs_self]
    linarith
  have hD3 : κ ^ 3 * ρ ^ 3 ≤ D ^ 3 := by
    have := pow_le_pow_left (mul_nonneg hκ.le hρ.le) hDρ 3
    rwa [mul_pow] at this
  have hcub := geo_cubic_bound ρ |u| (abs_nonneg u) hρ.le
  rw [abs_mul_abs_self] at hcub
  have hp2 : p2 = ρ * ρ - u * u := by linarith
  have hD3pos : 0 < D ^ 3 := pow_pos hD 3
  have hκ3 : 0 < κ ^ 3 := pow_pos hκ 3
  -- the two terms
  have t1 : |α * (A * (p2 * u / (ρ * D ^ 3)))| ≤ A * (p2 * |u| / (ρ * D ^ 3)) := by
    rw [abs_mul, abs_mul, abs_of_nonneg hA, abs_div, abs_mul, abs_of_pos hp,
      abs_of_pos (mul_pos hρ hD3pos)]
    calc |α| * (A * (p2 * |u| / (ρ * D ^ 3)))
        ≤ 1 * (A * (p2 * |u| / (ρ * D ^ 3))) := by
          apply mul_le_mul_of_nonneg_right hα
          exact mul_nonneg hA (div_nonneg (mul_nonneg hp.le (abs_nonneg u))
            (mul_pos hρ hD3pos).le)
      _ = A * (p2 * |u| / (ρ * D ^ 3)) := one_mul _
  have t2 : |β * (A * (p2 / D ^ 3))| ≤ A * (p2 / D ^ 3) := by
    rw [abs_mul, abs_mul, abs_of_nonneg hA, abs_of_pos (div_pos hp hD3pos)]
    calc |β| * (A * (p2 / D ^ 3)) ≤ 1 * (A * (p2 / D ^ 3)) := by
          apply mul_le_mul_of_nonneg_right hβ
          exact mul_nonneg hA (div_pos hp hD3pos).le
      _ = A * (p2 / D ^ 3) := one_mul _
  have t3 : p2 * |u| / (ρ * D ^ 3) + p2 / D ^ 3 ≤ 32 / 27 / (κ ^ 3 * m) := by
    have e : p2 * |u| / (ρ * D ^ 3) + p2 / D ^ 3 = p2 * (ρ + |u|) / (ρ * D ^ 3) := by
      field_simp
      ring
    rw [e, div_le_div_iff (mul_pos hρ hD3pos) (mul_pos hκ3 hm)]
    have h1 : p2 * (ρ + |u|) ≤ 32 / 27 * ρ ^ 3 := by
      rw [hp2]; linarith
    have h2 : 0 ≤ p2 * (ρ + |u|) := mul_nonneg hp.le (add_nonneg hρ.le (abs_nonneg u))
    calc p2 * (ρ + |u|) * (κ ^ 3 * m) ≤ p2 * (ρ + |u|) * (κ ^ 3 * ρ) := by
          apply mul_le_mul_of_nonneg_left _ h2
          exact mul_le_mul_of_nonneg_left hρm' hκ3.le
      _ ≤ 32 / 27 * ρ ^ 3 * (κ ^ 3 * ρ) := by
          apply mul_le_mul_of_nonneg_right h1
          exact mul_nonneg hκ3.le hρ.le
      _ = 32 / 27 * (ρ * (κ ^ 3 * ρ ^ 3)) := by ring
      _ ≤ 32 / 27 * (ρ * D ^ 3) := by
          apply mul_le_mul_of_nonneg_left _ (by norm_num)
          exact mul_le_mul_of_nonneg_left hD3 hρ.le
  calc |α * (A * (p2 * u / (ρ * D ^ 3))) - β * (A * (p2 / D ^ 3))|
      ≤ |α * (A * (p2 * u / (ρ * D ^ 3)))| + |β * (A * (p2 / D ^ 3))| := abs_sub _ _
    _ ≤ A * (p2 * |u| / (ρ * D ^ 3)) + A * (p2 / D ^ 3) := add_le_add t1 t2
    _ = A * (p2 * |u| / (ρ * D ^ 3) + p2 / D ^ 3) := by ring
    _ ≤ A * (32 / 27 / (κ ^ 3 * m)) := mul_le_mul_of_nonneg_left t3 hA
    _ = A * (32 / 27) / (κ ^ 3 * m) := by ring

/-- Over a segment that stays at distance at least `m` from the centre, the change of the
radius of curvature and of the auxiliary term is bounded by the length of the segment. -/
theorem geo_diff_bound (a e2 p2 κ m z w : ℝ) (ha : 0 ≤ a) (he0 : 0 < e2) (he1 : e2 < 1)
    (hp : 0 < p2) (hκ : 0 < κ) (hκk : κ * κ ≤ 1 - e2) (hm : 0 < m)
    (hseg : ∀ u ∈ Set.uIcc w z, m * m ≤ p2 + u * u) :
    |a * Real.sqrt (p2 + z * z) / Real.sqrt (p2 + (1 - e2) * (z * z)) -
        a * Real.sqrt (p2 + w * w) / Real.sqrt (p2 + (1 - e2) * (w * w))| +
      a * e2 * |z / Real.sqrt (p2 + (1 - e2) * (z * z)) -
        w / Real.sqrt (p2 + (1 - e2) * (w * w))| ≤
      a * e2 * (32 / 27) / (κ ^ 3 * m) * |z - w| := by
  have hk : 0 < 1 - e2 := sub_pos.2 he1
  have hk1 : 1 - e2 ≤ 1 := by linarith
  have hA : 0 ≤ a * e2 := mul_nonneg ha he0.le
  obtain ⟨α, hα, hαd⟩ : ∃ α : ℝ, |α| ≤ 1 ∧
      |a * Real.sqrt (p2 + z * z) / Real.sqrt (p2 + (1 - e2) * (z * z)) -
        a * Real.sqrt (p2 + w * w) / Real.sqrt (p2 + (1 - e2) * (w * w))| =
      α * (a * Real.sqrt (p2 + z * z) / Real.sqrt (p2 + (1 - e2) * (z * z)) -
        a * Real.sqrt (p2 + w * w) / Real.sqrt (p2 + (1 - e2) * (w * w))) := by
    rcases le_total 0 (a * Real.sqrt (p2 + z * z) / Real.sqrt (p2 + (1 - e2) * (z * z)) -
        a * Real.sqrt (p2 + w * w) / Real.sqrt (p2 + (1 - e2) * (w * w))) with h | h
    · exact ⟨1, by simp, by rw [abs_of_nonneg h, one_mul]⟩
    · exact ⟨-1, by simp, by rw [abs_of_nonpos h]; ring⟩
  obtain ⟨β, hβ, hβd⟩ : ∃ β : ℝ, |β| ≤ 1 ∧
      |z / Real.sqrt (p2 + (1 - e2) * (z * z)) - w / Real.sqrt (p2 + (1 - e2) * (w * w))| =
      -β * (z / Real.sqrt (p2 + (1 - e2) * (z * z)) -
        w / Real.sqrt (p2 + (1 - e2) * (w * w))) := by
    rcases le_total 0 (z / Real.sqrt (p2 + (1 - e2) * (z * z)) -
        w / Real.sqrt (p2 + (1 - e2) * (w * w))) with h | h
    · exact ⟨-1, by simp, by rw [abs_of_nonneg h]; ring⟩
    · exact ⟨1, by simp, by rw [abs_of_nonpos h]; ring⟩
  have hder : ∀ u ∈ Set.uIcc w z, HasDerivWithinAt
      (fun t : ℝ => α * (a * (Real.sqrt (p2 + t * t) / Real.sqrt (p2 + (1 - e2) * (t * t)))) -
        β * (a * e2 * (t / Real.sqrt (p2 + (1 - e2) * (t * t)))))
      (α * (a * e2 * (p2 * u / (Real.sqrt (p2 + u * u) *
          (Real.sqrt (p2 + (1 - e2) * (u * u))) ^ 3))) -
        β * (a * e2 * (p2 / (Real.sqrt (p2 + (1 - e2) * (u * u))) ^ 3)))
      (Set.uIcc w z) u := by
    intro u _
    have h1 := ((hasDerivAt_geo_V p2 (1 - e2) u hp hk).const_mul a).const_mul α
    have h2 := ((hasDerivAt_geo_G p2 (1 - e2) u hp hk).const_mul (a * e2)).const_mul β
    have h3 : HasDerivWithinAt _ _ (Set.uIcc w z) u := (h1.sub h2).hasDerivWithinAt
    convert h3 using 1
    ring
  have hbound : ∀ u ∈ Set.uIcc w z,
      ‖α * (a * e2 * (p2 * u / (Real.sqrt (p2 + u * u) *
          (Real.sqrt (p2 + (1 - e2) * (u * u))) ^ 3))) -
        β * (a * e2 * (p2 / (Real.sqrt (p2 + (1 - e2) * (u * u))) ^ 3))‖ ≤
      a * e2 * (32 / 27) / (κ ^ 3 * m) := by
    intro u hu
    rw [Real.norm_eq_abs]
    exact geo_deriv_bound (a * e2) p2 (1 - e2) κ m u α β hA hp hk hk1 hκ hκk hm (hseg u hu)
      hα hβ
  have hmvt := Convex.norm_image_sub_le_of_norm_hasDerivWithin_le hder hbound
    (convex_uIcc w z) Set.left_mem_uIcc Set.right_mem_uIcc
  rw [Real.norm_eq_abs, Real.norm_eq_abs] at hmvt
  have hle := (le_abs_self _).trans hmvt
  rw [hαd, hβd]
  calc _ = _ := by ring
    _ ≤ _ := hle

/-- A point of a segment whose ends are within `M` of `c` is at distance at least
`R0 - M` from the centre when `(p, c)` is at distance at least `R0`. -/
theorem geo_segment_bound (p2 c M R0 z w u : ℝ) (hp : 0 ≤ p2) (hR : R0 * R0 ≤ p2 + c * c)
    (hMR : M ≤ R0) (hz : |z - c| ≤ M) (hw : |w - c| ≤ M) (hu : u ∈ Set.uIcc w z) :
    (R0 - M) * (R0 - M) ≤ p2 + u * u := by
  have hud : |u - c| ≤ M := by
    rw [Set.mem_uIcc] at hu
    rw [abs_le] at hz hw ⊢
    rcases hu with ⟨h1, h2⟩ | ⟨h1, h2⟩ <;> constructor <;> linarith
  have hB : 0 ≤ p2 + c * c := by nlinarith [mul_self_nonneg c]
  have sρ := Real.mul_self_sqrt hB
  have hρ := Real.sqrt_nonneg (p2 + c * c)
  generalize Real.sqrt (p2 + c * c) = ρ at *
  have hM0 : 0 ≤ M := (abs_nonneg _).trans hz
  have hR0 : 0 ≤ R0 := hM0.trans hMR
  have hRρ : R0 ≤ ρ := by
    apply (mul_self_le_mul_self_iff hR0 hρ).2
    rw [sρ]; exact hR
  have hcρ : |c| ≤ ρ := by
    apply (mul_self_le_mul_self_iff (abs_nonneg c) hρ).2
    rw [sρ, abs_mul_abs_self]; linarith
  have h1 : (ρ - |u - c|) * (ρ - |u - c|) ≤ p2 + u * u := by
    have e : p2 + u * u = ρ * ρ + 2 * (c * (u - c)) + (u - c) * (u - c) := by
      rw [sρ]; ring
    have h2 : -(ρ * |u - c|) ≤ c * (u - c) := by
      have := neg_abs_le (c * (u - c))
      rw [abs_mul] at this
      have := mul_le_mul_of_nonneg_right hcρ (abs_nonneg (u - c))
      linarith
    rw [e]
    have h3 : |u - c| * |u - c| = (u - c) * (u - c) := abs_mul_abs_self _
    nlinarith
  have h4 : R0 - M ≤ ρ - |u - c| := by linarith
  have h5 : 0 ≤ R0 - M := by linarith
  exact (mul_self_le_mul_self h5 h4).trans h1

/-- The squared error of the round trip is at most `(|δ| + |G|)²`. -/
theorem geo_error_sq (x y z ρ δ G : ℝ) (hρ : 0 < ρ) (hρ2 : ρ * ρ = x * x + y * y + z * z) :
    (x * (1 + δ / ρ) - x) * (x * (1 + δ / ρ) - x) +
      (y * (1 + δ / ρ) - y) * (y * (1 + δ / ρ) - y) +
      (z * (1 + δ / ρ) - G - z) * (z * (1 + δ / ρ) - G - z) ≤
      (|δ| + |G|) * (|δ| + |G|) := by
  have hz : |z / ρ| ≤ 1 := by
    rw [abs_div, abs_of_pos hρ, div_le_one hρ]
    apply (mul_self_le_mul_self_iff (abs_nonneg z) hρ.le).2
    rw [abs_mul_abs_self, hρ2]
    nlinarith [mul_self_nonneg x, mul_self_nonneg y]
  have e : (x * (1 + δ / ρ) - x) * (x * (1 + δ / ρ) - x) +
      (y * (1 + δ / ρ) - y) * (y * (1 + δ / ρ) - y) +
      (z * (1 + δ / ρ) - G - z) * (z * (1 + δ / ρ) - G - z) =
      δ * δ - 2 * (z / ρ * (δ * G)) + G * G := by
    have hne : ρ ≠ 0 := ne_of_gt hρ
    field_simp
    linear_combination (-(ρ * δ * δ)) * hρ2
  rw [e]
  have h1 : -(z / ρ * (δ * G)) ≤ |δ| * |G| := by
    have := neg_abs_le (z / ρ * (δ * G))
    rw [abs_mul, abs_mul] at this
    have := mul_le_mul_of_nonneg_right hz (mul_nonneg (abs_nonneg δ) (abs_nonneg G))
    linarith
  have h2 : |δ| * |δ| = δ * δ := abs_mul_abs_self _
  have h3 : |G| * |G| = G * G := abs_mul_abs_self _
  nlinarith

/-- The round trip through `ecef2pos` and `pos2ecef` with the real math library, for any
ellipsoid constants: with enough fuel the iteration ends, and away from the centre (at
distance at least `R0 > M ≥ a e2 / (1 - e2)`) the result of `pos2ecef` is within
`a e2 (32/27) / (κ³ (R0 - M)) * 1e-4` of the input. -/
theorem ecef2pos_roundtrip_bound (lm : Libm ℝ) (PI : ℝ) (hs : lm.sqrt = Real.sqrt)
    (hsin : lm.sin = Real.sin) (hcos : lm.cos = Real.cos) (hatan : lm.atan = Real.arctan)
    (hatan2 : lm.atan2 = fun y x => Complex.arg ⟨x, y⟩) (a FE M κ R0 : ℝ) (ha : 0 < a)
    (he0 : 0 < FE * (2 - FE)) (he1 : FE * (2 - FE) < 1)
    (hM : a * (FE * (2 - FE)) / (1 - FE * (2 - FE)) ≤ M) (hM0 : 1 / 10000 ≤ M)
    (hκ : 0 < κ) (hκk : κ * κ ≤ 1 - FE * (2 - FE)) (hMR : M < R0)
    (fuel : Nat) (hf : M * 10000 + 1 < fuel) (x y c : ℝ)
    (hr : 1 / 1000000000000 < x * x + y * y) (hR : R0 * R0 ≤ x * x + y * y + c * c) :
    ∃ pos X Y Z, ecef2pos lm PI a FE fuel [x, y, c] = some pos ∧
      pos2ecef lm a FE pos = [X, Y, Z] ∧
      (X - x) * (X - x) + (Y - y) * (Y - y) + (Z - c) * (Z - c) <
        a * (FE * (2 - FE)) * (32 / 27) / (κ ^ 3 * (R0 - M)) * (1 / 10000) *
          (a * (FE * (2 - FE)) * (32 / 27) / (κ ^ 3 * (R0 - M)) * (1 / 10000)) := by
  have hp : 0 < x * x + y * y := lt_trans (by norm_num) hr
  have hd : dot [x, y, c] [x, y, c] 2 = x * x + y * y := by
    rw [dot_two]; simp
  obtain ⟨z', zk', hloop, hz', hclose, hzk⟩ := ecef2posLoop_terminates lm hs a (FE * (2 - FE))
    (x * x + y * y) c M ha he0 he1 hp hM hM0 fuel hf
  have hpos : ecef2pos lm PI a FE fuel [x, y, c] =
      some [Real.arctan (z' / Real.sqrt (x * x + y * y)), Complex.arg ⟨x, y⟩,
        Real.sqrt (x * x + y * y + z' * z') -
          a * Real.sqrt (x * x + y * y + zk' * zk') /
            Real.sqrt (x * x + y * y + (1 - FE * (2 - FE)) * (zk' * zk'))] := by
    simp only [ecef2pos, hd, List.getD_cons_zero, List.getD_cons_succ, hloop,
      if_pos (gt_iff_lt.2 hr), hs, hatan, hatan2]
  refine ⟨_, _, _, _, hpos, geo_roundtrip lm hs hsin hcos a FE x y z' zk' hp he1, ?_⟩
  have hk : 0 < 1 - FE * (2 - FE) := sub_pos.2 he1
  have hk1 : 1 - FE * (2 - FE) ≤ 1 := by linarith
  have hA : 0 < a * (FE * (2 - FE)) := mul_pos ha he0
  have hm : 0 < R0 - M := sub_pos.2 hMR
  have hzc : |z' - c| ≤ M := by
    have h1 := geo_ratio_bound (x * x + y * y) (1 - FE * (2 - FE)) hp hk hk1 zk'
    have h2 : z' - c = a * (FE * (2 - FE)) *
        (zk' / Real.sqrt (x * x + y * y + (1 - FE * (2 - FE)) * (zk' * zk'))) := by
      rw [hz']; ring
    rw [h2, abs_mul, abs_of_pos hA]
    calc a * (FE * (2 - FE)) *
          |zk' / Real.sqrt (x * x + y * y + (1 - FE * (2 - FE)) * (zk' * zk'))|
        ≤ a * (FE * (2 - FE)) * (1 / (1 - FE * (2 - FE))) :=
          mul_le_mul_of_nonneg_left h1 hA.le
      _ = a * (FE * (2 - FE)) / (1 - FE * (2 - FE)) := by ring
      _ ≤ M := hM
  have hdiff := geo_diff_bound a (FE * (2 - FE)) (x * x + y * y) κ (R0 - M) z' zk' ha.le he0
    he1 hp hκ hκk hm
    (fun u hu => geo_segment_bound (x * x + y * y) c M R0 z' zk' u hp.le hR hMR.le hzc hzk hu)
  have hB : 0 < x * x + y * y + z' * z' := by nlinarith [mul_self_nonneg z']
  have herr := geo_error_sq x y z' (Real.sqrt (x * x + y * y + z' * z'))
    (a * Real.sqrt (x * x + y * y + z' * z') /
        Real.sqrt (x * x + y * y + (1 - FE * (2 - FE)) * (z' * z')) -
      a * Real.sqrt (x * x + y * y + zk' * zk') /
        Real.sqrt (x * x + y * y + (1 - FE * (2 - FE)) * (zk' * zk')))
    (a * (FE * (2 - FE)) *
      (z' / Real.sqrt (x * x + y * y + (1 - FE * (2 - FE)) * (z' * z')) -
        zk' / Real.sqrt (x * x + y * y + (1 - FE * (2 - FE)) * (zk' * zk'))))
    (Real.sqrt_pos.2 hB) (Real.mul_self_sqrt hB.le)
  rw [abs_mul (a * (FE * (2 - FE))), abs_of_pos hA] at herr
  have hZ : z' * (1 + (a * Real.sqrt (x * x + y * y + z' * z') /
            Real.sqrt (x * x + y * y + (1 - FE * (2 - FE)) * (z' * z')) -
          a * Real.sqrt (x * x + y * y + zk' * zk') /
            Real.sqrt (x * x + y * y + (1 - FE * (2 - FE)) * (zk' * zk'))) /
          Real.sqrt (x * x + y * y + z' * z')) -
        a * (FE * (2 - FE)) *
          (z' / Real.sqrt (x * x + y * y + (1 - FE * (2 - FE)) * (z' * z'))) - c =
      z' * (1 + (a * Real.sqrt (x * x + y * y + z' * z') /
            Real.sqrt (x * x + y * y + (1 - FE * (2 - FE)) * (z' * z')) -
          a * Real.sqrt (x * x + y * y + zk' * zk') /
            Real.sqrt (x * x + y * y + (1 - FE * (2 - FE)) * (zk' * zk'))) /
          Real.sqrt (x * x + y * y + z' * z')) -
        a * (FE * (2 - FE)) *
          (z' / Real.sqrt (x * x + y * y + (1 - FE * (2 - FE)) * (z' * z')) -
            zk' / Real.sqrt (x * x + y * y + (1 - FE * (2 - FE)) * (zk' * zk'))) - z' := by
    linear_combination hz'
  rw [hZ]
  have hC : 0 < a * (FE * (2 - FE)) * (32 / 27) / (κ ^ 3 * (R0 - M)) :=
    div_pos (mul_pos hA (by norm_num)) (mul_pos (pow_pos hκ 3) hm)
  have hlt : a * (FE * (2 - FE)) * (32 / 27) / (κ ^ 3 * (R0 - M)) * |z' - zk'| <
      a * (FE * (2 - FE)) * (32 / 27) / (κ ^ 3 * (R0 - M)) * (1 / 10000) :=
    mul_lt_mul_of_pos_left hclose hC
  have hsum := lt_of_le_of_lt hdiff hlt
  have h0 : 0 ≤ |a * Real.sqrt (x * x + y * y + z' * z') /
        Real.sqrt (x * x + y * y + (1 - FE * (2 - FE)) * (z' * z')) -
      a * Real.sqrt (x * x + y * y + zk' * zk') /
        Real.sqrt (x * x + y * y + (1 - FE * (2 - FE)) * (zk' * zk'))| +
      a * (FE * (2 - FE)) *
        |z' / Real.sqrt (x * x + y * y + (1 - FE * (2 - FE)) * (z' * z')) -
          zk' / Real.sqrt (x * x + y * y + (1 - FE * (2 - FE)) * (zk' * zk'))| :=
    add_nonneg (abs_nonneg _) (mul_nonneg hA.le (abs_nonneg _))
  exact lt_of_le_of_lt herr (mul_self_lt_mul_self h0 hsum)

/-- The geodetic latitude of the point `(3000000, 0, 0.000099)` is below 45°: every
geodetic position with `|lat| < 90°` that `pos2ecef` sends to it has `|lat| < π / 4`. -/
theorem geo_latitude_interior (lm : Libm ℝ) (hs : lm.sqrt = Real.sqrt)
    (hsin : lm.sin = Real.sin) (hcos : lm.cos = Real.cos) (φ lam h : ℝ)
    (hφ : |φ| < Real.pi / 2)
    (hpos : pos2ecef lm 6378137 (1 / 298.257223563) [φ, lam, h] =
      [3000000, 0, 99 / 1000000]) :
    |φ| < Real.pi / 4 := by
  simp only [pos2ecef, List.getD_cons_zero, List.getD_cons_succ, hs, hsin, hcos,
    List.cons.injEq, and_true] at hpos
  obtain ⟨E1, E2, E3⟩ := hpos
  have hcos0 : 0 < Real.cos φ :=
    Real.cos_pos_of_mem_Ioo ⟨(abs_lt.1 hφ).1, (abs_lt.1 hφ).2⟩
  have hsc := Real.sin_sq_add_cos_sq φ
  have hsc2 := Real.sin_sq_add_cos_sq lam
  have hcle : Real.cos φ ≤ 1 := Real.cos_le_one φ
  have hs2 : Real.sin φ * Real.sin φ ≤ 1 := by nlinarith [sq_nonneg (Real.cos φ)]
  -- the radius of curvature
  have hrad : (9966 / 10000 : ℝ) * (9966 / 10000) ≤
      1 - 1 / 298.257223563 * (2 - 1 / 298.257223563) * Real.sin φ * Real.sin φ := by
    have : (1 / 298.257223563 * (2 - 1 / 298.257223563) : ℝ) * (Real.sin φ * Real.sin φ) ≤
        1 / 298.257223563 * (2 - 1 / 298.257223563) * 1 :=
      mul_le_mul_of_nonneg_left hs2 (by norm_num)
    have h2 : (9966 / 10000 : ℝ) * (9966 / 10000) ≤
        1 - 1 / 298.257223563 * (2 - 1 / 298.257223563) := by norm_num
    linarith
  have hsq : (9966 / 10000 : ℝ) ≤ Real.sqrt
      (1 - 1 / 298.257223563 * (2 - 1 / 298.257223563) * Real.sin φ * Real.sin φ) := by
    rw [Real.le_sqrt' (by norm_num), sq]
    exact hrad
  have hsqpos := lt_of_lt_of_le (by norm_num : (0 : ℝ) < 9966 / 10000) hsq
  have hv0 : 0 < 6378137 / Real.sqrt
      (1 - 1 / 298.257223563 * (2 - 1 / 298.257223563) * Real.sin φ * Real.sin φ) :=
    div_pos (by norm_num) hsqpos
  have hv1 : 6378137 / Real.sqrt
      (1 - 1 / 298.257223563 * (2 - 1 / 298.257223563) * Real.sin φ * Real.sin φ) ≤
      6378137 / (9966 / 10000) :=
    div_le_div_of_nonneg_left (by norm_num) (by norm_num) hsq
  generalize 6378137 / Real.sqrt
      (1 - 1 / 298.257223563 * (2 - 1 / 298.257223563) * Real.sin φ * Real.sin φ) = v at *
  -- the horizontal radius
  have hW : ((v + h) * Real.cos φ) * ((v + h) * Real.cos φ) = 3000000 * 3000000 := by
    have : ((v + h) * Real.cos φ) * ((v + h) * Real.cos φ) *
        (Real.sin lam ^ 2 + Real.cos lam ^ 2) = 3000000 * 3000000 + 0 * 0 := by
      rw [← E1, ← E2]; ring
    rw [hsc2, mul_one] at this
    linarith
  have hWabs : |(v + h) * Real.cos φ| = 3000000 := by
    have h3 : |(v + h) * Real.cos φ| * |(v + h) * Real.cos φ| = 3000000 * 3000000 := by
      rw [abs_mul_abs_self]; exact hW
    exact (mul_self_eq_mul_self_iff.1 h3).resolve_right (fun hneg => by
      have := abs_nonneg ((v + h) * Real.cos φ)
      linarith)
  -- the third coordinate
  have hE3 : ((v + h) * Real.cos φ -
      1 / 298.257223563 * (2 - 1 / 298.257223563) * v * Real.cos φ) * Real.sin φ =
      99 / 1000000 * Real.cos φ := by
    rw [← E3]; ring
  have hev : |1 / 298.257223563 * (2 - 1 / 298.257223563) * v * Real.cos φ| ≤ 43000 := by
    have h1 : (0 : ℝ) ≤ 1 / 298.257223563 * (2 - 1 / 298.257223563) * v :=
      mul_nonneg (by norm_num) hv0.le
    rw [abs_of_nonneg (mul_nonneg h1 hcos0.le)]
    have h2 : (1 / 298.257223563 * (2 - 1 / 298.257223563) : ℝ) * v ≤
        1 / 298.257223563 * (2 - 1 / 298.257223563) * (6378137 / (9966 / 10000)) :=
      mul_le_mul_of_nonneg_left hv1 (by norm_num)
    have h3 : (1 / 298.257223563 * (2 - 1 / 298.257223563) : ℝ) *
        (6378137 / (9966 / 10000)) ≤ 43000 := by norm_num
    calc 1 / 298.257223563 * (2 - 1 / 298.257223563) * v * Real.cos φ
        ≤ 1 / 298.257223563 * (2 - 1 / 298.257223563) * v * 1 :=
          mul_le_mul_of_nonneg_left hcle h1
      _ ≤ 43000 := by linarith
  have hbig : 2900000 ≤ |(v + h) * Real.cos φ -
      1 / 298.257223563 * (2 - 1 / 298.257223563) * v * Real.cos φ| := by
    have := abs_sub_abs_le_abs_sub ((v + h) * Real.cos φ)
      (1 / 298.257223563 * (2 - 1 / 298.257223563) * v * Real.cos φ)
    rw [hWabs] at this
    linarith
  have hsin1 : |Real.sin φ| < Real.cos φ := by
    have h1 := congrArg abs hE3
    rw [abs_mul, abs_mul, abs_of_pos hcos0, abs_of_pos (by norm_num : (0 : ℝ) < 99 / 1000000)]
      at h1
    have h2 : 2900000 * |Real.sin φ| ≤ 99 / 1000000 * Real.cos φ := by
      rw [← h1]
      exact mul_le_mul_of_nonneg_right hbig (abs_nonneg _)
    nlinarith [abs_nonneg (Real.sin φ)]
  -- from the tangent to the angle
  have htan : |Real.tan φ| < 1 := by
    rw [Real.tan_eq_sin_div_cos, abs_div, abs_of_pos hcos0, div_lt_one hcos0]
    exact hsin1
  have harc := Real.arctan_tan (abs_lt.1 hφ).1 (abs_lt.1 hφ).2
  rw [← harc, abs_lt]
  constructor
  · have := Real.arctan_strictMono (abs_lt.1 htan).1
    rwa [Real.arctan_neg, Real.arctan_one] at this
  · have := Real.arctan_strictMono (abs_lt.1 htan).2
    rwa [Real.arctan_one] at this

/-- A point 3000 km from the centre and 99 µm above the equatorial plane: the iteration of
`ecef2pos` does not run (`|z - zk| = 9.9e-5 < 1e-4` at the first test), the latitude is the
geocentric one, and `pos2ecef` puts the point more than 1e-6 m away. -/
theorem ecef2pos_interior (lm : Libm ℝ) (PI : ℝ) (hs : lm.sqrt = Real.sqrt)
    (hsin : lm.sin = Real.sin) (hcos : lm.cos = Real.cos) (hatan : lm.atan = Real.arctan)
    (hatan2 : lm.atan2 = fun y x => Complex.arg ⟨x, y⟩) (fuel : Nat) :
    ∃ pos X Y Z,
      ecef2pos lm PI 6378137 (1 / 298.257223563) fuel [3000000, 0, 99 / 1000000] = some pos ∧
      |pos.getD 0 0| < 89 * Real.pi / 180 ∧
      pos2ecef lm 6378137 (1 / 298.257223563) pos = [X, Y, Z] ∧
      1 / 1000000 * (1 / 1000000) <
        (X - 3000000) * (X - 3000000) + (Y - 0) * (Y - 0) +
          (Z - 99 / 1000000) * (Z - 99 / 1000000) := by
  have hp : (0 : ℝ) < 3000000 * 3000000 + 0 * 0 := by norm_num
  have he1 : (1 / 298.257223563 : ℝ) * (2 - 1 / 298.257223563) < 1 := by norm_num
  have hd : dot [(3000000 : ℝ), 0, 99 / 1000000] [3000000, 0, 99 / 1000000] 2 =
      3000000 * 3000000 + 0 * 0 := by
    rw [dot_two]; simp
  have hr0 : Real.sqrt (3000000 * 3000000 + 0 * 0) = 3000000 := by
    rw [show (3000000 * 3000000 + 0 * 0 : ℝ) = 3000000 * 3000000 by ring]
    exact Real.sqrt_mul_self (by norm_num)
  have habs : ¬ (|(99 / 1000000 : ℝ) - 0| ≥ 1 / 10000) := by
    rw [sub_zero, abs_of_pos (by norm_num)]
    norm_num
  have hloop : ecef2posLoop lm 6378137 (1 / 298.257223563 * (2 - 1 / 298.257223563))
      (3000000 * 3000000 + 0 * 0) (99 / 1000000) fuel (99 / 1000000) 0 6378137 =
      some (99 / 1000000, 6378137) := by
    cases fuel <;> simp only [ecef2posLoop, if_neg habs]
  have hv : (6378137 : ℝ) =
      6378137 * Real.sqrt (3000000 * 3000000 + 0 * 0 + 0 * 0) /
        Real.sqrt (3000000 * 3000000 + 0 * 0 +
          (1 - 1 / 298.257223563 * (2 - 1 / 298.257223563)) * (0 * 0)) := by
    rw [show (3000000 * 3000000 + 0 * 0 + 0 * 0 : ℝ) = 3000000 * 3000000 by ring,
      show (3000000 * 3000000 + 0 * 0 +
        (1 - 1 / 298.257223563 * (2 - 1 / 298.257223563)) * (0 * 0) : ℝ) =
        3000000 * 3000000 by ring, Real.sqrt_mul_self (by norm_num)]
    norm_num
  have hpos : ecef2pos lm PI 6378137 (1 / 298.257223563) fuel [3000000, 0, 99 / 1000000] =
      some [Real.arctan (99 / 1000000 / Real.sqrt (3000000 * 3000000 + 0 * 0)),
        Complex.arg ⟨3000000, 0⟩,
        Real.sqrt (3000000 * 3000000 + 0 * 0 + 99 / 1000000 * (99 / 1000000)) -
          6378137 * Real.sqrt (3000000 * 3000000 + 0 * 0 + 0 * 0) /
            Real.sqrt (3000000 * 3000000 + 0 * 0 +
              (1 - 1 / 298.257223563 * (2 - 1 / 298.257223563)) * (0 * 0))] := by
    rw [← hv]
    have hgt : (3000000 * 3000000 + 0 * 0 : ℝ) > 1 / 1000000000000 := by norm_num
    simp only [ecef2pos, hd, List.getD_cons_zero, List.getD_cons_succ, hloop, if_pos hgt, hs,
      hatan, hatan2]
  have hrt := geo_roundtrip lm hs hsin hcos 6378137 (1 / 298.257223563) 3000000 0
    (99 / 1000000) 0 hp he1
  refine ⟨_, _, _, _, hpos, ?_, hrt, ?_⟩
  · -- the computed latitude is far below 89 degrees
    rw [List.getD_cons_zero, hr0]
    have h0 : (0 : ℝ) ≤ Real.arctan (99 / 1000000 / 3000000) := by
      rw [← Real.arctan_zero]
      exact Real.arctan_strictMono.monotone (by norm_num)
    have h1 : Real.arctan (99 / 1000000 / 3000000) < Real.pi / 4 := by
      rw [← Real.arctan_one]
      exact Real.arctan_strictMono (by norm_num)
    rw [abs_of_nonneg h0]
    linarith [Real.pi_pos]
  · rw [← hv]
    have hB : (0 : ℝ) < 3000000 * 3000000 + 0 * 0 + 99 / 1000000 * (99 / 1000000) := by
      norm_num
    have hC : (0 : ℝ) < 3000000 * 3000000 + 0 * 0 +
        (1 - 1 / 298.257223563 * (2 - 1 / 298.257223563)) * (99 / 1000000 * (99 / 1000000)) := by
      norm_num
    have hρ := Real.sqrt_pos.2 hB
    have hD := Real.sqrt_pos.2 hC
    have hρle : Real.sqrt (3000000 * 3000000 + 0 * 0 + 99 / 1000000 * (99 / 1000000)) ≤
        3000000 + 1 / 1000000 := by
      rw [Real.sqrt_le_left (by norm_num)]
      norm_num
    have hDge : (3000000 : ℝ) ≤ Real.sqrt (3000000 * 3000000 + 0 * 0 +
        (1 - 1 / 298.257223563 * (2 - 1 / 298.257223563)) * (99 / 1000000 * (99 / 1000000))) := by
      rw [Real.le_sqrt' (by norm_num)]
      norm_num
    generalize Real.sqrt (3000000 * 3000000 + 0 * 0 + 99 / 1000000 * (99 / 1000000)) = ρ at *
    generalize Real.sqrt (3000000 * 3000000 + 0 * 0 +
        (1 - 1 / 298.257223563 * (2 - 1 / 298.257223563)) * (99 / 1000000 * (99 / 1000000))) =
      D at *
    have hZ : 99 / 1000000 * (1 + (6378137 * ρ / D - 6378137) / ρ) -
        6378137 * (1 / 298.257223563 * (2 - 1 / 298.257223563)) * (99 / 1000000 / D) -
          99 / 1000000 =
        -(99 / 1000000 * 6378137 / ρ -
          99 / 1000000 * 6378137 * (1 - 1 / 298.257223563 * (2 - 1 / 298.257223563)) / D) := by
      field_simp
      ring
    have h1 : (99 / 1000000 * 6378137 : ℝ) / (3000000 + 1 / 1000000) ≤
        99 / 1000000 * 6378137 / ρ :=
      div_le_div_of_nonneg_left (by norm_num) hρ hρle
    have h2 : (99 / 1000000 * 6378137 * (1 - 1 / 298.257223563 * (2 - 1 / 298.257223563)) : ℝ)
        / D ≤ 99 / 1000000 * 6378137 * (1 - 1 / 298.257223563 * (2 - 1 / 298.257223563)) /
          3000000 :=
      div_le_div_of_nonneg_left (by norm_num) (by norm_num) hDge
    have h3 : (1 / 1000000 : ℝ) < 99 / 1000000 * 6378137 / (3000000 + 1 / 1000000) -
        99 / 1000000 * 6378137 * (1 - 1 / 298.257223563 * (2 - 1 / 298.257223563)) /
          3000000 := by
      norm_num
    have h4 : (1 / 1000000 : ℝ) < 99 / 1000000 * 6378137 / ρ -
        99 / 1000000 * 6378137 * (1 - 1 / 298.257223563 * (2 - 1 / 298.257223563)) / D := by
      linarith
    rw [hZ]
    nlinarith [mul_self_nonneg (3000000 * (1 + (6378137 * ρ / D - 6378137) / ρ) - 3000000),
      mul_self_nonneg ((0 : ℝ) * (1 + (6378137 * ρ / D - 6378137) / ρ) - 0)]

/-- Claim C24, as amended: the geodetic round trip away from the Earth's centre.  With the
real math library and the WGS84 constants, for every ECEF position `r = (x, y, c)` with
`x² + y² > 1e-12` (which every latitude below 89° gives) and at least 6000 km from the
centre, the iteration of `ecef2pos` ends within 430000002 passes and
`pos2ecef(ecef2pos(r))` is less than 1e-6 m from `r`. -/
theorem ecef2pos_roundtrip (lm : Libm ℝ) (PI : ℝ) (hs : lm.sqrt = Real.sqrt)
    (hsin : lm.sin = Real.sin) (hcos : lm.cos = Real.cos) (hatan : lm.atan = Real.arctan)
    (hatan2 : lm.atan2 = fun y x => Complex.arg ⟨x, y⟩) (fuel : Nat)
    (hf : 430000001 < fuel) (x y c : ℝ) (hr : 1 / 1000000000000 < x * x + y * y)
    (hR : 6000000 * 6000000 ≤ x * x + y * y + c * c) :
    ∃ pos X Y Z, ecef2pos lm PI 6378137 (1 / 298.257223563) fuel [x, y, c] = some pos ∧
      pos2ecef lm 6378137 (1 / 298.257223563) pos = [X, Y, Z] ∧
      (X - x) * (X - x) + (Y - y) * (Y - y) + (Z - c) * (Z - c) <
        1 / 1000000 * (1 / 1000000) := by
  have hfr : (43000 : ℝ) * 10000 + 1 < fuel := by
    have : ((430000001 : Nat) : ℝ) < fuel := by exact_mod_cast hf
    push_cast at this
    linarith
  obtain ⟨pos, X, Y, Z, h1, h2, h3⟩ := ecef2pos_roundtrip_bound lm PI hs hsin hcos hatan hatan2
    6378137 (1 / 298.257223563) 43000 (9966 / 10000) 6000000 (by norm_num) (by norm_num)
    (by norm_num) (by norm_num) (by norm_num) (by norm_num) (by norm_num) (by norm_num)
    fuel hfr x y c hr hR
  refine ⟨pos, X, Y, Z, h1, h2, lt_of_lt_of_le h3 ?_⟩
  norm_num

theorem ecef2pos_roundtrip_witness :
    ∃ pos X Y Z,
      ecef2pos (⟨Real.sqrt, Real.sin, Real.cos, Real.tan, Real.arcsin, Real.arccos,
          Real.arctan, fun y x => Complex.arg ⟨x, y⟩, Real.exp, fun x y => x ^ y⟩ : Libm ℝ)
        Real.pi 6378137 (1 / 298.257223563) 430000002 [6378137, 0, 1000] = some pos ∧
      pos2ecef (⟨Real.sqrt, Real.sin, Real.cos, Real.tan, Real.arcsin, Real.arccos,
          Real.arctan, fun y x => Complex.arg ⟨x, y⟩, Real.exp, fun x y => x ^ y⟩ : Libm ℝ)
        6378137 (1 / 298.257223563) pos = [X, Y, Z] ∧
      (X - 6378137) * (X - 6378137) + (Y - 0) * (Y - 0) + (Z - 1000) * (Z - 1000) <
        1 / 1000000 * (1 / 1000000) :=
  ecef2pos_roundtrip _ Real.pi rfl rfl rfl rfl rfl 430000002 (by norm_num) 6378137 0 1000
    (by norm_num) (by norm_num)

/-- Claim C24, refuted as stated: the point `(3000000, 0, 0.000099)`, 3000 km from the
centre, has a latitude far below 89°, the iteration of `ecef2pos` ends (at its first
test), and `pos2ecef(ecef2pos(r))` is more than 1e-6 m from `r`. -/
theorem ecef2pos_roundtrip_fails_inside :
    ∃ pos X Y Z,
      ecef2pos (⟨Real.sqrt, Real.sin, Real.cos, Real.tan, Real.arcsin, Real.arccos,
          Real.arctan, fun y x => Complex.arg ⟨x, y⟩, Real.exp, fun x y => x ^ y⟩ : Libm ℝ)
        Real.pi 6378137 (1 / 298.257223563) 430000002 [3000000, 0, 99 / 1000000] =
          some pos ∧
      |pos.getD 0 0| < 89 * Real.pi / 180 ∧
      pos2ecef (⟨Real.sqrt, Real.sin, Real.cos, Real.tan, Real.arcsin, Real.arccos,
          Real.arctan, fun y x => Complex.arg ⟨x, y⟩, Real.exp, fun x y => x ^ y⟩ : Libm ℝ)
        6378137 (1 / 298.257223563) pos = [X, Y, Z] ∧
      1 / 1000000 * (1 / 1000000) <
        (X - 3000000) * (X - 3000000) + (Y - 0) * (Y - 0) +
          (Z - 99 / 1000000) * (Z - 99 / 1000000) :=
  ecef2pos_interior _ Real.pi rfl rfl rfl rfl rfl 430000002

/-! ## The cache slot of `eci2ecef` -/

theorem eci2ecef_hit (lm : Libm ℚ) (PI AS2R : ℚ) (Rx Ry Rz : ℚ → List ℚ)
    (table : List (List ℚ)) (junk : List ℚ) (c : EciCache) (tutc : gtime_t) (erpv U : List ℚ)
    (gmst : Option ℚ) (h : |timediff tutc c.tutc_| < 0.01) :
    eci2ecef lm PI AS2R Rx Ry Rz table junk c tutc erpv U gmst =
      (c, matcpy U c.U_ 9 1, gmst.map fun _ => c.gmst_) := by
  unfold eci2ecef
  rw [if_pos h]

theorem eci2ecef_miss (lm : Libm ℚ) (PI AS2R : ℚ) (Rx Ry Rz : ℚ → List ℚ)
    (table : List (List ℚ)) (junk : List ℚ) (c : EciCache) (tutc : gtime_t) (erpv U : List ℚ)
    (gmst : Option ℚ) (h : ¬ |timediff tutc c.tutc_| < 0.01) :
    eci2ecef lm PI AS2R Rx Ry Rz table junk c tutc erpv U gmst =
      (⟨tutc, (eciCompute lm PI AS2R Rx Ry Rz table junk c.U_ tutc erpv).1,
          (eciCompute lm PI AS2R Rx Ry Rz table junk c.U_ tutc erpv).2⟩,
        matcpy U (eciCompute lm PI AS2R Rx Ry Rz table junk c.U_ tutc erpv).1 9 1,
        gmst.map fun _ => (eciCompute lm PI AS2R Rx Ry Rz table junk c.U_ tutc erpv).2) := by
  unfold eci2ecef
  rw [if_neg h]

theorem getD_matcpy_lt (A B : List ℚ) (n m i : Nat) (h : i < n * m) :
    (matcpy A B n m).getD i 0 = B.getD i 0 := by
  unfold matcpy
  exact getD_map_range_append _ _ _ _ h

/-- Claim C29, as amended: the single-slot orientation cache.  `eci2ecef` compares the
instant of the call with the instant of the slot, that is of the last call that
recomputed.  Within `0.01 s` of it the call returns exactly the cached `U` and GMST,
whatever the ERP values, and leaves the slot as it is; otherwise the result is recomputed
from the instant and the ERP values of the call and replaces the slot.  Hence, when a call
at `t1` recomputes, a next call at `t2` with `|t2 - t1| < 0.01 s` returns exactly the `U`
and the GMST of the first call and leaves the cached instant equal to `t1`. -/
theorem eci2ecef_cache (lm : Libm ℚ) (PI AS2R : ℚ) (Rx Ry Rz : ℚ → List ℚ)
    (table : List (List ℚ)) (junk : List ℚ) (c : EciCache) (t1 : gtime_t) (e1 U1 : List ℚ)
    (g1 : Option ℚ) (t2 : gtime_t) (e2 U2 : List ℚ) (g2 : Option ℚ) :
    (|timediff t1 c.tutc_| < 0.01 →
      eci2ecef lm PI AS2R Rx Ry Rz table junk c t1 e1 U1 g1 =
        (c, matcpy U1 c.U_ 9 1, g1.map fun _ => c.gmst_)) ∧
    (0.01 ≤ |timediff t1 c.tutc_| →
      (eci2ecef lm PI AS2R Rx Ry Rz table junk c t1 e1 U1 g1).1 =
        ⟨t1, (eciCompute lm PI AS2R Rx Ry Rz table junk c.U_ t1 e1).1,
          (eciCompute lm PI AS2R Rx Ry Rz table junk c.U_ t1 e1).2⟩ ∧
      (eci2ecef lm PI AS2R Rx Ry Rz table junk c t1 e1 U1 g1).2.1 =
        matcpy U1 (eciCompute lm PI AS2R Rx Ry Rz table junk c.U_ t1 e1).1 9 1 ∧
      (eci2ecef lm PI AS2R Rx Ry Rz table junk c t1 e1 U1 g1).2.2 =
        g1.map fun _ => (eciCompute lm PI AS2R Rx Ry Rz table junk c.U_ t1 e1).2) ∧
    (0.01 ≤ |timediff t1 c.tutc_| → |timediff t2 t1| < 0.01 →
      (eci2ecef lm PI AS2R Rx Ry Rz table junk
          (eci2ecef lm PI AS2R Rx Ry Rz table junk c t1 e1 U1 g1).1 t2 e2 U2 g2).1 =
        (eci2ecef lm PI AS2R Rx Ry Rz table junk c t1 e1 U1 g1).1 ∧
      (eci2ecef lm PI AS2R Rx Ry Rz table junk
          (eci2ecef lm PI AS2R Rx Ry Rz table junk c t1 e1 U1 g1).1 t2 e2 U2 g2).1.tutc_ = t1 ∧
      (∀ i, i < 9 →
        (eci2ecef lm PI AS2R Rx Ry Rz table junk
          (eci2ecef lm PI AS2R Rx Ry Rz table junk c t1 e1 U1 g1).1 t2 e2 U2 g2).2.1.getD i 0 =
        (eci2ecef lm PI AS2R Rx Ry Rz table junk c t1 e1 U1 g1).2.1.getD i 0) ∧
      (eci2ecef lm PI AS2R Rx Ry Rz table junk
          (eci2ecef lm PI AS2R Rx Ry Rz table junk c t1 e1 U1 g1).1 t2 e2 U2
          (some 0)).2.2 =
        (eci2ecef lm PI AS2R Rx Ry Rz table junk c t1 e1 U1 (some 0)).2.2) := by
  refine ⟨fun h => eci2ecef_hit lm PI AS2R Rx Ry Rz table junk c t1 e1 U1 g1 h,
    fun h => ?_, fun h h2 => ?_⟩
  · rw [eci2ecef_miss lm PI AS2R Rx Ry Rz table junk c t1 e1 U1 g1 (not_lt.2 h)]
    exact ⟨rfl, rfl, rfl⟩
  · have m1 := eci2ecef_miss lm PI AS2R Rx Ry Rz table junk c t1 e1 U1 g1 (not_lt.2 h)
    have m1' := eci2ecef_miss lm PI AS2R Rx Ry Rz table junk c t1 e1 U1 (some 0) (not_lt.2 h)
    rw [m1, m1']
    have hh : ∀ g, eci2ecef lm PI AS2R Rx Ry Rz table junk
        ⟨t1, (eciCompute lm PI AS2R Rx Ry Rz table junk c.U_ t1 e1).1,
          (eciCompute lm PI AS2R Rx Ry Rz table junk c.U_ t1 e1).2⟩ t2 e2 U2 g = _ :=
      fun g => eci2ecef_hit lm PI AS2R Rx Ry Rz table junk _ t2 e2 U2 g h2
    rw [hh g2, hh (some 0)]
    refine ⟨rfl, rfl, fun i hi => ?_, rfl⟩
    rw [getD_matcpy_lt _ _ 9 1 i (by omega), getD_matcpy_lt _ _ 9 1 i (by omega)]

theorem eci2ecef_cache_witness :
    (eci2ecef ratLibm 3.1415926535897932 4.84813681109536e-6 (rotX ratLibm) (rotY ratLibm) (rotZ ratLibm) leaps []
    (eci2ecef ratLibm 3.1415926535897932 4.84813681109536e-6 (rotX ratLibm) (rotY ratLibm) (rotZ ratLibm) leaps []
      EciCache.init ⟨1000000000, 0⟩ [0, 0, 0, 0] [] (some 0)).1 ⟨1000000000, 1 / 200⟩ [0, 0, 0, 0] [] (some 0)).1.tutc_ =
      ⟨1000000000, 0⟩ :=
  ((eci2ecef_cache ratLibm 3.1415926535897932 4.84813681109536e-6 (rotX ratLibm) (rotY ratLibm) (rotZ ratLibm) leaps []
    EciCache.init ⟨1000000000, 0⟩ [0, 0, 0, 0] [] (some 0) ⟨1000000000, 1 / 200⟩ [0, 0, 0, 0] []
    (some 0)).2.2 (by norm_num [EciCache.init, timediff])
    (by norm_num [timediff, abs_lt])).2.1

/-- Counterexample to claim C29 as stated: three calls at `t0`, `t1 = t0 + 0.006 s` and
`t2 = t0 + 0.012 s`.  The call at `t1` is served from the slot of `t0` and leaves it, so
the call at `t2`, although within `0.01 s` of `t1`, is `0.012 s` from the cached instant:
it recomputes and replaces the slot.  The cached instant is `t0` after the second call
and `t2` after the third, never `t1`. -/
theorem eci2ecef_compares_with_slot :
    |timediff ⟨1000000000, 12 / 1000⟩ ⟨1000000000, 6 / 1000⟩| < 0.01 ∧
    (eci2ecef ratLibm 3.1415926535897932 4.84813681109536e-6 (rotX ratLibm) (rotY ratLibm) (rotZ ratLibm) leaps []
      (eci2ecef ratLibm 3.1415926535897932 4.84813681109536e-6 (rotX ratLibm) (rotY ratLibm) (rotZ ratLibm) leaps []
        EciCache.init ⟨1000000000, 0⟩ [0, 0, 0, 0] [] (some 0)).1 ⟨1000000000, 6 / 1000⟩ [0, 0, 0, 0] [] (some 0)).1.tutc_ =
      ⟨1000000000, 0⟩ ∧
    (eci2ecef ratLibm 3.1415926535897932 4.84813681109536e-6 (rotX ratLibm) (rotY ratLibm) (rotZ ratLibm) leaps []
    (eci2ecef ratLibm 3.1415926535897932 4.84813681109536e-6 (rotX ratLibm) (rotY ratLibm) (rotZ ratLibm) leaps []
      (eci2ecef ratLibm 3.1415926535897932 4.84813681109536e-6 (rotX ratLibm) (rotY ratLibm) (rotZ ratLibm) leaps []
        EciCache.init ⟨1000000000, 0⟩ [0, 0, 0, 0] [] (some 0)).1 ⟨1000000000, 6 / 1000⟩ [0, 0, 0, 0] [] (some 0)).1 ⟨1000000000, 12 / 1000⟩ [0, 0, 0, 0] [] (some 0)).1.tutc_ =
      ⟨1000000000, 12 / 1000⟩ ∧
    (eci2ecef ratLibm 3.1415926535897932 4.84813681109536e-6 (rotX ratLibm) (rotY ratLibm) (rotZ ratLibm) leaps []
    (eci2ecef ratLibm 3.1415926535897932 4.84813681109536e-6 (rotX ratLibm) (rotY ratLibm) (rotZ ratLibm) leaps []
      (eci2ecef ratLibm 3.1415926535897932 4.84813681109536e-6 (rotX ratLibm) (rotY ratLibm) (rotZ ratLibm) leaps []
        EciCache.init ⟨1000000000, 0⟩ [0, 0, 0, 0] [] (some 0)).1 ⟨1000000000, 6 / 1000⟩ [0, 0, 0, 0] [] (some 0)).1 ⟨1000000000, 12 / 1000⟩ [0, 0, 0, 0] [] (some 0)).1.U_ =
      (eciCompute ratLibm 3.1415926535897932 4.84813681109536e-6 (rotX ratLibm) (rotY ratLibm) (rotZ ratLibm) leaps []
        (eci2ecef ratLibm 3.1415926535897932 4.84813681109536e-6 (rotX ratLibm) (rotY ratLibm) (rotZ ratLibm) leaps []
      (eci2ecef ratLibm 3.1415926535897932 4.84813681109536e-6 (rotX ratLibm) (rotY ratLibm) (rotZ ratLibm) leaps []
        EciCache.init ⟨1000000000, 0⟩ [0, 0, 0, 0] [] (some 0)).1 ⟨1000000000, 6 / 1000⟩ [0, 0, 0, 0] [] (some 0)).1.U_
        ⟨1000000000, 12 / 1000⟩ [0, 0, 0, 0]).1 ∧
    (⟨1000000000, 12 / 1000⟩ : gtime_t) ≠ ⟨1000000000, 6 / 1000⟩ := by
  have m0 := eci2ecef_miss ratLibm 3.1415926535897932 4.84813681109536e-6 (rotX ratLibm) (rotY ratLibm) (rotZ ratLibm) leaps []
    EciCache.init ⟨1000000000, 0⟩ [0, 0, 0, 0] [] (some 0) (by norm_num [EciCache.init, timediff])
  rw [m0]
  have h1 := eci2ecef_hit ratLibm 3.1415926535897932 4.84813681109536e-6 (rotX ratLibm) (rotY ratLibm) (rotZ ratLibm) leaps []
    ⟨⟨1000000000, 0⟩, (eciCompute ratLibm 3.1415926535897932 4.84813681109536e-6 (rotX ratLibm) (rotY ratLibm) (rotZ ratLibm) leaps [] EciCache.init.U_ ⟨1000000000, 0⟩ [0, 0, 0, 0]).1,
      (eciCompute ratLibm 3.1415926535897932 4.84813681109536e-6 (rotX ratLibm) (rotY ratLibm) (rotZ ratLibm) leaps [] EciCache.init.U_ ⟨1000000000, 0⟩ [0, 0, 0, 0]).2⟩
    ⟨1000000000, 6 / 1000⟩ [0, 0, 0, 0] [] (some 0) (by norm_num [timediff, abs_lt])
  rw [h1]
  have m2 := eci2ecef_miss ratLibm 3.1415926535897932 4.84813681109536e-6 (rotX ratLibm) (rotY ratLibm) (rotZ ratLibm) leaps []
    ⟨⟨1000000000, 0⟩, (eciCompute ratLibm 3.1415926535897932 4.84813681109536e-6 (rotX ratLibm) (rotY ratLibm) (rotZ ratLibm) leaps [] EciCache.init.U_ ⟨1000000000, 0⟩ [0, 0, 0, 0]).1,
      (eciCompute ratLibm 3.1415926535897932 4.84813681109536e-6 (rotX ratLibm) (rotY ratLibm) (rotZ ratLibm) leaps [] EciCache.init.U_ ⟨1000000000, 0⟩ [0, 0, 0, 0]).2⟩
    ⟨1000000000, 12 / 1000⟩ [0, 0, 0, 0] [] (some 0) (by norm_num [timediff, abs_lt])
  rw [m2]
  refine ⟨by norm_num [timediff, abs_lt], rfl, rfl, rfl, ?_⟩
  intro h
  have := congrArg gtime_t.sec h
  norm_num at this

/-! ## Single-bit errors of a navigation word -/

theorem bit_xor (a b j : Nat) :
    (a ^^^ b) / 2 ^ j % 2 = (a / 2 ^ j % 2) ^^^ (b / 2 ^ j % 2) := by
  rw [← Nat.toNat_testBit, ← Nat.toNat_testBit, ← Nat.toNat_testBit, Nat.testBit_xor]
  cases a.testBit j <;> cases b.testBit j <;> rfl

theorem bit_two_pow (k j : Nat) : 2 ^ k / 2 ^ j % 2 = if k = j then 1 else 0 := by
  rw [← Nat.toNat_testBit, Nat.testBit_two_pow]
  by_cases h : k = j <;> simp [h]

theorem foldr_xor_split (l : List Nat) (f g : Nat → Nat) :
    l.foldr (fun k acc => (f k ^^^ g k) ^^^ acc) 0 =
      l.foldr (fun k acc => f k ^^^ acc) 0 ^^^ l.foldr (fun k acc => g k ^^^ acc) 0 := by
  induction l with
  | nil => simp
  | cons x xs ih =>
    simp only [List.foldr_cons, ih]
    rw [Nat.xor_assoc, Nat.xor_assoc, ← Nat.xor_assoc (g x), ← Nat.xor_assoc _ (g x),
      Nat.xor_comm (g x)]

/-- The parity of the bits 6..31 is additive for the exclusive or. -/
theorem xorBits6to31_xor (a b : Nat) :
    xorBits6to31 (a ^^^ b) = xorBits6to31 a ^^^ xorBits6to31 b := by
  unfold xorBits6to31
  rw [← foldr_xor_split]
  congr 1
  funext k acc
  rw [bit_xor]

theorem xorBits6to31_low (y : Nat) (h : y < 64) : xorBits6to31 y = 0 := by
  rw [← xorLow_shift_eq]
  have : y >>> 6 = 0 := by
    rw [Nat.shiftRight_eq_div_pow]
    exact Nat.div_eq_of_lt (by norm_num; exact h)
  rw [this, xorLow_zero]

theorem xorBits6to31_two_pow (k : Nat) (h6 : 6 ≤ k) (h32 : k < 32) :
    xorBits6to31 (2 ^ k) = 1 := by
  interval_cases k <;> decide

theorem hamming_covers (k : Nat) (h6 : 6 ≤ k) (h30 : k < 30) :
    ∃ i, i < 6 ∧ 2 ^ k &&& hamming.getD i 0 = 2 ^ k := by
  interval_cases k <;> decide

theorem invertWord_flip (w k : Nat) (hk : k < 30) :
    invertWord (w ^^^ 2 ^ k) = invertWord w ^^^ 2 ^ k := by
  rw [invertWord_eq, invertWord_eq, bit_xor, bit_two_pow, if_neg (show ¬ (k = 30) by omega),
    Nat.xor_zero]
  by_cases h : w / 2 ^ 30 % 2 = 1
  · rw [if_pos h, if_pos h, Nat.xor_assoc, Nat.xor_assoc, Nat.xor_comm (2 ^ k)]
  · rw [if_neg h, if_neg h]

theorem xor_one_ne (x : Nat) (hx : x ≤ 1) : x ^^^ 1 ≠ x := by
  interval_cases x <;> decide

/-- A word that passes the parity test fails it after one of its bits 0..29 is flipped. -/
theorem parity_flip (v k : Nat) (hk : k < 30) (hv : wordParity v = v &&& 0x3F) :
    wordParity (v ^^^ 2 ^ k) ≠ (v ^^^ 2 ^ k) &&& 0x3F := by
  intro hv'
  rw [parity_ok_iff] at hv hv'
  by_cases h6 : k < 6
  · have a := hv (5 - k) (by omega)
    have a' := hv' (5 - k) (by omega)
    have e : 5 - (5 - k) = k := by omega
    rw [e] at a a'
    rw [Nat.and_xor_distrib_right, xorBits6to31_xor,
      xorBits6to31_low (2 ^ k &&& hamming.getD (5 - k) 0)
        (lt_of_le_of_lt Nat.and_le_left (by
          calc 2 ^ k < 2 ^ 6 := Nat.pow_lt_pow_right (by norm_num) h6
            _ = 64 := by norm_num)),
      Nat.xor_zero, ← a, bit_xor, bit_two_pow, if_pos rfl] at a'
    exact xor_one_ne _ (by omega) a'
  · obtain ⟨i, hi, hcov⟩ := hamming_covers k (by omega) hk
    have a := hv i hi
    have a' := hv' i hi
    rw [Nat.and_xor_distrib_right, xorBits6to31_xor, hcov,
      xorBits6to31_two_pow k (by omega) (by omega), ← a, bit_xor, bit_two_pow,
      if_neg (show ¬ (k = 5 - i) by omega), Nat.xor_zero] at a'
    exact xor_one_ne _ (by omega) a'.symm

theorem decode_word_status (w : Nat) (data : List Nat) :
    ((decode_word w data).1 = 1 ↔ wordParity (invertWord w) = invertWord w &&& 0x3F) ∧
    ((decode_word w data).1 = 0 ↔ wordParity (invertWord w) ≠ invertWord w &&& 0x3F) := by
  unfold decode_word
  by_cases h : wordParity (invertWord w) ≠ invertWord w &&& 0x3F
  · simp [h]
  · have h' : wordParity (invertWord w) = invertWord w &&& 0x3F := not_not.1 h
    simp [h']

/-- Claim C37: single-bit error detection of the navigation-word parity.  For every word
`w` that `decode_word` accepts (status 1) and every bit position `k` in 0..29, the 24 data
bits and the 6 parity bits of the current word, `decode_word` rejects (status 0) the word
`w xor 2^k`. -/
theorem decode_word_detects_single_bit (w : Nat) (data data2 : List Nat) (k : Nat)
    (hk : k < 30) (hacc : (decode_word w data).1 = 1) :
    (decode_word (w ^^^ 2 ^ k) data2).1 = 0 := by
  rw [(decode_word_status _ _).2, invertWord_flip w k hk]
  exact parity_flip _ k hk ((decode_word_status w data).1.1 hacc)

theorem decode_word_detects_single_bit_witness :
    (decode_word 0 [0, 0, 0]).1 = 1 ∧ (decode_word (0 ^^^ 2 ^ 7) [0, 0, 0]).1 = 0 :=
  ⟨by decide, decode_word_detects_single_bit 0 [0, 0, 0] [0, 0, 0] 7 (by decide) (by decide)⟩

/-! ## The frame of `setbitu` and `setbits` -/

theorem setbituLoop_frame (data : Nat) (n : Nat) :
    ∀ (buff : List Nat) (i mask : Nat),
      (setbituLoop data buff i n mask).length = buff.length ∧
      ∀ j, j < i ∨ i + n ≤ j → bitAt (setbituLoop data buff i n mask) j = bitAt buff j := by
  induction n with
  | zero => intro buff i mask; simp [setbituLoop]
  | succ n ih =>
    intro buff i mask
    obtain ⟨h1, h2⟩ := ih (setBitStep buff i (decide (data &&& mask ≠ 0))) (i + 1) (mask >>> 1)
    rw [setbituLoop]
    refine ⟨by rw [h1, setBitStep_length], fun j hj => ?_⟩
    rw [h2 j (by omega), bitAt_setBitStep_ne buff i j _ (by omega)]

/-- Claim C39: `setbitu` and `setbits` write only their field.  For every buffer, every
`pos`, every `1 ≤ len ≤ 32` and every data word, the buffer keeps its length and every bit
at a position outside `[pos, pos + len)` has the same value after the call as before; and
for `len ≤ 0` or `len > 32` `setbitu` leaves the whole buffer unchanged. -/
theorem setbit_frame (buff : List Nat) (pos : Nat) (len : Int) (data : Nat) (sdata : Int) :
    (1 ≤ len → len ≤ 32 →
      (setbitu buff pos len data).length = buff.length ∧
      (setbits buff pos len sdata).length = buff.length ∧
      ∀ j, j < pos ∨ pos + len.toNat ≤ j →
        bitAt (setbitu buff pos len data) j = bitAt buff j ∧
        bitAt (setbits buff pos len sdata) j = bitAt buff j) ∧
    (len ≤ 0 ∨ 32 < len → setbitu buff pos len data = buff) := by
  refine ⟨fun h1 h32 => ?_, fun h => by rw [setbitu, if_pos h]⟩
  have c : ¬ (len ≤ 0 ∨ 32 < len) := by omega
  have e : ∀ d, setbitu buff pos len d =
      setbituLoop d buff pos len.toNat (u32 (1 <<< (len - 1).toNat)) := by
    intro d
    rw [setbitu, if_neg c]
  refine ⟨?_, ?_, fun j hj => ⟨?_, ?_⟩⟩
  · rw [e]; exact (setbituLoop_frame data _ buff pos _).1
  · rw [setbits, e]; exact (setbituLoop_frame _ _ buff pos _).1
  · rw [e]; exact (setbituLoop_frame data _ buff pos _).2 j hj
  · rw [setbits, e]; exact (setbituLoop_frame _ _ buff pos _).2 j hj

theorem setbit_frame_witness :
    bitAt (setbitu [0xAB, 0xCD] 4 8 0xFF) 2 = bitAt [0xAB, 0xCD] 2 ∧
    bitAt (setbits [0xAB, 0xCD] 4 8 (-1)) 13 = bitAt [0xAB, 0xCD] 13 ∧
    setbitu [0xAB, 0xCD] 4 33 0xFF = [0xAB, 0xCD] :=
  ⟨(((setbit_frame [0xAB, 0xCD] 4 8 0xFF (-1)).1 (by decide) (by decide)).2.2 2
      (Or.inl (by decide))).1,
    (((setbit_frame [0xAB, 0xCD] 4 8 0xFF (-1)).1 (by decide) (by decide)).2.2 13
      (Or.inr (by decide))).2,
    (setbit_frame [0xAB, 0xCD] 4 33 0xFF (-1)).2 (Or.inr (by decide))⟩

/-! ## The leap-second table -/

theorem utc2gpst_sentinel (pre : List (List ℚ)) (s : List ℚ) (more : List (List ℚ))
    (t : gtime_t) (hs : ¬ (s.getD 0 0 > 0)) :
    utc2gpst (pre ++ s :: more) t = utc2gpst (pre ++ [s]) t := by
  induction pre with
  | nil =>
    show utc2gpst (s :: more) t = utc2gpst [s] t
    rw [utc2gpst, utc2gpst, if_neg hs, if_neg hs]
  | cons row rest ih =>
    show utc2gpst (row :: (rest ++ s :: more)) t = utc2gpst (row :: (rest ++ [s])) t
    rw [utc2gpst, utc2gpst, ih]

theorem gpst2utc_sentinel (pre : List (List ℚ)) (s : List ℚ) (more : List (List ℚ))
    (t : gtime_t) (hs : ¬ (s.getD 0 0 > 0)) :
    gpst2utc (pre ++ s :: more) t = gpst2utc (pre ++ [s]) t := by
  induction pre with
  | nil =>
    show gpst2utc (s :: more) t = gpst2utc [s] t
    rw [gpst2utc, gpst2utc, if_neg hs, if_neg hs]
  | cons row rest ih =>
    show gpst2utc (row :: (rest ++ s :: more)) t = gpst2utc (row :: (rest ++ [s])) t
    rw [gpst2utc, gpst2utc, ih]

theorem leaps_split :
    leaps = leaps.take 18 ++ [[0, 0, 0, 0, 0, 0, 0]] := by
  simp [leaps]

theorem leaps_epochs :
    leaps.map (fun row => epoch2time row) =
      [⟨1483228800, 0⟩, ⟨1435708800, 0⟩, ⟨1341100800, 0⟩, ⟨1230768000, 0⟩, ⟨1136073600, 0⟩,
       ⟨915148800, 0⟩, ⟨867715200, 0⟩, ⟨820454400, 0⟩, ⟨773020800, 0⟩, ⟨741484800, 0⟩,
       ⟨709948800, 0⟩, ⟨662688000, 0⟩, ⟨631152000, 0⟩, ⟨567993600, 0⟩, ⟨489024000, 0⟩,
       ⟨425865600, 0⟩, ⟨394329600, 0⟩, ⟨362793600, 0⟩, ⟨0, 0⟩] := by
  norm_num [leaps, epoch2time, castInt, int32, doy, Int.tdiv, Int.tmod, Int.toNat]

theorem leaps_epoch_getD (i : Nat) :
    epoch2time (leaps.getD i []) =
      ((leaps.map (fun row => epoch2time row)).getD i ⟨0, 0⟩) := by
  by_cases h : i < leaps.length
  · simp [List.getD_eq_getElem?_getD, List.getElem?_map, List.getElem?_eq_getElem h]
  · have h2 : leaps.length ≤ i := not_lt.1 h
    simp [List.getD_eq_getElem?_getD, List.getElem?_map, List.getElem?_eq_none h2, epoch2time,
      castInt]

/-- Claim C33: the invariant of the compiled-in leap-second table.  The 18 records before
the sentinel have calendar dates strictly descending (`epoch2time` of each is strictly
later than that of the next), years within 1970-2099, and offsets UTC-GPST strictly
increasing towards the older records, from -18 to -1; the record after them is the
all-zero sentinel, the first whose year fails the test `leaps[i][0] > 0` of the loops of
`utc2gpst` and `gpst2utc`, so that no record after it is ever read. -/
theorem leaps_table_invariant :
    leaps.length = 19 ∧
    (∀ i, i < 17 →
      timediff (epoch2time (leaps.getD i [])) (epoch2time (leaps.getD (i + 1) [])) > 0) ∧
    (∀ i, i < 18 → 1970 ≤ (leaps.getD i []).getD 0 0 ∧ (leaps.getD i []).getD 0 0 ≤ 2099 ∧
      (leaps.getD i []).getD 0 0 > 0) ∧
    (∀ i, i < 17 → (leaps.getD i []).getD 6 0 < (leaps.getD (i + 1) []).getD 6 0) ∧
    (leaps.getD 0 []).getD 6 0 = -18 ∧ (leaps.getD 17 []).getD 6 0 = -1 ∧
    leaps.getD 18 [] = [0, 0, 0, 0, 0, 0, 0] ∧ ¬ ((leaps.getD 18 []).getD 0 0 > 0) ∧
    (∀ (more : List (List ℚ)) (t : gtime_t),
      utc2gpst (leaps ++ more) t = utc2gpst leaps t ∧
      gpst2utc (leaps ++ more) t = gpst2utc leaps t) := by
  refine ⟨rfl, ?_, ?_, ?_, ?_, ?_, ?_, ?_, ?_⟩
  · intro i hi
    rw [leaps_epoch_getD, leaps_epoch_getD, leaps_epochs]
    interval_cases i <;> norm_num [timediff]
  · intro i hi
    interval_cases i <;> norm_num [leaps]
  · intro i hi
    interval_cases i <;> norm_num [leaps]
  · norm_num [leaps]
  · norm_num [leaps]
  · simp [leaps]
  · norm_num [leaps]
  · intro more t
    have hs : ¬ ((([0, 0, 0, 0, 0, 0, 0] : List ℚ)).getD 0 0 > 0) := by norm_num
    constructor
    · rw [leaps_split, List.append_assoc, List.singleton_append,
        utc2gpst_sentinel _ _ more t hs]
    · rw [leaps_split, List.append_assoc, List.singleton_append,
        gpst2utc_sentinel _ _ more t hs]

theorem leaps_table_invariant_witness :
    timediff (epoch2time (leaps.getD 3 [])) (epoch2time (leaps.getD (3 + 1) [])) > 0 ∧
    (leaps.getD 16 []).getD 6 0 < (leaps.getD (16 + 1) []).getD 6 0 ∧
    utc2gpst (leaps ++ [[2030, 1, 1, 0, 0, 0, -19]]) ⟨1900000000, 0⟩ =
      utc2gpst leaps ⟨1900000000, 0⟩ :=
  ⟨leaps_table_invariant.2.1 3 (by decide), leaps_table_invariant.2.2.2.1 16 (by decide),
    (leaps_table_invariant.2.2.2.2.2.2.2.2 [[2030, 1, 1, 0, 0, 0, -19]] ⟨1900000000, 0⟩).1⟩

/-! ## UTC to GPST and back -/

theorem timeadd_int (t : gtime_t) (n : Int) (h0 : 0 ≤ t.sec) (h1 : t.sec < 1)
    (hn0 : -2 ^ 31 < n) (hn1 : n < 2 ^ 31) :
    timeadd t (-(-(n : ℚ))) = ⟨t.time + n, t.sec⟩ ∧ timeadd t (-(n : ℚ)) = ⟨t.time - n, t.sec⟩ := by
  constructor
  · rw [neg_neg]; exact timeadd_of_normalised t n h0 h1 hn0.le hn1
  · have := timeadd_of_normalised t (-n) h0 h1 (by linarith) (by linarith)
    push_cast at this
    rw [this]
    rfl

/-- Over a table whose offsets are `-k` with `0 ≤ k ≤ K` an integer, `utc2gpst` adds a
whole number of seconds between 0 and `K` to a normalised instant. -/
theorem utc2gpst_shift (table : List (List ℚ)) (K : Int) (hK : K < 2 ^ 31)
    (hint : ∀ row ∈ table, ∃ k : Int, row.getD 6 0 = -(k : ℚ) ∧ 0 ≤ k ∧ k ≤ K)
    (t : gtime_t) (h0 : 0 ≤ t.sec) (h1 : t.sec < 1) (hK0 : 0 ≤ K) :
    ∃ k : Int, 0 ≤ k ∧ k ≤ K ∧ utc2gpst table t = ⟨t.time + k, t.sec⟩ := by
  induction table with
  | nil => exact ⟨0, le_refl 0, hK0, by simp [utc2gpst]⟩
  | cons row rest ih =>
    have ihr := ih (fun r hr => hint r (List.mem_cons_of_mem _ hr))
    rw [utc2gpst]
    by_cases hrow : row.getD 0 0 > 0
    · rw [if_pos hrow]
      by_cases hge : timediff t (epoch2time row) ≥ 0
      · rw [if_pos hge]
        obtain ⟨k, hk, hk0, hkK⟩ := hint row (List.mem_cons_self _ _)
        refine ⟨k, hk0, hkK, ?_⟩
        rw [hk]
        exact (timeadd_int t k h0 h1 (by linarith) (by linarith)).1
      · rw [if_neg hge]; exact ihr
    · rw [if_neg hrow]
      exact ⟨0, le_refl 0, hK0, by simp⟩

/-- Over a table whose offsets UTC-GPST are negative integers that do not decrease towards
the older records, `gpst2utc` undoes `utc2gpst` on every normalised instant. -/
theorem gpst2utc_utc2gpst (table : List (List ℚ)) :
    (∀ row ∈ table, ∃ k : Int, row.getD 6 0 = -(k : ℚ) ∧ 0 ≤ k ∧ k < 2 ^ 31) →
    table.Pairwise (fun a b => a.getD 6 0 ≤ b.getD 6 0) →
    ∀ t : gtime_t, 0 ≤ t.sec → t.sec < 1 → gpst2utc table (utc2gpst table t) = t := by
  induction table with
  | nil => intro _ _ t _ _; simp [utc2gpst, gpst2utc]
  | cons row rest ih =>
    intro hint hmono t h0 h1
    obtain ⟨k0, hk, hk0, hk31⟩ := hint row (List.mem_cons_self _ _)
    have hrest := ih (fun r hr => hint r (List.mem_cons_of_mem _ hr))
      (List.Pairwise.of_cons hmono)
    by_cases hrow : row.getD 0 0 > 0
    · by_cases hge : timediff t (epoch2time row) ≥ 0
      · rw [utc2gpst, if_pos hrow, if_pos hge, gpst2utc, if_pos hrow, hk,
          (timeadd_int t k0 h0 h1 (by linarith) (by linarith)).1,
          (timeadd_int ⟨t.time + k0, t.sec⟩ k0 h0 h1 (by linarith) (by linarith)).2]
        have e : (⟨t.time + k0 - k0, t.sec⟩ : gtime_t) = t := by
          cases t; simp
        rw [e, if_pos hge]
      · have hbound : ∀ r ∈ rest, ∃ k : Int, r.getD 6 0 = -(k : ℚ) ∧ 0 ≤ k ∧ k ≤ k0 := by
          intro r hr
          obtain ⟨k, hk', hk0', -⟩ := hint r (List.mem_cons_of_mem _ hr)
          have hle := List.rel_of_pairwise_cons hmono hr
          rw [hk, hk'] at hle
          have : (k : ℚ) ≤ (k0 : ℚ) := by linarith
          exact ⟨k, hk', hk0', by exact_mod_cast this⟩
        obtain ⟨k, hk0', hkk0, hg⟩ := utc2gpst_shift rest k0 hk31 hbound t h0 h1 hk0
        have hrt := hrest t h0 h1
        rw [utc2gpst, if_pos hrow, if_neg hge]
        rw [hg] at hrt ⊢
        rw [gpst2utc, if_pos hrow, hk,
          (timeadd_int ⟨t.time + k, t.sec⟩ k0 h0 h1 (by linarith) (by linarith)).2]
        have hlt : ¬ (timediff ⟨t.time + k - k0, t.sec⟩ (epoch2time row) ≥ 0) := by
          have hd : timediff ⟨t.time + k - k0, t.sec⟩ (epoch2time row) =
              timediff t (epoch2time row) + ((k : ℚ) - (k0 : ℚ)) := by
            simp only [timediff]
            push_cast
            ring
          have hkq : (k : ℚ) ≤ (k0 : ℚ) := by exact_mod_cast hkk0
          rw [hd]
          push_neg at hge ⊢
          linarith
        rw [if_neg hlt]
        exact hrt
    · rw [utc2gpst, if_neg hrow, gpst2utc, if_neg hrow]

theorem leaps_offsets :
    (∀ row ∈ leaps, ∃ k : Int, row.getD 6 0 = -(k : ℚ) ∧ 0 ≤ k ∧ k < 2 ^ 31) ∧
    leaps.Pairwise (fun a b => a.getD 6 0 ≤ b.getD 6 0) := by
  constructor
  · intro row hrow
    refine ⟨-⌊row.getD 6 0⌋, ?_, ?_, ?_⟩ <;>
    · simp only [leaps, List.mem_cons, List.mem_singleton, List.not_mem_nil, or_false] at hrow
      rcases hrow with h | h | h | h | h | h | h | h | h | h | h | h | h | h | h | h | h | h | h <;>
        subst h <;> norm_num
  · simp only [leaps, List.pairwise_cons, List.mem_cons, List.mem_singleton, List.not_mem_nil,
      forall_eq_or_imp, forall_eq, List.getD_cons_zero, List.getD_cons_succ]
    norm_num

/-- Claim C38: UTC to GPST and back is the identity.  With the compiled-in leap-second
table, for every UTC instant `t` whose fractional part is in `[0, 1)`,
`gpst2utc(utc2gpst(t)) = t`: also before the oldest record of the table and on a
leap-second boundary. -/
theorem utc_gpst_utc_roundtrip (t : gtime_t) (h0 : 0 ≤ t.sec) (h1 : t.sec < 1) :
    gpst2utc leaps (utc2gpst leaps t) = t :=
  gpst2utc_utc2gpst leaps leaps_offsets.1 leaps_offsets.2 t h0 h1

theorem utc_gpst_utc_roundtrip_witness :
    gpst2utc leaps (utc2gpst leaps ⟨300000000, 1 / 4⟩) = ⟨300000000, 1 / 4⟩ ∧
    gpst2utc leaps (utc2gpst leaps ⟨1483228800, 0⟩) = ⟨1483228800, 0⟩ :=
  ⟨utc_gpst_utc_roundtrip ⟨300000000, 1 / 4⟩ (by norm_num) (by norm_num),
    utc_gpst_utc_roundtrip ⟨1483228800, 0⟩ (by norm_num) (by norm_num)⟩

/-! ## The range of `utc2gmst` -/

theorem time2epoch_1990 : time2epoch ⟨631152000, 0⟩ = [1990, 1, 1, 0, 0, 0] := by
  norm_num [time2epoch, time2epochLoop, mday, int32, Int.tdiv, Int.tmod]

theorem epoch2time_1990 : epoch2time [1990, 1, 1, 0, 0, 0] = ⟨631152000, 0⟩ := by
  norm_num [epoch2time, castInt, int32, doy, Int.tdiv, Int.tmod, Int.toNat]

/-- Claim C36, the failing input: at 1990-01-01 00:00:00 UTC with `UT1 - UTC = 0` the
polynomial `gmst0` is `-839907.93...` s, `fmod` keeps its sign, and `utc2gmst` returns
`-62307.9319455538 * PI / 43200`, about -4.53 rad, below the range `0 <= gmst <= 2*PI`
that the comment of the return statement gives. -/
theorem utc2gmst_negative_before_2000 (PI : ℚ) (hPI : 0 < PI) :
    epoch2time [1990, 1, 1, 0, 0, 0] = ⟨631152000, 0⟩ ∧
    utc2gmst PI ⟨631152000, 0⟩ 0 = -62307.9319455538 * PI / 43200 ∧
    utc2gmst PI ⟨631152000, 0⟩ 0 < 0 := by
  have hadd : timeadd ⟨631152000, 0⟩ 0 = ⟨631152000, 0⟩ := by
    have := timeadd_of_normalised ⟨631152000, 0⟩ 0 (le_refl _) (by norm_num) (by norm_num)
      (by norm_num)
    simpa using this
  have hval : utc2gmst PI ⟨631152000, 0⟩ 0 = -62307.9319455538 * PI / 43200 := by
    have hc : castInt ((-839907.9319455538 : ℚ) / 86400) = -9 := by
      have hneg : ¬ ((0 : ℚ) ≤ -839907.9319455538 / 86400) := by norm_num
      rw [castInt, if_neg hneg, Int.ceil_eq_iff]
      constructor <;> norm_num
    simp only [utc2gmst, hadd, time2sec, time2epoch_1990, List.getD_cons_zero,
      List.getD_cons_succ, epoch2time_1990, epoch2time_J2000, timediff, fmod]
    have hg : (24110.54841 : ℚ) +
        8640184.812866 * ((((631152000 - 946728000 : Int) : ℚ) + 0 - 0) / 86400 / 36525) +
        0.093104 * ((((631152000 - 946728000 : Int) : ℚ) + 0 - 0) / 86400 / 36525 *
          ((((631152000 - 946728000 : Int) : ℚ) + 0 - 0) / 86400 / 36525)) -
        6.2e-6 * ((((631152000 - 946728000 : Int) : ℚ) + 0 - 0) / 86400 / 36525 *
          ((((631152000 - 946728000 : Int) : ℚ) + 0 - 0) / 86400 / 36525) *
          ((((631152000 - 946728000 : Int) : ℚ) + 0 - 0) / 86400 / 36525)) +
        1.002737909350795 * (0 * 3600 + 0 * 60 + 0) = -839907.9319455538 := by
      norm_num
    rw [hg, hc]
    norm_num
  refine ⟨epoch2time_1990, hval, ?_⟩
  rw [hval]
  have : (-62307.9319455538 : ℚ) * PI < 0 := mul_neg_of_neg_of_pos (by norm_num) hPI
  exact div_neg_of_neg_of_pos this (by norm_num)

theorem utc2gmst_negative_before_2000_witness :
    utc2gmst 3.1415926535897932 ⟨631152000, 0⟩ 0 < 0 :=
  (utc2gmst_negative_before_2000 3.1415926535897932 (by norm_num)).2.2

/-! ## The CRC-24Q table and the bitwise definition -/

set_option maxRecDepth 100000 in
theorem crc24q_table_entries :
    ∀ i, i < 256 → TBL_CR_C24_Q.getD i 0 = crc24qShift8 (i * 2 ^ 16) := by
  decide

theorem crc24qShift_eq (x : Nat) :
    crc24qShift x = (x <<< 1) ^^^ (if x.testBit 23 then 0x1864CFB else 0) := by
  have e : (0x1000000 : Nat) = 2 ^ 24 := by norm_num
  have h := and_two_pow_ne_zero (x <<< 1) 24
  rw [Nat.testBit_shiftLeft] at h
  simp only [ge_iff_le, Nat.one_le_ofNat, decide_True, Bool.true_and, Nat.add_one_sub_one,
    show 24 - 1 = 23 from rfl] at h
  unfold crc24qShift
  rw [e]
  cases hb : x.testBit 23
  · rw [hb] at h
    have : ¬ ((x <<< 1) &&& 2 ^ 24 ≠ 0) := by simpa using h
    rw [if_neg this]; simp
  · rw [hb] at h
    have : (x <<< 1) &&& 2 ^ 24 ≠ 0 := by simpa using h
    rw [if_pos this]; simp

theorem shiftLeft_xor (a b n : Nat) : (a ^^^ b) <<< n = (a <<< n) ^^^ (b <<< n) := by
  apply Nat.eq_of_testBit_eq
  intro i
  simp only [Nat.testBit_shiftLeft, Nat.testBit_xor]
  cases decide (i ≥ n) <;> simp

theorem xor_cancel_right (x y p : Nat) : (x ^^^ p) ^^^ (y ^^^ p) = x ^^^ y := by
  apply Nat.eq_of_testBit_eq
  intro i
  simp only [Nat.testBit_xor]
  cases x.testBit i <;> cases y.testBit i <;> cases p.testBit i <;> rfl

theorem xor_swap_right (x y p : Nat) : (x ^^^ y) ^^^ p = (x ^^^ p) ^^^ y := by
  apply Nat.eq_of_testBit_eq
  intro i
  simp only [Nat.testBit_xor]
  cases x.testBit i <;> cases y.testBit i <;> cases p.testBit i <;> rfl

/-- One step of the division is additive for the exclusive or. -/
theorem crc24qShift_xor (a b : Nat) :
    crc24qShift (a ^^^ b) = crc24qShift a ^^^ crc24qShift b := by
  rw [crc24qShift_eq, crc24qShift_eq, crc24qShift_eq, shiftLeft_xor, Nat.testBit_xor]
  cases a.testBit 23 <;> cases b.testBit 23
  · simp
  · simp only [Bool.false_xor, if_true, Bool.false_eq_true, if_false, Nat.xor_zero]
    exact Nat.xor_assoc _ _ _
  · simp only [Bool.xor_false, if_true, Bool.false_eq_true, if_false, Nat.xor_zero]
    exact xor_swap_right _ _ _
  · simp only [Bool.xor_self, if_true, Bool.false_eq_true, if_false, Nat.xor_zero]
    exact (xor_cancel_right _ _ _).symm

theorem crc24qShift8_xor (a b : Nat) :
    crc24qShift8 (a ^^^ b) = crc24qShift8 a ^^^ crc24qShift8 b := by
  simp only [crc24qShift8, crc24qShift_xor]

theorem testBit_23 (x : Nat) : x.testBit 23 = decide (x / 8388608 % 2 = 1) := by
  have e := Nat.toNat_testBit x 23
  norm_num at e
  cases hb : x.testBit 23 <;> rw [hb] at e <;> simp at e ⊢ <;> omega

theorem crc24qShift_small (x : Nat) (hx : x < 2 ^ 23) : crc24qShift x = 2 * x := by
  norm_num at hx
  have : ¬ (x / 8388608 % 2 = 1) := by omega
  rw [crc24qShift_eq, testBit_23 x]
  simp only [this, decide_False, Bool.false_eq_true, if_false, Nat.xor_zero, Nat.shiftLeft_eq]
  omega

theorem crc24qShift8_small (x : Nat) (hx : x < 2 ^ 16) : crc24qShift8 x = 256 * x := by
  norm_num at hx
  unfold crc24qShift8
  rw [crc24qShift_small x (by norm_num; omega),
    crc24qShift_small (2 * x) (by norm_num; omega),
    crc24qShift_small (2 * (2 * x)) (by norm_num; omega),
    crc24qShift_small (2 * (2 * (2 * x))) (by norm_num; omega),
    crc24qShift_small (2 * (2 * (2 * (2 * x)))) (by norm_num; omega),
    crc24qShift_small (2 * (2 * (2 * (2 * (2 * x))))) (by norm_num; omega),
    crc24qShift_small (2 * (2 * (2 * (2 * (2 * (2 * x)))))) (by norm_num; omega),
    crc24qShift_small (2 * (2 * (2 * (2 * (2 * (2 * (2 * x))))))) (by norm_num; omega)]
  omega

theorem crc24qShift_lt (x : Nat) (hx : x < 2 ^ 24) : crc24qShift x < 2 ^ 24 := by
  by_cases h : x < 2 ^ 23
  · rw [crc24qShift_small x h]
    norm_num at h ⊢; omega
  · have hbit : x.testBit 23 = true := by
      rw [testBit_23 x]
      norm_num at h hx
      have : x / 8388608 % 2 = 1 := by omega
      simp [this]
    rw [crc24qShift_eq, hbit, if_pos rfl]
    apply Nat.lt_pow_two_of_testBit
    intro i hi
    rw [Nat.testBit_xor, Nat.testBit_shiftLeft]
    by_cases h24 : i = 24
    · subst h24
      have hp : Nat.testBit 0x1864CFB 24 = true := by decide
      rw [hp]
      simp [hbit]
    · have h25 : 25 ≤ i := by omega
      have hx2 : x < 2 ^ (i - 1) :=
        lt_of_lt_of_le hx (Nat.pow_le_pow_right (by norm_num) (by omega))
      have hp2 : (0x1864CFB : Nat) < 2 ^ i :=
        lt_of_lt_of_le (by norm_num) (Nat.pow_le_pow_right (by norm_num) h25)
      rw [Nat.testBit_lt_two_pow hx2, Nat.testBit_lt_two_pow hp2]
      simp

theorem crc24qShift8_lt (x : Nat) (hx : x < 2 ^ 24) : crc24qShift8 x < 2 ^ 24 := by
  unfold crc24qShift8
  exact crc24qShift_lt _ (crc24qShift_lt _ (crc24qShift_lt _ (crc24qShift_lt _
    (crc24qShift_lt _ (crc24qShift_lt _ (crc24qShift_lt _ (crc24qShift_lt _ hx)))))))

theorem crc24q_index_lt (crc b : Nat) (hc : crc < 2 ^ 24) (hb : b < 256) :
    (crc >>> 16) ^^^ b < 256 := by
  have h1 : crc >>> 16 < 2 ^ 8 := by
    rw [Nat.shiftRight_eq_div_pow]
    norm_num at hc ⊢; omega
  have h2 : b < 2 ^ 8 := by norm_num; exact hb
  have := Nat.xor_lt_two_pow h1 h2
  norm_num at this; exact this

/-- One pass of the loop of `rtk_crc24q` is one byte of the bitwise definition. -/
theorem crc24q_step (crc b : Nat) (hc : crc < 2 ^ 24) (hb : b < 256) :
    u32 ((u32 (crc <<< 8) &&& 0xFFFFFF) ^^^ TBL_CR_C24_Q.getD ((crc >>> 16) ^^^ b) 0) =
      crc24qShift8 (crc ^^^ (b <<< 16)) := by
  have hidx := crc24q_index_lt crc b hc hb
  have hsplit : crc ^^^ (b <<< 16) = (crc % 2 ^ 16) ^^^ (((crc >>> 16) ^^^ b) * 2 ^ 16) := by
    apply Nat.eq_of_testBit_eq
    intro i
    rw [← Nat.shiftLeft_eq]
    simp only [Nat.testBit_xor, Nat.testBit_shiftLeft, Nat.testBit_mod_two_pow,
      Nat.testBit_shiftRight]
    by_cases h16 : i < 16
    · have : ¬ (i ≥ 16) := by omega
      simp [h16, this]
    · have h16' : i ≥ 16 := by omega
      have e : 16 + (i - 16) = i := by omega
      simp [h16, h16', e]
  have hlow : u32 (crc <<< 8) &&& 0xFFFFFF = 256 * (crc % 2 ^ 16) := by
    have e : (0xFFFFFF : Nat) = 2 ^ 24 - 1 := by norm_num
    rw [e, Nat.and_pow_two_sub_one_eq_mod, u32, Nat.shiftLeft_eq]
    norm_num at hc ⊢
    omega
  have hlt : crc ^^^ (b <<< 16) < 2 ^ 24 := by
    apply Nat.xor_lt_two_pow hc
    rw [Nat.shiftLeft_eq]
    norm_num; omega
  rw [hlow, crc24q_table_entries _ hidx, ← crc24qShift8_small _ (Nat.mod_lt _ (by norm_num)),
    ← crc24qShift8_xor, ← hsplit, u32]
  exact Nat.mod_eq_of_lt (lt_trans (crc24qShift8_lt _ hlt) (by norm_num))

theorem crc24qLoop_eq (buff : List Nat) (hb : ∀ b ∈ buff, b < 256) (n : Nat) :
    ∀ (i crc : Nat), crc < 2 ^ 24 → i + n ≤ buff.length →
      crc24qLoop buff i n crc < 2 ^ 24 ∧
      crc24qLoop buff i n crc =
        ((buff.drop i).take n).foldl (fun crc b => crc24qShift8 (crc ^^^ (b <<< 16))) crc := by
  induction n with
  | zero =>
    intro i crc hc _
    exact ⟨by simpa [crc24qLoop] using hc, by simp [crc24qLoop]⟩
  | succ n ih =>
    intro i crc hc hlen
    have hi : i < buff.length := by omega
    have hbyte : buff.getD i 0 < 256 := by
      rw [List.getD_eq_getElem _ _ hi]
      exact hb _ (List.getElem_mem _)
    have hlt : crc ^^^ (buff.getD i 0 <<< 16) < 2 ^ 24 := by
      apply Nat.xor_lt_two_pow hc
      rw [Nat.shiftLeft_eq]
      generalize buff.getD i 0 = b at hbyte
      norm_num; omega
    obtain ⟨h1, h2⟩ := ih (i + 1) (crc24qShift8 (crc ^^^ (buff.getD i 0 <<< 16)))
      (crc24qShift8_lt _ hlt) (by omega)
    rw [crc24qLoop, crc24q_step crc _ hc hbyte]
    refine ⟨h1, ?_⟩
    rw [h2, List.drop_eq_getElem_cons hi, List.take_succ_cons, List.foldl_cons,
      List.getD_eq_getElem _ _ hi]

/-- Claim C35: the CRC-24Q table matches its polynomial and the table-driven routine equals
the bitwise definition.  For every `i` in 0..255 the entry `TBL_CR_C24_Q[i]` is the value
obtained from `i * 2^16` by 8 steps of "shift left by one; if bit 24 is set, xor with
0x1864CFB"; every entry is below `2^24`; for a 24-bit `crc` and a byte the index
`(crc >> 16) xor byte` is in 0..255; and for every buffer of bytes and every length inside
it `rtk_crc24q` is below `2^24` and equals the MSB-first bitwise CRC with polynomial
0x1864CFB, zero initial value and no final xor, of the first `len` bytes. -/
theorem crc24q_table_driven :
    (∀ i, i < 256 → TBL_CR_C24_Q.getD i 0 = crc24qShift8 (i * 2 ^ 16)) ∧
    (∀ i, i < 256 → TBL_CR_C24_Q.getD i 0 < 2 ^ 24) ∧
    (∀ crc b, crc < 2 ^ 24 → b < 256 → (crc >>> 16) ^^^ b < 256) ∧
    (∀ (buff : List Nat) (len : Int), (∀ b ∈ buff, b < 256) → len ≤ buff.length →
      rtk_crc24q buff len < 2 ^ 24 ∧
      rtk_crc24q buff len = crc24qBitwise (buff.take len.toNat)) := by
  refine ⟨crc24q_table_entries, ?_, crc24q_index_lt, ?_⟩
  · intro i hi
    rw [crc24q_table_entries i hi]
    apply crc24qShift8_lt
    norm_num; omega
  · intro buff len hb hlen
    have hn : 0 + len.toNat ≤ buff.length := by omega
    obtain ⟨h1, h2⟩ := crc24qLoop_eq buff hb len.toNat 0 0 (by norm_num) hn
    refine ⟨h1, ?_⟩
    rw [rtk_crc24q, h2, crc24qBitwise, List.drop_zero]

theorem crc24q_table_driven_witness :
    TBL_CR_C24_Q.getD 1 0 = crc24qShift8 (1 * 2 ^ 16) ∧
    rtk_crc24q [0xD3, 0x00, 0x13] 3 = crc24qBitwise ([0xD3, 0x00, 0x13].take (3 : Int).toNat) :=
  ⟨crc24q_table_driven.1 1 (by decide),
    (crc24q_table_driven.2.2.2 [0xD3, 0x00, 0x13] 3 (by decide) (by decide)).2⟩

/-! ## Checksums -/

/-- Claim C34: the empty-buffer identity of the checksums.  For every buffer and every
length `len ≤ 0` the loops of `rtk_crc16`, `rtk_crc24q` and `rtk_crc32` do not run and the
three routines return their zero initial value. -/
theorem crc_empty_buffer (POLYCRC32 : Nat) (buff : List Nat) (len : Int) (h : len ≤ 0) :
    rtk_crc16 buff len = 0 ∧ rtk_crc24q buff len = 0 ∧ rtk_crc32 POLYCRC32 buff len = 0 := by
  have e : len.toNat = 0 := Int.toNat_eq_zero.2 h
  simp [rtk_crc16, rtk_crc24q, rtk_crc32, e, crc16Loop, crc24qLoop, crc32Loop]

theorem crc_empty_buffer_witness :
    rtk_crc16 [1, 2, 3] 0 = 0 ∧ rtk_crc24q [1, 2, 3] (-4) = 0 ∧
      rtk_crc32 0xEDB88320 [] 0 = 0 :=
  ⟨(crc_empty_buffer 0 [1, 2, 3] 0 (by decide)).1,
    (crc_empty_buffer 0 [1, 2, 3] (-4) (by decide)).2.1,
    (crc_empty_buffer 0xEDB88320 [] 0 (by decide)).2.2⟩

/-! ## Degrees, minutes and seconds -/

theorem dms2deg_deg2dms (deg : ℚ) (dms : List ℚ) :
    dms2deg (deg2dms deg dms) =
      (if ((⌊|deg|⌋ : Int) : ℚ) * (if deg < 0 then -1 else 1) < 0 then -1 else 1) * |deg| := by
  have hfl : (0 : ℚ) ≤ ((⌊|deg|⌋ : Int) : ℚ) := by
    exact_mod_cast Int.floor_nonneg.2 (abs_nonneg deg)
  have habs : |((⌊|deg|⌋ : Int) : ℚ) * (if deg < 0 then -1 else 1)| = ((⌊|deg|⌋ : Int) : ℚ) := by
    split_ifs
    · rw [mul_neg_one, abs_neg, abs_of_nonneg hfl]
    · rw [mul_one, abs_of_nonneg hfl]
  simp only [dms2deg, deg2dms, List.cons_append, List.getD_cons_zero, List.getD_cons_succ, habs]
  congr 1
  ring

/-- Where the round trip of the two-argument `deg2dms` and `dms2deg` holds: for every
`deg ≥ 0` and every `deg ≤ -1` it returns `deg`; for `-1 < deg < 0` the degree field is
zero, the sign written into it by `dms[0] *= sign` is not found by `dms[0] < 0.0`, and the
round trip returns `-deg`. -/
theorem dms_roundtrip (deg : ℚ) (dms : List ℚ) :
    ((0 ≤ deg ∨ deg ≤ -1) → dms2deg (deg2dms deg dms) = deg) ∧
    (-1 < deg → deg < 0 → dms2deg (deg2dms deg dms) = -deg) := by
  rw [dms2deg_deg2dms]
  refine ⟨?_, ?_⟩
  · rintro (h | h)
    · have hfl : (0 : ℚ) ≤ ((⌊|deg|⌋ : Int) : ℚ) := by
        exact_mod_cast Int.floor_nonneg.2 (abs_nonneg deg)
      rw [if_neg (not_lt.2 h), mul_one, if_neg (not_lt.2 hfl), one_mul, abs_of_nonneg h]
    · have hneg : deg < 0 := by linarith
      have hfl : (1 : ℚ) ≤ ((⌊|deg|⌋ : Int) : ℚ) := by
        have : (1 : Int) ≤ ⌊|deg|⌋ := Int.le_floor.2 (by
          rw [abs_of_neg hneg]; push_cast; linarith)
        exact_mod_cast this
      rw [if_pos hneg, if_pos (by linarith), abs_of_neg hneg]
      ring
  · intro h1 h2
    have hfl : ⌊|deg|⌋ = 0 := by
      rw [Int.floor_eq_zero_iff, abs_of_neg h2]
      constructor <;> linarith
    rw [hfl, if_pos h2, abs_of_neg h2]
    simp

/-- Claim C40, the failing input: `deg2dms(-0.5)` is the triple `{0, 30, 0}` (the sign
multiplies a zero degree field) and `dms2deg` of it is `+0.5`, not `-0.5`. -/
theorem dms_roundtrip_loses_sign :
    deg2dms (-1 / 2) [0, 0, 0] = [0, 30, 0] ∧ dms2deg (deg2dms (-1 / 2) [0, 0, 0]) = 1 / 2 ∧
      dms2deg (deg2dms (-1 / 2) [0, 0, 0]) ≠ -1 / 2 := by
  have e : deg2dms (-1 / 2) [0, 0, 0] = [0, 30, 0] := by
    have h1 : |(-1 / 2 : ℚ)| = 1 / 2 := by rw [abs_of_neg (by norm_num)]; norm_num
    have h2 : ⌊(1 / 2 : ℚ)⌋ = 0 := by rw [Int.floor_eq_zero_iff]; constructor <;> norm_num
    simp only [deg2dms, h1, h2]
    norm_num
  rw [e]
  norm_num [dms2deg]

/-! ## Saastamoinen troposphere model -/

/-- Claim C31: the Saastamoinen zenith delay.  `tropmodel` returns 0 whenever the elevation
is `≤ 0` or the height is below -100 m or above 10000 m; and for every latitude, at height 0
with relative humidity 0 and elevation `PI / 2`, the wet term is exactly 0 and the result is
`0.0022768 * 1013.25 / (1 - 0.00266 * cos(2 lat))`, between 2.30 m and 2.32 m.  Of the math
library only `pow(1, y) = 1`, `cos(0) = 1` and `-1 ≤ cos ≤ 1` are used. -/
theorem tropmodel_zenith (lm : Libm ℚ) (PI : ℚ) (time : gtime_t) :
    (∀ (pos azel : List ℚ) (humi : ℚ),
      pos.getD 2 0 < -100 ∨ 10000 < pos.getD 2 0 ∨ azel.getD 1 0 ≤ 0 →
        tropmodel lm PI time pos azel humi = 0) ∧
    (∀ lat lon az : ℚ, 0 < PI → lm.pow 1 5.2568 = 1 → lm.cos 0 = 1 →
      -1 ≤ lm.cos (2 * lat) → lm.cos (2 * lat) ≤ 1 →
        tropmodel_trpw lm PI [lat, lon, 0] [az, PI / 2] 0 = 0 ∧
        tropmodel lm PI time [lat, lon, 0] [az, PI / 2] 0 =
          0.0022768 * 1013.25 / (1 - 0.00266 * lm.cos (2 * lat)) ∧
        2.30 < tropmodel lm PI time [lat, lon, 0] [az, PI / 2] 0 ∧
        tropmodel lm PI time [lat, lon, 0] [az, PI / 2] 0 < 2.32) := by
  refine ⟨fun pos azel humi h => by rw [tropmodel, if_pos h], ?_⟩
  intro lat lon az hPI hpow hcos0 hc1 hc2
  have hw : tropmodel_trpw lm PI [lat, lon, 0] [az, PI / 2] 0 = 0 := by
    simp [tropmodel_trpw]
  have hcond : ¬ (([lat, lon, 0] : List ℚ).getD 2 0 < -100 ∨
      10000 < ([lat, lon, 0] : List ℚ).getD 2 0 ∨ ([az, PI / 2] : List ℚ).getD 1 0 ≤ 0) := by
    simp only [List.getD_cons_zero, List.getD_cons_succ]
    rintro (h | h | h)
    · norm_num at h
    · norm_num at h
    · linarith
  have hh : tropmodel_trph lm PI [lat, lon, 0] [az, PI / 2] =
      0.0022768 * 1013.25 / (1 - 0.00266 * lm.cos (2 * lat)) := by
    simp only [tropmodel_trph, tropmodel_hgt, List.getD_cons_zero, List.getD_cons_succ,
      lt_irrefl, if_false, mul_zero, sub_zero, zero_div, sub_self, hpow, hcos0, mul_one,
      div_one]
  have hval : tropmodel lm PI time [lat, lon, 0] [az, PI / 2] 0 =
      0.0022768 * 1013.25 / (1 - 0.00266 * lm.cos (2 * lat)) := by
    rw [tropmodel, if_neg hcond, hw, hh, add_zero]
  have hden : (0 : ℚ) < 1 - 0.00266 * lm.cos (2 * lat) := by
    have : (0.00266 : ℚ) * lm.cos (2 * lat) ≤ 0.00266 * 1 :=
      mul_le_mul_of_nonneg_left hc2 (by norm_num)
    norm_num at this ⊢
    linarith
  refine ⟨hw, hval, ?_, ?_⟩
  · rw [hval, lt_div_iff₀ hden]
    have : (0.00266 : ℚ) * (-1) ≤ 0.00266 * lm.cos (2 * lat) :=
      mul_le_mul_of_nonneg_left hc1 (by norm_num)
    norm_num at this ⊢
    linarith
  · rw [hval, div_lt_iff₀ hden]
    have : (0.00266 : ℚ) * lm.cos (2 * lat) ≤ 0.00266 * 1 :=
      mul_le_mul_of_nonneg_left hc2 (by norm_num)
    norm_num at this ⊢
    linarith

theorem tropmodel_zenith_witness :
    tropmodel ratLibm 3 ⟨0, 0⟩ [0, 0, 20000] [0, 1] (1 / 2) = 0 ∧
    tropmodel ratLibm 3 ⟨0, 0⟩ [1 / 2, 0, 0] [0, 3 / 2] 0 = 0.0022768 * 1013.25 / (1 - 0.00266 * 0) :=
  ⟨(tropmodel_zenith ratLibm 3 ⟨0, 0⟩).1 [0, 0, 20000] [0, 1] (1 / 2)
      (Or.inr (Or.inl (by norm_num))),
    by
      have h := ((tropmodel_zenith ratLibm 3 ⟨0, 0⟩).2 (1 / 2) 0 0 (by norm_num)
        (by norm_num [ratLibm]) (by norm_num [ratLibm]) (by norm_num [ratLibm])
        (by norm_num [ratLibm])).2.1
      have hc : ratLibm.cos (2 * (1 / 2)) = 0 := by norm_num [ratLibm]
      rw [hc] at h
      exact h⟩

/-! ## Phase wind-up -/

/-- The library over the reals meets the two conditions off the polar axis: with the real
square root, `0 < RE_WGS84`, `0 < e2 < 1` and `0 < r2`, the update of `z` is monotone and
stays within `RE_WGS84 e2 / (1 - e2)` of `r[2]`. -/
theorem ecef2posStep_real (lm : Libm ℝ) (hs : lm.sqrt = Real.sqrt) (a e2 p2 c : ℝ)
    (ha : 0 < a) (he0 : 0 < e2) (he1 : e2 < 1) (hp : 0 < p2) :
    (∀ x y : ℝ, x ≤ y → ecef2posStep lm a e2 p2 c x ≤ ecef2posStep lm a e2 p2 c y) ∧
    (∀ z : ℝ, |ecef2posStep lm a e2 p2 c z - c| ≤ a * e2 / (1 - e2)) := by
  have hk : 0 < 1 - e2 := sub_pos.2 he1
  have hk1 : 1 - e2 ≤ 1 := by linarith
  have hform : ∀ z : ℝ, ecef2posStep lm a e2 p2 c z =
      c + a * e2 * (z / Real.sqrt (p2 + (1 - e2) * (z * z))) := by
    intro z
    rw [ecef2posStep, hs, (geo_step a e2 p2 z he1 hp).2]
  constructor
  · intro x y hxy
    rw [hform, hform]
    have := geo_ratio_mono p2 (1 - e2) hp hk x y hxy
    have := mul_le_mul_of_nonneg_left this (mul_pos ha he0).le
    linarith
  · intro z
    rw [hform]
    have h1 := geo_ratio_bound p2 (1 - e2) hp hk hk1 z
    have h2 : c + a * e2 * (z / Real.sqrt (p2 + (1 - e2) * (z * z))) - c =
        a * e2 * (z / Real.sqrt (p2 + (1 - e2) * (z * z))) := by ring
    rw [h2, abs_mul, abs_of_pos (mul_pos ha he0)]
    calc a * e2 * |z / Real.sqrt (p2 + (1 - e2) * (z * z))|
        ≤ a * e2 * (1 / (1 - e2)) := mul_le_mul_of_nonneg_left h1 (mul_pos ha he0).le
      _ = a * e2 / (1 - e2) := by ring

end Rtklib
